import Mathlib

/-!
# A verification development for the Pascal-subset interpreter (Part12)

The development embeds `src/Part12/Part12.cpp` in Lean: the lexer, the
recursive-descent parser, the symbol-table pass and the tree-walking
evaluator, and proves properties of them.

Conventions of the embedding.

* A C++ function that may throw, or whose behaviour is undefined on some
  input, returns `Res α`: `ok a` is a normal return, `throw e` an exception,
  `ub` undefined behaviour (a null or out-of-bounds read, a signed overflow,
  a division by zero), and `timeout` the exhaustion of the recursion budget of
  the model (it has no counterpart in the C++ program).
* A `std::string` is a Lean `String`, one `Char` for each code unit.
* The lexer's `currentPtr_` is modelled by the characters from the cursor up
  to `textEnd_`: `none` is `nullptr`, `some (c :: rest)` points at `c`.
-/

namespace Part12

/-! ## Results -/

/-- Exceptions thrown by the program: `std::runtime_error` with its message, and
the two exceptions of `std::stoi`. -/
inductive Exn where
  | runtime_error (what : String)
  | out_of_range
  | invalid_argument
  deriving DecidableEq, Repr

/-- Outcome of running a piece of the C++ program. -/
inductive Res (α : Type) where
  | ok (a : α)
  | throw (e : Exn)
  | ub
  | timeout
  deriving DecidableEq, Repr

/-- Sequencing of outcomes: a failure of the first step is the failure of the whole. -/
def Res.bind {α β : Type} (r : Res α) (f : α → Res β) : Res β :=
  match r with
  | .ok a => f a
  | .throw e => .throw e
  | .ub => .ub
  | .timeout => .timeout

instance : Monad Res where
  pure := Res.ok
  bind := Res.bind

/-- The message of `Lexer::error`. -/
def LexError : Exn := .runtime_error "Invalid character"

/-- The message of `Parser::error`. -/
def SyntaxError : Exn := .runtime_error "Invalid syntax"

/-- The message thrown by `SymbolTableBuilder::visit(Assign&)` and `visit(Var&)`. -/
def SemanticError (name : String) : Exn := .runtime_error ("variable " ++ name ++ "not declared")

/-- The message thrown by `Interpreter::visit(Var&)`. -/
def RuntimeError : Exn := .runtime_error "variable not defined"

/-! ## Tokens -/

/-- The `TokenType` enumeration (Part10.h, with the `Procedure` kind Part12 adds). -/
inductive TokenType where
  | INTEGER | PLUS | MINUS | MUL | IntegerDiv | FloatDiv | LParen | RParen
  | Assign | IntegerConst | RealConst | Semi | Dot | ID | Begin | End
  | Program | Var | Integer | Real | Comma | Colon | Procedure | TYPE_EOF
  deriving DecidableEq, Repr

/-- The `Token` class: a kind and its value string. -/
structure Token where
  type_ : TokenType
  value_ : String
  deriving DecidableEq, Repr

/-! ## Character classes of `<cctype>` in the "C" locale -/

/-- The function `std::isspace`: space, `\t`, `\n`, `\v`, `\f`, `\r`. -/
def isspace (c : Char) : Bool := c.toNat = 32 || (9 ≤ c.toNat && c.toNat ≤ 13)

/-- The function `std::isdigit`. -/
def isdigit (c : Char) : Bool := 48 ≤ c.toNat && c.toNat ≤ 57

/-- The function `std::isalpha`. -/
def isalpha (c : Char) : Bool :=
  (65 ≤ c.toNat && c.toNat ≤ 90) || (97 ≤ c.toNat && c.toNat ≤ 122)

/-- The function `std::isalnum`. -/
def isalnum (c : Char) : Bool := isalpha c || isdigit c

/-! ## Lexer -/

/-- The cursor `currentPtr_`: `none` is `nullptr`; `some cs` points at the head
of `cs`, the characters from the cursor to `textEnd_`. `some []` is the cursor of
a lexer built on the empty text, where `currentPtr_ = textStart_ > textEnd_`. -/
abbrev Ptr := Option (List Char)

/-- The `Lexer` state that changes: the cursor and the keyword table. -/
structure Lexer where
  currentPtr_ : Ptr
  RESERVED_KEYWORDS : List (String × Token)
  deriving DecidableEq, Repr

/-- The table built by the constructor `Lexer::Lexer`. -/
def initialKeywords : List (String × Token) :=
  [ ("PROGRAM", ⟨.Program, "PROGRAM"⟩),
    ("VAR", ⟨.Var, "VAR"⟩),
    ("DIV", ⟨.IntegerDiv, "DIV"⟩),
    ("INTEGER", ⟨.Integer, "INTEGER"⟩),
    ("REAL", ⟨.Real, "REAL"⟩),
    ("BEGIN", ⟨.Begin, "BEGIN"⟩),
    ("END", ⟨.End, "End"⟩),
    ("PROCEDURE", ⟨.Procedure, "Procedure"⟩) ]

/-- The constructor `Lexer::Lexer(text)`: the cursor is `textStart_`, never null. -/
def Lexer.new (text : String) : Lexer :=
  { currentPtr_ := some text.data, RESERVED_KEYWORDS := initialKeywords }

/-- The cursor after `currentPtr_++` when the characters after the old cursor are
`rest`: null once past `textEnd_`. -/
def ptrOf (rest : List Char) : Ptr :=
  match rest with
  | [] => none
  | c :: cs => some (c :: cs)

/-- The method `Lexer::advance` on the cursor. Incrementing a null pointer is
undefined. -/
def advance (p : Ptr) : Res Ptr :=
  match p with
  | none => .ub
  | some [] => .ok none
  | some (_ :: rest) => .ok (ptrOf rest)

/-- Reading `*p`: undefined on a null pointer and outside the buffer. -/
def deref (p : Ptr) : Res Char :=
  match p with
  | some (c :: _) => .ok c
  | _ => .ub

/-- The method `Lexer::peek`: the pointer after the cursor, null past `textEnd_`. -/
def peek (p : Ptr) : Res Ptr :=
  match p with
  | none => .ub
  | some [] => .ok none
  | some (_ :: rest) => .ok (ptrOf rest)

/-- The loop of `Lexer::skipWhiteSpace`, run on the characters from the cursor:
`while (currentPtr_ != nullptr && isspace(*currentPtr_)) advance();`. -/
def skipWhiteSpaceFrom : List Char → Ptr
  | [] => none
  | c :: rest => if isspace c then skipWhiteSpaceFrom rest else some (c :: rest)

/-- The method `Lexer::skipWhiteSpace`. -/
def skipWhiteSpace (p : Ptr) : Res Ptr :=
  match p with
  | none => .ok none
  | some [] => .ub
  | some (c :: rest) => .ok (skipWhiteSpaceFrom (c :: rest))

/-- The digit loop of `Lexer::number`:
`while (currentPtr_ != nullptr && isdigit(*currentPtr_)) { result += *currentPtr_; advance(); }`. -/
def digitsFrom : List Char → String → String × Ptr
  | [], result => (result, none)
  | c :: rest, result =>
    if isdigit c then digitsFrom rest (result.push c) else (result, some (c :: rest))

/-- The method `Lexer::number`. After the first loop the cursor is read without a
null check. -/
def number (p : Ptr) : Res (Token × Ptr) :=
  match p with
  | none => .ub
  | some [] => .ub
  | some (c :: rest) =>
    let (result, p1) := digitsFrom (c :: rest) ""
    match p1 with
    | none => .ub
    | some [] => .ub
    | some (d :: rest1) =>
      if d = '.' then
        let (result2, p2) := digitsFrom rest1 (result.push d)
        .ok (⟨.RealConst, result2⟩, p2)
      else
        .ok (⟨.IntegerConst, result⟩, some (d :: rest1))

/-- The loop of `Lexer::_id`:
`while (currentPtr_ != nullptr && isalnum(*currentPtr_)) { result += *currentPtr_; advance(); }`. -/
def alnumsFrom : List Char → String → String × Ptr
  | [], result => (result, none)
  | c :: rest, result =>
    if isalnum c then alnumsFrom rest (result.push c) else (result, some (c :: rest))

/-- The lookup `RESERVED_KEYWORDS.find(key)`. -/
def findKeyword (kw : List (String × Token)) (key : String) : Option Token :=
  match kw with
  | [] => none
  | (k, t) :: rest => if k = key then some t else findKeyword rest key

/-- The method `Lexer::_id`: `insert` adds `(result, Token(ID, result))` only when
the key is absent and yields the entry of the key. -/
def _id (lx : Lexer) : Res (Token × Lexer) :=
  match lx.currentPtr_ with
  | none => .ub
  | some [] => .ub
  | some (c :: rest) =>
    let (result, p1) := alnumsFrom (c :: rest) ""
    match findKeyword lx.RESERVED_KEYWORDS result with
    | some t => .ok (t, { currentPtr_ := p1, RESERVED_KEYWORDS := lx.RESERVED_KEYWORDS })
    | none =>
      .ok (⟨.ID, result⟩,
        { currentPtr_ := p1,
          RESERVED_KEYWORDS := lx.RESERVED_KEYWORDS ++ [(result, ⟨.ID, result⟩)] })

/-- The loop of `Lexer::skipComment`, `while (*currentPtr_ != '}') advance();`,
followed by the `advance()` over the closing brace. The loop reads the cursor
without a null check. -/
def skipCommentFrom : List Char → Res Ptr
  | [] => .ub
  | c :: rest => if c = '}' then .ok (ptrOf rest) else skipCommentFrom rest

/-- The method `Lexer::skipComment`. -/
def skipComment (p : Ptr) : Res Ptr :=
  match p with
  | none => .ub
  | some [] => .ub
  | some (c :: rest) => skipCommentFrom (c :: rest)

/-- Number of characters from the cursor to the end of the text. -/
def Lexer.remaining (lx : Lexer) : Nat :=
  match lx.currentPtr_ with
  | none => 0
  | some cs => cs.length

/-- The body of the loop of `Lexer::getNextToken` after the white-space and
comment cases, at a cursor that points at `c`: every branch returns or throws. -/
def tokenAt (c : Char) (rest : List Char) (kw : List (String × Token)) :
    Res (Token × Lexer) :=
  let here : Ptr := some (c :: rest)
  if isdigit c then do
    let (t, p) ← number here
    pure (t, ⟨p, kw⟩)
  else if c = '+' then do
    let p ← advance here
    pure (⟨.PLUS, "+"⟩, ⟨p, kw⟩)
  else if c = '-' then do
    let p ← advance here
    pure (⟨.MINUS, "-"⟩, ⟨p, kw⟩)
  else if c = '*' then do
    let p ← advance here
    pure (⟨.MUL, "*"⟩, ⟨p, kw⟩)
  else if c = '(' then do
    let p ← advance here
    pure (⟨.LParen, "("⟩, ⟨p, kw⟩)
  else if c = ')' then do
    let p ← advance here
    pure (⟨.RParen, ")"⟩, ⟨p, kw⟩)
  else if isalpha c then
    _id ⟨here, kw⟩
  else if c = ':' then do
    -- `*currentPtr_ == ':' && *peek() == '='`: the right operand reads `*peek()`
    let q ← peek here
    let d ← deref q
    if d = '=' then do
      let p1 ← advance here
      let p2 ← advance p1
      pure (⟨.Assign, ":="⟩, ⟨p2, kw⟩)
    else do
      let p ← advance here
      pure (⟨.Colon, ":"⟩, ⟨p, kw⟩)
  else if c = ';' then do
    let p ← advance here
    pure (⟨.Semi, ";"⟩, ⟨p, kw⟩)
  else if c = '.' then do
    let p ← advance here
    pure (⟨.Dot, "."⟩, ⟨p, kw⟩)
  else if c = ',' then do
    let p ← advance here
    pure (⟨.Comma, ","⟩, ⟨p, kw⟩)
  else if c = '/' then do
    let p ← advance here
    pure (⟨.FloatDiv, "/"⟩, ⟨p, kw⟩)
  else
    .throw LexError

/-- The loop `while (currentPtr_ != nullptr)` of `Lexer::getNextToken`; `fuel`
bounds the number of iterations. White space and comments are skipped and the loop
continues; the other cases are `tokenAt`. The value of the end-of-input token is
the `std::string` built from the C string `"\0"`, which is the empty string. -/
def getNextTokenLoop : Nat → Lexer → Res (Token × Lexer)
  | _, ⟨none, kw⟩ => .ok (⟨.TYPE_EOF, ""⟩, ⟨none, kw⟩)
  | _, ⟨some [], _⟩ => .ub
  | 0, ⟨some (_ :: _), _⟩ => .timeout
  | fuel + 1, ⟨some (c :: rest), kw⟩ =>
    if isspace c then do
      let p ← skipWhiteSpace (some (c :: rest))
      getNextTokenLoop fuel ⟨p, kw⟩
    else if c = '{' then do
      let p ← skipComment (some (c :: rest))
      getNextTokenLoop fuel ⟨p, kw⟩
    else
      tokenAt c rest kw

/-- The method `Lexer::getNextToken`. Each iteration that continues moves the
cursor forward, so `remaining + 1` iterations are enough. -/
def getNextToken (lx : Lexer) : Res (Token × Lexer) :=
  getNextTokenLoop (lx.remaining + 1) lx

/-! ## Syntax trees

The node classes of the header, grouped by the position the parser puts them in:
expressions, statements, declarations and blocks. -/

/-- The `Var` node, built from an `ID` token; `value_` is the token's value. -/
structure Var where
  token_ : Token
  deriving DecidableEq, Repr

/-- The field `Var::value_`. -/
def Var.value_ (v : Var) : String := v.token_.value_

/-- The `Type` node, built from a token; `value_` is the token's value. -/
structure TypeNode where
  token_ : Token
  deriving DecidableEq, Repr

/-- The field `Type::value_`. -/
def TypeNode.value_ (t : TypeNode) : String := t.token_.value_

/-- Expression nodes: `BinOp`, `UnaryOp`, `Num` and `Var`. -/
inductive Expr where
  | BinOp (left_ : Expr) (op_ : Token) (right_ : Expr)
  | UnaryOp (op_ : Token) (expr_ : Expr)
  | Num (token_ : Token)
  | Var (var : Var)
  deriving DecidableEq, Repr

/-- Statement nodes: `Compound`, `Assign` and `NoOp`. -/
inductive Stmt where
  | Compound (children_ : List Stmt)
  | Assign (left_ : Var) (op_ : Token) (right_ : Expr)
  | NoOp
  deriving Repr

mutual
/-- Declaration nodes: `VarDecl` and `ProcedureDecl`. -/
inductive Decl where
  | VarDecl (varNode_ : Var) (typeNode_ : TypeNode)
  | ProcedureDecl (procName : String) (block : Block)
/-- The `Block` node: declarations and a compound statement. -/
inductive Block where
  | mk (declarations_ : List Decl) (compoundStatement_ : Stmt)
end

/-- The `Program` node. -/
structure Program where
  name_ : String
  block_ : Block

/-! ## Parser -/

/-- The `Parser` state: its lexer and the current token. -/
structure Parser where
  lexer_ : Lexer
  currentToken_ : Token
  deriving DecidableEq, Repr

/-- The constructor `Parser::Parser`: reads the first token. -/
def Parser.new (lexer : Lexer) : Res Parser := do
  let (t, lx) ← getNextToken lexer
  pure { lexer_ := lx, currentToken_ := t }

/-- The method `Parser::eat`. -/
def eat (tktype : TokenType) (p : Parser) : Res Parser :=
  if p.currentToken_.type_ = tktype then do
    let (t, lx) ← getNextToken p.lexer_
    pure { lexer_ := lx, currentToken_ := t }
  else
    .throw SyntaxError

/-- The method `Parser::variable` (`variable` is a reserved word of Lean). -/
def variable_ (p : Parser) : Res (Var × Parser) := do
  let node : Var := ⟨p.currentToken_⟩
  let p ← eat .ID p
  pure (node, p)

mutual
/-- The method `Parser::factor`. -/
def factor : Nat → Parser → Res (Expr × Parser)
  | 0, _ => .timeout
  | fuel + 1, p =>
    let token := p.currentToken_
    if p.currentToken_.type_ = .IntegerConst then do
      let p ← eat .IntegerConst p
      pure (.Num token, p)
    else if p.currentToken_.type_ = .RealConst then do
      let p ← eat .RealConst p
      pure (.Num token, p)
    else if p.currentToken_.type_ = .LParen then do
      let p ← eat .LParen p
      let (node, p) ← expr fuel p
      let p ← eat .RParen p
      pure (node, p)
    else if p.currentToken_.type_ = .PLUS then do
      let p ← eat .PLUS p
      let (node, p) ← factor fuel p
      pure (.UnaryOp token node, p)
    else if p.currentToken_.type_ = .MINUS then do
      let p ← eat .MINUS p
      let (node, p) ← factor fuel p
      pure (.UnaryOp token node, p)
    else if p.currentToken_.type_ = .ID then do
      let (v, p) ← variable_ p
      pure (.Var v, p)
    else
      .throw SyntaxError
/-- The method `Parser::term`. -/
def term : Nat → Parser → Res (Expr × Parser)
  | 0, _ => .timeout
  | fuel + 1, p => do
    let (result, p) ← factor fuel p
    termLoop fuel result p
/-- The `while` loop of `Parser::term`. -/
def termLoop : Nat → Expr → Parser → Res (Expr × Parser)
  | 0, _, _ => .timeout
  | fuel + 1, result, p =>
    if p.currentToken_.type_ = .MUL ∨ p.currentToken_.type_ = .FloatDiv
        ∨ p.currentToken_.type_ = .IntegerDiv then do
      let op := p.currentToken_
      let p ←
        if p.currentToken_.type_ = .MUL then eat .MUL p
        else if p.currentToken_.type_ = .IntegerDiv then eat .IntegerDiv p
        else if p.currentToken_.type_ = .FloatDiv then eat .FloatDiv p
        else pure p
      let (right, p) ← factor fuel p
      termLoop fuel (.BinOp result op right) p
    else
      pure (result, p)
/-- The method `Parser::expr`. -/
def expr : Nat → Parser → Res (Expr × Parser)
  | 0, _ => .timeout
  | fuel + 1, p => do
    let (result, p) ← term fuel p
    exprLoop fuel result p
/-- The `while` loop of `Parser::expr`. -/
def exprLoop : Nat → Expr → Parser → Res (Expr × Parser)
  | 0, _, _ => .timeout
  | fuel + 1, result, p =>
    if p.currentToken_.type_ = .PLUS ∨ p.currentToken_.type_ = .MINUS then do
      let tk := p.currentToken_
      let p ←
        if p.currentToken_.type_ = .PLUS then eat .PLUS p
        else if p.currentToken_.type_ = .MINUS then eat .MINUS p
        else pure p
      let (right, p) ← term fuel p
      exprLoop fuel (.BinOp result tk right) p
    else
      pure (result, p)
end

/-- The method `Parser::assignmentStatement`. -/
def assignmentStatement (fuel : Nat) (p : Parser) : Res (Stmt × Parser) := do
  let (left, p) ← variable_ p
  let op := p.currentToken_
  let p ← eat .Assign p
  let (right, p) ← expr fuel p
  pure (.Assign left op right, p)

/-- The method `Parser::empty`. -/
def empty : Stmt := .NoOp

mutual
/-- The method `Parser::compoundStatement`. -/
def compoundStatement : Nat → Parser → Res (Stmt × Parser)
  | 0, _ => .timeout
  | fuel + 1, p => do
    let p ← eat .Begin p
    let (nodes, p) ← statementList fuel p
    let p ← eat .End p
    pure (.Compound nodes, p)
/-- The method `Parser::statementList`. -/
def statementList : Nat → Parser → Res (List Stmt × Parser)
  | 0, _ => .timeout
  | fuel + 1, p => do
    let (node, p) ← statement fuel p
    let (result, p) ← statementListLoop fuel [node] p
    if p.currentToken_.type_ = .ID then
      .throw SyntaxError
    else
      pure (result, p)
/-- The `while` loop of `Parser::statementList`. -/
def statementListLoop : Nat → List Stmt → Parser → Res (List Stmt × Parser)
  | 0, _, _ => .timeout
  | fuel + 1, result, p =>
    if p.currentToken_.type_ = .Semi then do
      let p ← eat .Semi p
      let (node, p) ← statement fuel p
      statementListLoop fuel (result ++ [node]) p
    else
      pure (result, p)
/-- The method `Parser::statement`. -/
def statement : Nat → Parser → Res (Stmt × Parser)
  | 0, _ => .timeout
  | fuel + 1, p =>
    if p.currentToken_.type_ = .Begin then
      compoundStatement fuel p
    else if p.currentToken_.type_ = .ID then
      assignmentStatement fuel p
    else
      pure (empty, p)
end

/-- The method `Parser::typeSpec`. The node is built from the current token
after `eat`, the token that follows the type keyword. -/
def typeSpec (p : Parser) : Res (TypeNode × Parser) := do
  let p ← if p.currentToken_.type_ = .Integer then eat .Integer p else eat .Real p
  pure (⟨p.currentToken_⟩, p)

/-- The loop `while (currentToken_.type_ == Comma)` of `Parser::variableDeclaration`. -/
def variableDeclarationLoop : Nat → List Var → Parser → Res (List Var × Parser)
  | 0, _, _ => .timeout
  | fuel + 1, varNodes, p =>
    if p.currentToken_.type_ = .Comma then do
      let p ← eat .Comma p
      let node : Var := ⟨p.currentToken_⟩
      let p ← eat .ID p
      variableDeclarationLoop fuel (varNodes ++ [node]) p
    else
      pure (varNodes, p)

/-- The method `Parser::variableDeclaration`. -/
def variableDeclaration (fuel : Nat) (p : Parser) : Res (List Decl × Parser) := do
  let first : Var := ⟨p.currentToken_⟩
  let p ← eat .ID p
  let (varNodes, p) ← variableDeclarationLoop fuel [first] p
  let p ← eat .Colon p
  let (typeNode, p) ← typeSpec p
  pure (varNodes.map (fun varNode => Decl.VarDecl varNode typeNode), p)

/-- The loop `while (currentToken_.type_ == ID)` of `Parser::declarations`. -/
def declarationsVarLoop : Nat → List Decl → Parser → Res (List Decl × Parser)
  | 0, _, _ => .timeout
  | fuel + 1, decls, p =>
    if p.currentToken_.type_ = .ID then do
      let (tmpDecls, p) ← variableDeclaration fuel p
      let p ← eat .Semi p
      declarationsVarLoop fuel (decls ++ tmpDecls) p
    else
      pure (decls, p)

mutual
/-- The method `Parser::block`. -/
def block : Nat → Parser → Res (Block × Parser)
  | 0, _ => .timeout
  | fuel + 1, p => do
    let (decls, p) ← declarations fuel p
    let (compState, p) ← compoundStatement fuel p
    pure (.mk decls compState, p)
/-- The method `Parser::declarations`. -/
def declarations : Nat → Parser → Res (List Decl × Parser)
  | 0, _ => .timeout
  | fuel + 1, p => do
    let (decls, p) ←
      if p.currentToken_.type_ = .Var then do
        let p ← eat .Var p
        declarationsVarLoop fuel [] p
      else
        pure ([], p)
    declarationsProcLoop fuel decls p
/-- The loop `while (currentToken_.type_ == Procedure)` of `Parser::declarations`. -/
def declarationsProcLoop : Nat → List Decl → Parser → Res (List Decl × Parser)
  | 0, _, _ => .timeout
  | fuel + 1, decls, p =>
    if p.currentToken_.type_ = .Procedure then do
      let p ← eat .Procedure p
      let procName := p.currentToken_.value_
      let p ← eat .ID p
      let p ← eat .Semi p
      let (blk, p) ← block fuel p
      let p ← eat .Semi p
      declarationsProcLoop fuel (decls ++ [Decl.ProcedureDecl procName blk]) p
    else
      pure (decls, p)
end

/-- The method `Parser::program`. -/
def program (fuel : Nat) (p : Parser) : Res (Program × Parser) := do
  let p ← eat .Program p
  let (varNode, p) ← variable_ p
  let progName := varNode.value_
  let p ← eat .Semi p
  let (blk, p) ← block fuel p
  let p ← eat .Dot p
  pure (⟨progName, blk⟩, p)

/-- Modelled from the spec: `Parser::parse` is defined in Part12.h, which is not
among the sources; the spec says that after the terminal `.` only end-of-input may
follow, a trailing token being a syntax error (Part10.h defines it that way). -/
def Parser.parse (fuel : Nat) (p : Parser) : Res (Program × Parser) := do
  let (node, p) ← program fuel p
  if p.currentToken_.type_ ≠ .TYPE_EOF then
    .throw SyntaxError
  else
    pure (node, p)

/-- Lexer and parser on a text, as `main` builds them: the tree of the program. -/
def parseText (fuel : Nat) (text : String) : Res Program := do
  let p ← Parser.new (Lexer.new text)
  let (node, _) ← Parser.parse fuel p
  pure node

/-! ## Symbol table and semantic pass -/

/-- Symbols: `BuiltinTypeSymbol(name)` and `VarSymbol(name, type)`, `type` being a
pointer that may be null. -/
inductive Symbol where
  | BuiltinTypeSymbol (name_ : String)
  | VarSymbol (name_ : String) (type_ : Option Symbol)
  deriving Repr

/-- The field `Symbol::name_`. -/
def Symbol.name_ : Symbol → String
  | .BuiltinTypeSymbol n => n
  | .VarSymbol n _ => n

/-- The map `SymbolTable::symbols_`, from a name to a pointer to a symbol; `none`
is the null pointer. -/
abbrev SymbolTable := List (String × Option Symbol)

/-- The entry of `name` in `symbols_`, if there is one. -/
def SymbolTable.find (t : SymbolTable) (name : String) : Option (Option Symbol) :=
  match t with
  | [] => none
  | (k, v) :: rest => if k = name then some v else SymbolTable.find rest name

/-- The assignment `symbols_[name] = symbol`. -/
def SymbolTable.assign (t : SymbolTable) (name : String) (symbol : Option Symbol) :
    SymbolTable :=
  match t with
  | [] => [(name, symbol)]
  | (k, v) :: rest =>
    if k = name then (k, symbol) :: rest else (k, v) :: SymbolTable.assign rest name symbol

/-- The method `SymbolTable::define`. -/
def SymbolTable.define (t : SymbolTable) (symbol : Symbol) : SymbolTable :=
  t.assign symbol.name_ (some symbol)

/-- The method `SymbolTable::lookup`: `symbols_[name]` value-initialises a null
entry for a name that has none. It returns the pointer and the table. -/
def SymbolTable.lookup (t : SymbolTable) (name : String) : Option Symbol × SymbolTable :=
  match t.find name with
  | some v => (v, t)
  | none => (none, t.assign name none)

/-- The method `SymbolTable::initBuiltins`, on the empty table. -/
def initBuiltins : SymbolTable :=
  (SymbolTable.define [] (.BuiltinTypeSymbol "INTEGER")).define (.BuiltinTypeSymbol "REAL")

namespace SymbolTableBuilder

/-- The methods `SymbolTableBuilder::visit` on expressions: `BinOp`, `UnaryOp` and
`Var` are in Part12.cpp; a `Num` has no effect (spec, 4.3: only `VarDecl`, `Assign`
and `Var` nodes act on the table). -/
def visitExpr : Expr → SymbolTable → Res SymbolTable
  | .BinOp left _ right, t => do
    let t ← visitExpr left t
    visitExpr right t
  | .UnaryOp _ e, t => visitExpr e t
  | .Num _, t => pure t
  | .Var var, t =>
    let (varSymbol, t) := t.lookup var.value_
    match varSymbol with
    | none => .throw (SemanticError var.value_)
    | some _ => pure t

mutual
/-- The methods `SymbolTableBuilder::visit(Compound&)` and `visit(Assign&)`; a
`NoOp` has no effect. -/
def visitStmt : Stmt → SymbolTable → Res SymbolTable
  | .Compound children, t => visitStmts children t
  | .Assign left _ right, t =>
    let (varSymbol, t) := t.lookup left.value_
    match varSymbol with
    | none => .throw (SemanticError left.value_)
    | some _ => visitExpr right t
  | .NoOp, t => pure t
/-- The loop `for (AST* child : comp.children_) child->accept(*this);`. -/
def visitStmts : List Stmt → SymbolTable → Res SymbolTable
  | [], t => pure t
  | child :: rest, t => do
    let t ← visitStmt child t
    visitStmts rest t
end

/-- The method `SymbolTableBuilder::visit(VarDecl&)`. -/
def visitVarDecl (varNode : Var) (typeNode : TypeNode) (t : SymbolTable) : SymbolTable :=
  let (typeSymbol, t) := t.lookup typeNode.value_
  t.define (.VarSymbol varNode.value_ typeSymbol)

mutual
/-- Modelled from the spec: `SymbolTableBuilder::visit(ProcedureDecl&)` is not in
Part12.cpp; the spec says a `ProcedureDecl` is descended into, its inner block
being checked with the same flat table. The `VarDecl` case is `visitVarDecl`. -/
def visitDecl : Decl → SymbolTable → Res SymbolTable
  | .VarDecl varNode typeNode, t => pure (visitVarDecl varNode typeNode t)
  | .ProcedureDecl _ blk, t => visitBlock blk t
/-- The method `SymbolTableBuilder::visit(Block&)`. -/
def visitBlock : Block → SymbolTable → Res SymbolTable
  | .mk declarations compoundStatement, t => do
    let t ← visitDecls declarations t
    visitStmt compoundStatement t
/-- The loop `for (AST* declaration : blk.declarations_) declaration->accept(*this);`. -/
def visitDecls : List Decl → SymbolTable → Res SymbolTable
  | [], t => pure t
  | d :: rest, t => do
    let t ← visitDecl d t
    visitDecls rest t
end

/-- The method `SymbolTableBuilder::visit(Program&)`. -/
def visitProgram (prog : Program) (t : SymbolTable) : Res SymbolTable :=
  visitBlock prog.block_ t

end SymbolTableBuilder

/-- Modelled from the spec: the semantic pass, a walk of `SymbolTableBuilder` over
the program starting from the table that holds the two builtin type symbols (the
class declaration and its constructor are in Part12.h, not among the sources). -/
def semanticPass (prog : Program) : Res SymbolTable :=
  SymbolTableBuilder.visitProgram prog initBuiltins

/-! ## Evaluator -/

/-- The smallest `int`. -/
def INT_MIN : Int := -2147483648

/-- The largest `int`. -/
def INT_MAX : Int := 2147483647

/-- An `int` result: signed overflow is undefined. -/
def toInt (z : Int) : Res Int :=
  if INT_MIN ≤ z ∧ z ≤ INT_MAX then .ok z else .ub

/-- The decimal value of the leading digits of a character list, after `acc`. -/
def stoiDigits : List Char → Nat → Nat
  | [], acc => acc
  | c :: rest, acc => if isdigit c then stoiDigits rest (acc * 10 + (c.toNat - 48)) else acc

/-- The optional sign in front of the digits read by `std::stoi`: whether it is
a minus, and the characters after it. -/
def stoiSign (cs : List Char) : Bool × List Char :=
  match cs with
  | [] => (false, [])
  | c :: rest =>
    if c = '-' then (true, rest) else if c = '+' then (false, rest) else (false, c :: rest)

/-- The number `std::stoi` reads after the sign: the longest run of digits;
`invalid_argument` without a digit, `out_of_range` outside `int`. -/
def stoiValue (negative : Bool) (cs : List Char) : Res Int :=
  match cs with
  | [] => .throw .invalid_argument
  | c :: rest =>
    if isdigit c then
      let v : Int := stoiDigits (c :: rest) 0
      let z : Int := if negative then -v else v
      if INT_MIN ≤ z ∧ z ≤ INT_MAX then .ok z else .throw .out_of_range
    else
      .throw .invalid_argument

/-- The library function `std::stoi` in base 10: leading white space, an optional
sign, the longest run of digits. -/
def stoi (str : String) : Res Int :=
  let signed := stoiSign (str.data.dropWhile isspace)
  stoiValue signed.1 signed.2

/-- The map `GLOBAL_SCOPE`, from a variable name to an `int`. -/
abbrev GlobalScope := List (String × Int)

/-- The lookup `GLOBAL_SCOPE.find(name)`. -/
def GlobalScope.find (g : GlobalScope) (name : String) : Option Int :=
  match g with
  | [] => none
  | (k, v) :: rest => if k = name then some v else GlobalScope.find rest name

/-- The assignment `GLOBAL_SCOPE[name] = value`. -/
def GlobalScope.assign (g : GlobalScope) (name : String) (value : Int) : GlobalScope :=
  match g with
  | [] => [(name, value)]
  | (k, v) :: rest =>
    if k = name then (k, value) :: rest else (k, v) :: GlobalScope.assign rest name value

/-- Number of bits of a natural number, counted with at most `fuel` halvings. -/
def bitLength : Nat → Nat → Nat
  | 0, _ => 0
  | fuel + 1, n => if n = 0 then 0 else bitLength fuel (n / 2) + 1

/-- The quotient `n / d` rounded to the nearest integer, ties to even. -/
def roundHalfEven (n d : Nat) : Nat :=
  let q := n / d
  let r := n % d
  if 2 * r < d then q else if d < 2 * r then q + 1 else if q % 2 = 0 then q else q + 1

/-- The conversion `(float)m` of a natural number below `2^32`, IEEE binary32
with round-to-nearest-even: 24 significant bits are kept. -/
def toFloat (m : Nat) : Nat :=
  let e := bitLength 64 m - 24
  roundHalfEven m (2 ^ e) * 2 ^ e

/-- The integer part of the binary32 quotient of two positive floats with integer
values `x` and `y` below `2^32`: the exact quotient is rounded to 24 significant
bits (nearest, ties to even) and then truncated. -/
def floatQuotientTrunc (x y : Nat) : Nat :=
  let n := x * 2 ^ 64
  let e := bitLength 128 (n / y) - 24
  (roundHalfEven n (y * 2 ^ e) * 2 ^ e) / 2 ^ 64

/-- The expression `(float)a / (float)b` returned as `int`: the binary32 quotient
converted to `int` by truncation. A zero divisor gives an infinity or a NaN, whose
conversion to `int` is undefined, as is that of a quotient outside `int`. -/
def floatDiv (a b : Int) : Res Int :=
  if b = 0 then .ub
  else
    let q : Int := floatQuotientTrunc (toFloat a.natAbs) (toFloat b.natAbs)
    toInt (if (a < 0) = (b < 0) then q else -q)

namespace Interpreter

/-- The methods `Interpreter::visit` on `BinOp`, `UnaryOp`, `Num` and `Var`. The
operands of a `BinOp` are evaluated left then right. Flowing off the end of the
function (an operator of another kind) is undefined. -/
def visitExpr : Expr → GlobalScope → Res Int
  | .BinOp left op right, g =>
    if op.type_ = .PLUS then do
      let a ← visitExpr left g
      let b ← visitExpr right g
      toInt (a + b)
    else if op.type_ = .MINUS then do
      let a ← visitExpr left g
      let b ← visitExpr right g
      toInt (a - b)
    else if op.type_ = .MUL then do
      let a ← visitExpr left g
      let b ← visitExpr right g
      toInt (a * b)
    else if op.type_ = .IntegerDiv then do
      let a ← visitExpr left g
      let b ← visitExpr right g
      if b = 0 then .ub else toInt (Int.tdiv a b)
    else if op.type_ = .FloatDiv then do
      let a ← visitExpr left g
      let b ← visitExpr right g
      floatDiv a b
    else
      .ub
  | .UnaryOp op e, g =>
    if op.type_ = .PLUS then
      visitExpr e g
    else if op.type_ = .MINUS then do
      let a ← visitExpr e g
      toInt (-a)
    else
      .ub
  | .Num token, _ => stoi token.value_
  | .Var var, g =>
    match g.find var.value_ with
    | none => .throw RuntimeError
    | some v => .ok v

mutual
/-- The methods `Interpreter::visit` on `Compound`, `Assign` and `NoOp`. In
`GLOBAL_SCOPE[varName] = as.right_->accept(*this)` the right operand is evaluated
first (C++17). -/
def visitStmt : Stmt → GlobalScope → Res GlobalScope
  | .Compound children, g => visitStmts children g
  | .Assign left _ right, g => do
    let v ← visitExpr right g
    pure (g.assign left.value_ v)
  | .NoOp, g => pure g
/-- The loop `for (AST* child : comp.children_) child->accept(*this);`. -/
def visitStmts : List Stmt → GlobalScope → Res GlobalScope
  | [], g => pure g
  | child :: rest, g => do
    let g ← visitStmt child g
    visitStmts rest g
end

/-- The method `Interpreter::visit(VarDecl&)` does nothing; for a `ProcedureDecl`,
modelled from the spec (its `visit` is not in Part12.cpp): no computational effect,
the procedure body is never run. -/
def visitDecl (_d : Decl) (g : GlobalScope) : Res GlobalScope := pure g

/-- The loop `for (AST* decl : blk.declarations_) decl->accept(*this);`. -/
def visitDecls : List Decl → GlobalScope → Res GlobalScope
  | [], g => pure g
  | d :: rest, g => do
    let g ← visitDecl d g
    visitDecls rest g

/-- The method `Interpreter::visit(Block&)`. -/
def visitBlock : Block → GlobalScope → Res GlobalScope
  | .mk declarations compoundStatement, g => do
    let g ← visitDecls declarations g
    visitStmt compoundStatement g

/-- The method `Interpreter::visit(Program&)`. -/
def visitProgram (prog : Program) (g : GlobalScope) : Res GlobalScope :=
  visitBlock prog.block_ g

end Interpreter

/-- Modelled from the spec: `Interpreter::interpret` is defined in Part12.h, which
is not among the sources; the evaluator walks the parsed program from the empty
global store (Part10.h: `parser_->parse()` then `tree->accept(*this)`). -/
def interpret (fuel : Nat) (text : String) : Res GlobalScope := do
  let tree ← parseText fuel text
  Interpreter.visitProgram tree []

/-- Modelled from the spec: the pipeline of the system overview, source text to
lexer, parser, symbol pass and evaluator; every phase aborts the run on its first
error. -/
def run (fuel : Nat) (text : String) : Res GlobalScope := do
  let tree ← parseText fuel text
  let _ ← semanticPass tree
  Interpreter.visitProgram tree []

/-! ## Vocabulary of the statements

Measures, sample programs and predicates in which the theorems below are stated. -/

/-- Number of characters from a cursor to the end of the text. -/
def ptrLen (p : Ptr) : Nat :=
  match p with
  | none => 0
  | some cs => cs.length

/-- An integer literal of the source language: a non-empty run of digits. -/
def IsIntLiteral (ds : List Char) : Prop := ds ≠ [] ∧ ∀ d ∈ ds, isdigit d = true

instance (ds : List Char) : Decidable (IsIntLiteral ds) := by
  unfold IsIntLiteral; infer_instance

/-- The number a run of digits denotes in base ten. -/
def decimalValue (ds : List Char) : Nat :=
  ds.foldl (fun acc d => acc * 10 + (d.toNat - 48)) 0

/-- The text of the program that declares `x : INTEGER` and whose body is the
single statement `x := body`. -/
def assignX (body : List Char) : String :=
  ⟨"PROGRAM p; VAR x : INTEGER; BEGIN x := ".data ++ body ++ " END.".data⟩

/-- The tree of the program `assignX`: the declaration of `x`, whose type node
holds the token after the type keyword, and the assignment of `e` to `x`. -/
def assignXTree (e : Expr) : Program :=
  ⟨"p", .mk [.VarDecl ⟨⟨.ID, "x"⟩⟩ ⟨⟨.Semi, ";"⟩⟩]
    (.Compound [.Assign ⟨⟨.ID, "x"⟩⟩ ⟨.Assign, ":="⟩ e])⟩

/-- The keyword table once the identifiers `p` and `x` have been read. -/
def keywordsPX : List (String × Token) :=
  initialKeywords ++ [("p", ⟨.ID, "p"⟩), ("x", ⟨.ID, "x"⟩)]

/-- The text of a chain of minus signs, the i-th followed by the white space
`gaps[i]`: `minusChain [[' '], []]` is `- -`. -/
def minusChain : List (List Char) → List Char
  | [] => []
  | ws :: rest => '-' :: (ws ++ minusChain rest)

/-- The expression `e` under `n` nested `UnaryOp` nodes whose operator is the token of
a minus sign. -/
def nestMinus : Nat → Expr → Expr
  | 0, e => e
  | n + 1, e => .UnaryOp ⟨.MINUS, "-"⟩ (nestMinus n e)

/-- The quotient of `a` by `b` truncated toward zero, as the spec words it: the
magnitude is the integer part of `|a| / |b|`, the sign is the product of the signs. -/
def truncQuot (a b : Int) : Int :=
  Int.sign a * Int.sign b * ((a.natAbs / b.natAbs : Nat) : Int)

/-- The names of the `Var` nodes of an expression. -/
def Expr.varNames : Expr → List String
  | .BinOp left _ right => left.varNames ++ right.varNames
  | .UnaryOp _ e => e.varNames
  | .Num _ => []
  | .Var var => [var.value_]

mutual
/-- The names a statement uses: the targets of its `Assign` nodes and the `Var`
nodes of their right-hand sides, in the order of the walk. -/
def Stmt.usedNames : Stmt → List String
  | .Compound children => stmtsUsedNames children
  | .Assign left _ right => left.value_ :: right.varNames
  | .NoOp => []
/-- The names used by a list of statements. -/
def stmtsUsedNames : List Stmt → List String
  | [] => []
  | child :: rest => child.usedNames ++ stmtsUsedNames rest
end

mutual
/-- The names used inside a declaration: those of the block of a procedure. -/
def Decl.usedNames : Decl → List String
  | .VarDecl _ _ => []
  | .ProcedureDecl _ blk => blk.usedNames
/-- The names used in a block: in its declarations, then in its compound statement. -/
def Block.usedNames : Block → List String
  | .mk declarations compoundStatement =>
    declsUsedNames declarations ++ compoundStatement.usedNames
/-- The names used in a list of declarations. -/
def declsUsedNames : List Decl → List String
  | [] => []
  | d :: rest => d.usedNames ++ declsUsedNames rest
end

mutual
/-- The variable names a declaration declares: its own for a `VarDecl`, those of
the block for a `ProcedureDecl`. -/
def Decl.declaredNames : Decl → List String
  | .VarDecl varNode _ => [varNode.value_]
  | .ProcedureDecl _ blk => blk.declaredNames
/-- The variable names declared in a block, nested procedures included. -/
def Block.declaredNames : Block → List String
  | .mk declarations _ => declsDeclaredNames declarations
/-- The variable names declared by a list of declarations. -/
def declsDeclaredNames : List Decl → List String
  | [] => []
  | d :: rest => d.declaredNames ++ declsDeclaredNames rest
end

/-- The names used in a program. -/
def Program.usedNames (prog : Program) : List String := prog.block_.usedNames

/-- The variable names declared in a program. -/
def Program.declaredNames (prog : Program) : List String := prog.block_.declaredNames

/-- Whether a declaration is a `VarDecl`. -/
def Decl.isVarDecl : Decl → Bool
  | .VarDecl _ _ => true
  | .ProcedureDecl _ _ => false

/-- Whether a program declares no procedure. -/
def Program.hasNoProcedure (prog : Program) : Bool :=
  match prog.block_ with
  | .mk declarations _ => declarations.all Decl.isVarDecl

/-- A name is registered in a table when its entry is a symbol, not a null pointer. -/
def Registered (t : SymbolTable) (name : String) : Prop :=
  ∃ symbol, t.find name = some (some symbol)

/-- What a walk of `SymbolTableBuilder` does, started on table `t`, on a tree that
uses the names `used` and declares the names `declared`. Either it ends with a
table in which exactly the names registered in `t` and the declared names are
registered, every used name being registered in `t` or declared; or it throws the
`SemanticError` of a used name that is not registered in `t`. -/
def PassSpec (used declared : List String) (t : SymbolTable) (r : Res SymbolTable) : Prop :=
  (∃ t', r = .ok t' ∧ (∀ n, Registered t' n ↔ (Registered t n ∨ n ∈ declared)) ∧
      ∀ n ∈ used, Registered t n ∨ n ∈ declared) ∨
    (∃ m, m ∈ used ∧ ¬ Registered t m ∧ r = .throw (SemanticError m))

/-- The tree of `PROGRAM p; VAR x : INTEGER; BEGIN y := 1 END.`, which assigns to
the undeclared `y`. -/
def undeclaredTargetTree : Program :=
  ⟨"p", .mk [.VarDecl ⟨⟨.ID, "x"⟩⟩ ⟨⟨.Semi, ";"⟩⟩]
    (.Compound [.Assign ⟨⟨.ID, "y"⟩⟩ ⟨.Assign, ":="⟩ (.Num ⟨.IntegerConst, "1"⟩)])⟩

mutual
/-- Assignment before use: the names that hold a value after a statement when the
names `assigned` hold one before it, or `none` when the statement reads a name that
holds no value yet. -/
def Stmt.assignedAfter : Stmt → List String → Option (List String)
  | .Compound children, assigned => stmtsAssignedAfter children assigned
  | .Assign left _ right, assigned =>
    if right.varNames.all (fun n => decide (n ∈ assigned)) then some (left.value_ :: assigned)
    else none
  | .NoOp, assigned => some assigned
/-- Assignment before use, for a list of statements run in order. -/
def stmtsAssignedAfter : List Stmt → List String → Option (List String)
  | [], assigned => some assigned
  | child :: rest, assigned =>
    match child.assignedAfter assigned with
    | none => none
    | some a => stmtsAssignedAfter rest a
end

/-- The field `Block::compoundStatement_`. -/
def Block.compoundStatement_ : Block → Stmt
  | .mk _ compoundStatement => compoundStatement

/-- The field `Block::declarations_`. -/
def Block.declarations_ : Block → List Decl
  | .mk declarations _ => declarations

/-- The tree of `PROGRAM p; VAR x, y : INTEGER; BEGIN x := y END.`, which reads the
declared variable `y` before any assignment to it. -/
def readBeforeAssignTree : Program :=
  ⟨"p", .mk [.VarDecl ⟨⟨.ID, "x"⟩⟩ ⟨⟨.Semi, ";"⟩⟩, .VarDecl ⟨⟨.ID, "y"⟩⟩ ⟨⟨.Semi, ";"⟩⟩]
    (.Compound [.Assign ⟨⟨.ID, "x"⟩⟩ ⟨.Assign, ":="⟩ (.Var ⟨⟨.ID, "y"⟩⟩)])⟩

/-- The tree of `PROGRAM p; VAR x, y : INTEGER; BEGIN x := 2; y := x END.`. -/
def assignThenReadTree : Program :=
  ⟨"p", .mk [.VarDecl ⟨⟨.ID, "x"⟩⟩ ⟨⟨.Semi, ";"⟩⟩, .VarDecl ⟨⟨.ID, "y"⟩⟩ ⟨⟨.Semi, ";"⟩⟩]
    (.Compound [.Assign ⟨⟨.ID, "x"⟩⟩ ⟨.Assign, ":="⟩ (.Num ⟨.IntegerConst, "2"⟩),
      .Assign ⟨⟨.ID, "y"⟩⟩ ⟨.Assign, ":="⟩ (.Var ⟨⟨.ID, "x"⟩⟩)])⟩

/-- The characters of the comment with the given body. -/
def commentText (body : List Char) : List Char := '\x7b' :: (body ++ ['\x7d'])

/-- The top of the loop of `getNextToken` is reached with the cursor on `rest`: a
lexer state from which the loop, after some iterations (one white-space character,
one comment or one token each), has its cursor on `rest`. -/
inductive ReachesBoundary (rest : List Char) : Lexer → Prop where
  | here (kw : List (String × Token)) : ReachesBoundary rest ⟨ptrOf rest, kw⟩
  | space (c : Char) (r : List Char) (kw : List (String × Token)) :
      isspace c = true → ReachesBoundary rest ⟨ptrOf r, kw⟩ →
      ReachesBoundary rest ⟨some (c :: r), kw⟩
  | comment (r : List Char) (kw : List (String × Token)) (p : Ptr) :
      skipCommentFrom r = .ok p → ReachesBoundary rest ⟨p, kw⟩ →
      ReachesBoundary rest ⟨some ('\x7b' :: r), kw⟩
  | token (c : Char) (r : List Char) (kw : List (String × Token)) (t : Token) (lx : Lexer) :
      isspace c = false → c ≠ '\x7b' → tokenAt c r kw = .ok (t, lx) →
      ReachesBoundary rest lx → ReachesBoundary rest ⟨some (c :: r), kw⟩

/-- A token boundary of the text `pre ++ rest`, after `pre`: the text is not empty
and the lexer built on it reaches the top of its loop with the cursor on `rest`. -/
def TokenBoundary (pre rest : List Char) : Prop :=
  pre ++ rest ≠ [] ∧ ReachesBoundary rest ⟨some (pre ++ rest), initialKeywords⟩

/-- The token of a character that starts neither a number nor a word and is not a
colon. -/
def punctuation (c : Char) : Option Token :=
  if c = '+' then some ⟨.PLUS, "+"⟩ else if c = '-' then some ⟨.MINUS, "-"⟩
  else if c = '*' then some ⟨.MUL, "*"⟩ else if c = '(' then some ⟨.LParen, "("⟩
  else if c = ')' then some ⟨.RParen, ")"⟩ else if c = ';' then some ⟨.Semi, ";"⟩
  else if c = '.' then some ⟨.Dot, "."⟩ else if c = ',' then some ⟨.Comma, ","⟩
  else if c = '/' then some ⟨.FloatDiv, "/"⟩ else none

/-- Two outcomes of `getNextToken` that agree: the same token and related lexers,
or the same failure. -/
def LexSim (B : Lexer → Lexer → Prop) (r' r : Res (Token × Lexer)) : Prop :=
  match r', r with
  | .ok (t', l'), .ok (t, l) => t' = t ∧ B l' l
  | .throw e', .throw e => e' = e
  | .ub, .ub => True
  | .timeout, .timeout => True
  | _, _ => False

/-- The lexer on the text with the comment inserted, against the lexer on the text
without it: the same state (past the comment), or the same place before the token
boundary at which the comment is inserted. -/
def CommentSim (body rest : List Char) (lx' lx : Lexer) : Prop :=
  lx' = lx ∨
    ∃ s kw, lx = ⟨ptrOf (s ++ rest), kw⟩ ∧ lx' = ⟨some (s ++ '{' :: (body ++ '}' :: rest)), kw⟩ ∧
      ReachesBoundary rest lx

/-- A relation on lexers kept by `getNextToken`. -/
def KeptByLexer (B : Lexer → Lexer → Prop) : Prop :=
  ∀ lx' lx, B lx' lx → LexSim B (getNextToken lx') (getNextToken lx)

/-- Two parser states with the same current token and related lexers. -/
def ParserSim (B : Lexer → Lexer → Prop) (p' p : Parser) : Prop :=
  p'.currentToken_ = p.currentToken_ ∧ B p'.lexer_ p.lexer_

/-- Two outcomes of a parser method that agree: the same result and related parser
states, or the same failure. -/
def OutSim (B : Lexer → Lexer → Prop) {α : Type} (r' r : Res (α × Parser)) : Prop :=
  match r', r with
  | .ok (a', p'), .ok (a, p) => a' = a ∧ ParserSim B p' p
  | .throw e', .throw e => e' = e
  | .ub, .ub => True
  | .timeout, .timeout => True
  | _, _ => False

/-- Two outcomes of `eat` that agree. -/
def StateSim (B : Lexer → Lexer → Prop) (r' r : Res Parser) : Prop :=
  match r', r with
  | .ok p', .ok p => ParserSim B p' p
  | .throw e', .throw e => e' = e
  | .ub, .ub => True
  | .timeout, .timeout => True
  | _, _ => False

/-- A parser method that gives agreeing outcomes on agreeing states. -/
def FunSim (B : Lexer → Lexer → Prop) {α : Type} (f : Parser → Res (α × Parser)) : Prop :=
  ∀ p' p, ParserSim B p' p → OutSim B (f p') (f p)

/-- The sequence of the first `n` tokens a lexer returns, up to and including the
end-of-input token. -/
def tokenSequence : Nat → Lexer → Res (List Token)
  | 0, _ => .ok []
  | n + 1, lx =>
    getNextToken lx >>= fun r =>
      if r.1.type_ = .TYPE_EOF then .ok [r.1]
      else tokenSequence n r.2 >>= fun ts => .ok (r.1 :: ts)

/-- A check of `ReachesBoundary` by running the loop of `getNextToken` for at most
`n` iterations. -/
def reachesBoundaryCheck (rest : List Char) : Nat → Lexer → Bool
  | 0, _ => false
  | n + 1, lx =>
    if lx.currentPtr_ = ptrOf rest then true
    else
      match lx with
      | ⟨some (c :: r), kw⟩ =>
        if isspace c then reachesBoundaryCheck rest n ⟨ptrOf r, kw⟩
        else if c = '{' then
          match skipCommentFrom r with
          | .ok p => reachesBoundaryCheck rest n ⟨p, kw⟩
          | _ => false
        else
          match tokenAt c r kw with
          | .ok (_, lx1) => reachesBoundaryCheck rest n lx1
          | _ => false
      | _ => false

/-- The texts that the loop of `getNextToken` passes over without returning: runs of
white space and complete comments. -/
inductive Skipped : List Char → Prop where
  | nil : Skipped []
  | space (c : Char) (s : List Char) : isspace c = true → Skipped s → Skipped (c :: s)
  | comment (body s : List Char) :
      '\x7d' ∉ body → Skipped s → Skipped ('\x7b' :: (body ++ '\x7d' :: s))

/-- The ten operator and punctuation characters at which `getNextToken` has a branch. -/
def tokenPunctuation : List Char := ['+', '-', '*', '/', '(', ')', ';', '.', ',', ':']

/-- The reserved words, as the specification lists them. -/
def reservedWords : List String :=
  ["PROGRAM", "VAR", "DIV", "INTEGER", "REAL", "BEGIN", "END", "PROCEDURE"]

/-- The token kind of each reserved word, as the specification lists them. -/
def reservedKind (w : String) : Option TokenType :=
  if w = "PROGRAM" then some .Program
  else if w = "VAR" then some .Var
  else if w = "DIV" then some .IntegerDiv
  else if w = "INTEGER" then some .Integer
  else if w = "REAL" then some .Real
  else if w = "BEGIN" then some .Begin
  else if w = "END" then some .End
  else if w = "PROCEDURE" then some .Procedure
  else none

/-- The entry that `Lexer::_id` inserts for an identifier. -/
def internEntry (w : String) : String × Token := (w, ⟨.ID, w⟩)

/-- The keyword table of a lexer that has met the identifiers `ids`: the table of
the constructor followed by one entry for each. -/
def internedTable (ids : List String) : List (String × Token) :=
  initialKeywords ++ ids.map internEntry

/-- Two parser states of which the first follows the second: the same current token,
and lexers related by `L`, unless the second state has escaped (`E`). -/
def TrackState (E : Parser → Prop) (L : Lexer → Lexer → Prop) (p' p : Parser) : Prop :=
  p'.currentToken_ = p.currentToken_ ∧ (E p ∨ L p'.lexer_ p.lexer_)

/-- An outcome of a parser method that follows a second one: when the second is a
normal return, either its state has escaped, or the first is a normal return of the
same result in a state that follows. -/
def TrackOut (E : Parser → Prop) (L : Lexer → Lexer → Prop) {α : Type}
    (r' r : Res (α × Parser)) : Prop :=
  match r with
  | .ok (a, q) => E q ∨ ∃ q', r' = .ok (a, q') ∧ TrackState E L q' q
  | _ => True

/-- An outcome of `eat` that follows a second one. -/
def TrackEat (E : Parser → Prop) (L : Lexer → Lexer → Prop) (r' r : Res Parser) : Prop :=
  match r with
  | .ok q => E q ∨ ∃ q', r' = .ok q' ∧ TrackState E L q' q
  | _ => True

/-- The relation `L` relates no lexer to itself, and `eat` keeps states following. -/
def Tracked (E : Parser → Prop) (L : Lexer → Lexer → Prop) : Prop :=
  (∀ lx, ¬ L lx lx) ∧
    ∀ tktype p' p, TrackState E L p' p → TrackEat E L (eat tktype p') (eat tktype p)

/-- A parser method whose outcome on a state that follows a second state follows
the outcome on the second. -/
def FunTrack (E : Parser → Prop) (L : Lexer → Lexer → Prop) {α : Type}
    (f : Parser → Res (α × Parser)) : Prop :=
  ∀ p' p, TrackState E L p' p → TrackOut E L (f p') (f p)

/-- The lexer `lx'` stands in the text of `lx` extended by `trailer`, at the
same place and with the same keyword table, a table of interned identifiers. -/
def Extended (trailer : List Char) (lx' lx : Lexer) : Prop :=
  ∃ s ids, lx = ⟨ptrOf s, internedTable ids⟩ ∧ lx' = ⟨some (s ++ trailer), internedTable ids⟩

/-- A parser state whose lexer has used up its text and whose current token is not
the final dot of a program. -/
def PastEnd (p : Parser) : Prop :=
  p.lexer_.currentPtr_ = none ∧ p.currentToken_.type_ ≠ .Dot

mutual
/-- The names that occur as the target of an `Assign` in a statement, nested
compound statements included. -/
def Stmt.targets : Stmt → List String
  | .Compound children => stmtsTargets children
  | .Assign left _ _ => [left.value_]
  | .NoOp => []
/-- The assignment targets of a list of statements. -/
def stmtsTargets : List Stmt → List String
  | [] => []
  | child :: rest => child.targets ++ stmtsTargets rest
end

/-- The tree of `PROGRAM p; VAR x, y, z : INTEGER; BEGIN x := 1; BEGIN y := x END
END.`, which declares `z` and never assigns to it. -/
def nestedAssignTree : Program :=
  ⟨"p", .mk [.VarDecl ⟨⟨.ID, "x"⟩⟩ ⟨⟨.Semi, ";"⟩⟩, .VarDecl ⟨⟨.ID, "y"⟩⟩ ⟨⟨.Semi, ";"⟩⟩,
      .VarDecl ⟨⟨.ID, "z"⟩⟩ ⟨⟨.Semi, ";"⟩⟩]
    (.Compound [.Assign ⟨⟨.ID, "x"⟩⟩ ⟨.Assign, ":="⟩ (.Num ⟨.IntegerConst, "1"⟩),
      .Compound [.Assign ⟨⟨.ID, "y"⟩⟩ ⟨.Assign, ":="⟩ (.Var ⟨⟨.ID, "x"⟩⟩)]])⟩

/-- The names that have an entry in a store, in the order of the entries. -/
def GlobalScope.keys (g : GlobalScope) : List String := g.map Prod.fst

/-- The store `h` holds every value that the store `g` holds. -/
def StoreExtends (g h : GlobalScope) : Prop :=
  ∀ n v, g.find n = some v → h.find n = some v

/-- A parser state whose lexer has used up its text and whose current token is the
end-of-input token. -/
def Finished (p : Parser) : Prop :=
  p.lexer_.currentPtr_ = none ∧ p.currentToken_.type_ = .TYPE_EOF

/-- Two lexers that stand at the same place of the same text, each with a keyword
table of interned identifiers. -/
def SameCursor (lx' lx : Lexer) : Prop :=
  lx'.currentPtr_ = lx.currentPtr_ ∧ (∃ ids, lx'.RESERVED_KEYWORDS = internedTable ids) ∧
    ∃ ids, lx.RESERVED_KEYWORDS = internedTable ids

/-- The part of `Parser::program` before the main compound statement: the header
`PROGRAM name ;` and the declarations of the block. -/
def programDeclarations (fuel : Nat) (p : Parser) : Res ((String × List Decl) × Parser) :=
  eat .Program p >>= fun p1 =>
    variable_ p1 >>= fun n =>
      eat .Semi n.2 >>= fun q =>
        declarations fuel q >>= fun d => Res.ok ((n.1.value_, d.1), d.2)

/-- The parser state `p'` follows the state `p` inside the text of `p`, which is
extended by `trailer` for `p'`: the same current token, which is not the end of the
input. -/
def FollowsIn (trailer : List Char) (p' p : Parser) : Prop :=
  p'.currentToken_ = p.currentToken_ ∧ Extended trailer p'.lexer_ p.lexer_ ∧
    p.currentToken_.type_ ≠ .TYPE_EOF

/-- A parser state with current token `tok`, its cursor at `ptr`, and a keyword
table of interned identifiers. -/
def StandsAt (tok : Token) (ptr : Ptr) (p : Parser) : Prop :=
  p.currentToken_ = tok ∧ p.lexer_.currentPtr_ = ptr ∧
    ∃ ids, p.lexer_.RESERVED_KEYWORDS = internedTable ids

/-- The parser state `p'` on the extended text against the state `p` on the text:
either it follows inside the text, or `p` has met the end of the text and `p'`
stands at the first token of the trailer. -/
def Crossing (trailer : List Char) (tok : Token) (ptr : Ptr) (p' p : Parser) : Prop :=
  FollowsIn trailer p' p ∨ (Finished p ∧ StandsAt tok ptr p')

mutual
/-- The names declared so far when the walk of the semantic pass leaves a
declaration that it enters with the names `known` declared, or `none` when the
declaration uses a name that is not declared at that point of the walk. -/
def Decl.scopeAfter : Decl → List String → Option (List String)
  | .VarDecl varNode _, known => some (varNode.value_ :: known)
  | .ProcedureDecl _ blk, known => blk.scopeAfter known
/-- The same for a block: its declarations in order, then its compound statement,
whose names must all be declared by then. -/
def Block.scopeAfter : Block → List String → Option (List String)
  | .mk declarations compoundStatement, known =>
    match declsScopeAfter declarations known with
    | none => none
    | some k =>
      if compoundStatement.usedNames.all (fun n => decide (n ∈ k)) then some k else none
/-- The same for a list of declarations, walked in order. -/
def declsScopeAfter : List Decl → List String → Option (List String)
  | [], known => some known
  | d :: rest, known =>
    match d.scopeAfter known with
    | none => none
    | some k => declsScopeAfter rest k
end

/-- The outcome of the last of `n + 1` successive calls of `Lexer::getNextToken`. -/
def getNextTokenTimes : Nat → Lexer → Res (Token × Lexer)
  | 0, lx => getNextToken lx
  | n + 1, lx => getNextToken lx >>= fun r => getNextTokenTimes n r.2

mutual
/-- The map `GLOBAL_SCOPE` at the moment `Interpreter::visit` leaves a statement
entered with the map `g`, by a normal return or by an exception. In
`GLOBAL_SCOPE[varName] = as.right_->accept(*this)` the right operand is evaluated
before `operator[]` is called (C++17), so an exception of the right operand leaves the
map as it is. -/
def storeAfterStmt : Stmt → GlobalScope → GlobalScope
  | .Compound children, g => storeAfterStmts children g
  | .Assign left _ right, g =>
    match Interpreter.visitExpr right g with
    | .ok v => g.assign left.value_ v
    | _ => g
  | .NoOp, g => g
/-- The same for the loop over the children of a `Compound`: the loop is left at the
first child that throws. -/
def storeAfterStmts : List Stmt → GlobalScope → GlobalScope
  | [], g => g
  | child :: rest, g =>
    match Interpreter.visitStmt child g with
    | .ok g1 => storeAfterStmts rest g1
    | _ => storeAfterStmt child g
end

mutual
/-- The method `Parser::compoundStatement`, over the statement list without the
final check. -/
def compoundStatementNoCheck : Nat → Parser → Res (Stmt × Parser)
  | 0, _ => .timeout
  | fuel + 1, p => do
    let p ← eat .Begin p
    let (nodes, p) ← statementListNoCheck fuel p
    let p ← eat .End p
    pure (.Compound nodes, p)
/-- The method `Parser::statementList` without its final check
`if (currentToken_.type_ == TokenType::ID) error();`. -/
def statementListNoCheck : Nat → Parser → Res (List Stmt × Parser)
  | 0, _ => .timeout
  | fuel + 1, p => do
    let (node, p) ← statementNoCheck fuel p
    statementListLoopNoCheck fuel [node] p
/-- The `while` loop of `Parser::statementList`, in the parser without the check. -/
def statementListLoopNoCheck : Nat → List Stmt → Parser → Res (List Stmt × Parser)
  | 0, _, _ => .timeout
  | fuel + 1, result, p =>
    if p.currentToken_.type_ = .Semi then do
      let p ← eat .Semi p
      let (node, p) ← statementNoCheck fuel p
      statementListLoopNoCheck fuel (result ++ [node]) p
    else
      pure (result, p)
/-- The method `Parser::statement`, in the parser without the check. -/
def statementNoCheck : Nat → Parser → Res (Stmt × Parser)
  | 0, _ => .timeout
  | fuel + 1, p =>
    if p.currentToken_.type_ = .Begin then
      compoundStatementNoCheck fuel p
    else if p.currentToken_.type_ = .ID then
      assignmentStatement fuel p
    else
      pure (empty, p)
end

/-- Whether a declaration is a `ProcedureDecl`. -/
def Decl.isProcedureDecl : Decl → Bool
  | .VarDecl _ _ => false
  | .ProcedureDecl _ _ => true

/-- The integer part of the binary32 quotient of two `int` values, with its sign:
the value that `floatDiv` converts to `int`. -/
def floatQuotient (a b : Int) : Int :=
  let q : Int := floatQuotientTrunc (toFloat a.natAbs) (toFloat b.natAbs)
  if (a < 0) = (b < 0) then q else -q

/-- An integer within the range of `int`. -/
def InInt (z : Int) : Prop := INT_MIN ≤ z ∧ z ≤ INT_MAX

/-- The value of an expression in a store, computed in the integers without a
bound: a literal has the value of its leading digits, a variable its value in the store
(0 when it has none), and an operator of another kind than those of the parser gives
0. -/
def Expr.value (S : GlobalScope) : Expr → Int
  | .BinOp left op right =>
    if op.type_ = .PLUS then left.value S + right.value S
    else if op.type_ = .MINUS then left.value S - right.value S
    else if op.type_ = .MUL then left.value S * right.value S
    else if op.type_ = .IntegerDiv then Int.tdiv (left.value S) (right.value S)
    else if op.type_ = .FloatDiv then floatQuotient (left.value S) (right.value S)
    else 0
  | .UnaryOp op e =>
    if op.type_ = .PLUS then e.value S else if op.type_ = .MINUS then -(e.value S) else 0
  | .Num token => (stoiDigits token.value_.data 0 : Int)
  | .Var var => (S.find var.value_).getD 0

/-- The preconditions of the evaluation of an expression in a store: every variable
has a value in the store, the digits in front of every literal denote a number within
`int`, no right operand of `DIV` or `/` has the value zero, and the value of every
operation is within `int`. -/
def Expr.Safe (S : GlobalScope) : Expr → Prop
  | .BinOp left op right =>
    left.Safe S ∧ right.Safe S ∧
      ((op.type_ = .IntegerDiv ∨ op.type_ = .FloatDiv) → right.value S ≠ 0) ∧
      InInt ((Expr.BinOp left op right).value S)
  | .UnaryOp op e => e.Safe S ∧ InInt ((Expr.UnaryOp op e).value S)
  | .Num token => InInt ((Expr.Num token).value S)
  | .Var var => S.find var.value_ ≠ none

/-- A literal token as the lexer makes it: a non-empty run of digits, followed in a
real literal by a dot and more characters. -/
def IsLiteralToken (t : Token) : Prop :=
  ∃ ds, IsIntLiteral ds ∧ (t.value_.data = ds ∨ ∃ fs, t.value_.data = ds ++ '.' :: fs)

/-- An expression tree as `Parser::expr` builds it from the tokens of the lexer: the
operator of a `BinOp` is one of `+ - * DIV /`, that of a `UnaryOp` is `+` or `-`,
and the token of a `Num` is a literal. -/
def Expr.ParserMade : Expr → Prop
  | .BinOp left op right =>
    (op.type_ = .PLUS ∨ op.type_ = .MINUS ∨ op.type_ = .MUL ∨ op.type_ = .IntegerDiv ∨
      op.type_ = .FloatDiv) ∧ left.ParserMade ∧ right.ParserMade
  | .UnaryOp op e => (op.type_ = .PLUS ∨ op.type_ = .MINUS) ∧ e.ParserMade
  | .Num token => IsLiteralToken token
  | .Var _ => True

/-- A parser state as the parser meets it: the current token and the lexer are what
`getNextToken` returned on a lexer whose keyword table is a table of interned
identifiers. -/
def FromLexer (p : Parser) : Prop :=
  ∃ ptr ids, getNextToken ⟨ptr, internedTable ids⟩ = .ok (p.currentToken_, p.lexer_)

/-- The number of `;` separators of a compound statement at its own nesting level,
counted on the tokens. The scan starts at the token after the `BEGIN`, with `depth`
zero; a `BEGIN` opens a nested compound statement and an `END` closes it; the scan
stops at the `END` that closes the compound statement itself and returns the count
and the parser state there. The end of the input before that `END` is an error. -/
def separators : Nat → Nat → Parser → Res (Nat × Parser)
  | 0, _, _ => .timeout
  | fuel + 1, depth, p =>
    if p.currentToken_.type_ = .End then
      if depth = 0 then .ok (0, p)
      else Parser.new p.lexer_ >>= fun p1 => separators fuel (depth - 1) p1
    else if p.currentToken_.type_ = .Begin then
      Parser.new p.lexer_ >>= fun p1 => separators fuel (depth + 1) p1
    else if p.currentToken_.type_ = .Semi then
      Parser.new p.lexer_ >>= fun p1 => separators fuel depth p1 >>= fun r =>
        .ok (if depth = 0 then r.1 + 1 else r.1, r.2)
    else if p.currentToken_.type_ = .TYPE_EOF then .throw SyntaxError
    else Parser.new p.lexer_ >>= fun p1 => separators fuel depth p1

/-- Scanning for separators from the state `p` at depth `d` passes the state `q` at
depth `d'`, having counted `j` separators on the way: whatever the scan returns from
`q`, it returns from `p` with `j` more. -/
def Scan (d d' : Nat) (p q : Parser) (j : Nat) : Prop :=
  ∀ n k r, separators n d' q = .ok (k, r) → ∃ m, separators m d p = .ok (k + j, r)

/-! ## The interpreter of Part10

Part12.cpp was made from `src/Part10/Part10.cpp`. The methods of the lexer, the
constructor of the parser, `Parser::eat`, the expression and statement methods of the
parser, `variableDeclaration`, `typeSpec` and the `visit` methods of the interpreter
are the same text in the two files, and their embedding above is used for both. What
differs is embedded here: the keyword table of the constructor of the lexer, which has
no `PROCEDURE`, and `Parser::declarations` and `Parser::block`, whose lists hold
`VarDecl` nodes only; `Parser::parse` and `Interpreter::interpret` are in Part10.h. -/

namespace Part10

/-- The table built by the constructor `Lexer::Lexer` of Part10.cpp. -/
def initialKeywords : List (String × Token) :=
  [ ("PROGRAM", ⟨.Program, "PROGRAM"⟩),
    ("VAR", ⟨.Var, "VAR"⟩),
    ("DIV", ⟨.IntegerDiv, "DIV"⟩),
    ("INTEGER", ⟨.Integer, "INTEGER"⟩),
    ("REAL", ⟨.Real, "REAL"⟩),
    ("BEGIN", ⟨.Begin, "BEGIN"⟩),
    ("END", ⟨.End, "End"⟩) ]

/-- The constructor `Lexer::Lexer(text)` of Part10.cpp. -/
def newLexer (text : String) : Lexer :=
  { currentPtr_ := some text.data, RESERVED_KEYWORDS := initialKeywords }

/-- The method `Parser::declarations` of Part10.cpp. -/
def declarations (fuel : Nat) (p : Parser) : Res (List Decl × Parser) :=
  if p.currentToken_.type_ = .Var then do
    let p ← eat .Var p
    declarationsVarLoop fuel [] p
  else
    pure ([], p)

/-- The method `Parser::block` of Part10.cpp. -/
def block (fuel : Nat) (p : Parser) : Res (Block × Parser) := do
  let (decls, p) ← declarations fuel p
  let (compState, p) ← compoundStatement fuel p
  pure (.mk decls compState, p)

/-- The method `Parser::program` of Part10.cpp. -/
def program (fuel : Nat) (p : Parser) : Res (Program × Parser) := do
  let p ← eat .Program p
  let (varNode, p) ← variable_ p
  let progName := varNode.value_
  let p ← eat .Semi p
  let (blk, p) ← block fuel p
  let p ← eat .Dot p
  pure (⟨progName, blk⟩, p)

/-- The method `Parser::parse` of Part10.h. -/
def parse (fuel : Nat) (p : Parser) : Res (Program × Parser) := do
  let (node, p) ← program fuel p
  if p.currentToken_.type_ ≠ .TYPE_EOF then
    .throw SyntaxError
  else
    pure (node, p)

/-- The method `Interpreter::interpret` of Part10.h on the lexer and the parser that
`main` builds on a text: the tree is walked from the empty `GLOBAL_SCOPE`, and the
result is the `GLOBAL_SCOPE` that `main` prints. `Interpreter::visit(Block&)` of
Part10.cpp visits the `VarDecl` nodes, for which nothing is done, and then the
compound statement. -/
def interpret (fuel : Nat) (text : String) : Res GlobalScope := do
  let p ← Parser.new (newLexer text)
  let (tree, _) ← parse fuel p
  Interpreter.visitProgram tree []

/-- The program printed in the comment at the head of Part10.h, without the frame
of the comment. -/
def sampleProgram : String :=
  "PROGRAM Part10;\nVAR\nnumber     : INTEGER;\na, b, c, x : INTEGER;\n" ++
  "y          : REAL;\n\nBEGIN \x7bPart10\x7d\nBEGIN\n    number := 2;\n" ++
  "    a := number;\n    b := 10 * a + 10 * number DIV 4;\n    c := a - - b\n" ++
  "END;\nx := 11;\ny := 20 / 7 + 3.14;\n" ++
  "\x7b writeln(\x27a = \x27, a); \x7d\n\x7b writeln(\x27b = \x27, b); \x7d\n" ++
  "\x7b writeln(\x27c = \x27, c); \x7d\n" ++
  "\x7b writeln(\x27number = \x27, number); \x7d\n" ++
  "\x7b writeln(\x27x = \x27, x); \x7d\n\x7b writeln(\x27y = \x27, y); \x7d\n" ++
  "END.  \x7bPart10\x7d"

end Part10

/-! ## The calculators of Part6 and Part7

`src/Part6/Part6.cpp` evaluates an arithmetic expression while it parses it;
`src/Part7/Part7.cpp` parses the expression into a tree and then walks the tree. The
token types, the class `Token`, the class `Lexer` and the method `eat` are the same
text in the two files; they are embedded once, in the namespace `Part6`. -/

namespace Part6

/-- The `TokenType` enumeration of Part6.cpp and Part7.cpp. -/
inductive TokenType where
  | INTEGER | PLUS | MINUS | MUL | DIV | LParen | RParen | TYPE_EOF
  deriving DecidableEq, Repr

/-- The `Token` class: a kind and its value string. -/
structure Token where
  type_ : TokenType
  value_ : String
  deriving DecidableEq, Repr

/-- The `Lexer` state that changes: the characters of `text_` from `pos_` on. The
member `currentChar_` is the first of them, or `'\0'` when `pos_` is past the end. -/
abbrev Lexer := List Char

/-- The member `currentChar_`. -/
def currentChar_ (lx : Lexer) : Char :=
  match lx with
  | [] => '\x00'
  | c :: _ => c

/-- The method `Lexer::advance`. It is called only when `currentChar_` is not `'\0'`,
so on a text that is not empty. -/
def advance (lx : Lexer) : Lexer :=
  match lx with
  | [] => []
  | _ :: rest => rest

/-- The method `Lexer::skipWhiteSpace`:
`while (currentChar_ != '\0' && std::isspace(currentChar_)) advance();`. -/
def skipWhiteSpace : Lexer → Lexer
  | [] => []
  | c :: rest => if c ≠ '\x00' ∧ isspace c = true then skipWhiteSpace rest else c :: rest

/-- The loop of `Lexer::integer`:
`while (currentChar_ != '\0' && std::isdigit(currentChar_)) { result += currentChar_; advance(); }`. -/
def integerFrom : Lexer → String → String × Lexer
  | [], result => (result, [])
  | c :: rest, result =>
    if c ≠ '\x00' ∧ isdigit c = true then integerFrom rest (result.push c)
    else (result, c :: rest)

/-- The method `Lexer::integer`. -/
def integer (lx : Lexer) : String × Lexer := integerFrom lx ""

/-- The body of the loop of `Lexer::getNextToken` at a character `c` that is neither
`'\0'` nor white space, `rest` being the characters after it. -/
def tokenAt (c : Char) (rest : List Char) : Res (Token × Lexer) :=
  if isdigit c then
    let r := integer (c :: rest)
    .ok (⟨.INTEGER, r.1⟩, r.2)
  else if c = '+' then .ok (⟨.PLUS, "+"⟩, advance (c :: rest))
  else if c = '-' then .ok (⟨.MINUS, "-"⟩, advance (c :: rest))
  else if c = '*' then .ok (⟨.MUL, "*"⟩, advance (c :: rest))
  else if c = '/' then .ok (⟨.DIV, "/"⟩, advance (c :: rest))
  else if c = '(' then .ok (⟨.LParen, "("⟩, advance (c :: rest))
  else if c = ')' then .ok (⟨.RParen, ")"⟩, advance (c :: rest))
  else .throw LexError

/-- The method `Lexer::getNextToken`. At white space the loop calls `skipWhiteSpace`
and continues, and `skipWhiteSpace` does nothing at another character: so the token
is the one found after `skipWhiteSpace`, the end-of-input token when `currentChar_`
is then `'\0'`. The value of that token is the `std::string` built from the C string
`"\0"`, the empty string. -/
def getNextToken (lx : Lexer) : Res (Token × Lexer) :=
  match skipWhiteSpace lx with
  | [] => .ok (⟨.TYPE_EOF, ""⟩, [])
  | c :: rest =>
    if c = '\x00' then .ok (⟨.TYPE_EOF, ""⟩, c :: rest) else tokenAt c rest

/-- The state of the class `Interpreter` of Part6.cpp, and of the class `Parser` of
Part7.cpp: the lexer and the current token. -/
structure Interpreter where
  lexer_ : Lexer
  currentToken_ : Token
  deriving DecidableEq, Repr

/-- The constructor: reads the first token. -/
def Interpreter.new (lexer : Lexer) : Res Interpreter :=
  getNextToken lexer >>= fun r => .ok ⟨r.2, r.1⟩

/-- The method `eat`. -/
def eat (tktype : TokenType) (s : Interpreter) : Res Interpreter :=
  if s.currentToken_.type_ = tktype then Interpreter.new s.lexer_
  else .throw SyntaxError

mutual
/-- The method `Interpreter::factor` of Part6.cpp. With a current token that is
neither an integer nor a left parenthesis the function flows off its end, which is
undefined. -/
def factor : Nat → Interpreter → Res (Int × Interpreter)
  | 0, _ => .timeout
  | fuel + 1, s =>
    if s.currentToken_.type_ = .INTEGER then
      eat .INTEGER s >>= fun s1 =>
        stoi s.currentToken_.value_ >>= fun v => .ok (v, s1)
    else if s.currentToken_.type_ = .LParen then
      eat .LParen s >>= fun s1 =>
        expr fuel s1 >>= fun r =>
          eat .RParen r.2 >>= fun s2 => .ok (r.1, s2)
    else .ub
/-- The method `Interpreter::term` of Part6.cpp. -/
def term : Nat → Interpreter → Res (Int × Interpreter)
  | 0, _ => .timeout
  | fuel + 1, s => factor fuel s >>= fun r => termLoop fuel r.1 r.2
/-- The `while` loop of `Interpreter::term`: `result = result * factor()` and
`result = result / factor()` on `int`, where an overflow and a division by zero are
undefined. -/
def termLoop : Nat → Int → Interpreter → Res (Int × Interpreter)
  | 0, _, _ => .timeout
  | fuel + 1, result, s =>
    if s.currentToken_.type_ = .MUL ∨ s.currentToken_.type_ = .DIV then
      if s.currentToken_.type_ = .MUL then
        eat .MUL s >>= fun s1 =>
          factor fuel s1 >>= fun r =>
            toInt (result * r.1) >>= fun v => termLoop fuel v r.2
      else if s.currentToken_.type_ = .DIV then
        eat .DIV s >>= fun s1 =>
          factor fuel s1 >>= fun r =>
            (if r.1 = 0 then .ub else toInt (Int.tdiv result r.1)) >>= fun v =>
              termLoop fuel v r.2
      else termLoop fuel result s
    else .ok (result, s)
/-- The method `Interpreter::expr` of Part6.cpp. -/
def expr : Nat → Interpreter → Res (Int × Interpreter)
  | 0, _ => .timeout
  | fuel + 1, s => term fuel s >>= fun r => exprLoop fuel r.1 r.2
/-- The `while` loop of `Interpreter::expr`. -/
def exprLoop : Nat → Int → Interpreter → Res (Int × Interpreter)
  | 0, _, _ => .timeout
  | fuel + 1, result, s =>
    if s.currentToken_.type_ = .PLUS ∨ s.currentToken_.type_ = .MINUS then
      if s.currentToken_.type_ = .PLUS then
        eat .PLUS s >>= fun s1 =>
          term fuel s1 >>= fun r =>
            toInt (result + r.1) >>= fun v => exprLoop fuel v r.2
      else if s.currentToken_.type_ = .MINUS then
        eat .MINUS s >>= fun s1 =>
          term fuel s1 >>= fun r =>
            toInt (result - r.1) >>= fun v => exprLoop fuel v r.2
      else exprLoop fuel result s
    else .ok (result, s)
end

/-- The body of the loop of `main` of Part6.cpp on a line of input: the value that
is printed. -/
def interpret (fuel : Nat) (text : String) : Res Int :=
  Interpreter.new text.data >>= fun s => expr fuel s >>= fun r => .ok r.1

end Part6

namespace Part7

/-- The tree nodes of Part7.cpp: `BinOp` and `Num`. -/
inductive AST where
  | BinOp (left_ : AST) (op_ : Part6.Token) (right_ : AST)
  | Num (token_ : Part6.Token)
  deriving DecidableEq, Repr

mutual
/-- The method `Parser::factor` of Part7.cpp. With a current token that is neither
an integer nor a left parenthesis the function flows off its end, which is
undefined. -/
def factor : Nat → Part6.Interpreter → Res (AST × Part6.Interpreter)
  | 0, _ => .timeout
  | fuel + 1, s =>
    if s.currentToken_.type_ = .INTEGER then
      Part6.eat .INTEGER s >>= fun s1 => .ok (.Num s.currentToken_, s1)
    else if s.currentToken_.type_ = .LParen then
      Part6.eat .LParen s >>= fun s1 =>
        expr fuel s1 >>= fun r =>
          Part6.eat .RParen r.2 >>= fun s2 => .ok (r.1, s2)
    else .ub
/-- The method `Parser::term` of Part7.cpp. -/
def term : Nat → Part6.Interpreter → Res (AST × Part6.Interpreter)
  | 0, _ => .timeout
  | fuel + 1, s => factor fuel s >>= fun r => termLoop fuel r.1 r.2
/-- The `while` loop of `Parser::term`. -/
def termLoop : Nat → AST → Part6.Interpreter → Res (AST × Part6.Interpreter)
  | 0, _, _ => .timeout
  | fuel + 1, result, s =>
    if s.currentToken_.type_ = .MUL ∨ s.currentToken_.type_ = .DIV then
      (if s.currentToken_.type_ = .MUL then Part6.eat .MUL s
       else if s.currentToken_.type_ = .DIV then Part6.eat .DIV s
       else .ok s) >>= fun s1 =>
        factor fuel s1 >>= fun r =>
          termLoop fuel (.BinOp result s.currentToken_ r.1) r.2
    else .ok (result, s)
/-- The method `Parser::expr` of Part7.cpp. -/
def expr : Nat → Part6.Interpreter → Res (AST × Part6.Interpreter)
  | 0, _ => .timeout
  | fuel + 1, s => term fuel s >>= fun r => exprLoop fuel r.1 r.2
/-- The `while` loop of `Parser::expr`. -/
def exprLoop : Nat → AST → Part6.Interpreter → Res (AST × Part6.Interpreter)
  | 0, _, _ => .timeout
  | fuel + 1, result, s =>
    if s.currentToken_.type_ = .PLUS ∨ s.currentToken_.type_ = .MINUS then
      (if s.currentToken_.type_ = .PLUS then Part6.eat .PLUS s
       else if s.currentToken_.type_ = .MINUS then Part6.eat .MINUS s
       else .ok s) >>= fun s1 =>
        term fuel s1 >>= fun r =>
          exprLoop fuel (.BinOp result s.currentToken_ r.1) r.2
    else .ok (result, s)
end

/-- The methods `Interpreter::visit` of Part7.cpp. The operands of a `BinOp` have no
side effect, so the order in which they are evaluated does not change a value that is
returned; the left one is evaluated first here. With an operator of another kind the
function flows off its end, which is undefined. -/
def visit : AST → Res Int
  | .BinOp left op right =>
    if op.type_ = .PLUS then
      visit left >>= fun a => visit right >>= fun b => toInt (a + b)
    else if op.type_ = .MINUS then
      visit left >>= fun a => visit right >>= fun b => toInt (a - b)
    else if op.type_ = .MUL then
      visit left >>= fun a => visit right >>= fun b => toInt (a * b)
    else if op.type_ = .DIV then
      visit left >>= fun a => visit right >>= fun b =>
        if b = 0 then .ub else toInt (Int.tdiv a b)
    else .ub
  | .Num token => stoi token.value_

/-- The method `Interpreter::interpret` of Part7.cpp on the lexer and the parser
that `main` builds on a line of input: the value that is printed. -/
def interpret (fuel : Nat) (text : String) : Res Int :=
  Part6.Interpreter.new text.data >>= fun s => expr fuel s >>= fun r => visit r.1

end Part7

/-- A derivation of the grammar of Part6, with the white space that stands in front
of each token: an integer, an expression in parentheses, or two derivations joined by
an operator character. -/
inductive Part6.Form where
  | num (ws : List Char) (digits : List Char)
  | paren (ws : List Char) (e : Part6.Form) (ws2 : List Char)
  | bin (left : Part6.Form) (ws : List Char) (op : Char) (right : Part6.Form)
  deriving Repr

/-- The text a derivation spells. -/
def Part6.Form.text : Part6.Form → List Char
  | .num ws digits => ws ++ digits
  | .paren ws e ws2 => ws ++ '(' :: (e.text ++ (ws2 ++ [')']))
  | .bin left ws op right => left.text ++ (ws ++ op :: right.text)

/-- The integer a derivation denotes; the division is the division of C++, which
truncates towards zero. -/
def Part6.Form.value : Part6.Form → Int
  | .num _ digits => (decimalValue digits : Int)
  | .paren _ e _ => e.value
  | .bin left _ op right =>
    if op = '+' then left.value + right.value
    else if op = '-' then left.value - right.value
    else if op = '*' then left.value * right.value
    else Int.tdiv left.value right.value

/-- The rule `factor : INTEGER | LPAREN expr RPAREN`. -/
def Part6.Form.isFactor : Part6.Form → Bool
  | .bin _ _ _ _ => false
  | _ => true

/-- The rule `term : factor ((MUL | DIV) factor)*`. -/
def Part6.Form.isTerm : Part6.Form → Bool
  | .bin left _ op right => (op = '*' || op = '/') && left.isTerm && right.isFactor
  | _ => true

/-- The rule `expr : term ((PLUS | MINUS) term)*`. -/
def Part6.Form.isExpr : Part6.Form → Bool
  | .bin left _ op right =>
    ((op = '+' || op = '-') && left.isExpr && right.isTerm) ||
      ((op = '*' || op = '/') && left.isTerm && right.isFactor)
  | _ => true

/-- The tokens of a derivation are well formed: every integer is a non-empty run of
digits, what stands in front of a token is white space, and what stands between
parentheses is an expression. -/
def Part6.Form.wellFormed : Part6.Form → Bool
  | .num ws digits => ws.all isspace && decide (IsIntLiteral digits)
  | .paren ws e ws2 => ws.all isspace && ws2.all isspace && e.wellFormed && e.isExpr
  | .bin left ws _ right => left.wellFormed && ws.all isspace && right.wellFormed

/-- No division by zero and no overflow: every integer of the derivation fits in an
`int`, every divisor is not zero, and the result of every operation fits in an
`int`. -/
def Part6.Form.safe : Part6.Form → Bool
  | .num _ digits => decide ((decimalValue digits : Int) ≤ INT_MAX)
  | .paren _ e _ => e.safe
  | .bin left ws op right =>
    left.safe && right.safe && (op != '/' || right.value != 0) &&
      decide (INT_MIN ≤ Part6.Form.value (.bin left ws op right) ∧
        Part6.Form.value (.bin left ws op right) ≤ INT_MAX)

/-- The number of operators `*` and `/` at the top of a term. -/
def Part6.Form.opsT : Part6.Form → Nat
  | .bin left _ op _ => if op = '*' ∨ op = '/' then left.opsT + 1 else 0
  | _ => 0

/-- The number of operators `+` and `-` at the top of an expression. -/
def Part6.Form.opsE : Part6.Form → Nat
  | .bin left _ op _ => if op = '+' ∨ op = '-' then left.opsE + 1 else 0
  | _ => 0

/-- Fuel that is enough for the loops that follow a derivation: first when it is
read as a factor or a term, second when it is read as an expression. -/
def Part6.Form.fuel : Part6.Form → Nat × Nat
  | .num _ _ => (1, 2)
  | .paren _ e _ => (e.fuel.2 + e.opsE + 2, e.fuel.2 + e.opsE + 3)
  | .bin left _ op right =>
    if op = '*' ∨ op = '/' then
      (max left.fuel.1 right.fuel.1, max left.fuel.1 right.fuel.1 + left.opsT + 2)
    else (1, max left.fuel.2 (right.fuel.1 + right.opsT + 1))

/-- Fuel that is enough to evaluate the text of a derivation. -/
def Part6.Form.enough (e : Part6.Form) : Nat := e.fuel.2 + e.opsE + 1

/-! ## Basic facts on outcomes -/

@[simp] theorem ok_bind {α β : Type} (a : α) (f : α → Res β) : (Res.ok a >>= f) = f a := rfl

@[simp] theorem throw_bind {α β : Type} (e : Exn) (f : α → Res β) :
    ((Res.throw e : Res α) >>= f) = Res.throw e := rfl

@[simp] theorem ub_bind {α β : Type} (f : α → Res β) : ((Res.ub : Res α) >>= f) = Res.ub := rfl

@[simp] theorem timeout_bind {α β : Type} (f : α → Res β) :
    ((Res.timeout : Res α) >>= f) = Res.timeout := rfl

@[simp] theorem pure_eq_ok {α : Type} (a : α) : (pure a : Res α) = Res.ok a := rfl

/-! ## Facts on the lexer -/

theorem ptrLen_ptrOf (rest : List Char) : ptrLen (ptrOf rest) = rest.length := by
  cases rest <;> rfl

theorem ptrLen_skipWhiteSpaceFrom (cs : List Char) :
    ptrLen (skipWhiteSpaceFrom cs) ≤ cs.length := by
  induction cs with
  | nil => simp [skipWhiteSpaceFrom, ptrLen]
  | cons c rest ih =>
    unfold skipWhiteSpaceFrom
    split
    · exact Nat.le_succ_of_le ih
    · simp [ptrLen]

theorem ptrLen_skipCommentFrom (cs : List Char) (p : Ptr) (h : skipCommentFrom cs = .ok p) :
    ptrLen p < cs.length := by
  induction cs with
  | nil => simp [skipCommentFrom] at h
  | cons c rest ih =>
    unfold skipCommentFrom at h
    split at h
    · cases h
      simp [ptrLen_ptrOf]
    · exact Nat.lt_succ_of_lt (ih h)

theorem ptrLen_skipWhiteSpaceFrom_cons (c : Char) (rest : List Char)
    (h : isspace c = true) : ptrLen (skipWhiteSpaceFrom (c :: rest)) ≤ rest.length := by
  simp only [skipWhiteSpaceFrom, h, if_true]
  exact ptrLen_skipWhiteSpaceFrom rest

/-- The loop of `getNextToken` gives the same outcome for every budget larger than
the number of characters left: the budget of `getNextToken` never runs out. -/
theorem getNextTokenLoop_fuel (f1 : Nat) :
    ∀ (f2 : Nat) (lx : Lexer), lx.remaining < f1 → lx.remaining < f2 →
      getNextTokenLoop f1 lx = getNextTokenLoop f2 lx := by
  induction f1 with
  | zero => intro f2 lx h1; exact absurd h1 (Nat.not_lt_zero _)
  | succ k ih =>
    intro f2 lx h1 h2
    cases f2 with
    | zero => exact absurd h2 (Nat.not_lt_zero _)
    | succ m =>
      obtain ⟨ptr, kw⟩ := lx
      cases ptr with
      | none => simp [getNextTokenLoop]
      | some cs =>
        cases cs with
        | nil => simp [getNextTokenLoop]
        | cons c rest =>
          simp only [Lexer.remaining, List.length_cons] at h1 h2
          have hk : rest.length < k := Nat.lt_of_succ_lt_succ h1
          have hm : rest.length < m := Nat.lt_of_succ_lt_succ h2
          simp only [getNextTokenLoop]
          by_cases hsp : isspace c = true
          · simp only [hsp, if_true, skipWhiteSpace, ok_bind]
            have hle := ptrLen_skipWhiteSpaceFrom_cons c rest hsp
            exact ih m _ (Nat.lt_of_le_of_lt hle hk) (Nat.lt_of_le_of_lt hle hm)
          · by_cases hc : c = '{'
            · subst hc
              have hb : isspace '{' = false := by decide
              simp only [hb, if_true, skipComment, Bool.false_eq_true, if_false]
              cases hsk : skipCommentFrom ('{' :: rest) with
              | ok p =>
                have hlt := ptrLen_skipCommentFrom _ _ hsk
                simp only [List.length_cons] at hlt
                simp only [ok_bind]
                exact ih m _ (Nat.lt_of_le_of_lt (Nat.le_of_lt_succ hlt) hk)
                  (Nat.lt_of_le_of_lt (Nat.le_of_lt_succ hlt) hm)
              | throw e => simp
              | ub => simp
              | timeout => simp
            · simp [hsp, hc]

/-- White space before a character is skipped. -/
theorem getNextToken_space (w c : Char) (rest : List Char) (kw : List (String × Token))
    (hw : isspace w = true) :
    getNextToken ⟨some (w :: c :: rest), kw⟩ = getNextToken ⟨some (c :: rest), kw⟩ := by
  simp only [getNextToken, Lexer.remaining, List.length_cons, getNextTokenLoop, hw, if_true,
    skipWhiteSpace, ok_bind, skipWhiteSpaceFrom]
  by_cases hc : isspace c = true
  · simp only [hc, if_true, skipWhiteSpace, ok_bind, skipWhiteSpaceFrom]
    have hle := ptrLen_skipWhiteSpaceFrom rest
    exact getNextTokenLoop_fuel _ _ _ (Nat.lt_succ_of_le (Nat.le_succ_of_le hle))
      (Nat.lt_succ_of_le hle)
  · simp only [hc, if_false]
    simp only [getNextTokenLoop, hc, if_false]
    rfl

/-- At a character that is neither white space nor `{`, the token is `tokenAt`. -/
theorem getNextToken_tokenAt (c : Char) (rest : List Char) (kw : List (String × Token))
    (hs : isspace c = false) (hc : c ≠ '{') :
    getNextToken ⟨some (c :: rest), kw⟩ = tokenAt c rest kw := by
  simp [getNextToken, Lexer.remaining, getNextTokenLoop, hs, hc]

/-- A comment is skipped: the token is the one after the closing brace. -/
theorem getNextToken_comment (rest : List Char) (kw : List (String × Token)) :
    getNextToken ⟨some ('{' :: rest), kw⟩ =
      (skipCommentFrom rest >>= fun p => getNextToken ⟨p, kw⟩) := by
  have hb : isspace '{' = false := by decide
  have hne : ('{' = '}') = False := by decide
  simp only [getNextToken, Lexer.remaining, List.length_cons, getNextTokenLoop, hb,
    Bool.false_eq_true, if_false, if_true, skipComment, skipCommentFrom, hne]
  cases hsk : skipCommentFrom rest with
  | ok p =>
    have hlt := ptrLen_skipCommentFrom _ _ hsk
    simp only [ok_bind]
    exact getNextTokenLoop_fuel _ _ _ (Nat.lt_succ_of_lt hlt) (Nat.lt_succ_self _)
  | throw e => simp
  | ub => simp
  | timeout => simp

/-! ## Integer literals -/

theorem isdigit_not_isspace (d : Char) (h : isdigit d = true) : isspace d = false := by
  simp only [isdigit, Bool.and_eq_true, decide_eq_true_eq] at h
  simp only [isspace, Bool.or_eq_false_iff, decide_eq_false_iff_not, Bool.and_eq_false_imp,
    decide_eq_true_eq]
  omega

theorem isdigit_ne (d c : Char) (h : isdigit d = true) (hc : isdigit c = false) : d ≠ c := by
  intro e; subst e; simp [h] at hc

theorem digitsFrom_append (ds : List Char) :
    ∀ (c : Char) (rest : List Char) (acc : String), (∀ d ∈ ds, isdigit d = true) →
      isdigit c = false →
      digitsFrom (ds ++ c :: rest) acc = (⟨acc.data ++ ds⟩, some (c :: rest)) := by
  induction ds with
  | nil => intro c rest acc _ hc; simp [digitsFrom, hc]
  | cons d ds ih =>
    intro c rest acc hds hc
    have hd : isdigit d = true := hds d (List.mem_cons_self _ _)
    have h := ih c rest (acc.push d) (fun x hx => hds x (List.mem_cons_of_mem _ hx)) hc
    rw [List.cons_append]
    simp only [digitsFrom, hd, if_true]
    rw [h]
    simp [String.push]

theorem stoiDigits_eq (ds : List Char) :
    ∀ acc : Nat, (∀ d ∈ ds, isdigit d = true) →
      stoiDigits ds acc = ds.foldl (fun acc d => acc * 10 + (d.toNat - 48)) acc := by
  induction ds with
  | nil => intro acc _; rfl
  | cons d ds ih =>
    intro acc hds
    have hd : isdigit d = true := hds d (List.mem_cons_self _ _)
    simp only [stoiDigits, hd, if_true, List.foldl_cons]
    exact ih _ (fun x hx => hds x (List.mem_cons_of_mem _ hx))

/-- The lexer turns an integer literal followed by a character that is neither a
digit nor a dot into one `IntegerConst` token whose value is the literal. -/
theorem getNextToken_literal (ds : List Char) (c : Char) (rest : List Char)
    (kw : List (String × Token)) (hds : IsIntLiteral ds) (hc : isdigit c = false)
    (hdot : c ≠ '.') :
    getNextToken ⟨some (ds ++ c :: rest), kw⟩ =
      .ok (⟨.IntegerConst, ⟨ds⟩⟩, ⟨some (c :: rest), kw⟩) := by
  obtain ⟨hne, hall⟩ := hds
  cases ds with
  | nil => exact absurd rfl hne
  | cons d ds =>
    have hd : isdigit d = true := hall d (List.mem_cons_self _ _)
    have hbrace : d ≠ '{' := isdigit_ne d _ hd (by decide)
    rw [List.cons_append, getNextToken_tokenAt d _ kw (isdigit_not_isspace d hd) hbrace]
    have h := digitsFrom_append (d :: ds) c rest "" hall hc
    rw [List.cons_append] at h
    simp only [tokenAt, hd, if_true, number, h]
    simp [hdot]

/-- The function `stoi` on an integer literal that fits in an `int`. -/
theorem stoi_literal (ds : List Char) (hds : IsIntLiteral ds)
    (hmax : (decimalValue ds : Int) ≤ INT_MAX) :
    stoi ⟨ds⟩ = .ok (decimalValue ds : Int) := by
  obtain ⟨hne, hall⟩ := hds
  cases ds with
  | nil => exact absurd rfl hne
  | cons d ds =>
    have hd : isdigit d = true := hall d (List.mem_cons_self _ _)
    have hsp : isspace d = false := isdigit_not_isspace d hd
    have hminus : d ≠ '-' := isdigit_ne d _ hd (by decide)
    have hplus : d ≠ '+' := isdigit_ne d _ hd (by decide)
    have hval : stoiDigits (d :: ds) 0 = decimalValue (d :: ds) := stoiDigits_eq _ 0 hall
    have hmin : INT_MIN ≤ (decimalValue (d :: ds) : Int) := by
      have : (0 : Int) ≤ (decimalValue (d :: ds) : Int) := Int.ofNat_nonneg _
      have : INT_MIN ≤ 0 := by decide
      omega
    simp only [stoi, List.dropWhile, hsp, stoiSign, hminus, hplus, if_false, stoiValue, hd,
      if_true, hval, Bool.false_eq_true, hmin, hmax, and_self]

/-! ## Unfolding the parser at a known state

Each lemma unfolds one parser method at a state given by its lexer and its current
token, so that rewriting stops at a state that is not known yet. -/

theorem eat_mk (tktype : TokenType) (lx : Lexer) (ty : TokenType) (v : String) :
    eat tktype ⟨lx, ⟨ty, v⟩⟩ = if ty = tktype then Parser.new lx else .throw SyntaxError := rfl

theorem new_eq (lx : Lexer) : Parser.new lx = getNextToken lx >>= fun r => Res.ok ⟨r.2, r.1⟩ := rfl

theorem variable_mk (lx : Lexer) (ty : TokenType) (v : String) :
    variable_ ⟨lx, ⟨ty, v⟩⟩ =
      eat .ID ⟨lx, ⟨ty, v⟩⟩ >>= fun p => Res.ok (⟨⟨ty, v⟩⟩, p) := rfl

theorem factor_mk (fuel : Nat) (lx : Lexer) (ty : TokenType) (v : String) :
    factor (fuel + 1) ⟨lx, ⟨ty, v⟩⟩ =
      if ty = .IntegerConst then
        eat .IntegerConst ⟨lx, ⟨ty, v⟩⟩ >>= fun p => Res.ok (.Num ⟨ty, v⟩, p)
      else if ty = .RealConst then
        eat .RealConst ⟨lx, ⟨ty, v⟩⟩ >>= fun p => Res.ok (.Num ⟨ty, v⟩, p)
      else if ty = .LParen then
        eat .LParen ⟨lx, ⟨ty, v⟩⟩ >>= fun p =>
          expr fuel p >>= fun r => eat .RParen r.2 >>= fun p => Res.ok (r.1, p)
      else if ty = .PLUS then
        eat .PLUS ⟨lx, ⟨ty, v⟩⟩ >>= fun p =>
          factor fuel p >>= fun r => Res.ok (.UnaryOp ⟨ty, v⟩ r.1, r.2)
      else if ty = .MINUS then
        eat .MINUS ⟨lx, ⟨ty, v⟩⟩ >>= fun p =>
          factor fuel p >>= fun r => Res.ok (.UnaryOp ⟨ty, v⟩ r.1, r.2)
      else if ty = .ID then
        variable_ ⟨lx, ⟨ty, v⟩⟩ >>= fun r => Res.ok (.Var r.1, r.2)
      else .throw SyntaxError := by
  simp only [factor]; rfl

theorem term_mk (fuel : Nat) (lx : Lexer) (ty : TokenType) (v : String) :
    term (fuel + 1) ⟨lx, ⟨ty, v⟩⟩ =
      factor fuel ⟨lx, ⟨ty, v⟩⟩ >>= fun r => termLoop fuel r.1 r.2 := by
  simp only [term]

theorem termLoop_mk (fuel : Nat) (result : Expr) (lx : Lexer) (ty : TokenType) (v : String) :
    termLoop (fuel + 1) result ⟨lx, ⟨ty, v⟩⟩ =
      if ty = .MUL ∨ ty = .FloatDiv ∨ ty = .IntegerDiv then
        (if ty = .MUL then eat .MUL ⟨lx, ⟨ty, v⟩⟩
         else if ty = .IntegerDiv then eat .IntegerDiv ⟨lx, ⟨ty, v⟩⟩
         else if ty = .FloatDiv then eat .FloatDiv ⟨lx, ⟨ty, v⟩⟩
         else Res.ok ⟨lx, ⟨ty, v⟩⟩) >>= fun p =>
          factor fuel p >>= fun r => termLoop fuel (.BinOp result ⟨ty, v⟩ r.1) r.2
      else Res.ok (result, ⟨lx, ⟨ty, v⟩⟩) := by
  simp only [termLoop]
  split_ifs <;> rfl

theorem expr_mk (fuel : Nat) (lx : Lexer) (ty : TokenType) (v : String) :
    expr (fuel + 1) ⟨lx, ⟨ty, v⟩⟩ =
      term fuel ⟨lx, ⟨ty, v⟩⟩ >>= fun r => exprLoop fuel r.1 r.2 := by
  simp only [expr]

theorem exprLoop_mk (fuel : Nat) (result : Expr) (lx : Lexer) (ty : TokenType) (v : String) :
    exprLoop (fuel + 1) result ⟨lx, ⟨ty, v⟩⟩ =
      if ty = .PLUS ∨ ty = .MINUS then
        (if ty = .PLUS then eat .PLUS ⟨lx, ⟨ty, v⟩⟩
         else if ty = .MINUS then eat .MINUS ⟨lx, ⟨ty, v⟩⟩
         else Res.ok ⟨lx, ⟨ty, v⟩⟩) >>= fun p =>
          term fuel p >>= fun r => exprLoop fuel (.BinOp result ⟨ty, v⟩ r.1) r.2
      else Res.ok (result, ⟨lx, ⟨ty, v⟩⟩) := by
  simp only [exprLoop]
  split_ifs <;> rfl

theorem assignmentStatement_mk (fuel : Nat) (lx : Lexer) (ty : TokenType) (v : String) :
    assignmentStatement fuel ⟨lx, ⟨ty, v⟩⟩ =
      variable_ ⟨lx, ⟨ty, v⟩⟩ >>= fun l =>
        eat .Assign l.2 >>= fun p =>
          expr fuel p >>= fun r => Res.ok (.Assign l.1 l.2.currentToken_ r.1, r.2) := rfl

theorem compoundStatement_mk (fuel : Nat) (lx : Lexer) (ty : TokenType) (v : String) :
    compoundStatement (fuel + 1) ⟨lx, ⟨ty, v⟩⟩ =
      eat .Begin ⟨lx, ⟨ty, v⟩⟩ >>= fun p =>
        statementList fuel p >>= fun r =>
          eat .End r.2 >>= fun p => Res.ok (.Compound r.1, p) := by
  simp only [compoundStatement]; rfl

theorem statementList_mk (fuel : Nat) (lx : Lexer) (ty : TokenType) (v : String) :
    statementList (fuel + 1) ⟨lx, ⟨ty, v⟩⟩ =
      statement fuel ⟨lx, ⟨ty, v⟩⟩ >>= fun s =>
        statementListLoop fuel [s.1] s.2 >>= fun r =>
          if r.2.currentToken_.type_ = .ID then .throw SyntaxError else Res.ok (r.1, r.2) := by
  simp only [statementList]; rfl

theorem statementListLoop_mk (fuel : Nat) (result : List Stmt) (lx : Lexer) (ty : TokenType)
    (v : String) :
    statementListLoop (fuel + 1) result ⟨lx, ⟨ty, v⟩⟩ =
      if ty = .Semi then
        eat .Semi ⟨lx, ⟨ty, v⟩⟩ >>= fun p =>
          statement fuel p >>= fun s => statementListLoop fuel (result ++ [s.1]) s.2
      else Res.ok (result, ⟨lx, ⟨ty, v⟩⟩) := by
  simp only [statementListLoop]; rfl

theorem statement_mk (fuel : Nat) (lx : Lexer) (ty : TokenType) (v : String) :
    statement (fuel + 1) ⟨lx, ⟨ty, v⟩⟩ =
      if ty = .Begin then compoundStatement fuel ⟨lx, ⟨ty, v⟩⟩
      else if ty = .ID then assignmentStatement fuel ⟨lx, ⟨ty, v⟩⟩
      else Res.ok (Stmt.NoOp, ⟨lx, ⟨ty, v⟩⟩) := by
  simp only [statement]; rfl

theorem typeSpec_mk (lx : Lexer) (ty : TokenType) (v : String) :
    typeSpec ⟨lx, ⟨ty, v⟩⟩ =
      (if ty = .Integer then eat .Integer ⟨lx, ⟨ty, v⟩⟩ else eat .Real ⟨lx, ⟨ty, v⟩⟩) >>=
        fun p => Res.ok (⟨p.currentToken_⟩, p) := by
  simp only [typeSpec]
  split_ifs <;> rfl

theorem variableDeclarationLoop_mk (fuel : Nat) (varNodes : List Var) (lx : Lexer)
    (ty : TokenType) (v : String) :
    variableDeclarationLoop (fuel + 1) varNodes ⟨lx, ⟨ty, v⟩⟩ =
      if ty = .Comma then
        eat .Comma ⟨lx, ⟨ty, v⟩⟩ >>= fun p =>
          eat .ID p >>= fun q =>
            variableDeclarationLoop fuel (varNodes ++ [⟨p.currentToken_⟩]) q
      else Res.ok (varNodes, ⟨lx, ⟨ty, v⟩⟩) := by
  simp only [variableDeclarationLoop]; rfl

theorem variableDeclaration_mk (fuel : Nat) (lx : Lexer) (ty : TokenType) (v : String) :
    variableDeclaration fuel ⟨lx, ⟨ty, v⟩⟩ =
      eat .ID ⟨lx, ⟨ty, v⟩⟩ >>= fun p =>
        variableDeclarationLoop fuel [⟨⟨ty, v⟩⟩] p >>= fun r =>
          eat .Colon r.2 >>= fun p =>
            typeSpec p >>= fun t =>
              Res.ok (r.1.map (fun varNode => Decl.VarDecl varNode t.1), t.2) := rfl

theorem declarationsVarLoop_mk (fuel : Nat) (decls : List Decl) (lx : Lexer) (ty : TokenType)
    (v : String) :
    declarationsVarLoop (fuel + 1) decls ⟨lx, ⟨ty, v⟩⟩ =
      if ty = .ID then
        variableDeclaration fuel ⟨lx, ⟨ty, v⟩⟩ >>= fun r =>
          eat .Semi r.2 >>= fun p => declarationsVarLoop fuel (decls ++ r.1) p
      else Res.ok (decls, ⟨lx, ⟨ty, v⟩⟩) := by
  simp only [declarationsVarLoop]; rfl

theorem block_mk (fuel : Nat) (lx : Lexer) (ty : TokenType) (v : String) :
    block (fuel + 1) ⟨lx, ⟨ty, v⟩⟩ =
      declarations fuel ⟨lx, ⟨ty, v⟩⟩ >>= fun d =>
        compoundStatement fuel d.2 >>= fun c => Res.ok (.mk d.1 c.1, c.2) := by
  simp only [block]; rfl

theorem declarations_mk (fuel : Nat) (lx : Lexer) (ty : TokenType) (v : String) :
    declarations (fuel + 1) ⟨lx, ⟨ty, v⟩⟩ =
      (if ty = .Var then
        eat .Var ⟨lx, ⟨ty, v⟩⟩ >>= fun p => declarationsVarLoop fuel [] p
       else Res.ok ([], ⟨lx, ⟨ty, v⟩⟩)) >>= fun r => declarationsProcLoop fuel r.1 r.2 := by
  simp only [declarations]
  by_cases h : ty = .Var
  · simp only [h, if_true]
    cases eat TokenType.Var ⟨lx, ⟨TokenType.Var, v⟩⟩ with
    | ok p => cases declarationsVarLoop fuel [] p <;> rfl
    | throw e => rfl
    | ub => rfl
    | timeout => rfl
  · simp only [h, if_false]; rfl

theorem declarationsProcLoop_mk (fuel : Nat) (decls : List Decl) (lx : Lexer) (ty : TokenType)
    (v : String) :
    declarationsProcLoop (fuel + 1) decls ⟨lx, ⟨ty, v⟩⟩ =
      if ty = .Procedure then
        eat .Procedure ⟨lx, ⟨ty, v⟩⟩ >>= fun p =>
          eat .ID p >>= fun q =>
            eat .Semi q >>= fun r =>
              block fuel r >>= fun b =>
                eat .Semi b.2 >>= fun s =>
                  declarationsProcLoop fuel
                    (decls ++ [Decl.ProcedureDecl p.currentToken_.value_ b.1]) s
      else Res.ok (decls, ⟨lx, ⟨ty, v⟩⟩) := by
  simp only [declarationsProcLoop]; rfl

theorem program_mk (fuel : Nat) (lx : Lexer) (ty : TokenType) (v : String) :
    program fuel ⟨lx, ⟨ty, v⟩⟩ =
      eat .Program ⟨lx, ⟨ty, v⟩⟩ >>= fun p =>
        variable_ p >>= fun n =>
          eat .Semi n.2 >>= fun q =>
            block fuel q >>= fun b =>
              eat .Dot b.2 >>= fun r => Res.ok (⟨n.1.value_, b.1⟩, r) := rfl

theorem parse_mk (fuel : Nat) (lx : Lexer) (ty : TokenType) (v : String) :
    Parser.parse fuel ⟨lx, ⟨ty, v⟩⟩ =
      program fuel ⟨lx, ⟨ty, v⟩⟩ >>= fun r =>
        if r.2.currentToken_.type_ ≠ .TYPE_EOF then .throw SyntaxError
        else Res.ok (r.1, r.2) := rfl

/-! ## Programs with one assignment to `x` -/

theorem push_eq (s : String) (c : Char) : s.push c = ⟨s.data ++ [c]⟩ := rfl

theorem empty_data : ("" : String).data = [] := rfl

theorem getNextToken_null (kw : List (String × Token)) :
    getNextToken ⟨none, kw⟩ = .ok (⟨.TYPE_EOF, ""⟩, ⟨none, kw⟩) := by
  simp [getNextToken, getNextTokenLoop]

theorem getNextToken_space_literal (w : Char) (ds : List Char) (c : Char) (rest : List Char)
    (kw : List (String × Token)) (hw : isspace w = true) (hds : IsIntLiteral ds) :
    getNextToken ⟨some (w :: (ds ++ c :: rest)), kw⟩ =
      getNextToken ⟨some (ds ++ c :: rest), kw⟩ := by
  obtain ⟨hne, _⟩ := hds
  cases ds with
  | nil => exact absurd rfl hne
  | cons d ds => exact getNextToken_space w d _ kw hw

/-- Parsing `assignX body`: when `expr`, started on the text after `:=`, returns the
tree `e` and stops with `END` as current token and the cursor on the final dot, the
program is parsed to `assignXTree e`. -/
theorem parseText_assignX (body : List Char) (e : Expr) (kw : List (String × Token))
    (fuel : Nat)
    (hexpr : (Parser.new ⟨some (' ' :: (body ++ " END.".data)), keywordsPX⟩ >>= expr fuel) =
      .ok (e, ⟨⟨some ['.'], kw⟩, ⟨.End, "End"⟩⟩)) :
    parseText (fuel + 4) (assignX body) = .ok (assignXTree e) := by
  have e1 : "PROGRAM p; VAR x : INTEGER; BEGIN x := ".data =
      ['P','R','O','G','R','A','M',' ','p',';',' ','V','A','R',' ','x',' ',':',' ',
       'I','N','T','E','G','E','R',';',' ','B','E','G','I','N',' ','x',' ',':','=',' '] := rfl
  have e2 : " END.".data = [' ', 'E', 'N', 'D', '.'] := rfl
  simp only [new_eq, e2, keywordsPX, initialKeywords, List.cons_append, List.nil_append]
    at hexpr
  cases hg : getNextToken ⟨some (' ' :: (body ++ [' ', 'E', 'N', 'D', '.'])),
      [("PROGRAM", ⟨.Program, "PROGRAM"⟩), ("VAR", ⟨.Var, "VAR"⟩),
       ("DIV", ⟨.IntegerDiv, "DIV"⟩), ("INTEGER", ⟨.Integer, "INTEGER"⟩),
       ("REAL", ⟨.Real, "REAL"⟩), ("BEGIN", ⟨.Begin, "BEGIN"⟩), ("END", ⟨.End, "End"⟩),
       ("PROCEDURE", ⟨.Procedure, "Procedure"⟩), ("p", ⟨.ID, "p"⟩), ("x", ⟨.ID, "x"⟩)]⟩ with
  | ok r =>
    rw [hg] at hexpr
    simp only [ok_bind] at hexpr
    simp only [assignX, e1, e2, parseText, Lexer.new, List.cons_append, List.nil_append,
      List.append_assoc]
    simp (disch := decide) [getNextToken_space, getNextToken_tokenAt, tokenAt, _id,
      alnumsFrom, isalnum, isalpha, isdigit, findKeyword, initialKeywords, push_eq, empty_data,
      new_eq, parse_mk, program_mk, eat_mk, variable_mk, block_mk, declarations_mk,
      declarationsVarLoop_mk, declarationsProcLoop_mk, variableDeclaration_mk,
      variableDeclarationLoop_mk, typeSpec_mk, compoundStatement_mk, statementList_mk,
      statementListLoop_mk, statement_mk, assignmentStatement_mk, advance, ptrOf, peek, deref,
      Var.value_, hg, hexpr, getNextToken_null, assignXTree]
  | throw x => rw [hg] at hexpr; cases hexpr
  | ub => rw [hg] at hexpr; cases hexpr
  | timeout => rw [hg] at hexpr; cases hexpr

/-- Running `assignX body`: when moreover `e` evaluates to `v` in the empty store,
the run ends with the store that maps `x` to `v`. -/
theorem interpret_assignX (body : List Char) (e : Expr) (kw : List (String × Token))
    (fuel : Nat) (v : Int)
    (hexpr : (Parser.new ⟨some (' ' :: (body ++ " END.".data)), keywordsPX⟩ >>= expr fuel) =
      .ok (e, ⟨⟨some ['.'], kw⟩, ⟨.End, "End"⟩⟩))
    (hval : Interpreter.visitExpr e [] = .ok v) :
    interpret (fuel + 4) (assignX body) = .ok [("x", v)] := by
  simp [interpret, parseText_assignX body e kw fuel hexpr, assignXTree,
    Interpreter.visitProgram, Interpreter.visitBlock, Interpreter.visitDecls,
    Interpreter.visitDecl, Interpreter.visitStmt, Interpreter.visitStmts, hval,
    GlobalScope.assign, Var.value_]

/-- The expression `a + b * c` of three integer literals is parsed with the product
as right operand of the sum. -/
theorem expr_add_mul (a b c : List Char) (ha : IsIntLiteral a) (hb : IsIntLiteral b)
    (hc : IsIntLiteral c) (n : Nat) :
    (Parser.new ⟨some (' ' :: ((a ++ " + ".data ++ b ++ " * ".data ++ c) ++ " END.".data)),
        keywordsPX⟩ >>= expr (n + 5)) =
      .ok (.BinOp (.Num ⟨.IntegerConst, ⟨a⟩⟩) ⟨.PLUS, "+"⟩
            (.BinOp (.Num ⟨.IntegerConst, ⟨b⟩⟩) ⟨.MUL, "*"⟩ (.Num ⟨.IntegerConst, ⟨c⟩⟩)),
          ⟨⟨some ['.'], keywordsPX⟩, ⟨.End, "End"⟩⟩) := by
  have e2 : " END.".data = [' ', 'E', 'N', 'D', '.'] := rfl
  have e3 : " + ".data = [' ', '+', ' '] := rfl
  have e4 : " * ".data = [' ', '*', ' '] := rfl
  simp only [e2, e3, e4, List.cons_append, List.nil_append, List.append_assoc]
  simp (disch := first | decide | assumption) [getNextToken_space, getNextToken_tokenAt,
    tokenAt, _id, alnumsFrom, isalnum, isalpha, isdigit, findKeyword, initialKeywords,
    keywordsPX, push_eq, empty_data, new_eq, eat_mk, expr_mk, exprLoop_mk, term_mk,
    termLoop_mk, factor_mk, advance, ptrOf, getNextToken_space_literal, getNextToken_literal]

/-- C1 (operator precedence). For all integer literals `a`, `b`, `c` that fit in an
`int` and whose value `a + b * c` fits too, lexing, parsing and evaluating the program
with body `x := a + b * c` and `x` declared INTEGER ends with the global store that
maps `x` to `a + (b * c)`. -/
theorem precedence_mul_over_add (a b c : List Char) (ha : IsIntLiteral a)
    (hb : IsIntLiteral b) (hc : IsIntLiteral c)
    (hbmax : (decimalValue b : Int) ≤ INT_MAX) (hcmax : (decimalValue c : Int) ≤ INT_MAX)
    (hsum : (decimalValue a : Int) + decimalValue b * decimalValue c ≤ INT_MAX)
    (fuel : Nat) (hfuel : 9 ≤ fuel) :
    interpret fuel (assignX (a ++ " + ".data ++ b ++ " * ".data ++ c)) =
      .ok [("x", (decimalValue a : Int) + decimalValue b * decimalValue c)] := by
  obtain ⟨n, rfl⟩ : ∃ n, fuel = (n + 5) + 4 := ⟨fuel - 9, by omega⟩
  have hA0 : (0 : Int) ≤ decimalValue a := Int.ofNat_nonneg _
  have hB0 : (0 : Int) ≤ decimalValue b := Int.ofNat_nonneg _
  have hC0 : (0 : Int) ≤ decimalValue c := Int.ofNat_nonneg _
  have hBC0 : (0 : Int) ≤ (decimalValue b : Int) * decimalValue c := Int.mul_nonneg hB0 hC0
  have hmin : INT_MIN ≤ 0 := by decide
  have hamax : (decimalValue a : Int) ≤ INT_MAX := by omega
  refine interpret_assignX _ _ _ _ _ (expr_add_mul a b c ha hb hc n) ?_
  have h1 : toInt ((decimalValue b : Int) * decimalValue c) =
      .ok ((decimalValue b : Int) * decimalValue c) := by
    unfold toInt; rw [if_pos]; constructor <;> omega
  have h2 : toInt ((decimalValue a : Int) + decimalValue b * decimalValue c) =
      .ok ((decimalValue a : Int) + decimalValue b * decimalValue c) := by
    unfold toInt; rw [if_pos]; constructor <;> omega
  simp [Interpreter.visitExpr, stoi_literal a ha hamax, stoi_literal b hb hbmax,
    stoi_literal c hc hcmax, h1, h2]

/-- C1, at the program `x := 2 + 3 * 4`: the store maps `x` to 14. -/
theorem precedence_mul_over_add_witness :
    interpret 9 "PROGRAM p; VAR x : INTEGER; BEGIN x := 2 + 3 * 4 END." = .ok [("x", 14)] :=
  precedence_mul_over_add ['2'] ['3'] ['4'] (by decide) (by decide) (by decide) (by decide)
    (by decide) (by decide) 9 (by decide)

/-- The expression `a - b - c` of three integer literals is parsed with the first
difference as left operand of the second. -/
theorem expr_sub_sub (a b c : List Char) (ha : IsIntLiteral a) (hb : IsIntLiteral b)
    (hc : IsIntLiteral c) (n : Nat) :
    (Parser.new ⟨some (' ' :: ((a ++ " - ".data ++ b ++ " - ".data ++ c) ++ " END.".data)),
        keywordsPX⟩ >>= expr (n + 5)) =
      .ok (.BinOp (.BinOp (.Num ⟨.IntegerConst, ⟨a⟩⟩) ⟨.MINUS, "-"⟩
              (.Num ⟨.IntegerConst, ⟨b⟩⟩)) ⟨.MINUS, "-"⟩ (.Num ⟨.IntegerConst, ⟨c⟩⟩),
          ⟨⟨some ['.'], keywordsPX⟩, ⟨.End, "End"⟩⟩) := by
  have e2 : " END.".data = [' ', 'E', 'N', 'D', '.'] := rfl
  have e3 : " - ".data = [' ', '-', ' '] := rfl
  simp only [e2, e3, List.cons_append, List.nil_append, List.append_assoc]
  simp (disch := first | decide | assumption) [getNextToken_space, getNextToken_tokenAt,
    tokenAt, _id, alnumsFrom, isalnum, isalpha, isdigit, findKeyword, initialKeywords,
    keywordsPX, push_eq, empty_data, new_eq, eat_mk, expr_mk, exprLoop_mk, term_mk,
    termLoop_mk, factor_mk, advance, ptrOf, getNextToken_space_literal, getNextToken_literal]

/-- C2 (left-associativity of the additive operators). For all integer literals
`a`, `b`, `c` that fit in an `int` and such that `a - b - c` does not underflow, the
program with body `x := a - b - c` ends with the global store that maps `x` to
`(a - b) - c`: `Parser::expr` folds to the left. -/
theorem subtraction_left_assoc (a b c : List Char) (ha : IsIntLiteral a)
    (hb : IsIntLiteral b) (hc : IsIntLiteral c)
    (hamax : (decimalValue a : Int) ≤ INT_MAX) (hbmax : (decimalValue b : Int) ≤ INT_MAX)
    (hcmax : (decimalValue c : Int) ≤ INT_MAX)
    (hlow : INT_MIN ≤ (decimalValue a : Int) - decimalValue b - decimalValue c)
    (fuel : Nat) (hfuel : 9 ≤ fuel) :
    interpret fuel (assignX (a ++ " - ".data ++ b ++ " - ".data ++ c)) =
      .ok [("x", ((decimalValue a : Int) - decimalValue b) - decimalValue c)] := by
  obtain ⟨n, rfl⟩ : ∃ n, fuel = (n + 5) + 4 := ⟨fuel - 9, by omega⟩
  have hA0 : (0 : Int) ≤ decimalValue a := Int.ofNat_nonneg _
  have hB0 : (0 : Int) ≤ decimalValue b := Int.ofNat_nonneg _
  have hC0 : (0 : Int) ≤ decimalValue c := Int.ofNat_nonneg _
  refine interpret_assignX _ _ _ _ _ (expr_sub_sub a b c ha hb hc n) ?_
  have h1 : toInt ((decimalValue a : Int) - decimalValue b) =
      .ok ((decimalValue a : Int) - decimalValue b) := by
    unfold toInt; rw [if_pos]; constructor <;> omega
  have h2 : toInt ((decimalValue a : Int) - decimalValue b - decimalValue c) =
      .ok ((decimalValue a : Int) - decimalValue b - decimalValue c) := by
    unfold toInt; rw [if_pos]; constructor <;> omega
  simp [Interpreter.visitExpr, stoi_literal a ha hamax, stoi_literal b hb hbmax,
    stoi_literal c hc hcmax, h1, h2]

/-- C2, at the program `x := 10 - 2 - 3`: the store maps `x` to 5. -/
theorem subtraction_left_assoc_witness :
    interpret 9 "PROGRAM p; VAR x : INTEGER; BEGIN x := 10 - 2 - 3 END." = .ok [("x", 5)] :=
  subtraction_left_assoc ['1', '0'] ['2'] ['3'] (by decide) (by decide) (by decide)
    (by decide) (by decide) (by decide) (by decide) 9 (by decide)

/-! ## Chains of unary minus signs -/

theorem bind_assoc_res {α β γ : Type} (m : Res α) (f : α → Res β) (g : β → Res γ) :
    ((m >>= f) >>= g) = (m >>= fun a => f a >>= g) := by
  cases m <;> rfl

theorem expr_succ (fuel : Nat) (p : Parser) :
    expr (fuel + 1) p = term fuel p >>= fun r => exprLoop fuel r.1 r.2 := by
  obtain ⟨lx, ty, v⟩ := p
  exact expr_mk fuel lx ty v

theorem term_succ (fuel : Nat) (p : Parser) :
    term (fuel + 1) p = factor fuel p >>= fun r => termLoop fuel r.1 r.2 := by
  obtain ⟨lx, ty, v⟩ := p
  exact term_mk fuel lx ty v

/-- A run of white space before a character is skipped. -/
theorem getNextToken_spaces (ws : List Char) (c : Char) (rest : List Char)
    (kw : List (String × Token)) (hws : ∀ w ∈ ws, isspace w = true) :
    getNextToken ⟨some (ws ++ c :: rest), kw⟩ = getNextToken ⟨some (c :: rest), kw⟩ := by
  induction ws with
  | nil => rfl
  | cons w ws ih =>
    have hw : isspace w = true := hws w (List.mem_cons_self _ _)
    have ih' := ih (fun x hx => hws x (List.mem_cons_of_mem _ hx))
    cases ws with
    | nil => exact getNextToken_space w c rest kw hw
    | cons w2 ws2 =>
      rw [List.cons_append, List.cons_append, getNextToken_space w w2 _ kw hw]
      exact ih'

theorem tokenAt_minus (rest : List Char) (kw : List (String × Token)) :
    tokenAt '-' rest kw = .ok (⟨.MINUS, "-"⟩, ⟨ptrOf rest, kw⟩) := by
  simp (disch := decide) [tokenAt, isdigit, advance]

theorem minusChain_literal_cons (gaps : List (List Char)) (v : List Char) (c : Char)
    (rest : List Char) (hv : IsIntLiteral v) :
    ∃ h t, minusChain gaps ++ v ++ c :: rest = h :: t ∧ isspace h = false ∧ h ≠ '{' := by
  cases gaps with
  | nil =>
    obtain ⟨hne, hall⟩ := hv
    cases v with
    | nil => exact absurd rfl hne
    | cons d ds =>
      have hd : isdigit d = true := hall d (List.mem_cons_self _ _)
      exact ⟨d, ds ++ c :: rest, by simp [minusChain], isdigit_not_isspace d hd,
        isdigit_ne d _ hd (by decide)⟩
  | cons ws gs =>
    exact ⟨'-', ws ++ minusChain gs ++ v ++ c :: rest, by simp [minusChain], by decide,
      by decide⟩

/-- `Parser::factor` on a chain of minus signs followed by an integer literal: one
nested `UnaryOp` for each sign, around the `Num` of the literal; the parser is left
where it would start on the text after the literal. -/
theorem factor_minusChain (gaps : List (List Char)) :
    ∀ (fuel : Nat) (v : List Char) (c : Char) (rest : List Char) (kw : List (String × Token)),
      (∀ ws ∈ gaps, ∀ w ∈ ws, isspace w = true) → IsIntLiteral v → isdigit c = false →
      c ≠ '.' →
      (Parser.new ⟨some (minusChain gaps ++ v ++ c :: rest), kw⟩ >>=
          factor (fuel + gaps.length + 1)) =
        (Parser.new ⟨some (c :: rest), kw⟩ >>= fun p =>
          Res.ok (nestMinus gaps.length (.Num ⟨.IntegerConst, ⟨v⟩⟩), p)) := by
  induction gaps with
  | nil =>
    intro fuel v c rest kw _ hv hc hdot
    simp only [minusChain, List.nil_append, List.length_nil, Nat.add_zero, nestMinus]
    rw [new_eq, getNextToken_literal v c rest kw hv hc hdot]
    simp [factor_mk, eat_mk]
  | cons ws gs ih =>
    intro fuel v c rest kw hg hv hc hdot
    have hws : ∀ w ∈ ws, isspace w = true := hg ws (List.mem_cons_self _ _)
    have hgs : ∀ ws ∈ gs, ∀ w ∈ ws, isspace w = true :=
      fun x hx => hg x (List.mem_cons_of_mem _ hx)
    obtain ⟨h, t, hcons, _, _⟩ := minusChain_literal_cons gs v c rest hv
    have hskip : Parser.new ⟨some (ws ++ (minusChain gs ++ v ++ c :: rest)), kw⟩ =
        Parser.new ⟨some (minusChain gs ++ v ++ c :: rest), kw⟩ := by
      rw [new_eq, new_eq, hcons, getNextToken_spaces ws h t kw hws]
    have hptr : ptrOf (ws ++ (minusChain gs ++ v ++ c :: rest)) =
        some (ws ++ (minusChain gs ++ v ++ c :: rest)) := by
      rw [hcons]; cases ws <;> rfl
    have hstep := ih fuel v c rest kw hgs hv hc hdot
    have hfirst : Parser.new ⟨some (minusChain (ws :: gs) ++ v ++ c :: rest), kw⟩ =
        .ok ⟨⟨some (ws ++ (minusChain gs ++ v ++ c :: rest)), kw⟩, ⟨.MINUS, "-"⟩⟩ := by
      have hm : minusChain (ws :: gs) ++ v ++ c :: rest =
          '-' :: (ws ++ (minusChain gs ++ v ++ c :: rest)) := by
        simp [minusChain, List.append_assoc]
      rw [hm, new_eq, getNextToken_tokenAt '-' _ kw (by decide) (by decide), tokenAt_minus,
        hptr]
      rfl
    rw [hfirst, ok_bind]
    have hfuel : fuel + (ws :: gs).length + 1 = (fuel + gs.length + 1) + 1 := by
      simp only [List.length_cons]; omega
    rw [hfuel, factor_mk]
    simp only [reduceCtorEq, if_false, if_true, eat_mk, hskip]
    rw [← bind_assoc_res, hstep, bind_assoc_res]
    simp [nestMinus]

/-- `Parser::expr` on the text of `x := <minus chain> v END.`, after the `:=`. -/
theorem expr_minusChain (gaps : List (List Char)) (v : List Char) (fuel : Nat)
    (hgaps : ∀ ws ∈ gaps, ∀ w ∈ ws, isspace w = true) (hv : IsIntLiteral v) :
    (Parser.new ⟨some (' ' :: ((minusChain gaps ++ v) ++ " END.".data)), keywordsPX⟩ >>=
        expr (fuel + gaps.length + 3)) =
      .ok (nestMinus gaps.length (.Num ⟨.IntegerConst, ⟨v⟩⟩),
        ⟨⟨some ['.'], keywordsPX⟩, ⟨.End, "End"⟩⟩) := by
  have e2 : " END.".data = ' ' :: ['E', 'N', 'D', '.'] := rfl
  obtain ⟨h, t, hcons, _, _⟩ := minusChain_literal_cons gaps v ' ' ['E', 'N', 'D', '.'] hv
  have hskip : Parser.new ⟨some (' ' :: ((minusChain gaps ++ v) ++ " END.".data)), keywordsPX⟩ =
      Parser.new ⟨some (minusChain gaps ++ v ++ ' ' :: ['E', 'N', 'D', '.']), keywordsPX⟩ := by
    rw [e2, new_eq, new_eq, hcons, getNextToken_space ' ' h t keywordsPX (by decide)]
  have hfac := factor_minusChain gaps fuel v ' ' ['E', 'N', 'D', '.'] keywordsPX hgaps hv
    (by decide) (by decide)
  have hfuel : fuel + gaps.length + 3 = ((fuel + gaps.length + 1) + 1) + 1 := by omega
  have hexpr : expr (fuel + gaps.length + 3) = fun p =>
      (factor (fuel + gaps.length + 1) p >>= fun r =>
        termLoop (fuel + gaps.length + 1) r.1 r.2) >>= fun r =>
          exprLoop (fuel + gaps.length + 2) r.1 r.2 := by
    funext p
    rw [hfuel, expr_succ, term_succ]
  rw [hskip, hexpr, ← bind_assoc_res, ← bind_assoc_res, hfac]
  simp (disch := decide) [getNextToken_space, getNextToken_tokenAt, tokenAt, _id, alnumsFrom,
    isalnum, isalpha, isdigit, findKeyword, initialKeywords, keywordsPX, push_eq, empty_data,
    new_eq, exprLoop_mk, termLoop_mk]

/-- Evaluation of a literal under `n` unary minus signs: the literal for an even
`n`, its opposite for an odd `n`. -/
theorem visitExpr_nestMinus (n : Nat) (v : List Char) (g : GlobalScope)
    (hv : IsIntLiteral v) (hmax : (decimalValue v : Int) ≤ INT_MAX) :
    Interpreter.visitExpr (nestMinus n (.Num ⟨.IntegerConst, ⟨v⟩⟩)) g =
      .ok (if n % 2 = 0 then (decimalValue v : Int) else -(decimalValue v : Int)) := by
  have h0 : (0 : Int) ≤ decimalValue v := Int.ofNat_nonneg _
  have hmin : INT_MIN = -2147483648 := rfl
  have hmaxv : INT_MAX = 2147483647 := rfl
  induction n with
  | zero => simp [nestMinus, Interpreter.visitExpr, stoi_literal v hv hmax]
  | succ k ih =>
    simp only [nestMinus, Interpreter.visitExpr, reduceCtorEq, if_false, if_true, ih, ok_bind]
    by_cases hk : k % 2 = 0
    · have hk1 : ¬ (k + 1) % 2 = 0 := by omega
      simp only [hk, hk1, if_true, if_false, toInt]
      rw [if_pos]; constructor <;> omega
    · have hk1 : (k + 1) % 2 = 0 := by omega
      simp only [hk, hk1, if_true, if_false, toInt, neg_neg]
      rw [if_pos]; constructor <;> omega

/-- C3 (unary chaining). For every integer literal `v` that fits in an `int` and
every chain of `n` unary minus signs (white space allowed after each sign), the
program with body `x := <chain> v` is parsed to `n` nested `UnaryOp` nodes around
`Num v`, none collapsed, and its run leaves `x = v` for an even `n` and `x = -v` for
an odd `n`; a unary plus evaluates to the value of its operand. -/
theorem unary_minus_chain (gaps : List (List Char)) (v : List Char)
    (hgaps : ∀ ws ∈ gaps, ∀ w ∈ ws, isspace w = true) (hv : IsIntLiteral v)
    (hmax : (decimalValue v : Int) ≤ INT_MAX) (fuel : Nat) (hfuel : gaps.length + 7 ≤ fuel) :
    parseText fuel (assignX (minusChain gaps ++ v)) =
        .ok (assignXTree (nestMinus gaps.length (.Num ⟨.IntegerConst, ⟨v⟩⟩))) ∧
      interpret fuel (assignX (minusChain gaps ++ v)) =
        .ok [("x", if gaps.length % 2 = 0 then (decimalValue v : Int)
                   else -(decimalValue v : Int))] ∧
      ∀ (s : String) (e : Expr) (g : GlobalScope),
        Interpreter.visitExpr (.UnaryOp ⟨.PLUS, s⟩ e) g = Interpreter.visitExpr e g := by
  obtain ⟨k, rfl⟩ : ∃ k, fuel = (k + gaps.length + 3) + 4 := ⟨fuel - (gaps.length + 7), by omega⟩
  refine ⟨?_, ?_, ?_⟩
  · exact parseText_assignX _ _ _ _ (expr_minusChain gaps v k hgaps hv)
  · exact interpret_assignX _ _ _ _ _ (expr_minusChain gaps v k hgaps hv)
      (visitExpr_nestMinus gaps.length v [] hv hmax)
  · intro s e g
    simp [Interpreter.visitExpr]

/-- C3, at the programs `x := - -5` and `x := -5`: the first is parsed to two nested
`UnaryOp` nodes and leaves `x = 5`, the second leaves `x = -5`. -/
theorem unary_minus_chain_witness :
    parseText 9 "PROGRAM p; VAR x : INTEGER; BEGIN x := - -5 END." =
        .ok (assignXTree (.UnaryOp ⟨.MINUS, "-"⟩ (.UnaryOp ⟨.MINUS, "-"⟩
          (.Num ⟨.IntegerConst, "5"⟩)))) ∧
      interpret 9 "PROGRAM p; VAR x : INTEGER; BEGIN x := - -5 END." = .ok [("x", 5)] ∧
      interpret 8 "PROGRAM p; VAR x : INTEGER; BEGIN x := -5 END." = .ok [("x", -5)] :=
  ⟨(unary_minus_chain [[' '], []] ['5'] (by decide) (by decide) (by decide) 9 (by decide)).1,
   (unary_minus_chain [[' '], []] ['5'] (by decide) (by decide) (by decide) 9 (by decide)).2.1,
   (unary_minus_chain [[]] ['5'] (by decide) (by decide) (by decide) 8 (by decide)).2.1⟩

/-! ## Integer division -/

theorem tdiv_eq_truncQuot (a b : Int) : Int.tdiv a b = truncQuot a b := by
  rcases a with (_ | m) | m <;> rcases b with (_ | n) | n <;>
    simp [Int.tdiv, truncQuot, Int.sign, Int.natAbs]

theorem tdiv_in_range (a b : Int) (ha : INT_MIN ≤ a ∧ a ≤ INT_MAX) (hb0 : b ≠ 0)
    (hov : ¬ (a = INT_MIN ∧ b = -1)) :
    INT_MIN ≤ Int.tdiv a b ∧ Int.tdiv a b ≤ INT_MAX := by
  rcases a with m | m <;> rcases b with n | n
  · have h := Nat.div_le_self m n
    have h1 : ((m : Nat) : Int) ≤ 2147483647 := ha.2
    show (-2147483648 : Int) ≤ ((m / n : Nat) : Int) ∧ ((m / n : Nat) : Int) ≤ 2147483647
    generalize m / n = q at *
    omega
  · have h := Nat.div_le_self m (n + 1)
    have h1 : ((m : Nat) : Int) ≤ 2147483647 := ha.2
    show (-2147483648 : Int) ≤ -((m / (n + 1) : Nat) : Int) ∧
      -((m / (n + 1) : Nat) : Int) ≤ 2147483647
    generalize m / (n + 1) = q at *
    omega
  · have h := Nat.div_le_self (m + 1) n
    have h1 : (-2147483648 : Int) ≤ -(((m + 1 : Nat)) : Int) := ha.1
    show (-2147483648 : Int) ≤ -(((m + 1) / n : Nat) : Int) ∧
      -(((m + 1) / n : Nat) : Int) ≤ 2147483647
    generalize (m + 1) / n = q at *
    omega
  · have h1 : (-2147483648 : Int) ≤ -(((m + 1 : Nat)) : Int) := ha.1
    show (-2147483648 : Int) ≤ (((m + 1) / (n + 1) : Nat) : Int) ∧
      (((m + 1) / (n + 1) : Nat) : Int) ≤ 2147483647
    by_cases hn : n = 0
    · subst hn
      have hm : m + 1 ≠ 2147483648 := by
        intro hm
        apply hov
        constructor
        · show Int.negSucc m = -2147483648
          have : m = 2147483647 := by omega
          subst this
          rfl
        · rfl
      have h : (m + 1) / (0 + 1) = m + 1 := by simp
      rw [h]
      omega
    · have h : (m + 1) / (n + 1) ≤ (m + 1) / 2 :=
        Nat.div_le_div_left (by omega) (by decide)
      generalize (m + 1) / (n + 1) = q at *
      omega

/-- C4 (integer division). For all operands that evaluate to `int` values `a` and
`b` with `b ≠ 0`, the case `INT_MIN DIV -1` apart, `BinOp(DIV)` evaluates to the
quotient of `a` by `b` truncated toward zero; `x := 7 DIV 2` leaves `x = 3` and
`x := -7 DIV 2` leaves `x = -3`. -/
theorem integer_div_truncates (left right : Expr) (g : GlobalScope) (s : String) (a b : Int)
    (hl : Interpreter.visitExpr left g = .ok a) (hr : Interpreter.visitExpr right g = .ok b)
    (ha : INT_MIN ≤ a ∧ a ≤ INT_MAX) (hb0 : b ≠ 0) (hov : ¬ (a = INT_MIN ∧ b = -1)) :
    Interpreter.visitExpr (.BinOp left ⟨.IntegerDiv, s⟩ right) g = .ok (truncQuot a b) ∧
      interpret 9 "PROGRAM p; VAR x : INTEGER; BEGIN x := 7 DIV 2 END." = .ok [("x", 3)] ∧
      interpret 9 "PROGRAM p; VAR x : INTEGER; BEGIN x := -7 DIV 2 END." = .ok [("x", -3)] := by
  refine ⟨?_, by decide, by decide⟩
  have hrange := tdiv_in_range a b ha hb0 hov
  simp only [Interpreter.visitExpr, reduceCtorEq, if_false, if_true, hl, hr, ok_bind, hb0,
    toInt]
  rw [if_pos hrange, tdiv_eq_truncQuot]

/-- C4, at the operands `-7` and `2`: the quotient is `-3`, not `-4`. -/
theorem integer_div_truncates_witness :
    Interpreter.visitExpr (.BinOp (.UnaryOp ⟨.MINUS, "-"⟩ (.Num ⟨.IntegerConst, "7"⟩))
        ⟨.IntegerDiv, "DIV"⟩ (.Num ⟨.IntegerConst, "2"⟩)) [] = .ok (truncQuot (-7) 2) ∧
      truncQuot (-7) 2 = -3 :=
  ⟨(integer_div_truncates (.UnaryOp ⟨.MINUS, "-"⟩ (.Num ⟨.IntegerConst, "7"⟩))
    (.Num ⟨.IntegerConst, "2"⟩) [] "DIV" (-7) 2 (by decide) (by decide) (by decide)
    (by decide) (by decide)).1, by decide⟩

/-! ## Float division -/

theorem statement_succ (fuel : Nat) (p : Parser) :
    statement (fuel + 1) p =
      if p.currentToken_.type_ = .Begin then compoundStatement fuel p
      else if p.currentToken_.type_ = .ID then assignmentStatement fuel p
      else Res.ok (Stmt.NoOp, p) := by
  obtain ⟨lx, ty, v⟩ := p
  exact statement_mk fuel lx ty v

theorem statementListLoop_succ (fuel : Nat) (result : List Stmt) (p : Parser) :
    statementListLoop (fuel + 1) result p =
      if p.currentToken_.type_ = .Semi then
        eat .Semi p >>= fun q =>
          statement fuel q >>= fun s => statementListLoop fuel (result ++ [s.1]) s.2
      else Res.ok (result, p) := by
  obtain ⟨lx, ty, v⟩ := p
  exact statementListLoop_mk fuel result lx ty v

theorem statementList_succ (fuel : Nat) (p : Parser) :
    statementList (fuel + 1) p =
      statement fuel p >>= fun s =>
        statementListLoop fuel [s.1] s.2 >>= fun r =>
          if r.2.currentToken_.type_ = .ID then .throw SyntaxError else Res.ok (r.1, r.2) := by
  obtain ⟨lx, ty, v⟩ := p
  exact statementList_mk fuel lx ty v

theorem compoundStatement_succ (fuel : Nat) (p : Parser) :
    compoundStatement (fuel + 1) p =
      eat .Begin p >>= fun q =>
        statementList fuel q >>= fun r =>
          eat .End r.2 >>= fun q => Res.ok (.Compound r.1, q) := by
  obtain ⟨lx, ty, v⟩ := p
  exact compoundStatement_mk fuel lx ty v

/-- An assignment statement is parsed only from a state whose current token is an
identifier. -/
theorem assignmentStatement_ok_ID (fuel : Nat) (p : Parser) (r : Stmt × Parser)
    (h : assignmentStatement fuel p = .ok r) : p.currentToken_.type_ = .ID := by
  obtain ⟨lx, ty, v⟩ := p
  by_cases hty : ty = .ID
  · exact hty
  · simp [assignmentStatement_mk, variable_mk, eat_mk, hty] at h

/-- C8 (missing semicolon). From every parser state at `BEGIN` from which the first
statement is parsed as an assignment statement `s1` and is followed, with no `;`,
by an identifier (the first token of a second assignment statement),
`Parser::compoundStatement` fails with `SyntaxError`: it yields no `Compound`. -/
theorem missing_semicolon_rejected (fuel : Nat) (p p2 : Parser) (s1 : Stmt)
    (hs1 : (eat .Begin p >>= assignmentStatement fuel) = .ok (s1, p2))
    (hs2 : p2.currentToken_.type_ = .ID) :
    compoundStatement (fuel + 3) p = .throw SyntaxError := by
  cases heat : eat .Begin p with
  | ok p1 =>
    rw [heat, ok_bind] at hs1
    have hid : p1.currentToken_.type_ = .ID := assignmentStatement_ok_ID fuel p1 _ hs1
    rw [compoundStatement_succ, heat, ok_bind, statementList_succ, statement_succ]
    simp only [hid, reduceCtorEq, if_false, if_true, hs1, ok_bind, statementListLoop_succ,
      hs2, throw_bind]
  | throw x => rw [heat] at hs1; cases hs1
  | ub => rw [heat] at hs1; cases hs1
  | timeout => rw [heat] at hs1; cases hs1

/-- C8, at the text `BEGIN x := 1 y := 2 END`, the parser having read `BEGIN`. -/
theorem missing_semicolon_rejected_witness :
    compoundStatement 8
        ⟨⟨some " x := 1 y := 2 END".data, initialKeywords⟩, ⟨.Begin, "BEGIN"⟩⟩ =
      .throw SyntaxError :=
  missing_semicolon_rejected 5
    ⟨⟨some " x := 1 y := 2 END".data, initialKeywords⟩, ⟨.Begin, "BEGIN"⟩⟩
    ⟨⟨some " := 2 END".data,
      initialKeywords ++ [("x", ⟨.ID, "x"⟩), ("y", ⟨.ID, "y"⟩)]⟩, ⟨.ID, "y"⟩⟩
    (.Assign ⟨⟨.ID, "x"⟩⟩ ⟨.Assign, ":="⟩ (.Num ⟨.IntegerConst, "1"⟩))
    (by rfl) (by decide)

/-! ## Unterminated comment -/

theorem skipCommentFrom_unterminated (body : List Char) (h : '}' ∉ body) :
    skipCommentFrom body = .ub := by
  induction body with
  | nil => rfl
  | cons c rest ih =>
    have hc : c ≠ '}' := fun e => h (e ▸ List.mem_cons_self _ _)
    have hrest : '}' ∉ rest := fun hm => h (List.mem_cons_of_mem _ hm)
    simp [skipCommentFrom, hc, ih hrest]

/-- C10: on a comment that is never closed the lexer does not throw `LexError`:
`skipComment` reads `*currentPtr_` after the cursor has become null, which is
undefined behaviour. It holds at the text `{ no closing brace` and for every
comment body without `}`. -/
theorem unterminated_comment_undefined :
    getNextToken (Lexer.new "\x7b no closing brace") = .ub ∧
      getNextToken (Lexer.new "\x7b no closing brace") ≠ .throw LexError ∧
      ∀ (body : List Char) (kw : List (String × Token)), '}' ∉ body →
        getNextToken ⟨some ('{' :: body), kw⟩ = .ub := by
  refine ⟨by decide, by decide, ?_⟩
  intro body kw h
  rw [getNextToken_comment, skipCommentFrom_unterminated body h]
  rfl

/-! ## Facts on the symbol table -/

theorem symbolTable_find_assign (t : SymbolTable) (key : String) (symbol : Option Symbol)
    (name : String) :
    (t.assign key symbol).find name = if key = name then some symbol else t.find name := by
  induction t with
  | nil => simp [SymbolTable.assign, SymbolTable.find]
  | cons entry rest ih =>
    obtain ⟨k, v⟩ := entry
    by_cases hk : k = key
    · subst hk
      by_cases hn : k = name <;> simp [SymbolTable.assign, SymbolTable.find, hn]
    · by_cases hn : k = name
      · subst hn
        have hne : ¬ key = k := fun e => hk e.symm
        simp [SymbolTable.assign, SymbolTable.find, hk, hne]
      · simp [SymbolTable.assign, SymbolTable.find, hk, hn, ih]

theorem registered_define (t : SymbolTable) (symbol : Symbol) (name : String) :
    Registered (t.define symbol) name ↔ (symbol.name_ = name ∨ Registered t name) := by
  unfold Registered SymbolTable.define
  rw [symbolTable_find_assign]
  by_cases h : symbol.name_ = name <;> simp [h]

theorem registered_lookup (t : SymbolTable) (key name : String) :
    Registered (t.lookup key).2 name ↔ Registered t name := by
  unfold Registered SymbolTable.lookup
  cases hf : t.find key with
  | some v => simp
  | none =>
    simp only [symbolTable_find_assign]
    by_cases h : key = name
    · subst h; simp [hf]
    · simp [h]

theorem lookup_eq_none_iff (t : SymbolTable) (key : String) :
    (t.lookup key).1 = none ↔ ¬ Registered t key := by
  unfold Registered SymbolTable.lookup
  cases hf : t.find key with
  | some v => cases v <;> simp
  | none => simp

theorem registered_initBuiltins (name : String) :
    Registered initBuiltins name ↔ (name = "INTEGER" ∨ name = "REAL") := by
  unfold initBuiltins
  rw [registered_define, registered_define]
  simp [Registered, SymbolTable.find, Symbol.name_, eq_comm, or_comm]

/-! ## The semantic pass, characterised -/

theorem PassSpec.skip (t : SymbolTable) : PassSpec [] [] t (.ok t) :=
  Or.inl ⟨t, rfl, fun n => by simp, fun n hn => by simp at hn⟩

theorem PassSpec.seq {u1 d1 u2 d2 : List String} {t : SymbolTable} {r : Res SymbolTable}
    {f : SymbolTable → Res SymbolTable} (h1 : PassSpec u1 d1 t r)
    (h2 : ∀ t1, r = .ok t1 → PassSpec u2 d2 t1 (f t1)) :
    PassSpec (u1 ++ u2) (d1 ++ d2) t (r >>= f) := by
  rcases h1 with ⟨t1, hr, hreg, hused⟩ | ⟨m, hm, hnot, hr⟩
  · subst hr
    rw [ok_bind]
    rcases h2 t1 rfl with ⟨t2, hr2, hreg2, hused2⟩ | ⟨m, hm, hnot, hr2⟩
    · refine Or.inl ⟨t2, hr2, ?_, ?_⟩
      · intro n
        rw [hreg2, hreg, List.mem_append, or_assoc]
      · intro n hn
        rw [List.mem_append] at hn
        rcases hn with hn | hn
        · rcases hused n hn with h | h
          · exact Or.inl h
          · exact Or.inr (List.mem_append_left _ h)
        · rcases hused2 n hn with h | h
          · rcases (hreg n).1 h with h' | h'
            · exact Or.inl h'
            · exact Or.inr (List.mem_append_left _ h')
          · exact Or.inr (List.mem_append_right _ h)
    · refine Or.inr ⟨m, List.mem_append_right _ hm, ?_, hr2⟩
      intro hreg0
      exact hnot ((hreg m).2 (Or.inl hreg0))
  · subst hr
    exact Or.inr ⟨m, List.mem_append_left _ hm, hnot, rfl⟩

/-- The check made by `visit(Assign&)` and `visit(Var&)`: the name is looked up, and
the walk goes on only if the pointer is not null. -/
theorem PassSpec.check (t : SymbolTable) (name : String) (f : SymbolTable → Res SymbolTable)
    {u d : List String} (hf : ∀ t1, PassSpec u d t1 (f t1)) :
    PassSpec (name :: u) d t
      (match (t.lookup name).1 with
       | none => .throw (SemanticError name)
       | some _ => f (t.lookup name).2) := by
  cases hl : (t.lookup name).1 with
  | none =>
    exact Or.inr ⟨name, List.mem_cons_self _ _, (lookup_eq_none_iff t name).1 hl, rfl⟩
  | some sym =>
    have hreg : Registered t name := by
      by_contra hcon
      rw [(lookup_eq_none_iff t name).2 hcon] at hl
      cases hl
    rcases hf (t.lookup name).2 with ⟨t2, hr2, hreg2, hused2⟩ | ⟨m, hm, hnot, hr2⟩
    · refine Or.inl ⟨t2, hr2, ?_, ?_⟩
      · intro n
        rw [hreg2, registered_lookup]
      · intro n hn
        rcases List.mem_cons.1 hn with hn | hn
        · exact Or.inl (hn ▸ hreg)
        · rcases hused2 n hn with h | h
          · exact Or.inl ((registered_lookup t name n).1 h)
          · exact Or.inr h
    · refine Or.inr ⟨m, List.mem_cons_of_mem _ hm, ?_, hr2⟩
      intro h
      exact hnot ((registered_lookup t name m).2 h)

theorem visitExpr_passSpec (e : Expr) :
    ∀ t : SymbolTable, PassSpec e.varNames [] t (SymbolTableBuilder.visitExpr e t) := by
  induction e with
  | BinOp left _ right ihl ihr =>
    intro t
    have h := PassSpec.seq (ihl t) (fun t1 _ => ihr t1)
    simpa [Expr.varNames, SymbolTableBuilder.visitExpr] using h
  | UnaryOp _ e ih =>
    intro t
    simpa [Expr.varNames, SymbolTableBuilder.visitExpr] using ih t
  | Num _ =>
    intro t
    exact PassSpec.skip t
  | Var var =>
    intro t
    have h := PassSpec.check t var.value_ (fun t1 => Res.ok t1) (fun t1 => PassSpec.skip t1)
    simpa [Expr.varNames, SymbolTableBuilder.visitExpr] using h

mutual
theorem visitStmt_passSpec : ∀ (s : Stmt) (t : SymbolTable),
    PassSpec s.usedNames [] t (SymbolTableBuilder.visitStmt s t)
  | .Compound children, t => by
    simpa [Stmt.usedNames, SymbolTableBuilder.visitStmt] using visitStmts_passSpec children t
  | .Assign left _ right, t => by
    have h := PassSpec.check t left.value_ (SymbolTableBuilder.visitExpr right)
      (visitExpr_passSpec right)
    simpa [Stmt.usedNames, SymbolTableBuilder.visitStmt] using h
  | .NoOp, t => PassSpec.skip t
theorem visitStmts_passSpec : ∀ (cs : List Stmt) (t : SymbolTable),
    PassSpec (stmtsUsedNames cs) [] t (SymbolTableBuilder.visitStmts cs t)
  | [], t => PassSpec.skip t
  | child :: rest, t => by
    have h := PassSpec.seq (visitStmt_passSpec child t)
      (fun t1 _ => visitStmts_passSpec rest t1)
    simpa [stmtsUsedNames, SymbolTableBuilder.visitStmts] using h
end

theorem visitVarDecl_passSpec (varNode : Var) (typeNode : TypeNode) (t : SymbolTable) :
    PassSpec [] [varNode.value_] t
      (.ok (SymbolTableBuilder.visitVarDecl varNode typeNode t)) := by
  refine Or.inl ⟨_, rfl, ?_, fun n hn => by simp at hn⟩
  intro n
  simp only [SymbolTableBuilder.visitVarDecl, registered_define, registered_lookup,
    Symbol.name_, List.mem_singleton]
  constructor
  · rintro (h | h)
    · exact Or.inr h.symm
    · exact Or.inl h
  · rintro (h | h)
    · exact Or.inr h
    · exact Or.inl h.symm

mutual
theorem visitDecl_passSpec : ∀ (d : Decl) (t : SymbolTable),
    PassSpec d.usedNames d.declaredNames t (SymbolTableBuilder.visitDecl d t)
  | .VarDecl varNode typeNode, t => by
    simpa [Decl.usedNames, Decl.declaredNames, SymbolTableBuilder.visitDecl] using
      visitVarDecl_passSpec varNode typeNode t
  | .ProcedureDecl _ blk, t => by
    simpa [Decl.usedNames, Decl.declaredNames, SymbolTableBuilder.visitDecl] using
      visitBlock_passSpec blk t
theorem visitBlock_passSpec : ∀ (blk : Block) (t : SymbolTable),
    PassSpec blk.usedNames blk.declaredNames t (SymbolTableBuilder.visitBlock blk t)
  | .mk declarations compoundStatement, t => by
    have h := PassSpec.seq (visitDecls_passSpec declarations t)
      (fun t1 _ => visitStmt_passSpec compoundStatement t1)
    simpa [Block.usedNames, Block.declaredNames, SymbolTableBuilder.visitBlock] using h
theorem visitDecls_passSpec : ∀ (ds : List Decl) (t : SymbolTable),
    PassSpec (declsUsedNames ds) (declsDeclaredNames ds) t
      (SymbolTableBuilder.visitDecls ds t)
  | [], t => PassSpec.skip t
  | d :: rest, t => by
    have h := PassSpec.seq (visitDecl_passSpec d t) (fun t1 _ => visitDecls_passSpec rest t1)
    simpa [declsUsedNames, declsDeclaredNames, SymbolTableBuilder.visitDecls] using h
end

theorem declsUsedNames_of_varDecls (ds : List Decl) (h : ds.all Decl.isVarDecl = true) :
    declsUsedNames ds = [] := by
  induction ds with
  | nil => rfl
  | cons d rest ih =>
    simp only [List.all_cons, Bool.and_eq_true] at h
    cases d with
    | VarDecl v ty => simp [declsUsedNames, Decl.usedNames, ih h.2]
    | ProcedureDecl n b => simp [Decl.isVarDecl] at h

/-- C6 (undeclared-variable rejection). If a program uses, as target of an `Assign`
or as `Var` of an expression, an identifier `n` that no VAR declaration of the program
declares (an identifier is never the reserved word INTEGER or REAL), the semantic pass
throws the `SemanticError` of a used identifier `m` that was not registered when the
walk reached it: `m` is not a builtin name and, in a program without procedures, `m`
is declared nowhere. The pipeline then stops with that error: the evaluator is not
run, no store is produced. -/
theorem undeclared_variable_rejected (prog : Program) (n : String)
    (hused : n ∈ prog.usedNames) (hundeclared : n ∉ prog.declaredNames)
    (hident : n ≠ "INTEGER" ∧ n ≠ "REAL") :
    ∃ m, m ∈ prog.usedNames ∧ m ≠ "INTEGER" ∧ m ≠ "REAL" ∧
      (prog.hasNoProcedure = true → m ∉ prog.declaredNames) ∧
      semanticPass prog = .throw (SemanticError m) ∧
      ∀ (fuel : Nat) (text : String), parseText fuel text = .ok prog →
        run fuel text = .throw (SemanticError m) := by
  obtain ⟨name, blk⟩ := prog
  obtain ⟨ds, comp⟩ := blk
  simp only [Program.usedNames, Program.declaredNames, Block.usedNames, Block.declaredNames,
    List.mem_append] at hused hundeclared
  have hn0 : ¬ Registered initBuiltins n := by
    rw [registered_initBuiltins]
    exact fun h => h.elim hident.1 hident.2
  have key : ∃ m, (m ∈ declsUsedNames ds ∨ m ∈ comp.usedNames) ∧
      ¬ Registered initBuiltins m ∧
      (ds.all Decl.isVarDecl = true → m ∉ declsDeclaredNames ds) ∧
      (SymbolTableBuilder.visitDecls ds initBuiltins >>= SymbolTableBuilder.visitStmt comp) =
        .throw (SemanticError m) := by
    rcases visitDecls_passSpec ds initBuiltins with ⟨t1, hr, hreg, hu⟩ | ⟨m, hm, hnot, hr⟩
    · rw [hr, ok_bind]
      rcases visitStmt_passSpec comp t1 with ⟨t2, _, _, hu2⟩ | ⟨m, hm, hnot, hr2⟩
      · exfalso
        rcases hused with h | h
        · rcases hu n h with h' | h'
          · exact hn0 h'
          · exact hundeclared h'
        · rcases hu2 n h with h' | h'
          · rcases (hreg n).1 h' with h'' | h''
            · exact hn0 h''
            · exact hundeclared h''
          · simp at h'
      · exact ⟨m, Or.inr hm, fun h => hnot ((hreg m).2 (Or.inl h)),
          fun _ h => hnot ((hreg m).2 (Or.inr h)), hr2⟩
    · refine ⟨m, Or.inl hm, hnot, ?_, by rw [hr]; rfl⟩
      intro hflat
      rw [declsUsedNames_of_varDecls ds hflat] at hm
      simp at hm
  obtain ⟨m, hm, hnot, hflat, hsem⟩ := key
  rw [registered_initBuiltins, not_or] at hnot
  have hpass : semanticPass ⟨name, .mk ds comp⟩ = .throw (SemanticError m) := by
    simpa [semanticPass, SymbolTableBuilder.visitProgram, SymbolTableBuilder.visitBlock]
      using hsem
  refine ⟨m, ?_, hnot.1, hnot.2, ?_, hpass, ?_⟩
  · simpa [Program.usedNames, Block.usedNames] using hm
  · simpa [Program.hasNoProcedure, Program.declaredNames, Block.declaredNames] using hflat
  · intro fuel text hparse
    simp [run, hparse, hpass]

/-- C6, at the program `PROGRAM p; VAR x : INTEGER; BEGIN y := 1 END.`: its tree is
`undeclaredTargetTree`, and the semantic pass throws the error of a used name that
is declared nowhere (here `y`). -/
theorem undeclared_variable_rejected_witness :
    parseText 9 "PROGRAM p; VAR x : INTEGER; BEGIN y := 1 END." = .ok undeclaredTargetTree ∧
      semanticPass undeclaredTargetTree = .throw (SemanticError "y") ∧
      ∃ m, m ∈ undeclaredTargetTree.usedNames ∧ m ≠ "INTEGER" ∧ m ≠ "REAL" ∧
        (undeclaredTargetTree.hasNoProcedure = true → m ∉ undeclaredTargetTree.declaredNames) ∧
        semanticPass undeclaredTargetTree = .throw (SemanticError m) ∧
        ∀ (fuel : Nat) (text : String), parseText fuel text = .ok undeclaredTargetTree →
          run fuel text = .throw (SemanticError m) :=
  ⟨by rfl, by rfl,
    undeclared_variable_rejected undeclaredTargetTree "y" (by decide) (by decide) (by decide)⟩

/-! ## Reading a variable that has no value -/

theorem globalScope_find_assign (g : GlobalScope) (key : String) (value : Int)
    (name : String) :
    (g.assign key value).find name = if key = name then some value else g.find name := by
  induction g with
  | nil => simp [GlobalScope.assign, GlobalScope.find]
  | cons entry rest ih =>
    obtain ⟨k, v⟩ := entry
    by_cases hk : k = key
    · subst hk
      by_cases hn : k = name <;> simp [GlobalScope.assign, GlobalScope.find, hn]
    · by_cases hn : k = name
      · subst hn
        have hne : ¬ key = k := fun e => hk e.symm
        simp [GlobalScope.assign, GlobalScope.find, hk, hne]
      · simp [GlobalScope.assign, GlobalScope.find, hk, hn, ih]

theorem bind_eq_throw {α β : Type} (m : Res α) (f : α → Res β) (e : Exn)
    (h : (m >>= f) = .throw e) : m = .throw e ∨ ∃ a, m = .ok a ∧ f a = .throw e := by
  cases m with
  | ok a => exact Or.inr ⟨a, rfl, h⟩
  | throw x =>
    rw [throw_bind] at h
    exact Or.inl (congrArg Res.throw (Res.throw.inj h))
  | ub => cases h
  | timeout => cases h

theorem toInt_ne_throw (z : Int) (e : Exn) : toInt z ≠ .throw e := by
  unfold toInt; split <;> simp

theorem floatDiv_ne_throw (a b : Int) (e : Exn) : floatDiv a b ≠ .throw e := by
  unfold floatDiv
  split
  · simp
  · exact toInt_ne_throw _ e

theorem stoiValue_ne_runtimeError (negative : Bool) (cs : List Char) :
    stoiValue negative cs ≠ .throw RuntimeError := by
  cases cs with
  | nil => simp [stoiValue, RuntimeError]
  | cons c rest =>
    simp only [stoiValue]
    split_ifs <;> simp [RuntimeError]

theorem stoi_ne_runtimeError (str : String) : stoi str ≠ .throw RuntimeError :=
  stoiValue_ne_runtimeError _ _

/-- Two operands and an operation that does not throw: a thrown error comes from an
operand. -/
theorem binop_eq_throw (l r : Res Int) (op : Int → Int → Res Int) (e : Exn)
    (hop : ∀ a b, op a b ≠ .throw e)
    (h : (l >>= fun a => r >>= fun b => op a b) = .throw e) : l = .throw e ∨ r = .throw e := by
  rcases bind_eq_throw _ _ _ h with h1 | ⟨a, _, h2⟩
  · exact Or.inl h1
  · rcases bind_eq_throw _ _ _ h2 with h3 | ⟨b, _, h4⟩
    · exact Or.inr h3
    · exact absurd h4 (hop a b)

/-- The evaluation of an expression throws `RuntimeError` only if one of its `Var`
nodes names a variable that has no entry in the store. -/
theorem visitExpr_runtimeError (e : Expr) (g : GlobalScope)
    (h : Interpreter.visitExpr e g = .throw RuntimeError) :
    ∃ n ∈ e.varNames, g.find n = none := by
  induction e with
  | BinOp left op right ihl ihr =>
    have hcases : Interpreter.visitExpr left g = .throw RuntimeError ∨
        Interpreter.visitExpr right g = .throw RuntimeError := by
      simp only [Interpreter.visitExpr] at h
      split_ifs at h
      · exact binop_eq_throw _ _ (fun a b => toInt (a + b)) _ (fun a b => toInt_ne_throw _ _) h
      · exact binop_eq_throw _ _ (fun a b => toInt (a - b)) _ (fun a b => toInt_ne_throw _ _) h
      · exact binop_eq_throw _ _ (fun a b => toInt (a * b)) _ (fun a b => toInt_ne_throw _ _) h
      · refine binop_eq_throw _ _ (fun a b => if b = 0 then .ub else toInt (Int.tdiv a b)) _
          (fun a b => ?_) h
        by_cases hb : b = 0
        · simp [hb]
        · simp only [hb, if_false]
          exact toInt_ne_throw _ _
      · exact binop_eq_throw _ _ floatDiv _ (fun a b => floatDiv_ne_throw a b _) h
    rcases hcases with hl | hr
    · obtain ⟨n, hn, hf⟩ := ihl hl
      exact ⟨n, by simp [Expr.varNames, hn], hf⟩
    · obtain ⟨n, hn, hf⟩ := ihr hr
      exact ⟨n, by simp [Expr.varNames, hn], hf⟩
  | UnaryOp op e ih =>
    simp only [Interpreter.visitExpr] at h
    split_ifs at h
    · exact ih h
    · rcases bind_eq_throw _ _ _ h with h1 | ⟨a, _, h2⟩
      · exact ih h1
      · exact absurd h2 (toInt_ne_throw _ _)
  | Num token =>
    simp only [Interpreter.visitExpr] at h
    exact absurd h (stoi_ne_runtimeError _)
  | Var var =>
    simp only [Interpreter.visitExpr] at h
    cases hf : g.find var.value_ with
    | none => exact ⟨var.value_, by simp [Expr.varNames], hf⟩
    | some v => rw [hf] at h; cases h

theorem visitDecls_eq (ds : List Decl) (g : GlobalScope) :
    Interpreter.visitDecls ds g = .ok g := by
  induction ds with
  | nil => rfl
  | cons d rest ih => simp [Interpreter.visitDecls, Interpreter.visitDecl, ih]

theorem visitBlock_eq (blk : Block) (g : GlobalScope) :
    Interpreter.visitBlock blk g = Interpreter.visitStmt blk.compoundStatement_ g := by
  obtain ⟨ds, comp⟩ := blk
  simp [Interpreter.visitBlock, visitDecls_eq, Block.compoundStatement_]

mutual
theorem visitStmt_assignedAfter : ∀ (s : Stmt) (assigned after : List String)
    (g : GlobalScope), (∀ n ∈ assigned, g.find n ≠ none) →
    s.assignedAfter assigned = some after →
    Interpreter.visitStmt s g ≠ .throw RuntimeError ∧
      ∀ g', Interpreter.visitStmt s g = .ok g' → ∀ n ∈ after, g'.find n ≠ none
  | .Compound children, assigned, after, g, hg, h => by
    simp only [Stmt.assignedAfter] at h
    simpa [Interpreter.visitStmt] using visitStmts_assignedAfter children assigned after g hg h
  | .Assign left _ right, assigned, after, g, hg, h => by
    simp only [Stmt.assignedAfter] at h
    split_ifs at h with hall
    cases h
    rw [List.all_eq_true] at hall
    simp only [Interpreter.visitStmt]
    constructor
    · intro hthrow
      rcases bind_eq_throw _ _ _ hthrow with h1 | ⟨a, _, h2⟩
      · obtain ⟨n, hn, hf⟩ := visitExpr_runtimeError right g h1
        exact hg n (by simpa using hall n hn) hf
      · cases h2
    · intro g' hok n hn
      cases hv : Interpreter.visitExpr right g with
      | ok v =>
        rw [hv, ok_bind] at hok
        cases hok
        rw [globalScope_find_assign]
        by_cases hkey : left.value_ = n
        · simp [hkey]
        · simp only [hkey, if_false]
          rcases List.mem_cons.1 hn with h1 | h1
          · exact absurd h1.symm hkey
          · exact hg n h1
      | throw e => rw [hv] at hok; cases hok
      | ub => rw [hv] at hok; cases hok
      | timeout => rw [hv] at hok; cases hok
  | .NoOp, assigned, after, g, hg, h => by
    simp only [Stmt.assignedAfter] at h
    cases h
    simp only [Interpreter.visitStmt]
    exact ⟨by simp, fun g' hok => by cases hok; exact hg⟩
theorem visitStmts_assignedAfter : ∀ (cs : List Stmt) (assigned after : List String)
    (g : GlobalScope), (∀ n ∈ assigned, g.find n ≠ none) →
    stmtsAssignedAfter cs assigned = some after →
    Interpreter.visitStmts cs g ≠ .throw RuntimeError ∧
      ∀ g', Interpreter.visitStmts cs g = .ok g' → ∀ n ∈ after, g'.find n ≠ none
  | [], assigned, after, g, hg, h => by
    simp only [stmtsAssignedAfter] at h
    cases h
    simp only [Interpreter.visitStmts]
    exact ⟨by simp, fun g' hok => by cases hok; exact hg⟩
  | child :: rest, assigned, after, g, hg, h => by
    simp only [stmtsAssignedAfter] at h
    cases hc : child.assignedAfter assigned with
    | none => rw [hc] at h; cases h
    | some mid =>
      rw [hc] at h
      obtain ⟨hne, hmid⟩ := visitStmt_assignedAfter child assigned mid g hg hc
      simp only [Interpreter.visitStmts]
      cases hv : Interpreter.visitStmt child g with
      | ok g1 =>
        simpa using visitStmts_assignedAfter rest mid after g1 (hmid g1 hv) h
      | throw e =>
        refine ⟨?_, fun g' hok => by cases hok⟩
        intro hthrow
        rw [throw_bind] at hthrow
        exact hne (hv.trans (congrArg Res.throw (Res.throw.inj hthrow)))
      | ub => exact ⟨by simp, fun g' hok => by cases hok⟩
      | timeout => exact ⟨by simp, fun g' hok => by cases hok⟩
end

/-- C7, as stated, fails at the program `PROGRAM p; VAR x, y : INTEGER; BEGIN x := y
END.`: the semantic pass accepts it, and the evaluation throws `RuntimeError`. -/
theorem runtime_error_after_semantic_pass :
    parseText 9 "PROGRAM p; VAR x, y : INTEGER; BEGIN x := y END." = .ok readBeforeAssignTree ∧
      (∃ t, semanticPass readBeforeAssignTree = .ok t) ∧
      Interpreter.visitProgram readBeforeAssignTree [] = .throw RuntimeError ∧
      run 9 "PROGRAM p; VAR x, y : INTEGER; BEGIN x := y END." = .throw RuntimeError :=
  ⟨by rfl, ⟨_, rfl⟩, by rfl, by rfl⟩

/-- C7, amended. For every program that has passed the semantic pass and that
assigns every variable before reading it (each `Var` read in an expression names a
variable that an earlier assignment has written), the evaluation from the empty
store never fails with `RuntimeError`. -/
theorem no_runtime_error_when_assigned_first (prog : Program) (t : SymbolTable)
    (after : List String) (_hsem : semanticPass prog = .ok t)
    (hassigned : prog.block_.compoundStatement_.assignedAfter [] = some after) :
    Interpreter.visitProgram prog [] ≠ .throw RuntimeError := by
  rw [Interpreter.visitProgram, visitBlock_eq]
  exact (visitStmt_assignedAfter _ [] after [] (fun n hn => by simp at hn) hassigned).1

/-- C7 amended, at the program `PROGRAM p; VAR x, y : INTEGER; BEGIN x := 2; y := x
END.`. -/
theorem no_runtime_error_when_assigned_first_witness :
    parseText 9 "PROGRAM p; VAR x, y : INTEGER; BEGIN x := 2; y := x END." =
        .ok assignThenReadTree ∧
      Interpreter.visitProgram assignThenReadTree [] ≠ .throw RuntimeError :=
  ⟨by rfl,
    no_runtime_error_when_assigned_first assignThenReadTree
      [("INTEGER", some (.BuiltinTypeSymbol "INTEGER")), ("REAL", some (.BuiltinTypeSymbol "REAL")),
        (";", none), ("x", some (.VarSymbol "x" none)), ("y", some (.VarSymbol "y" none))]
      ["y", "x"] (by rfl) (by rfl)⟩

/-! ## Comments

A comment is inserted at a token boundary of a text: a place where the loop of
`getNextToken` is at its top with the cursor there. -/

theorem ptrOf_of_ne_nil (l : List Char) (h : l ≠ []) : ptrOf l = some l := by
  cases l with
  | nil => exact absurd rfl h
  | cons c r => rfl

theorem remaining_mk (p : Ptr) (kw : List (String × Token)) :
    Lexer.remaining ⟨p, kw⟩ = ptrLen p := by
  cases p <;> rfl

/-- One white-space character at the cursor: the loop goes on after it. -/
theorem getNextToken_space_one (c : Char) (r : List Char) (kw : List (String × Token))
    (hc : isspace c = true) :
    getNextToken ⟨some (c :: r), kw⟩ = getNextToken ⟨ptrOf r, kw⟩ := by
  cases r with
  | nil =>
    simp [getNextToken, Lexer.remaining, getNextTokenLoop, hc, skipWhiteSpace,
      skipWhiteSpaceFrom, ptrOf]
  | cons d r' => exact getNextToken_space c d r' kw hc

theorem digitsFrom_eq (l : List Char) :
    ∀ acc : String, digitsFrom l acc =
      (⟨acc.data ++ l.takeWhile isdigit⟩, ptrOf (l.dropWhile isdigit)) := by
  induction l with
  | nil => intro acc; simp [digitsFrom, ptrOf]
  | cons c r ih =>
    intro acc
    by_cases hc : isdigit c = true
    · simp [digitsFrom, hc, ih, String.push, List.takeWhile, List.dropWhile]
    · simp [digitsFrom, hc, List.takeWhile, List.dropWhile, ptrOf]

theorem alnumsFrom_eq (l : List Char) :
    ∀ acc : String, alnumsFrom l acc =
      (⟨acc.data ++ l.takeWhile isalnum⟩, ptrOf (l.dropWhile isalnum)) := by
  induction l with
  | nil => intro acc; simp [alnumsFrom, ptrOf]
  | cons c r ih =>
    intro acc
    by_cases hc : isalnum c = true
    · simp [alnumsFrom, hc, ih, String.push, List.takeWhile, List.dropWhile]
    · simp [alnumsFrom, hc, List.takeWhile, List.dropWhile, ptrOf]

theorem length_dropWhile_le' (P : Char → Bool) (l : List Char) :
    (l.dropWhile P).length ≤ l.length := by
  induction l with
  | nil => simp
  | cons c r ih =>
    by_cases hc : P c = true
    · simp only [List.dropWhile, hc, List.length_cons]; omega
    · simp [List.dropWhile, hc]

/-- A scan that stops at or before the end of `s`, in the text `s ++ rest`, stops at
the same place and reads the same characters in the text `s ++ X`, when `X` starts
with a character that stops the scan. -/
theorem scan_local (P : Char → Bool) (x : Char) (X' : List Char) (hx : P x = false)
    (rest : List Char) (s : List Char)
    (hlen : rest.length ≤ ((s ++ rest).dropWhile P).length) :
    ∃ s1, (s ++ rest).dropWhile P = s1 ++ rest ∧
      (s ++ x :: X').dropWhile P = s1 ++ x :: X' ∧
      (s ++ x :: X').takeWhile P = (s ++ rest).takeWhile P := by
  induction s with
  | nil =>
    refine ⟨[], ?_, ?_, ?_⟩
    · cases rest with
      | nil => rfl
      | cons c r =>
        by_cases hc : P c = true
        · have h1 := length_dropWhile_le' P r
          simp only [List.nil_append, List.dropWhile, hc, List.length_cons] at hlen
          omega
        · simp [List.dropWhile, hc]
    · simp [List.dropWhile, hx]
    · cases rest with
      | nil => simp [List.takeWhile, hx]
      | cons c r =>
        by_cases hc : P c = true
        · have h1 := length_dropWhile_le' P r
          simp only [List.nil_append, List.dropWhile, hc, List.length_cons] at hlen
          omega
        · simp [List.takeWhile, hc, hx]
  | cons c s' ih =>
    by_cases hc : P c = true
    · simp only [List.cons_append, List.dropWhile, hc] at hlen
      obtain ⟨s1, h1, h2, h3⟩ := ih hlen
      exact ⟨s1, by simp [List.dropWhile, hc, h1], by simp [List.dropWhile, hc, h2],
        by simp [List.takeWhile, hc, h3]⟩
    · exact ⟨c :: s', by simp [List.dropWhile, hc], by simp [List.dropWhile, hc],
        by simp [List.takeWhile, hc]⟩

theorem tokenAt_punctuation (c : Char) (r : List Char) (kw : List (String × Token))
    (hd : isdigit c = false) (ha : isalpha c = false) (hcolon : c ≠ ':') :
    tokenAt c r kw =
      match punctuation c with
      | some t => .ok (t, ⟨ptrOf r, kw⟩)
      | none => .throw LexError := by
  unfold tokenAt punctuation
  simp only [hd, ha, hcolon, Bool.false_eq_true, if_false, advance]
  by_cases h1 : c = '+'
  · simp [h1]
  by_cases h2 : c = '-'
  · simp [h2]
  by_cases h3 : c = '*'
  · simp [h3]
  by_cases h4 : c = '('
  · simp [h4]
  by_cases h5 : c = ')'
  · simp [h5]
  by_cases h6 : c = ';'
  · simp [h6]
  by_cases h7 : c = '.'
  · simp [h7]
  by_cases h8 : c = ','
  · simp [h8]
  by_cases h9 : c = '/'
  · simp [h9]
  simp [h1, h2, h3, h4, h5, h6, h7, h8, h9]

theorem tokenAt_digit (c : Char) (r : List Char) (kw : List (String × Token))
    (hd : isdigit c = true) :
    tokenAt c r kw = number (some (c :: r)) >>= fun tp => Res.ok (tp.1, ⟨tp.2, kw⟩) := by
  unfold tokenAt
  simp only [hd, if_true]
  rfl

theorem tokenAt_alpha (c : Char) (r : List Char) (kw : List (String × Token))
    (ha : isalpha c = true) : tokenAt c r kw = _id ⟨some (c :: r), kw⟩ := by
  have hd : isdigit c = false := by
    simp only [isalpha, isdigit, Bool.or_eq_true, Bool.and_eq_true, decide_eq_true_eq] at *
    simp only [Bool.and_eq_false_imp, decide_eq_true_eq, decide_eq_false_iff_not]
    omega
  have h1 : c ≠ '+' := fun e => by subst e; simp [isalpha] at ha
  have h2 : c ≠ '-' := fun e => by subst e; simp [isalpha] at ha
  have h3 : c ≠ '*' := fun e => by subst e; simp [isalpha] at ha
  have h4 : c ≠ '(' := fun e => by subst e; simp [isalpha] at ha
  have h5 : c ≠ ')' := fun e => by subst e; simp [isalpha] at ha
  unfold tokenAt
  simp only [hd, ha, h1, h2, h3, h4, h5, Bool.false_eq_true, if_false, if_true]

theorem tokenAt_colon (r : List Char) (kw : List (String × Token)) :
    tokenAt ':' r kw =
      match r with
      | [] => .ub
      | d :: r2 =>
        if d = '=' then .ok (⟨.Assign, ":="⟩, ⟨ptrOf r2, kw⟩)
        else .ok (⟨.Colon, ":"⟩, ⟨some (d :: r2), kw⟩) := by
  have hd : isdigit ':' = false := by decide
  have ha : isalpha ':' = false := by decide
  unfold tokenAt
  simp only [hd, ha, Bool.false_eq_true, if_false, Char.reduceEq, if_true]
  cases r with
  | nil => rfl
  | cons d r2 =>
    by_cases hdq : d = '='
    · simp [peek, ptrOf, deref, hdq, advance]
    · simp [peek, ptrOf, deref, hdq, advance]

theorem number_eq (c : Char) (r : List Char) :
    number (some (c :: r)) =
      match ptrOf ((c :: r).dropWhile isdigit) with
      | none => .ub
      | some [] => .ub
      | some (d :: rest1) =>
        if d = '.' then
          .ok (⟨.RealConst,
            ⟨(String.push ⟨("" : String).data ++ (c :: r).takeWhile isdigit⟩ d).data ++
              rest1.takeWhile isdigit⟩⟩, ptrOf (rest1.dropWhile isdigit))
        else
          .ok (⟨.IntegerConst, ⟨("" : String).data ++ (c :: r).takeWhile isdigit⟩⟩,
            some (d :: rest1)) := by
  simp only [number, digitsFrom_eq]

theorem ptrOf_cons (d : Char) (r : List Char) : ptrOf (d :: r) = some (d :: r) := rfl

theorem number_local (c : Char) (s rest X' : List Char) (t : Token) (p : Ptr)
    (h : number (some (c :: (s ++ rest))) = .ok (t, p)) (hlen : rest.length ≤ ptrLen p) :
    ∃ s1, p = ptrOf (s1 ++ rest) ∧
      number (some (c :: (s ++ '{' :: X'))) = .ok (t, some (s1 ++ '{' :: X')) := by
  have hx : isdigit '{' = false := by decide
  rw [number_eq] at h
  rw [number_eq]
  cases hD : (c :: (s ++ rest)).dropWhile isdigit with
  | nil => rw [hD] at h; simp [ptrOf] at h
  | cons d rest1 =>
    rw [hD] at h
    simp only [ptrOf_cons] at h
    have hlen1 : rest.length ≤ ((c :: s ++ rest).dropWhile isdigit).length := by
      have e : c :: s ++ rest = c :: (s ++ rest) := rfl
      rw [e, hD]
      by_cases hd : d = '.'
      · simp only [hd, if_true, Res.ok.injEq, Prod.mk.injEq] at h
        have h2 := length_dropWhile_le' isdigit rest1
        rw [← h.2, ptrLen_ptrOf] at hlen
        simp only [List.length_cons]
        omega
      · simp only [hd, if_false, Res.ok.injEq, Prod.mk.injEq] at h
        rw [← h.2] at hlen
        exact hlen
    obtain ⟨s1, h1, h2, h3⟩ := scan_local isdigit '{' X' hx rest (c :: s) hlen1
    have e1 : c :: s ++ rest = c :: (s ++ rest) := rfl
    have e2 : c :: s ++ '{' :: X' = c :: (s ++ '{' :: X') := rfl
    rw [e1] at h1 h3
    rw [e2] at h2 h3
    rw [h2, h3]
    rw [hD] at h1
    cases s1 with
    | nil =>
      simp only [List.nil_append] at h1
      by_cases hd : d = '.'
      · exfalso
        simp only [hd, if_true, Res.ok.injEq, Prod.mk.injEq] at h
        have h4 := length_dropWhile_le' isdigit rest1
        rw [← h.2, ptrLen_ptrOf, ← h1] at hlen
        simp only [List.length_cons] at hlen
        omega
      · simp only [hd, if_false, Res.ok.injEq, Prod.mk.injEq] at h
        refine ⟨[], ?_, ?_⟩
        · rw [← h.2, h1, List.nil_append]
          cases rest with
          | nil => cases h1
          | cons a b => rfl
        · simp [ptrOf_cons, hd, ← h.1]
    | cons d1 s2 =>
      simp only [List.cons_append, List.cons.injEq] at h1
      obtain ⟨hd1, hrest1⟩ := h1
      subst hd1
      by_cases hd : d = '.'
      · simp only [hd, if_true, Res.ok.injEq, Prod.mk.injEq] at h
        have hlen2 : rest.length ≤ ((s2 ++ rest).dropWhile isdigit).length := by
          rw [← h.2, ptrLen_ptrOf, hrest1] at hlen
          exact hlen
        obtain ⟨s3, k1, k2, k3⟩ := scan_local isdigit '{' X' hx rest s2 hlen2
        refine ⟨s3, ?_, ?_⟩
        · rw [← h.2, hrest1, k1]
        · have hne : s3 ++ '{' :: X' ≠ [] := by simp
          simp only [List.cons_append, ptrOf_cons, hd, if_true, k2, k3, ptrOf_of_ne_nil _ hne]
          rw [← h.1, hrest1]
      · simp only [hd, if_false, Res.ok.injEq, Prod.mk.injEq] at h
        refine ⟨d :: s2, ?_, ?_⟩
        · rw [← h.2, hrest1]; rfl
        · simp only [List.cons_append, ptrOf_cons, hd, if_false]
          rw [← h.1]

theorem id_eq (c : Char) (r : List Char) (kw : List (String × Token)) :
    _id ⟨some (c :: r), kw⟩ =
      match findKeyword kw ⟨("" : String).data ++ (c :: r).takeWhile isalnum⟩ with
      | some t => .ok (t, ⟨ptrOf ((c :: r).dropWhile isalnum), kw⟩)
      | none =>
        .ok (⟨.ID, ⟨("" : String).data ++ (c :: r).takeWhile isalnum⟩⟩,
          ⟨ptrOf ((c :: r).dropWhile isalnum),
            kw ++ [(⟨("" : String).data ++ (c :: r).takeWhile isalnum⟩,
              ⟨.ID, ⟨("" : String).data ++ (c :: r).takeWhile isalnum⟩⟩)]⟩) := by
  simp only [_id, alnumsFrom_eq]

theorem id_local (c : Char) (s rest X' : List Char) (kw : List (String × Token)) (t : Token)
    (lx : Lexer) (h : _id ⟨some (c :: (s ++ rest)), kw⟩ = .ok (t, lx))
    (hlen : rest.length ≤ lx.remaining) :
    ∃ s1, lx.currentPtr_ = ptrOf (s1 ++ rest) ∧
      _id ⟨some (c :: (s ++ '{' :: X')), kw⟩ =
        .ok (t, ⟨some (s1 ++ '{' :: X'), lx.RESERVED_KEYWORDS⟩) := by
  have hx : isalnum '{' = false := by decide
  rw [id_eq] at h
  rw [id_eq]
  have hptr : lx.currentPtr_ = ptrOf ((c :: (s ++ rest)).dropWhile isalnum) := by
    split at h <;> (cases h; rfl)
  have hlen1 : rest.length ≤ ((c :: s ++ rest).dropWhile isalnum).length := by
    have e : c :: s ++ rest = c :: (s ++ rest) := rfl
    have hrem : lx.remaining = ((c :: (s ++ rest)).dropWhile isalnum).length := by
      obtain ⟨p, k⟩ := lx
      simp only at hptr
      rw [remaining_mk, hptr, ptrLen_ptrOf]
    rw [e, ← hrem]
    exact hlen
  obtain ⟨s1, h1, h2, h3⟩ := scan_local isalnum '{' X' hx rest (c :: s) hlen1
  have e1 : c :: s ++ rest = c :: (s ++ rest) := rfl
  have e2 : c :: s ++ '{' :: X' = c :: (s ++ '{' :: X') := rfl
  rw [e1] at h1 h3
  rw [e2] at h2 h3
  have hne : s1 ++ '{' :: X' ≠ [] := by simp
  refine ⟨s1, by rw [hptr, h1], ?_⟩
  rw [h2, h3, ptrOf_of_ne_nil _ hne]
  split at h <;> (cases h; rfl)

theorem tokenAt_local (c : Char) (s rest X' : List Char) (kw : List (String × Token))
    (t : Token) (lx : Lexer) (h : tokenAt c (s ++ rest) kw = .ok (t, lx))
    (hlen : rest.length ≤ lx.remaining) :
    ∃ s1, lx.currentPtr_ = ptrOf (s1 ++ rest) ∧
      tokenAt c (s ++ '{' :: X') kw = .ok (t, ⟨some (s1 ++ '{' :: X'), lx.RESERVED_KEYWORDS⟩) := by
  by_cases hd : isdigit c = true
  · rw [tokenAt_digit c _ kw hd] at h
    rw [tokenAt_digit c _ kw hd]
    cases hn : number (some (c :: (s ++ rest))) with
    | ok tp =>
      obtain ⟨t0, p⟩ := tp
      rw [hn, ok_bind] at h
      cases h
      rw [remaining_mk] at hlen
      obtain ⟨s1, h1, h2⟩ := number_local c s rest X' t0 p hn hlen
      exact ⟨s1, h1, by rw [h2]; rfl⟩
    | throw e => rw [hn] at h; cases h
    | ub => rw [hn] at h; cases h
    | timeout => rw [hn] at h; cases h
  · by_cases ha : isalpha c = true
    · rw [tokenAt_alpha c _ kw ha] at h
      rw [tokenAt_alpha c _ kw ha]
      exact id_local c s rest X' kw t lx h hlen
    · by_cases hc : c = ':'
      · subst hc
        rw [tokenAt_colon] at h
        rw [tokenAt_colon]
        cases s with
        | nil =>
          cases rest with
          | nil => cases h
          | cons d r2 =>
            simp only [List.nil_append] at h
            by_cases hdq : d = '='
            · exfalso
              simp only [hdq, if_true, Res.ok.injEq, Prod.mk.injEq] at h
              rw [← h.2, remaining_mk, ptrLen_ptrOf] at hlen
              simp only [List.length_cons] at hlen
              omega
            · simp only [hdq, if_false, Res.ok.injEq, Prod.mk.injEq] at h
              refine ⟨[], by rw [← h.2]; rfl, ?_⟩
              simp [← h.1, ← h.2]
        | cons d s2 =>
          simp only [List.cons_append] at h
          by_cases hdq : d = '='
          · simp only [hdq, if_true, Res.ok.injEq, Prod.mk.injEq] at h
            have hne : s2 ++ '{' :: X' ≠ [] := by simp
            refine ⟨s2, by rw [← h.2], ?_⟩
            simp [hdq, ← h.1, ← h.2, ptrOf_of_ne_nil _ hne]
          · simp only [hdq, if_false, Res.ok.injEq, Prod.mk.injEq] at h
            refine ⟨d :: s2, by rw [← h.2]; rfl, ?_⟩
            simp [hdq, ← h.1, ← h.2]
      · have hd' : isdigit c = false := by simpa using hd
        have ha' : isalpha c = false := by simpa using ha
        rw [tokenAt_punctuation c _ kw hd' ha' hc] at h
        rw [tokenAt_punctuation c _ kw hd' ha' hc]
        cases hp : punctuation c with
        | none => rw [hp] at h; cases h
        | some t0 =>
          rw [hp] at h
          simp only [Res.ok.injEq, Prod.mk.injEq] at h
          have hne : s ++ '{' :: X' ≠ [] := by simp
          refine ⟨s, by rw [← h.2], ?_⟩
          simp [← h.1, ← h.2, ptrOf_of_ne_nil _ hne]

theorem tokenAt_remaining_le (c : Char) (r : List Char) (kw : List (String × Token))
    (t : Token) (lx : Lexer) (h : tokenAt c r kw = .ok (t, lx)) :
    lx.remaining ≤ r.length + 1 := by
  by_cases hd : isdigit c = true
  · rw [tokenAt_digit c _ kw hd, number_eq] at h
    have h1 := length_dropWhile_le' isdigit (c :: r)
    cases hD : (c :: r).dropWhile isdigit with
    | nil => rw [hD] at h; cases h
    | cons d rest1 =>
      rw [hD] at h h1
      simp only [ptrOf_cons] at h
      have h2 := length_dropWhile_le' isdigit rest1
      simp only [List.length_cons] at h1
      by_cases hdq : d = '.'
      · simp only [hdq, if_true, ok_bind] at h
        cases h
        rw [remaining_mk, ptrLen_ptrOf]
        omega
      · simp only [hdq, if_false, ok_bind] at h
        cases h
        rw [remaining_mk]
        simp only [ptrLen, List.length_cons]
        omega
  · by_cases ha : isalpha c = true
    · rw [tokenAt_alpha c _ kw ha, id_eq] at h
      have h1 := length_dropWhile_le' isalnum (c :: r)
      simp only [List.length_cons] at h1
      split at h <;> (cases h; rw [remaining_mk, ptrLen_ptrOf]; exact h1)
    · by_cases hc : c = ':'
      · subst hc
        rw [tokenAt_colon] at h
        cases r with
        | nil => cases h
        | cons d r2 =>
          by_cases hdq : d = '='
          · simp only [hdq, if_true] at h
            cases h
            rw [remaining_mk, ptrLen_ptrOf]
            simp only [List.length_cons]; omega
          · simp only [hdq, if_false] at h
            cases h
            rw [remaining_mk]
            simp only [ptrLen, List.length_cons]; omega
      · have hd' : isdigit c = false := by simpa using hd
        have ha' : isalpha c = false := by simpa using ha
        rw [tokenAt_punctuation c _ kw hd' ha' hc] at h
        cases hp : punctuation c with
        | none => rw [hp] at h; cases h
        | some t0 =>
          rw [hp] at h
          cases h
          rw [remaining_mk, ptrLen_ptrOf]
          omega

theorem skipCommentFrom_local (s : List Char) :
    ∀ (rest X' : List Char) (p : Ptr), skipCommentFrom (s ++ rest) = .ok p →
      rest.length ≤ ptrLen p →
      ∃ s1, p = ptrOf (s1 ++ rest) ∧
        skipCommentFrom (s ++ '{' :: X') = .ok (some (s1 ++ '{' :: X')) := by
  induction s with
  | nil =>
    intro rest X' p h hlen
    have hlt := ptrLen_skipCommentFrom _ _ h
    simp only [List.nil_append] at hlt
    omega
  | cons c s' ih =>
    intro rest X' p h hlen
    by_cases hc : c = '}'
    · simp only [List.cons_append, skipCommentFrom, hc, if_true, Res.ok.injEq] at h
      have hne : s' ++ '{' :: X' ≠ [] := by simp
      exact ⟨s', h.symm, by simp [skipCommentFrom, hc, ptrOf_of_ne_nil _ hne]⟩
    · simp only [List.cons_append, skipCommentFrom, hc, if_false] at h
      obtain ⟨s1, h1, h2⟩ := ih rest X' p h hlen
      exact ⟨s1, h1, by simp [skipCommentFrom, hc, h2]⟩

theorem skipCommentFrom_closed (body rest : List Char) (h : '}' ∉ body) :
    skipCommentFrom (body ++ '}' :: rest) = .ok (ptrOf rest) := by
  induction body with
  | nil => simp [skipCommentFrom]
  | cons c r ih =>
    have hc : c ≠ '}' := fun e => h (e ▸ List.mem_cons_self _ _)
    have hr : '}' ∉ r := fun hm => h (List.mem_cons_of_mem _ hm)
    simp [skipCommentFrom, hc, ih hr]

theorem reachesBoundary_length (rest : List Char) (lx : Lexer)
    (h : ReachesBoundary rest lx) : rest.length ≤ lx.remaining := by
  induction h with
  | here kw => rw [remaining_mk, ptrLen_ptrOf]
  | space c r kw _ _ ih =>
    rw [remaining_mk, ptrLen_ptrOf] at ih
    rw [remaining_mk]
    simp only [ptrLen, List.length_cons]
    omega
  | comment r kw p hskip _ ih =>
    have hlt := ptrLen_skipCommentFrom _ _ hskip
    rw [remaining_mk] at ih
    rw [remaining_mk]
    simp only [ptrLen, List.length_cons]
    omega
  | token c r kw t lx1 _ _ htok _ ih =>
    have hle := tokenAt_remaining_le c r kw t lx1 htok
    rw [remaining_mk]
    simp only [ptrLen, List.length_cons]
    omega

theorem lexSim_refl (B : Lexer → Lexer → Prop) (hB : ∀ l, B l l) (r : Res (Token × Lexer)) :
    LexSim B r r := by
  cases r with
  | ok a => exact ⟨rfl, hB _⟩
  | throw e => rfl
  | ub => trivial
  | timeout => trivial

/-- At a comment the lexer returns what it returns after the comment. -/
theorem getNextToken_at_comment (body rest : List Char) (kw : List (String × Token))
    (h : '}' ∉ body) :
    getNextToken ⟨some ('{' :: (body ++ '}' :: rest)), kw⟩ = getNextToken ⟨ptrOf rest, kw⟩ := by
  rw [getNextToken_comment, skipCommentFrom_closed body rest h]
  rfl

theorem commentSim_step (body rest : List Char) (hbody : '}' ∉ body) (lx : Lexer)
    (h : ReachesBoundary rest lx) :
    ∀ (s : List Char) (kw : List (String × Token)), lx = ⟨ptrOf (s ++ rest), kw⟩ →
      LexSim (CommentSim body rest)
        (getNextToken ⟨some (s ++ '{' :: (body ++ '}' :: rest)), kw⟩) (getNextToken lx) := by
  have hnil : ∀ kw, LexSim (CommentSim body rest)
      (getNextToken ⟨some ('{' :: (body ++ '}' :: rest)), kw⟩)
      (getNextToken ⟨ptrOf rest, kw⟩) := by
    intro kw
    rw [getNextToken_at_comment body rest kw hbody]
    exact lexSim_refl _ (fun l => Or.inl rfl) _
  induction h with
  | here kw0 =>
    intro s kw heq
    cases s with
    | nil =>
      simp only [Lexer.mk.injEq] at heq
      rw [← heq.2]
      exact hnil kw0
    | cons c s' =>
      exfalso
      simp only [Lexer.mk.injEq, List.cons_append, ptrOf_cons] at heq
      have hlen := congrArg ptrLen heq.1
      rw [ptrLen_ptrOf] at hlen
      simp only [ptrLen, List.length_cons, List.length_append] at hlen
      omega
  | space c r kw0 hc hreach ih =>
    intro s kw heq
    cases s with
    | nil =>
      simp only [List.nil_append] at heq ⊢
      rw [heq]
      exact hnil kw
    | cons c1 s' =>
      simp only [Lexer.mk.injEq, List.cons_append, ptrOf_cons, Option.some.injEq,
        List.cons.injEq] at heq
      obtain ⟨⟨hc1, hr⟩, hkw⟩ := heq
      subst hc1 hr hkw
      have hne : s' ++ '{' :: (body ++ '}' :: rest) ≠ [] := by simp
      rw [List.cons_append, getNextToken_space_one c _ kw0 hc,
        getNextToken_space_one c _ kw0 hc, ptrOf_of_ne_nil _ hne]
      exact ih s' kw0 rfl
  | comment r kw0 p hskip hreach ih =>
    intro s kw heq
    cases s with
    | nil =>
      simp only [List.nil_append] at heq ⊢
      rw [heq]
      exact hnil kw
    | cons c1 s' =>
      simp only [Lexer.mk.injEq, List.cons_append, ptrOf_cons, Option.some.injEq,
        List.cons.injEq] at heq
      obtain ⟨⟨hc1, hr⟩, hkw⟩ := heq
      subst hc1 hr hkw
      have hlen := reachesBoundary_length _ _ hreach
      rw [remaining_mk] at hlen
      obtain ⟨s1, h1, h2⟩ := skipCommentFrom_local s' rest (body ++ '}' :: rest) p hskip hlen
      rw [List.cons_append, getNextToken_comment, getNextToken_comment, hskip, h2, ok_bind,
        ok_bind]
      exact ih s1 kw0 (by rw [h1])
  | token c r kw0 t lx1 hsp hbr htok hreach ih =>
    intro s kw heq
    cases s with
    | nil =>
      simp only [List.nil_append] at heq ⊢
      rw [heq]
      exact hnil kw
    | cons c1 s' =>
      simp only [Lexer.mk.injEq, List.cons_append, ptrOf_cons, Option.some.injEq,
        List.cons.injEq] at heq
      obtain ⟨⟨hc1, hr⟩, hkw⟩ := heq
      subst hc1 hr hkw
      have hlen := reachesBoundary_length _ _ hreach
      obtain ⟨s1, h1, h2⟩ := tokenAt_local c s' rest (body ++ '}' :: rest) kw0 t lx1 htok hlen
      rw [List.cons_append, getNextToken_tokenAt c _ kw0 hsp hbr,
        getNextToken_tokenAt c _ kw0 hsp hbr, htok, h2]
      refine ⟨rfl, Or.inr ⟨s1, lx1.RESERVED_KEYWORDS, ?_, rfl, hreach⟩⟩
      obtain ⟨p1, k1⟩ := lx1
      simp only at h1
      rw [h1]

/-- The relation `CommentSim` is kept by `getNextToken`: the lexers return the same
token, or fail alike. -/
theorem commentSim_getNextToken (body rest : List Char) (hbody : '}' ∉ body)
    (lx' lx : Lexer) (h : CommentSim body rest lx' lx) :
    LexSim (CommentSim body rest) (getNextToken lx') (getNextToken lx) := by
  rcases h with h | ⟨s, kw, h1, h2, h3⟩
  · rw [h]
    exact lexSim_refl _ (fun l => Or.inl rfl) _
  · rw [h2]
    exact commentSim_step body rest hbody lx h3 s kw h1

/-! ## The parser depends on its lexer only through the tokens

Two lexers related by a relation that `getNextToken` keeps give the same outcome of
every parser method. -/

theorem outSim_ok {B : Lexer → Lexer → Prop} {α : Type} (a : α) {p' p : Parser}
    (h : ParserSim B p' p) : OutSim B (Res.ok (a, p')) (Res.ok (a, p)) := ⟨rfl, h⟩

theorem outSim_throw {B : Lexer → Lexer → Prop} {α : Type} (e : Exn) :
    OutSim B (Res.throw e : Res (α × Parser)) (Res.throw e) := rfl

theorem outSim_timeout {B : Lexer → Lexer → Prop} {α : Type} :
    OutSim B (Res.timeout : Res (α × Parser)) Res.timeout := trivial

theorem stateSim_ok {B : Lexer → Lexer → Prop} {p' p : Parser} (h : ParserSim B p' p) :
    StateSim B (Res.ok p') (Res.ok p) := h

theorem outSim_bind {B : Lexer → Lexer → Prop} {α β : Type} {m' m : Res (α × Parser)}
    {k : α × Parser → Res (β × Parser)} (hm : OutSim B m' m)
    (hk : ∀ a p' p, ParserSim B p' p → OutSim B (k (a, p')) (k (a, p))) :
    OutSim B (m' >>= k) (m >>= k) := by
  cases m' with
  | ok x' =>
    cases m with
    | ok x =>
      obtain ⟨a', q'⟩ := x'
      obtain ⟨a, q⟩ := x
      obtain ⟨ha, hq⟩ := hm
      subst ha
      exact hk a' q' q hq
    | throw e => exact hm.elim
    | ub => exact hm.elim
    | timeout => exact hm.elim
  | throw e' =>
    cases m with
    | throw e => exact hm
    | ok x => exact hm.elim
    | ub => exact hm.elim
    | timeout => exact hm.elim
  | ub =>
    cases m with
    | ub => trivial
    | ok x => exact hm.elim
    | throw e => exact hm.elim
    | timeout => exact hm.elim
  | timeout =>
    cases m with
    | timeout => trivial
    | ok x => exact hm.elim
    | throw e => exact hm.elim
    | ub => exact hm.elim

theorem stateSim_bind {B : Lexer → Lexer → Prop} {β : Type} {m' m : Res Parser}
    {k : Parser → Res (β × Parser)} (hm : StateSim B m' m)
    (hk : ∀ p' p, ParserSim B p' p → OutSim B (k p') (k p)) :
    OutSim B (m' >>= k) (m >>= k) := by
  cases m' with
  | ok q' =>
    cases m with
    | ok q => exact hk q' q hm
    | throw e => exact hm.elim
    | ub => exact hm.elim
    | timeout => exact hm.elim
  | throw e' =>
    cases m with
    | throw e => exact hm
    | ok x => exact hm.elim
    | ub => exact hm.elim
    | timeout => exact hm.elim
  | ub =>
    cases m with
    | ub => trivial
    | ok x => exact hm.elim
    | throw e => exact hm.elim
    | timeout => exact hm.elim
  | timeout =>
    cases m with
    | timeout => trivial
    | ok x => exact hm.elim
    | throw e => exact hm.elim
    | ub => exact hm.elim

theorem new_sim {B : Lexer → Lexer → Prop} (hB : KeptByLexer B) {lx' lx : Lexer}
    (h : B lx' lx) : StateSim B (Parser.new lx') (Parser.new lx) := by
  have hs := hB lx' lx h
  rw [new_eq, new_eq]
  cases h' : getNextToken lx' with
  | ok x' =>
    cases h0 : getNextToken lx with
    | ok x =>
      rw [h', h0] at hs
      obtain ⟨t', l'⟩ := x'
      obtain ⟨t, l⟩ := x
      exact ⟨hs.1, hs.2⟩
    | throw e => rw [h', h0] at hs; exact hs.elim
    | ub => rw [h', h0] at hs; exact hs.elim
    | timeout => rw [h', h0] at hs; exact hs.elim
  | throw e' =>
    cases h0 : getNextToken lx with
    | throw e => rw [h', h0] at hs; exact hs
    | ok x => rw [h', h0] at hs; exact hs.elim
    | ub => rw [h', h0] at hs; exact hs.elim
    | timeout => rw [h', h0] at hs; exact hs.elim
  | ub =>
    cases h0 : getNextToken lx with
    | ub => trivial
    | ok x => rw [h', h0] at hs; exact hs.elim
    | throw e => rw [h', h0] at hs; exact hs.elim
    | timeout => rw [h', h0] at hs; exact hs.elim
  | timeout =>
    cases h0 : getNextToken lx with
    | timeout => trivial
    | ok x => rw [h', h0] at hs; exact hs.elim
    | throw e => rw [h', h0] at hs; exact hs.elim
    | ub => rw [h', h0] at hs; exact hs.elim

theorem eat_sim {B : Lexer → Lexer → Prop} (hB : KeptByLexer B) (tktype : TokenType)
    {p' p : Parser} (h : ParserSim B p' p) : StateSim B (eat tktype p') (eat tktype p) := by
  obtain ⟨lx', ty', v'⟩ := p'
  obtain ⟨lx, ty, v⟩ := p
  obtain ⟨htok, hlex⟩ := h
  simp only [Token.mk.injEq] at htok
  obtain ⟨hty, hv⟩ := htok
  subst hty hv
  rw [eat_mk, eat_mk]
  by_cases hc : ty' = tktype
  · simp only [hc, if_true]
    exact new_sim hB hlex
  · simp only [hc, if_false]
    rfl

theorem parserSim_mk {B : Lexer → Lexer → Prop} {p' p : Parser} (h : ParserSim B p' p) :
    ∃ lx' lx ty v, p' = ⟨lx', ⟨ty, v⟩⟩ ∧ p = ⟨lx, ⟨ty, v⟩⟩ ∧ B lx' lx := by
  obtain ⟨lx', ty', v'⟩ := p'
  obtain ⟨lx, ty, v⟩ := p
  obtain ⟨htok, hlex⟩ := h
  simp only [Token.mk.injEq] at htok
  obtain ⟨hty, hv⟩ := htok
  subst hty hv
  exact ⟨lx', lx, ty', v', rfl, rfl, hlex⟩

theorem variable_sim {B : Lexer → Lexer → Prop} (hB : KeptByLexer B) : FunSim B variable_ := by
  intro p' p h
  obtain ⟨lx', lx, ty, v, rfl, rfl, hlex⟩ := parserSim_mk h
  rw [variable_mk, variable_mk]
  exact stateSim_bind (eat_sim hB _ ⟨rfl, hlex⟩) (fun q' q hq => outSim_ok _ hq)

/-- The expression methods of the parser give agreeing outcomes on agreeing states. -/
theorem expr_sim {B : Lexer → Lexer → Prop} (hB : KeptByLexer B) (fuel : Nat) :
    FunSim B (factor fuel) ∧ FunSim B (term fuel) ∧
      (∀ result, FunSim B (termLoop fuel result)) ∧ FunSim B (expr fuel) ∧
      (∀ result, FunSim B (exprLoop fuel result)) := by
  induction fuel with
  | zero =>
    refine ⟨?_, ?_, ?_, ?_, ?_⟩
    · intro p' p _; simp only [factor]; exact outSim_timeout
    · intro p' p _; simp only [term]; exact outSim_timeout
    · intro result p' p _; simp only [termLoop]; exact outSim_timeout
    · intro p' p _; simp only [expr]; exact outSim_timeout
    · intro result p' p _; simp only [exprLoop]; exact outSim_timeout
  | succ n ih =>
    obtain ⟨ihFactor, ihTerm, ihTermLoop, ihExpr, ihExprLoop⟩ := ih
    refine ⟨?_, ?_, ?_, ?_, ?_⟩
    · intro p' p h
      obtain ⟨lx', lx, ty, v, rfl, rfl, hlex⟩ := parserSim_mk h
      have hp : ParserSim B ⟨lx', ⟨ty, v⟩⟩ ⟨lx, ⟨ty, v⟩⟩ := ⟨rfl, hlex⟩
      rw [factor_mk, factor_mk]
      split_ifs
      · exact stateSim_bind (eat_sim hB _ hp) (fun q' q hq => outSim_ok _ hq)
      · exact stateSim_bind (eat_sim hB _ hp) (fun q' q hq => outSim_ok _ hq)
      · exact stateSim_bind (eat_sim hB _ hp) (fun q' q hq =>
          outSim_bind (ihExpr q' q hq) (fun a r' r hr =>
            stateSim_bind (eat_sim hB _ hr) (fun s' s0 hs => outSim_ok _ hs)))
      · exact stateSim_bind (eat_sim hB _ hp) (fun q' q hq =>
          outSim_bind (ihFactor q' q hq) (fun a r' r hr => outSim_ok _ hr))
      · exact stateSim_bind (eat_sim hB _ hp) (fun q' q hq =>
          outSim_bind (ihFactor q' q hq) (fun a r' r hr => outSim_ok _ hr))
      · exact outSim_bind (variable_sim hB _ _ hp) (fun a r' r hr => outSim_ok _ hr)
      · exact outSim_throw _
    · intro p' p h
      obtain ⟨lx', lx, ty, v, rfl, rfl, hlex⟩ := parserSim_mk h
      rw [term_mk, term_mk]
      exact outSim_bind (ihFactor _ _ ⟨rfl, hlex⟩) (fun a r' r hr => ihTermLoop a r' r hr)
    · intro result p' p h
      obtain ⟨lx', lx, ty, v, rfl, rfl, hlex⟩ := parserSim_mk h
      have hp : ParserSim B ⟨lx', ⟨ty, v⟩⟩ ⟨lx, ⟨ty, v⟩⟩ := ⟨rfl, hlex⟩
      have hk : ∀ q' q, ParserSim B q' q →
          OutSim B (factor n q' >>= fun r => termLoop n (.BinOp result ⟨ty, v⟩ r.1) r.2)
            (factor n q >>= fun r => termLoop n (.BinOp result ⟨ty, v⟩ r.1) r.2) :=
        fun q' q hq => outSim_bind (ihFactor q' q hq) (fun a r' r hr => ihTermLoop _ r' r hr)
      rw [termLoop_mk, termLoop_mk]
      split_ifs
      · exact stateSim_bind (eat_sim hB _ hp) hk
      · exact stateSim_bind (eat_sim hB _ hp) hk
      · exact stateSim_bind (eat_sim hB _ hp) hk
      · exact stateSim_bind (stateSim_ok hp) hk
      · exact outSim_ok _ hp
    · intro p' p h
      obtain ⟨lx', lx, ty, v, rfl, rfl, hlex⟩ := parserSim_mk h
      rw [expr_mk, expr_mk]
      exact outSim_bind (ihTerm _ _ ⟨rfl, hlex⟩) (fun a r' r hr => ihExprLoop a r' r hr)
    · intro result p' p h
      obtain ⟨lx', lx, ty, v, rfl, rfl, hlex⟩ := parserSim_mk h
      have hp : ParserSim B ⟨lx', ⟨ty, v⟩⟩ ⟨lx, ⟨ty, v⟩⟩ := ⟨rfl, hlex⟩
      have hk : ∀ q' q, ParserSim B q' q →
          OutSim B (term n q' >>= fun r => exprLoop n (.BinOp result ⟨ty, v⟩ r.1) r.2)
            (term n q >>= fun r => exprLoop n (.BinOp result ⟨ty, v⟩ r.1) r.2) :=
        fun q' q hq => outSim_bind (ihTerm q' q hq) (fun a r' r hr => ihExprLoop _ r' r hr)
      rw [exprLoop_mk, exprLoop_mk]
      split_ifs
      · exact stateSim_bind (eat_sim hB _ hp) hk
      · exact stateSim_bind (eat_sim hB _ hp) hk
      · exact stateSim_bind (stateSim_ok hp) hk
      · exact outSim_ok _ hp

theorem assignmentStatement_sim {B : Lexer → Lexer → Prop} (hB : KeptByLexer B) (fuel : Nat) :
    FunSim B (assignmentStatement fuel) := by
  intro p' p h
  obtain ⟨lx', lx, ty, v, rfl, rfl, hlex⟩ := parserSim_mk h
  rw [assignmentStatement_mk, assignmentStatement_mk]
  refine outSim_bind (variable_sim hB _ _ ⟨rfl, hlex⟩) (fun a r' r hr => ?_)
  have htok : r'.currentToken_ = r.currentToken_ := hr.1
  simp only [htok]
  exact stateSim_bind (eat_sim hB _ hr) (fun q' q hq =>
    outSim_bind ((expr_sim hB fuel).2.2.2.1 q' q hq) (fun e s' s0 hs => outSim_ok _ hs))

/-- The statement methods of the parser give agreeing outcomes on agreeing states. -/
theorem statement_sim {B : Lexer → Lexer → Prop} (hB : KeptByLexer B) (fuel : Nat) :
    FunSim B (compoundStatement fuel) ∧ FunSim B (statementList fuel) ∧
      (∀ result, FunSim B (statementListLoop fuel result)) ∧ FunSim B (statement fuel) := by
  induction fuel with
  | zero =>
    refine ⟨?_, ?_, ?_, ?_⟩
    · intro p' p _; simp only [compoundStatement]; exact outSim_timeout
    · intro p' p _; simp only [statementList]; exact outSim_timeout
    · intro result p' p _; simp only [statementListLoop]; exact outSim_timeout
    · intro p' p _; simp only [statement]; exact outSim_timeout
  | succ n ih =>
    obtain ⟨ihCompound, ihList, ihLoop, ihStatement⟩ := ih
    refine ⟨?_, ?_, ?_, ?_⟩
    · intro p' p h
      obtain ⟨lx', lx, ty, v, rfl, rfl, hlex⟩ := parserSim_mk h
      rw [compoundStatement_mk, compoundStatement_mk]
      exact stateSim_bind (eat_sim hB _ ⟨rfl, hlex⟩) (fun q' q hq =>
        outSim_bind (ihList q' q hq) (fun a r' r hr =>
          stateSim_bind (eat_sim hB _ hr) (fun s' s0 hs => outSim_ok _ hs)))
    · intro p' p h
      obtain ⟨lx', lx, ty, v, rfl, rfl, hlex⟩ := parserSim_mk h
      rw [statementList_mk, statementList_mk]
      refine outSim_bind (ihStatement _ _ ⟨rfl, hlex⟩) (fun a r' r hr =>
        outSim_bind (ihLoop _ r' r hr) (fun b s' s0 hs => ?_))
      have htok : s'.currentToken_ = s0.currentToken_ := hs.1
      simp only [htok]
      split_ifs
      · exact outSim_throw _
      · exact outSim_ok _ hs
    · intro result p' p h
      obtain ⟨lx', lx, ty, v, rfl, rfl, hlex⟩ := parserSim_mk h
      have hp : ParserSim B ⟨lx', ⟨ty, v⟩⟩ ⟨lx, ⟨ty, v⟩⟩ := ⟨rfl, hlex⟩
      rw [statementListLoop_mk, statementListLoop_mk]
      split_ifs
      · exact stateSim_bind (eat_sim hB _ hp) (fun q' q hq =>
          outSim_bind (ihStatement q' q hq) (fun a r' r hr => ihLoop _ r' r hr))
      · exact outSim_ok _ hp
    · intro p' p h
      obtain ⟨lx', lx, ty, v, rfl, rfl, hlex⟩ := parserSim_mk h
      have hp : ParserSim B ⟨lx', ⟨ty, v⟩⟩ ⟨lx, ⟨ty, v⟩⟩ := ⟨rfl, hlex⟩
      rw [statement_mk, statement_mk]
      split_ifs
      · exact ihCompound _ _ hp
      · exact assignmentStatement_sim hB n _ _ hp
      · exact outSim_ok _ hp

theorem typeSpec_sim {B : Lexer → Lexer → Prop} (hB : KeptByLexer B) : FunSim B typeSpec := by
  intro p' p h
  obtain ⟨lx', lx, ty, v, rfl, rfl, hlex⟩ := parserSim_mk h
  have hp : ParserSim B ⟨lx', ⟨ty, v⟩⟩ ⟨lx, ⟨ty, v⟩⟩ := ⟨rfl, hlex⟩
  have hk : ∀ q' q : Parser, ParserSim B q' q →
      OutSim B (Res.ok ((⟨q'.currentToken_⟩ : TypeNode), q'))
        (Res.ok ((⟨q.currentToken_⟩ : TypeNode), q)) := by
    intro q' q hq
    have htok : q'.currentToken_ = q.currentToken_ := hq.1
    rw [htok]
    exact outSim_ok _ hq
  rw [typeSpec_mk, typeSpec_mk]
  split_ifs
  · exact stateSim_bind (eat_sim hB _ hp) hk
  · exact stateSim_bind (eat_sim hB _ hp) hk

theorem variableDeclarationLoop_sim {B : Lexer → Lexer → Prop} (hB : KeptByLexer B)
    (fuel : Nat) : ∀ varNodes, FunSim B (variableDeclarationLoop fuel varNodes) := by
  induction fuel with
  | zero => intro varNodes p' p _; simp only [variableDeclarationLoop]; exact outSim_timeout
  | succ n ih =>
    intro varNodes p' p h
    obtain ⟨lx', lx, ty, v, rfl, rfl, hlex⟩ := parserSim_mk h
    have hp : ParserSim B ⟨lx', ⟨ty, v⟩⟩ ⟨lx, ⟨ty, v⟩⟩ := ⟨rfl, hlex⟩
    rw [variableDeclarationLoop_mk, variableDeclarationLoop_mk]
    split_ifs
    · refine stateSim_bind (eat_sim hB _ hp) (fun q' q hq => ?_)
      have htok : q'.currentToken_ = q.currentToken_ := hq.1
      simp only [htok]
      exact stateSim_bind (eat_sim hB _ hq) (fun r' r hr => ih _ r' r hr)
    · exact outSim_ok _ hp

theorem variableDeclaration_sim {B : Lexer → Lexer → Prop} (hB : KeptByLexer B) (fuel : Nat) :
    FunSim B (variableDeclaration fuel) := by
  intro p' p h
  obtain ⟨lx', lx, ty, v, rfl, rfl, hlex⟩ := parserSim_mk h
  rw [variableDeclaration_mk, variableDeclaration_mk]
  exact stateSim_bind (eat_sim hB _ ⟨rfl, hlex⟩) (fun q' q hq =>
    outSim_bind (variableDeclarationLoop_sim hB fuel _ q' q hq) (fun a r' r hr =>
      stateSim_bind (eat_sim hB _ hr) (fun s' s0 hs =>
        outSim_bind (typeSpec_sim hB s' s0 hs) (fun t u' u hu => outSim_ok _ hu))))

theorem declarationsVarLoop_sim {B : Lexer → Lexer → Prop} (hB : KeptByLexer B)
    (fuel : Nat) : ∀ decls, FunSim B (declarationsVarLoop fuel decls) := by
  induction fuel with
  | zero => intro decls p' p _; simp only [declarationsVarLoop]; exact outSim_timeout
  | succ n ih =>
    intro decls p' p h
    obtain ⟨lx', lx, ty, v, rfl, rfl, hlex⟩ := parserSim_mk h
    have hp : ParserSim B ⟨lx', ⟨ty, v⟩⟩ ⟨lx, ⟨ty, v⟩⟩ := ⟨rfl, hlex⟩
    rw [declarationsVarLoop_mk, declarationsVarLoop_mk]
    split_ifs
    · exact outSim_bind (variableDeclaration_sim hB n _ _ hp) (fun a r' r hr =>
        stateSim_bind (eat_sim hB _ hr) (fun q' q hq => ih _ q' q hq))
    · exact outSim_ok _ hp

/-- The block methods of the parser give agreeing outcomes on agreeing states. -/
theorem block_sim {B : Lexer → Lexer → Prop} (hB : KeptByLexer B) (fuel : Nat) :
    FunSim B (block fuel) ∧ FunSim B (declarations fuel) ∧
      (∀ decls, FunSim B (declarationsProcLoop fuel decls)) := by
  induction fuel with
  | zero =>
    refine ⟨?_, ?_, ?_⟩
    · intro p' p _; simp only [block]; exact outSim_timeout
    · intro p' p _; simp only [declarations]; exact outSim_timeout
    · intro decls p' p _; simp only [declarationsProcLoop]; exact outSim_timeout
  | succ n ih =>
    obtain ⟨ihBlock, ihDeclarations, ihProcLoop⟩ := ih
    refine ⟨?_, ?_, ?_⟩
    · intro p' p h
      obtain ⟨lx', lx, ty, v, rfl, rfl, hlex⟩ := parserSim_mk h
      rw [block_mk, block_mk]
      exact outSim_bind (ihDeclarations _ _ ⟨rfl, hlex⟩) (fun a r' r hr =>
        outSim_bind ((statement_sim hB n).1 r' r hr) (fun c s' s0 hs => outSim_ok _ hs))
    · intro p' p h
      obtain ⟨lx', lx, ty, v, rfl, rfl, hlex⟩ := parserSim_mk h
      have hp : ParserSim B ⟨lx', ⟨ty, v⟩⟩ ⟨lx, ⟨ty, v⟩⟩ := ⟨rfl, hlex⟩
      rw [declarations_mk, declarations_mk]
      refine outSim_bind ?_ (fun a r' r hr => ihProcLoop a r' r hr)
      split_ifs
      · exact stateSim_bind (eat_sim hB _ hp) (fun q' q hq =>
          declarationsVarLoop_sim hB n _ q' q hq)
      · exact outSim_ok _ hp
    · intro decls p' p h
      obtain ⟨lx', lx, ty, v, rfl, rfl, hlex⟩ := parserSim_mk h
      have hp : ParserSim B ⟨lx', ⟨ty, v⟩⟩ ⟨lx, ⟨ty, v⟩⟩ := ⟨rfl, hlex⟩
      rw [declarationsProcLoop_mk, declarationsProcLoop_mk]
      split_ifs
      · refine stateSim_bind (eat_sim hB _ hp) (fun q' q hq => ?_)
        have htok : q'.currentToken_ = q.currentToken_ := hq.1
        simp only [htok]
        exact stateSim_bind (eat_sim hB _ hq) (fun r' r hr =>
          stateSim_bind (eat_sim hB _ hr) (fun s' s0 hs =>
            outSim_bind (ihBlock s' s0 hs) (fun b u' u hu =>
              stateSim_bind (eat_sim hB _ hu) (fun w' w hw => ihProcLoop _ w' w hw))))
      · exact outSim_ok _ hp

theorem program_sim {B : Lexer → Lexer → Prop} (hB : KeptByLexer B) (fuel : Nat) :
    FunSim B (program fuel) := by
  intro p' p h
  obtain ⟨lx', lx, ty, v, rfl, rfl, hlex⟩ := parserSim_mk h
  rw [program_mk, program_mk]
  exact stateSim_bind (eat_sim hB _ ⟨rfl, hlex⟩) (fun q' q hq =>
    outSim_bind (variable_sim hB q' q hq) (fun n r' r hr =>
      stateSim_bind (eat_sim hB _ hr) (fun s' s0 hs =>
        outSim_bind ((block_sim hB fuel).1 s' s0 hs) (fun b u' u hu =>
          stateSim_bind (eat_sim hB _ hu) (fun w' w hw => outSim_ok _ hw)))))

theorem parse_sim {B : Lexer → Lexer → Prop} (hB : KeptByLexer B) (fuel : Nat) :
    FunSim B (Parser.parse fuel) := by
  intro p' p h
  obtain ⟨lx', lx, ty, v, rfl, rfl, hlex⟩ := parserSim_mk h
  rw [parse_mk, parse_mk]
  refine outSim_bind (program_sim hB fuel _ _ ⟨rfl, hlex⟩) (fun a r' r hr => ?_)
  have htok : r'.currentToken_ = r.currentToken_ := hr.1
  simp only [htok]
  split_ifs
  · exact outSim_throw _
  · exact outSim_ok _ hr

/-- Lexers related by a relation that `getNextToken` keeps give the same parse
result: the same tree or the same failure. -/
theorem parse_of_lexer_sim {B : Lexer → Lexer → Prop} (hB : KeptByLexer B) (fuel : Nat)
    (lx' lx : Lexer) (h : B lx' lx) :
    (Parser.new lx' >>= fun p => Parser.parse fuel p >>= fun r => Res.ok r.1) =
      (Parser.new lx >>= fun p => Parser.parse fuel p >>= fun r => Res.ok r.1) := by
  have hnew := new_sim hB h
  cases h' : Parser.new lx' with
  | ok q' =>
    cases h0 : Parser.new lx with
    | ok q =>
      rw [h', h0] at hnew
      have hparse := parse_sim hB fuel q' q hnew
      rw [ok_bind, ok_bind]
      cases k' : Parser.parse fuel q' with
      | ok x' =>
        cases k0 : Parser.parse fuel q with
        | ok x =>
          rw [k', k0] at hparse
          obtain ⟨a', s'⟩ := x'
          obtain ⟨a, s0⟩ := x
          rw [ok_bind, ok_bind, hparse.1]
        | throw e => rw [k', k0] at hparse; exact hparse.elim
        | ub => rw [k', k0] at hparse; exact hparse.elim
        | timeout => rw [k', k0] at hparse; exact hparse.elim
      | throw e' =>
        cases k0 : Parser.parse fuel q with
        | throw e =>
          rw [k', k0] at hparse
          have he : e' = e := hparse
          rw [he]
        | ok x => rw [k', k0] at hparse; exact hparse.elim
        | ub => rw [k', k0] at hparse; exact hparse.elim
        | timeout => rw [k', k0] at hparse; exact hparse.elim
      | ub =>
        cases k0 : Parser.parse fuel q with
        | ub => rfl
        | ok x => rw [k', k0] at hparse; exact hparse.elim
        | throw e => rw [k', k0] at hparse; exact hparse.elim
        | timeout => rw [k', k0] at hparse; exact hparse.elim
      | timeout =>
        cases k0 : Parser.parse fuel q with
        | timeout => rfl
        | ok x => rw [k', k0] at hparse; exact hparse.elim
        | throw e => rw [k', k0] at hparse; exact hparse.elim
        | ub => rw [k', k0] at hparse; exact hparse.elim
    | throw e => rw [h', h0] at hnew; exact hnew.elim
    | ub => rw [h', h0] at hnew; exact hnew.elim
    | timeout => rw [h', h0] at hnew; exact hnew.elim
  | throw e' =>
    cases h0 : Parser.new lx with
    | throw e =>
      rw [h', h0] at hnew
      have he : e' = e := hnew
      rw [he]
    | ok x => rw [h', h0] at hnew; exact hnew.elim
    | ub => rw [h', h0] at hnew; exact hnew.elim
    | timeout => rw [h', h0] at hnew; exact hnew.elim
  | ub =>
    cases h0 : Parser.new lx with
    | ub => rfl
    | ok x => rw [h', h0] at hnew; exact hnew.elim
    | throw e => rw [h', h0] at hnew; exact hnew.elim
    | timeout => rw [h', h0] at hnew; exact hnew.elim
  | timeout =>
    cases h0 : Parser.new lx with
    | timeout => rfl
    | ok x => rw [h', h0] at hnew; exact hnew.elim
    | throw e => rw [h', h0] at hnew; exact hnew.elim
    | ub => rw [h', h0] at hnew; exact hnew.elim

theorem tokenSequence_sim {B : Lexer → Lexer → Prop} (hB : KeptByLexer B) (n : Nat) :
    ∀ lx' lx, B lx' lx → tokenSequence n lx' = tokenSequence n lx := by
  induction n with
  | zero => intro lx' lx _; rfl
  | succ k ih =>
    intro lx' lx h
    have hs := hB lx' lx h
    simp only [tokenSequence]
    cases h' : getNextToken lx' with
    | ok x' =>
      cases h0 : getNextToken lx with
      | ok x =>
        rw [h', h0] at hs
        obtain ⟨t', l'⟩ := x'
        obtain ⟨t, l⟩ := x
        obtain ⟨ht, hl⟩ := hs
        subst ht
        simp only [ok_bind, ih l' l hl]
      | throw e => rw [h', h0] at hs; exact hs.elim
      | ub => rw [h', h0] at hs; exact hs.elim
      | timeout => rw [h', h0] at hs; exact hs.elim
    | throw e' =>
      cases h0 : getNextToken lx with
      | throw e =>
        rw [h', h0] at hs
        have he : e' = e := hs
        rw [he]
      | ok x => rw [h', h0] at hs; exact hs.elim
      | ub => rw [h', h0] at hs; exact hs.elim
      | timeout => rw [h', h0] at hs; exact hs.elim
    | ub =>
      cases h0 : getNextToken lx with
      | ub => rfl
      | ok x => rw [h', h0] at hs; exact hs.elim
      | throw e => rw [h', h0] at hs; exact hs.elim
      | timeout => rw [h', h0] at hs; exact hs.elim
    | timeout =>
      cases h0 : getNextToken lx with
      | timeout => rfl
      | ok x => rw [h', h0] at hs; exact hs.elim
      | throw e => rw [h', h0] at hs; exact hs.elim
      | ub => rw [h', h0] at hs; exact hs.elim

theorem parseText_eq (fuel : Nat) (text : String) :
    parseText fuel text =
      (Parser.new (Lexer.new text) >>= fun p =>
        Parser.parse fuel p >>= fun r => Res.ok r.1) := rfl

theorem reachesBoundaryCheck_sound (rest : List Char) (n : Nat) :
    ∀ lx, reachesBoundaryCheck rest n lx = true → ReachesBoundary rest lx := by
  induction n with
  | zero => intro lx h; simp [reachesBoundaryCheck] at h
  | succ k ih =>
    intro lx h
    obtain ⟨ptr, kw⟩ := lx
    by_cases hp : ptr = ptrOf rest
    · rw [hp]
      exact ReachesBoundary.here kw
    · simp only [reachesBoundaryCheck, hp, if_false] at h
      cases ptr with
      | none => simp at h
      | some l =>
        cases l with
        | nil => simp at h
        | cons c r =>
          simp only at h
          by_cases hsp : isspace c = true
          · simp only [hsp, if_true] at h
            exact ReachesBoundary.space c r kw hsp (ih _ h)
          · simp only [hsp, if_false] at h
            by_cases hc : c = '{'
            · subst hc
              simp only [if_true] at h
              cases hskip : skipCommentFrom r with
              | ok p =>
                rw [hskip] at h
                exact ReachesBoundary.comment r kw p hskip (ih _ h)
              | throw e => rw [hskip] at h; simp at h
              | ub => rw [hskip] at h; simp at h
              | timeout => rw [hskip] at h; simp at h
            · simp only [hc, if_false] at h
              cases htok : tokenAt c r kw with
              | ok x =>
                obtain ⟨t, lx1⟩ := x
                rw [htok] at h
                exact ReachesBoundary.token c r kw t lx1 (by simpa using hsp) hc htok (ih _ h)
              | throw e => rw [htok] at h; simp at h
              | ub => rw [htok] at h; simp at h
              | timeout => rw [htok] at h; simp at h

/-- C9 (comment skipping). For every text `pre ++ rest`, every token boundary of it
after `pre` and every comment whose body contains no closing brace, the text with
the comment inserted at the boundary gives the same sequence of tokens and the same
parse result (the same tree or the same failure) as the text without it; and a
lexer whose cursor is on a comment returns what it returns from the character after
the comment. -/
theorem comment_skipped (pre body rest : List Char) (hbody : '}' ∉ body)
    (hboundary : TokenBoundary pre rest) :
    (∀ n, tokenSequence n (Lexer.new ⟨pre ++ commentText body ++ rest⟩) =
        tokenSequence n (Lexer.new ⟨pre ++ rest⟩)) ∧
      (∀ fuel, parseText fuel ⟨pre ++ commentText body ++ rest⟩ =
        parseText fuel ⟨pre ++ rest⟩) ∧
      ∀ kw, getNextToken ⟨some (commentText body ++ rest), kw⟩ =
        getNextToken ⟨ptrOf rest, kw⟩ := by
  have hkept : KeptByLexer (CommentSim body rest) :=
    fun lx' lx h => commentSim_getNextToken body rest hbody lx' lx h
  have htext : pre ++ commentText body ++ rest = pre ++ '{' :: (body ++ '}' :: rest) := by
    simp [commentText]
  have hsim : CommentSim body rest (Lexer.new ⟨pre ++ commentText body ++ rest⟩)
      (Lexer.new ⟨pre ++ rest⟩) := by
    refine Or.inr ⟨pre, initialKeywords, ?_, ?_, ?_⟩
    · simp only [Lexer.new]
      rw [ptrOf_of_ne_nil _ hboundary.1]
    · simp only [Lexer.new]
      rw [htext]
    · exact hboundary.2
  refine ⟨fun n => tokenSequence_sim hkept n _ _ hsim, fun fuel => ?_, fun kw => ?_⟩
  · rw [parseText_eq, parseText_eq]
    exact parse_of_lexer_sim hkept fuel _ _ hsim
  · have hc : commentText body ++ rest = '{' :: (body ++ '}' :: rest) := by
      simp [commentText]
    rw [hc]
    exact getNextToken_at_comment body rest kw hbody

/-- C9, at the program `PROGRAM p; VAR x : INTEGER; BEGIN {this is ignored} x := 1
END.`, the comment being inserted after `BEGIN `: the parse result is that of the
program without the comment, the tree of `x := 1`; and at the text `BEGIN {this is
ignored} x := 1 END.`: its tokens are those of `BEGIN  x := 1 END.`. -/
theorem comment_skipped_witness :
    (parseText 9 "PROGRAM p; VAR x : INTEGER; BEGIN \x7bthis is ignored\x7d x := 1 END." =
        parseText 9 "PROGRAM p; VAR x : INTEGER; BEGIN  x := 1 END." ∧
      parseText 9 "PROGRAM p; VAR x : INTEGER; BEGIN  x := 1 END." =
        .ok (assignXTree (.Num ⟨.IntegerConst, "1"⟩))) ∧
      tokenSequence 8 (Lexer.new "BEGIN \x7bthis is ignored\x7d x := 1 END.") =
        tokenSequence 8 (Lexer.new "BEGIN  x := 1 END.") ∧
      tokenSequence 8 (Lexer.new "BEGIN  x := 1 END.") =
        .ok [⟨.Begin, "BEGIN"⟩, ⟨.ID, "x"⟩, ⟨.Assign, ":="⟩, ⟨.IntegerConst, "1"⟩,
          ⟨.End, "End"⟩, ⟨.Dot, "."⟩, ⟨.TYPE_EOF, ""⟩] :=
  ⟨⟨(comment_skipped "PROGRAM p; VAR x : INTEGER; BEGIN ".data "this is ignored".data
      " x := 1 END.".data (by decide)
      ⟨by decide, reachesBoundaryCheck_sound _ 40 _ (by decide)⟩).2.1 9,
    by rfl⟩,
    (comment_skipped "BEGIN ".data "this is ignored".data " x := 1 END.".data (by decide)
      ⟨by decide, reachesBoundaryCheck_sound _ 10 _ (by decide)⟩).1 8,
    by rfl⟩

/-! ## Characters that start no token -/

theorem getNextToken_skipped (skipped : List Char) (hskip : Skipped skipped) (c : Char)
    (rest : List Char) (kw : List (String × Token)) :
    getNextToken ⟨some (skipped ++ c :: rest), kw⟩ = getNextToken ⟨some (c :: rest), kw⟩ := by
  induction hskip with
  | nil => rfl
  | space w s hw _ ih =>
    rw [List.cons_append, getNextToken_space_one w _ kw hw, ptrOf_of_ne_nil _ (by simp), ih]
  | comment body s hbody _ ih =>
    have h : '\x7b' :: (body ++ '\x7d' :: s) ++ c :: rest =
        '\x7b' :: (body ++ '\x7d' :: (s ++ c :: rest)) := by simp
    rw [h, getNextToken_at_comment body _ kw hbody, ptrOf_of_ne_nil _ (by simp), ih]

/-- C11 (unrecognised character). When the character `c` that follows the skipped
white space and comments is not a digit, not a letter and none of `+ - * / ( ) ; . ,
:` (and, being the next character after skipping, neither white space nor the
opening brace of a comment), `getNextToken` throws `LexError`: it returns no token. -/
theorem unrecognised_character_rejected (skipped : List Char) (c : Char) (rest : List Char)
    (kw : List (String × Token)) (hskip : Skipped skipped) (hspace : isspace c = false)
    (hbrace : c ≠ '\x7b') (hdigit : isdigit c = false) (halpha : isalpha c = false)
    (hpunct : c ∉ tokenPunctuation) :
    getNextToken ⟨some (skipped ++ c :: rest), kw⟩ = .throw LexError := by
  rw [getNextToken_skipped skipped hskip, getNextToken_tokenAt c rest kw hspace hbrace]
  simp only [tokenPunctuation, List.mem_cons, List.mem_singleton, not_or, List.mem_nil_iff,
    not_false_eq_true, and_true] at hpunct
  obtain ⟨h1, h2, h3, h4, h5, h6, h7, h8, h9, h10⟩ := hpunct
  rw [tokenAt_punctuation c rest kw hdigit halpha h10]
  simp [punctuation, h1, h2, h3, h4, h5, h6, h7, h8, h9]

/-- C11, at the text `  {note} @x` (the character `@` after white space and a
comment), and at the characters `_`, `=`, `}` and `!` at the start of a text. -/
theorem unrecognised_character_rejected_witness :
    getNextToken (Lexer.new "  \x7bnote\x7d @x") = .throw LexError ∧
      getNextToken (Lexer.new "_a") = .throw LexError ∧
      getNextToken (Lexer.new "= 1") = .throw LexError ∧
      getNextToken (Lexer.new "\x7d") = .throw LexError ∧
      getNextToken (Lexer.new "!") = .throw LexError :=
  ⟨unrecognised_character_rejected "  \x7bnote\x7d ".data '@' "x".data initialKeywords
      (.space ' ' _ (by decide) (.space ' ' _ (by decide)
        (.comment "note".data _ (by decide) (.space ' ' _ (by decide) .nil))))
      (by decide) (by decide) (by decide) (by decide) (by decide),
    unrecognised_character_rejected [] '_' "a".data initialKeywords .nil
      (by decide) (by decide) (by decide) (by decide) (by decide),
    unrecognised_character_rejected [] '=' " 1".data initialKeywords .nil
      (by decide) (by decide) (by decide) (by decide) (by decide),
    unrecognised_character_rejected [] '\x7d' [] initialKeywords .nil
      (by decide) (by decide) (by decide) (by decide) (by decide),
    unrecognised_character_rejected [] '!' [] initialKeywords .nil
      (by decide) (by decide) (by decide) (by decide) (by decide)⟩

/-! ## Reserved words and identifiers -/

theorem findKeyword_append (a b : List (String × Token)) (key : String) :
    findKeyword (a ++ b) key =
      match findKeyword a key with
      | some t => some t
      | none => findKeyword b key := by
  induction a with
  | nil => rfl
  | cons x a ih =>
    obtain ⟨k, t⟩ := x
    by_cases h : k = key
    · simp [findKeyword, h]
    · simp [findKeyword, h, ih]

theorem findKeyword_interned (ids : List String) (key : String) :
    findKeyword (ids.map internEntry) key =
      if key ∈ ids then some ⟨.ID, key⟩ else none := by
  induction ids with
  | nil => rfl
  | cons w ids ih =>
    by_cases h : w = key
    · simp [findKeyword, internEntry, h]
    · have h2 : ¬ key = w := fun e => h e.symm
      simp [findKeyword, internEntry, h, h2, ih]

theorem findKeyword_initial (key : String) :
    (findKeyword initialKeywords key).map Token.type_ = reservedKind key := by
  simp only [initialKeywords, findKeyword, reservedKind]
  by_cases h1 : "PROGRAM" = key
  · subst h1; rfl
  by_cases h2 : "VAR" = key
  · subst h2; rfl
  by_cases h3 : "DIV" = key
  · subst h3; rfl
  by_cases h4 : "INTEGER" = key
  · subst h4; rfl
  by_cases h5 : "REAL" = key
  · subst h5; rfl
  by_cases h6 : "BEGIN" = key
  · subst h6; rfl
  by_cases h7 : "END" = key
  · subst h7; rfl
  by_cases h8 : "PROCEDURE" = key
  · subst h8; rfl
  have g1 : ¬ key = "PROGRAM" := fun e => h1 e.symm
  have g2 : ¬ key = "VAR" := fun e => h2 e.symm
  have g3 : ¬ key = "DIV" := fun e => h3 e.symm
  have g4 : ¬ key = "INTEGER" := fun e => h4 e.symm
  have g5 : ¬ key = "REAL" := fun e => h5 e.symm
  have g6 : ¬ key = "BEGIN" := fun e => h6 e.symm
  have g7 : ¬ key = "END" := fun e => h7 e.symm
  have g8 : ¬ key = "PROCEDURE" := fun e => h8 e.symm
  simp [h1, h2, h3, h4, h5, h6, h7, h8, g1, g2, g3, g4, g5, g6, g7, g8]

theorem reservedKind_ne_ID (w : String) (kind : TokenType) (h : reservedKind w = some kind) :
    kind ≠ .ID := by
  simp only [reservedKind] at h
  split_ifs at h <;> (cases h; decide)

theorem reservedKind_isSome_iff (w : String) :
    (∃ kind, reservedKind w = some kind) ↔ w ∈ reservedWords := by
  simp only [reservedKind, reservedWords, List.mem_cons, List.mem_singleton, List.mem_nil_iff,
    or_false]
  constructor
  · rintro ⟨kind, h⟩
    split_ifs at h with h1 h2 h3 h4 h5 h6 h7 h8 <;> simp_all
  · intro h
    split_ifs with h1 h2 h3 h4 h5 h6 h7 h8 <;> simp_all

theorem isalpha_not_isspace (c : Char) (h : isalpha c = true) : isspace c = false := by
  simp only [isalpha, Bool.or_eq_true, Bool.and_eq_true, decide_eq_true_eq] at h
  simp only [isspace, Bool.or_eq_false_iff, decide_eq_false_iff_not, Bool.and_eq_false_imp,
    decide_eq_true_eq]
  omega

theorem isalpha_ne_brace (c : Char) (h : isalpha c = true) : c ≠ '\x7b' := by
  intro e
  subst e
  exact absurd h (by decide)

/-- C12 (reserved-word classification). At a letter `c`, with `w` the maximal
alphanumeric run that starts there, the lexer (whatever identifiers it has met
before) consumes `w` and returns: the token kind of the specification for `w` when
`w` is one of the eight reserved words, and the `ID` token of value `w` otherwise. The
returned token is a reserved-word token (its kind is not `ID`) if and only if `w` is
one of the eight reserved words; the comparison is that of strings, so case matters. -/
theorem reserved_word_classification (c : Char) (r : List Char) (ids : List String)
    (hc : isalpha c = true) :
    ∃ t ids',
      getNextToken ⟨some (c :: r), internedTable ids⟩ =
        .ok (t, ⟨ptrOf ((c :: r).dropWhile isalnum), internedTable ids'⟩) ∧
      (∀ kind, reservedKind ⟨(c :: r).takeWhile isalnum⟩ = some kind → t.type_ = kind) ∧
      (reservedKind ⟨(c :: r).takeWhile isalnum⟩ = none →
        t = ⟨.ID, ⟨(c :: r).takeWhile isalnum⟩⟩) ∧
      (t.type_ ≠ .ID ↔ (⟨(c :: r).takeWhile isalnum⟩ : String) ∈ reservedWords) := by
  rw [getNextToken_tokenAt c r _ (isalpha_not_isspace c hc) (isalpha_ne_brace c hc),
    tokenAt_alpha c r _ hc, id_eq, empty_data, List.nil_append]
  generalize (⟨(c :: r).takeWhile isalnum⟩ : String) = w
  have hinit := findKeyword_initial w
  have hfind := findKeyword_append initialKeywords (ids.map internEntry) w
  rw [findKeyword_interned] at hfind
  rw [← reservedKind_isSome_iff]
  cases hk : findKeyword initialKeywords w with
  | some t =>
    rw [hk] at hinit hfind
    simp only [Option.map_some'] at hinit
    simp only [internedTable, hfind]
    refine ⟨t, ids, rfl, ?_, ?_, ?_⟩
    · intro kind h
      rw [← hinit] at h
      exact Option.some.inj h
    · intro h
      rw [← hinit] at h
      cases h
    · exact ⟨fun _ => ⟨_, hinit.symm⟩, fun _ => reservedKind_ne_ID w _ hinit.symm⟩
  | none =>
    rw [hk] at hinit hfind
    simp only [Option.map_none'] at hinit
    simp only [internedTable, hfind]
    by_cases hmem : w ∈ ids
    · simp only [hmem, if_true]
      refine ⟨⟨.ID, w⟩, ids, rfl, ?_, fun _ => rfl, ?_⟩
      · intro kind h
        rw [← hinit] at h
        cases h
      · refine ⟨fun h => absurd rfl h, ?_⟩
        rintro ⟨kind, h⟩
        rw [← hinit] at h
        cases h
    · simp only [hmem, if_false]
      refine ⟨⟨.ID, w⟩, ids ++ [w], ?_, ?_, fun _ => rfl, ?_⟩
      · simp [internedTable, internEntry]
      · intro kind h
        rw [← hinit] at h
        cases h
      · refine ⟨fun h => absurd rfl h, ?_⟩
        rintro ⟨kind, h⟩
        rw [← hinit] at h
        cases h

/-- C12, at the text `begin x`, whose first run is not a reserved word; the lexer
gives `BEGIN` the kind `Begin` and takes `begin` and `Begin` for identifiers. -/
theorem reserved_word_classification_witness :
    (∃ t ids',
      getNextToken ⟨some ('b' :: "egin x".data), internedTable []⟩ =
        .ok (t, ⟨ptrOf (('b' :: "egin x".data).dropWhile isalnum), internedTable ids'⟩) ∧
      (∀ kind, reservedKind ⟨('b' :: "egin x".data).takeWhile isalnum⟩ = some kind →
        t.type_ = kind) ∧
      (reservedKind ⟨('b' :: "egin x".data).takeWhile isalnum⟩ = none →
        t = ⟨.ID, ⟨('b' :: "egin x".data).takeWhile isalnum⟩⟩) ∧
      (t.type_ ≠ .ID ↔
        (⟨('b' :: "egin x".data).takeWhile isalnum⟩ : String) ∈ reservedWords)) ∧
      getNextToken (Lexer.new "begin x") =
        .ok (⟨.ID, "begin"⟩, ⟨some " x".data, internedTable ["begin"]⟩) ∧
      getNextToken (Lexer.new "Begin x") =
        .ok (⟨.ID, "Begin"⟩, ⟨some " x".data, internedTable ["Begin"]⟩) ∧
      getNextToken (Lexer.new "BEGIN x") =
        .ok (⟨.Begin, "BEGIN"⟩, ⟨some " x".data, internedTable []⟩) :=
  ⟨reserved_word_classification 'b' "egin x".data [] (by decide), by rfl, by rfl, by rfl⟩

/-! ## Values of the reserved-word tokens -/

/-- C13 (token lexeme). The token that `getNextToken` returns for the source word
`END` has the value `End`, and the token for `PROCEDURE` has the value `Procedure`:
neither is the spelling that was scanned, while the entry of `BEGIN` in the same
table holds the spelling. -/
theorem reserved_word_value_not_lexeme :
    getNextToken (Lexer.new "END.") =
        .ok (⟨.End, "End"⟩, ⟨some ".".data, initialKeywords⟩) ∧
      getNextToken (Lexer.new "PROCEDURE q;") =
        .ok (⟨.Procedure, "Procedure"⟩, ⟨some " q;".data, initialKeywords⟩) ∧
      getNextToken (Lexer.new "BEGIN END.") =
        .ok (⟨.Begin, "BEGIN"⟩, ⟨some " END.".data, initialKeywords⟩) ∧
      "End" ≠ "END" ∧ "Procedure" ≠ "PROCEDURE" :=
  ⟨by rfl, by rfl, by rfl, by decide, by decide⟩

/-! ## A number at the end of the text -/

theorem dropWhile_all (P : Char → Bool) (l : List Char) (h : ∀ x ∈ l, P x = true) :
    l.dropWhile P = [] := by
  induction l with
  | nil => rfl
  | cons x l ih =>
    rw [List.dropWhile_cons, h x (List.mem_cons_self _ _)]
    exact ih (fun y hy => h y (List.mem_cons_of_mem _ hy))

/-- C14 (number lexing). When a run of digits reaches the end of the input,
`getNextToken` returns no token: after its first loop `Lexer::number` reads
`*currentPtr_`, and the cursor is null. -/
theorem digits_at_end_undefined (ds : List Char) (kw : List (String × Token))
    (hds : IsIntLiteral ds) : getNextToken ⟨some ds, kw⟩ = .ub := by
  obtain ⟨hne, hall⟩ := hds
  cases ds with
  | nil => exact absurd rfl hne
  | cons d ds =>
    have hd : isdigit d = true := hall d (List.mem_cons_self _ _)
    rw [getNextToken_tokenAt d ds kw (isdigit_not_isspace d hd)
      (isdigit_ne d _ hd (by decide)), tokenAt_digit d ds kw hd, number_eq,
      dropWhile_all isdigit (d :: ds) hall]
    rfl

/-- C14, at the text `12`; the same digits followed by a space give the token, and the
second loop of `Lexer::number`, which tests the cursor, reaches the end of `3.14`. -/
theorem digits_at_end_undefined_witness :
    getNextToken (Lexer.new "12") = .ub ∧
      getNextToken (Lexer.new "12 ") =
        .ok (⟨.IntegerConst, "12"⟩, ⟨some " ".data, initialKeywords⟩) ∧
      getNextToken (Lexer.new "3.14") = .ok (⟨.RealConst, "3.14"⟩, ⟨none, initialKeywords⟩) :=
  ⟨digits_at_end_undefined "12".data initialKeywords (by decide), by rfl, by rfl⟩

/-! ## A colon at the end of the text -/

/-- C15 (colon disambiguation). When `:` is the last character of the input,
`getNextToken` returns no token: `Lexer::peek` returns null and the test
`*peek() == '='` reads through it. The text `x :` gives the identifier and then no
`Colon` token; a colon followed by a space gives `Colon`, a colon followed by `=`
gives `Assign`. -/
theorem colon_at_end_undefined :
    (∀ kw, getNextToken ⟨some ":".data, kw⟩ = .ub) ∧
      tokenSequence 1 (Lexer.new "x :") = .ok [⟨.ID, "x"⟩] ∧
      tokenSequence 2 (Lexer.new "x :") = .ub ∧
      getNextToken (Lexer.new ": ") = .ok (⟨.Colon, ":"⟩, ⟨some " ".data, initialKeywords⟩) ∧
      getNextToken (Lexer.new ":=") = .ok (⟨.Assign, ":="⟩, ⟨none, initialKeywords⟩) :=
  ⟨fun _ => by rfl, by rfl, by rfl, by rfl, by rfl⟩

/-! ## The empty text -/

/-- C16 (finite token stream). On the empty text `getNextToken` returns no token, and
so not the end-of-input token: the constructor leaves the cursor at `textStart_`,
past `textEnd_` and not null, and the loop reads `*currentPtr_`. The parser built on
the empty text has no first token. -/
theorem empty_text_undefined :
    getNextToken (Lexer.new "") = .ub ∧
      (∀ n, tokenSequence (n + 1) (Lexer.new "") = .ub) ∧
      Parser.new (Lexer.new "") = .ub ∧
      ∀ fuel, parseText fuel "" = .ub :=
  ⟨by rfl, fun _ => by rfl, by rfl, fun _ => by rfl⟩

/-! ## Every token moves the cursor -/

theorem tokenAt_progress (c : Char) (r : List Char) (kw : List (String × Token))
    (t : Token) (lx : Lexer) (h : tokenAt c r kw = .ok (t, lx)) :
    lx.remaining ≤ r.length := by
  by_cases hd : isdigit c = true
  · rw [tokenAt_digit c _ kw hd, number_eq] at h
    have hdrop : (c :: r).dropWhile isdigit = r.dropWhile isdigit := by
      rw [List.dropWhile_cons, hd]; rfl
    rw [hdrop] at h
    have h1 := length_dropWhile_le' isdigit r
    cases hD : r.dropWhile isdigit with
    | nil => rw [hD] at h; cases h
    | cons d rest1 =>
      rw [hD] at h h1
      simp only [ptrOf_cons] at h
      have h2 := length_dropWhile_le' isdigit rest1
      simp only [List.length_cons] at h1
      by_cases hdq : d = '.'
      · simp only [hdq, if_true, ok_bind] at h
        cases h
        rw [remaining_mk, ptrLen_ptrOf]
        omega
      · simp only [hdq, if_false, ok_bind] at h
        cases h
        rw [remaining_mk]
        simp only [ptrLen, List.length_cons]
        omega
  · by_cases ha : isalpha c = true
    · rw [tokenAt_alpha c _ kw ha, id_eq] at h
      have halnum : isalnum c = true := by simp [isalnum, ha]
      have hdrop : (c :: r).dropWhile isalnum = r.dropWhile isalnum := by
        rw [List.dropWhile_cons, halnum]; rfl
      rw [hdrop] at h
      have h1 := length_dropWhile_le' isalnum r
      split at h <;> (cases h; rw [remaining_mk, ptrLen_ptrOf]; exact h1)
    · by_cases hc : c = ':'
      · subst hc
        rw [tokenAt_colon] at h
        cases r with
        | nil => cases h
        | cons d r2 =>
          by_cases hdq : d = '='
          · simp only [hdq, if_true] at h
            cases h
            rw [remaining_mk, ptrLen_ptrOf]
            simp only [List.length_cons]; omega
          · simp only [hdq, if_false] at h
            cases h
            rw [remaining_mk]
            simp only [ptrLen, List.length_cons]; omega
      · have hd' : isdigit c = false := by simpa using hd
        have ha' : isalpha c = false := by simpa using ha
        rw [tokenAt_punctuation c _ kw hd' ha' hc] at h
        cases hp : punctuation c with
        | none => rw [hp] at h; cases h
        | some t0 =>
          rw [hp] at h
          cases h
          rw [remaining_mk, ptrLen_ptrOf]

/-- A call of `getNextToken` that returns leaves the cursor where it was only when
the cursor is null, and then the token is the end-of-input token; every other call
that returns moves the cursor forward by at least one character. -/
theorem getNextToken_progress (n : Nat) :
    ∀ (lx lx' : Lexer) (t : Token), lx.remaining ≤ n → getNextToken lx = .ok (t, lx') →
      (lx.currentPtr_ = none ∧ t = ⟨.TYPE_EOF, ""⟩ ∧ lx' = lx) ∨
        lx'.remaining < lx.remaining := by
  induction n with
  | zero =>
    intro lx lx' t hn h
    obtain ⟨ptr, kw⟩ := lx
    cases ptr with
    | none =>
      rw [getNextToken_null] at h
      cases h
      exact Or.inl ⟨rfl, rfl, rfl⟩
    | some l =>
      cases l with
      | nil => cases h
      | cons c r => simp [Lexer.remaining] at hn
  | succ k ih =>
    intro lx lx' t hn h
    obtain ⟨ptr, kw⟩ := lx
    cases ptr with
    | none =>
      rw [getNextToken_null] at h
      cases h
      exact Or.inl ⟨rfl, rfl, rfl⟩
    | some l =>
      cases l with
      | nil => cases h
      | cons c r =>
        right
        have hr : r.length ≤ k := by
          simp only [Lexer.remaining, List.length_cons] at hn
          omega
        have hrem : Lexer.remaining ⟨some (c :: r), kw⟩ = r.length + 1 := rfl
        rw [hrem]
        by_cases hsp : isspace c = true
        · rw [getNextToken_space_one c r kw hsp] at h
          have hle : Lexer.remaining ⟨ptrOf r, kw⟩ ≤ k := by
            rw [remaining_mk, ptrLen_ptrOf]; exact hr
          have h2 : Lexer.remaining ⟨ptrOf r, kw⟩ = r.length := by
            rw [remaining_mk, ptrLen_ptrOf]
          rcases ih _ lx' t hle h with ⟨_, _, hlx⟩ | hlt
          · rw [hlx, h2]; omega
          · omega
        · by_cases hc : c = '\x7b'
          · subst hc
            rw [getNextToken_comment] at h
            cases hskip : skipCommentFrom r with
            | ok p =>
              rw [hskip, ok_bind] at h
              have hp := ptrLen_skipCommentFrom r p hskip
              have h2 : Lexer.remaining ⟨p, kw⟩ = ptrLen p := remaining_mk p kw
              have hle : Lexer.remaining ⟨p, kw⟩ ≤ k := by omega
              rcases ih _ lx' t hle h with ⟨_, _, hlx⟩ | hlt
              · rw [hlx, h2]; omega
              · omega
            | throw e => rw [hskip] at h; cases h
            | ub => rw [hskip] at h; cases h
            | timeout => rw [hskip] at h; cases h
          · rw [getNextToken_tokenAt c r kw (by simpa using hsp) hc] at h
            have := tokenAt_progress c r kw t lx' h
            omega

/-! ## Tokens after the final dot -/

theorem bind_eq_ok {α β : Type} (m : Res α) (f : α → Res β) (b : β)
    (h : (m >>= f) = .ok b) : ∃ a, m = .ok a ∧ f a = .ok b := by
  cases m with
  | ok a => exact ⟨a, rfl, h⟩
  | throw x => cases h
  | ub => cases h
  | timeout => cases h

theorem eat_eq_ok (tktype : TokenType) (p q : Parser) (h : eat tktype p = .ok q) :
    p.currentToken_.type_ = tktype ∧
      getNextToken p.lexer_ = .ok (q.currentToken_, q.lexer_) := by
  obtain ⟨lx, ty, v⟩ := p
  rw [eat_mk] at h
  by_cases hty : ty = tktype
  · rw [if_pos hty, new_eq] at h
    obtain ⟨r, hr, hq⟩ := bind_eq_ok _ _ _ h
    cases hq
    exact ⟨hty, hr⟩
  · rw [if_neg hty] at h
    cases h

/-- When `Parser::program` has parsed a program from the state `p`, up to and
including its final `.`, the current token `q.currentToken_` is the token that the
lexer returned after that `.`, and `Parser::parse` succeeds, with the tree of the
program, exactly when this token is the end-of-input token: with any other token
after the `.` it throws `SyntaxError`. -/
theorem parse_after_program (fuel : Nat) (p q : Parser) (node : Program)
    (hprog : program fuel p = .ok (node, q)) :
    (∃ q0 : Parser, q0.currentToken_.type_ = .Dot ∧
        getNextToken q0.lexer_ = .ok (q.currentToken_, q.lexer_)) ∧
      Parser.parse fuel p =
        if q.currentToken_.type_ = .TYPE_EOF then .ok (node, q) else .throw SyntaxError := by
  obtain ⟨lx, ty, v⟩ := p
  constructor
  · rw [program_mk] at hprog
    obtain ⟨p1, _, h1⟩ := bind_eq_ok _ _ _ hprog
    obtain ⟨n, _, h2⟩ := bind_eq_ok _ _ _ h1
    obtain ⟨p3, _, h3⟩ := bind_eq_ok _ _ _ h2
    obtain ⟨b, _, h4⟩ := bind_eq_ok _ _ _ h3
    obtain ⟨r, hdot, h5⟩ := bind_eq_ok _ _ _ h4
    cases h5
    exact ⟨b.2, eat_eq_ok _ _ _ hdot⟩
  · rw [parse_mk, hprog, ok_bind]
    by_cases h : q.currentToken_.type_ = .TYPE_EOF
    · simp [h]
    · simp [h]

/-! ## A VAR section without declarations -/

/-- C18 (VAR section). The parser accepts a block in which `VAR` is followed at once
by `BEGIN`, and one in which it is followed at once by `PROCEDURE`: the loop of
`Parser::declarations` after `eat(Var)` runs zero times, and the tree has no
variable declaration. The grammar in the comment of `Parser::declarations` asks for
at least one. -/
theorem empty_var_section_accepted :
    parseText 9 "PROGRAM p; VAR BEGIN END." = .ok ⟨"p", .mk [] (.Compound [.NoOp])⟩ ∧
      parseText 9 "PROGRAM p; VAR PROCEDURE q; BEGIN END; BEGIN END." =
        .ok ⟨"p", .mk [.ProcedureDecl "q" (.mk [] (.Compound [.NoOp]))] (.Compound [.NoOp])⟩ ∧
      parseText 9 "PROGRAM p; VAR BEGIN END." = parseText 9 "PROGRAM p; BEGIN END." :=
  ⟨by rfl, by rfl, by rfl⟩

/-! ## The type node of a declaration -/

/-- C19 (variable-declaration shape). For the declaration `x, y : INTEGER` of the
program `PROGRAM p; VAR x, y : INTEGER; z : REAL; BEGIN END.` the parser returns the
two `VarDecl` nodes of `x` and `y` in source order, and for `z : REAL` the node of `z`,
but the type node of each holds the token `;` that follows the type keyword, not
the keyword: `Parser::typeSpec` builds the node from the current token after `eat`. -/
theorem type_node_holds_next_token :
    parseText 9 "PROGRAM p; VAR x, y : INTEGER; z : REAL; BEGIN END." =
        .ok ⟨"p", .mk
          [.VarDecl ⟨⟨.ID, "x"⟩⟩ ⟨⟨.Semi, ";"⟩⟩, .VarDecl ⟨⟨.ID, "y"⟩⟩ ⟨⟨.Semi, ";"⟩⟩,
            .VarDecl ⟨⟨.ID, "z"⟩⟩ ⟨⟨.Semi, ";"⟩⟩]
          (.Compound [.NoOp])⟩ ∧
      variableDeclaration 3 ⟨⟨some ", y : INTEGER; BEGIN".data, internedTable ["x"]⟩, ⟨.ID, "x"⟩⟩ =
        .ok ([.VarDecl ⟨⟨.ID, "x"⟩⟩ ⟨⟨.Semi, ";"⟩⟩, .VarDecl ⟨⟨.ID, "y"⟩⟩ ⟨⟨.Semi, ";"⟩⟩],
          ⟨⟨some " BEGIN".data, internedTable ["x", "y"]⟩, ⟨.Semi, ";"⟩⟩) ∧
      TypeNode.value_ ⟨⟨.Semi, ";"⟩⟩ ≠ "INTEGER" :=
  ⟨by rfl, by rfl, by decide⟩

/-! ## A declaration whose type name is not in the table -/

/-- C20: the code does not do what the claim states. The declaration of `x` with the
type name `FOO`, which is not a key of the table of the builtin types, does not make
the semantic pass fail: `SymbolTableBuilder::visit(VarDecl&)` makes no test on the
pointer that `lookup` returns, and a variable symbol is defined for `x`. The visits
of `Assign` and of `Var` make the test: on the same name and the same table they
throw. The declaration is not rejected either on the text
`PROGRAM p; VAR x : INTEGER; BEGIN END.`, whose type node has the name `;`. -/
theorem unknown_type_not_rejected :
    SymbolTable.find initBuiltins "FOO" = none ∧
      semanticPass ⟨"p", .mk [.VarDecl ⟨⟨.ID, "x"⟩⟩ ⟨⟨.ID, "FOO"⟩⟩] (.Compound [.NoOp])⟩ =
        .ok [("INTEGER", some (.BuiltinTypeSymbol "INTEGER")),
          ("REAL", some (.BuiltinTypeSymbol "REAL")), ("FOO", none),
          ("x", some (.VarSymbol "x" none))] ∧
      (parseText 9 "PROGRAM p; VAR x : INTEGER; BEGIN END." >>= semanticPass) =
        .ok [("INTEGER", some (.BuiltinTypeSymbol "INTEGER")),
          ("REAL", some (.BuiltinTypeSymbol "REAL")), (";", none),
          ("x", some (.VarSymbol "x" none))] ∧
      SymbolTableBuilder.visitStmt
          (.Assign ⟨⟨.ID, "FOO"⟩⟩ ⟨.Assign, ":="⟩ (.Num ⟨.IntegerConst, "1"⟩)) initBuiltins =
        .throw (SemanticError "FOO") ∧
      SymbolTableBuilder.visitExpr (.Var ⟨⟨.ID, "FOO"⟩⟩) initBuiltins =
        .throw (SemanticError "FOO") :=
  ⟨by rfl, by rfl, by rfl, by rfl, by rfl⟩

/-- The visit of a `VarDecl` whose type name has no entry in the table returns
normally, whatever the declaration and the table, and a variable symbol is defined
under the name of the variable; the visits of `Assign` and of `Var` throw on a name
that has no entry. -/
theorem unknown_type_defines_variable (varNode : Var) (typeNode : TypeNode) (t : SymbolTable)
    (hunknown : t.find typeNode.value_ = none) :
    SymbolTableBuilder.visitDecl (.VarDecl varNode typeNode) t =
        .ok ((t.assign typeNode.value_ none).define (.VarSymbol varNode.value_ none)) ∧
      ((t.assign typeNode.value_ none).define (.VarSymbol varNode.value_ none)).find
        varNode.value_ = some (some (.VarSymbol varNode.value_ none)) ∧
      (∀ (op : Token) (e : Expr),
        SymbolTableBuilder.visitStmt (.Assign ⟨typeNode.token_⟩ op e) t =
          .throw (SemanticError typeNode.value_)) ∧
      SymbolTableBuilder.visitExpr (.Var ⟨typeNode.token_⟩) t =
        .throw (SemanticError typeNode.value_) := by
  refine ⟨?_, ?_, ?_, ?_⟩
  · simp only [SymbolTableBuilder.visitDecl, SymbolTableBuilder.visitVarDecl,
      SymbolTable.lookup, hunknown]
    rfl
  · unfold SymbolTable.define
    rw [symbolTable_find_assign]
    simp [Symbol.name_]
  · intro op e
    have h : t.find (Var.value_ ⟨typeNode.token_⟩) = none := hunknown
    simp only [SymbolTableBuilder.visitStmt, SymbolTable.lookup, h]
    rfl
  · have h : t.find (Var.value_ ⟨typeNode.token_⟩) = none := hunknown
    simp only [SymbolTableBuilder.visitExpr, SymbolTable.lookup, h]
    rfl

/-- The declaration of `x` with the type name `FOO`, in the table of the builtin
types. -/
theorem unknown_type_defines_variable_witness :
    SymbolTableBuilder.visitDecl (.VarDecl ⟨⟨.ID, "x"⟩⟩ ⟨⟨.ID, "FOO"⟩⟩) initBuiltins =
        .ok [("INTEGER", some (.BuiltinTypeSymbol "INTEGER")),
          ("REAL", some (.BuiltinTypeSymbol "REAL")), ("FOO", none),
          ("x", some (.VarSymbol "x" none))] ∧
      SymbolTable.find [("INTEGER", some (.BuiltinTypeSymbol "INTEGER")),
          ("REAL", some (.BuiltinTypeSymbol "REAL")), ("FOO", none),
          ("x", some (.VarSymbol "x" none))] "x" = some (some (.VarSymbol "x" none)) :=
  ⟨(unknown_type_defines_variable ⟨⟨.ID, "x"⟩⟩ ⟨⟨.ID, "FOO"⟩⟩ initBuiltins (by rfl)).1,
    (unknown_type_defines_variable ⟨⟨.ID, "x"⟩⟩ ⟨⟨.ID, "FOO"⟩⟩ initBuiltins (by rfl)).2.1⟩

/-! ## Following a parser run on a second text

A run of the parser on one lexer is followed on a second lexer as long as the two
return the same tokens; the first run may escape, after which nothing is said. -/

theorem trackOut_ok {E : Parser → Prop} {L : Lexer → Lexer → Prop} {α : Type} (a : α)
    {p' p : Parser} (h : TrackState E L p' p) :
    TrackOut E L (Res.ok (a, p')) (Res.ok (a, p)) := Or.inr ⟨p', rfl, h⟩

theorem trackEat_ok {E : Parser → Prop} {L : Lexer → Lexer → Prop} {p' p : Parser}
    (h : TrackState E L p' p) : TrackEat E L (Res.ok p') (Res.ok p) := Or.inr ⟨p', rfl, h⟩

theorem trackState_escaped {E : Parser → Prop} {L : Lexer → Lexer → Prop}
    (hK : Tracked E L) {q : Parser} (h : TrackState E L q q) : E q :=
  h.2.elim id (fun hl => absurd hl (hK.1 _))

theorem trackOut_bind {E : Parser → Prop} {L : Lexer → Lexer → Prop} (hK : Tracked E L)
    {α β : Type} {m' m : Res (α × Parser)} {k : α × Parser → Res (β × Parser)}
    (hm : TrackOut E L m' m)
    (hk : ∀ a p' p, TrackState E L p' p → TrackOut E L (k (a, p')) (k (a, p))) :
    TrackOut E L (m' >>= k) (m >>= k) := by
  cases m with
  | ok x =>
    obtain ⟨a, q⟩ := x
    rw [ok_bind]
    rcases hm with hq | ⟨q', hq', hs⟩
    · have h := hk a q q ⟨rfl, Or.inl hq⟩
      cases hr : k (a, q) with
      | ok y =>
        obtain ⟨b, q2⟩ := y
        rw [hr] at h
        rcases h with h2 | ⟨q2', h2', hs2⟩
        · exact Or.inl h2
        · have hq2 : q2' = q2 := (congrArg Prod.snd (Res.ok.inj h2')).symm
          rw [hq2] at hs2
          exact Or.inl (trackState_escaped hK hs2)
      | throw e => trivial
      | ub => trivial
      | timeout => trivial
    · rw [hq', ok_bind]
      exact hk a q' q hs
  | throw e => trivial
  | ub => trivial
  | timeout => trivial

theorem trackEat_bind {E : Parser → Prop} {L : Lexer → Lexer → Prop} (hK : Tracked E L)
    {β : Type} {m' m : Res Parser} {k : Parser → Res (β × Parser)}
    (hm : TrackEat E L m' m)
    (hk : ∀ p' p, TrackState E L p' p → TrackOut E L (k p') (k p)) :
    TrackOut E L (m' >>= k) (m >>= k) := by
  cases m with
  | ok q =>
    rw [ok_bind]
    rcases hm with hq | ⟨q', hq', hs⟩
    · have h := hk q q ⟨rfl, Or.inl hq⟩
      cases hr : k q with
      | ok y =>
        obtain ⟨b, q2⟩ := y
        rw [hr] at h
        rcases h with h2 | ⟨q2', h2', hs2⟩
        · exact Or.inl h2
        · have hq2 : q2' = q2 := (congrArg Prod.snd (Res.ok.inj h2')).symm
          rw [hq2] at hs2
          exact Or.inl (trackState_escaped hK hs2)
      | throw e => trivial
      | ub => trivial
      | timeout => trivial
    · rw [hq', ok_bind]
      exact hk q' q hs
  | throw e => trivial
  | ub => trivial
  | timeout => trivial

theorem trackState_mk {E : Parser → Prop} {L : Lexer → Lexer → Prop} {p' p : Parser}
    (h : TrackState E L p' p) :
    ∃ lx' lx ty v, p' = ⟨lx', ⟨ty, v⟩⟩ ∧ p = ⟨lx, ⟨ty, v⟩⟩ ∧
      (E ⟨lx, ⟨ty, v⟩⟩ ∨ L lx' lx) := by
  obtain ⟨lx', ty', v'⟩ := p'
  obtain ⟨lx, ty, v⟩ := p
  obtain ⟨htok, hlex⟩ := h
  simp only [Token.mk.injEq] at htok
  obtain ⟨hty, hv⟩ := htok
  subst hty hv
  exact ⟨lx', lx, ty', v', rfl, rfl, hlex⟩

theorem variable_track {E : Parser → Prop} {L : Lexer → Lexer → Prop} (hK : Tracked E L) :
    FunTrack E L variable_ := by
  intro p' p h
  obtain ⟨lx', lx, ty, v, rfl, rfl, hlex⟩ := trackState_mk h
  rw [variable_mk, variable_mk]
  exact trackEat_bind hK (hK.2 _ _ _ ⟨rfl, hlex⟩) (fun q' q hq => trackOut_ok _ hq)

/-- The expression methods of the parser are followed. -/
theorem expr_track {E : Parser → Prop} {L : Lexer → Lexer → Prop} (hK : Tracked E L) (fuel : Nat) :
    FunTrack E L (factor fuel) ∧ FunTrack E L (term fuel) ∧
      (∀ result, FunTrack E L (termLoop fuel result)) ∧ FunTrack E L (expr fuel) ∧
      (∀ result, FunTrack E L (exprLoop fuel result)) := by
  induction fuel with
  | zero =>
    refine ⟨?_, ?_, ?_, ?_, ?_⟩
    · intro p' p _; simp only [factor]; exact trivial
    · intro p' p _; simp only [term]; exact trivial
    · intro result p' p _; simp only [termLoop]; exact trivial
    · intro p' p _; simp only [expr]; exact trivial
    · intro result p' p _; simp only [exprLoop]; exact trivial
  | succ n ih =>
    obtain ⟨ihFactor, ihTerm, ihTermLoop, ihExpr, ihExprLoop⟩ := ih
    refine ⟨?_, ?_, ?_, ?_, ?_⟩
    · intro p' p h
      obtain ⟨lx', lx, ty, v, rfl, rfl, hlex⟩ := trackState_mk h
      have hp : TrackState E L ⟨lx', ⟨ty, v⟩⟩ ⟨lx, ⟨ty, v⟩⟩ := ⟨rfl, hlex⟩
      rw [factor_mk, factor_mk]
      split_ifs
      · exact trackEat_bind hK (hK.2 _ _ _ hp) (fun q' q hq => trackOut_ok _ hq)
      · exact trackEat_bind hK (hK.2 _ _ _ hp) (fun q' q hq => trackOut_ok _ hq)
      · exact trackEat_bind hK (hK.2 _ _ _ hp) (fun q' q hq =>
          trackOut_bind hK (ihExpr q' q hq) (fun a r' r hr =>
            trackEat_bind hK (hK.2 _ _ _ hr) (fun s' s0 hs => trackOut_ok _ hs)))
      · exact trackEat_bind hK (hK.2 _ _ _ hp) (fun q' q hq =>
          trackOut_bind hK (ihFactor q' q hq) (fun a r' r hr => trackOut_ok _ hr))
      · exact trackEat_bind hK (hK.2 _ _ _ hp) (fun q' q hq =>
          trackOut_bind hK (ihFactor q' q hq) (fun a r' r hr => trackOut_ok _ hr))
      · exact trackOut_bind hK (variable_track hK _ _ hp) (fun a r' r hr => trackOut_ok _ hr)
      · exact trivial
    · intro p' p h
      obtain ⟨lx', lx, ty, v, rfl, rfl, hlex⟩ := trackState_mk h
      rw [term_mk, term_mk]
      exact trackOut_bind hK (ihFactor _ _ ⟨rfl, hlex⟩) (fun a r' r hr => ihTermLoop a r' r hr)
    · intro result p' p h
      obtain ⟨lx', lx, ty, v, rfl, rfl, hlex⟩ := trackState_mk h
      have hp : TrackState E L ⟨lx', ⟨ty, v⟩⟩ ⟨lx, ⟨ty, v⟩⟩ := ⟨rfl, hlex⟩
      have hk : ∀ q' q, TrackState E L q' q →
          TrackOut E L (factor n q' >>= fun r => termLoop n (.BinOp result ⟨ty, v⟩ r.1) r.2)
            (factor n q >>= fun r => termLoop n (.BinOp result ⟨ty, v⟩ r.1) r.2) :=
        fun q' q hq => trackOut_bind hK (ihFactor q' q hq) (fun a r' r hr => ihTermLoop _ r' r hr)
      rw [termLoop_mk, termLoop_mk]
      split_ifs
      · exact trackEat_bind hK (hK.2 _ _ _ hp) hk
      · exact trackEat_bind hK (hK.2 _ _ _ hp) hk
      · exact trackEat_bind hK (hK.2 _ _ _ hp) hk
      · exact trackEat_bind hK (trackEat_ok hp) hk
      · exact trackOut_ok _ hp
    · intro p' p h
      obtain ⟨lx', lx, ty, v, rfl, rfl, hlex⟩ := trackState_mk h
      rw [expr_mk, expr_mk]
      exact trackOut_bind hK (ihTerm _ _ ⟨rfl, hlex⟩) (fun a r' r hr => ihExprLoop a r' r hr)
    · intro result p' p h
      obtain ⟨lx', lx, ty, v, rfl, rfl, hlex⟩ := trackState_mk h
      have hp : TrackState E L ⟨lx', ⟨ty, v⟩⟩ ⟨lx, ⟨ty, v⟩⟩ := ⟨rfl, hlex⟩
      have hk : ∀ q' q, TrackState E L q' q →
          TrackOut E L (term n q' >>= fun r => exprLoop n (.BinOp result ⟨ty, v⟩ r.1) r.2)
            (term n q >>= fun r => exprLoop n (.BinOp result ⟨ty, v⟩ r.1) r.2) :=
        fun q' q hq => trackOut_bind hK (ihTerm q' q hq) (fun a r' r hr => ihExprLoop _ r' r hr)
      rw [exprLoop_mk, exprLoop_mk]
      split_ifs
      · exact trackEat_bind hK (hK.2 _ _ _ hp) hk
      · exact trackEat_bind hK (hK.2 _ _ _ hp) hk
      · exact trackEat_bind hK (trackEat_ok hp) hk
      · exact trackOut_ok _ hp

theorem assignmentStatement_track
    {E : Parser → Prop} {L : Lexer → Lexer → Prop} (hK : Tracked E L) (fuel : Nat) :
    FunTrack E L (assignmentStatement fuel) := by
  intro p' p h
  obtain ⟨lx', lx, ty, v, rfl, rfl, hlex⟩ := trackState_mk h
  rw [assignmentStatement_mk, assignmentStatement_mk]
  refine trackOut_bind hK (variable_track hK _ _ ⟨rfl, hlex⟩) (fun a r' r hr => ?_)
  have htok : r'.currentToken_ = r.currentToken_ := hr.1
  simp only [htok]
  exact trackEat_bind hK (hK.2 _ _ _ hr) (fun q' q hq =>
    trackOut_bind hK ((expr_track hK fuel).2.2.2.1 q' q hq) (fun e s' s0 hs => trackOut_ok _ hs))

/-- The statement methods of the parser are followed. -/
theorem statement_track
    {E : Parser → Prop} {L : Lexer → Lexer → Prop} (hK : Tracked E L) (fuel : Nat) :
    FunTrack E L (compoundStatement fuel) ∧ FunTrack E L (statementList fuel) ∧
      (∀ result, FunTrack E L (statementListLoop fuel result)) ∧ FunTrack E L (statement fuel) := by
  induction fuel with
  | zero =>
    refine ⟨?_, ?_, ?_, ?_⟩
    · intro p' p _; simp only [compoundStatement]; exact trivial
    · intro p' p _; simp only [statementList]; exact trivial
    · intro result p' p _; simp only [statementListLoop]; exact trivial
    · intro p' p _; simp only [statement]; exact trivial
  | succ n ih =>
    obtain ⟨ihCompound, ihList, ihLoop, ihStatement⟩ := ih
    refine ⟨?_, ?_, ?_, ?_⟩
    · intro p' p h
      obtain ⟨lx', lx, ty, v, rfl, rfl, hlex⟩ := trackState_mk h
      rw [compoundStatement_mk, compoundStatement_mk]
      exact trackEat_bind hK (hK.2 _ _ _ ⟨rfl, hlex⟩) (fun q' q hq =>
        trackOut_bind hK (ihList q' q hq) (fun a r' r hr =>
          trackEat_bind hK (hK.2 _ _ _ hr) (fun s' s0 hs => trackOut_ok _ hs)))
    · intro p' p h
      obtain ⟨lx', lx, ty, v, rfl, rfl, hlex⟩ := trackState_mk h
      rw [statementList_mk, statementList_mk]
      refine trackOut_bind hK (ihStatement _ _ ⟨rfl, hlex⟩) (fun a r' r hr =>
        trackOut_bind hK (ihLoop _ r' r hr) (fun b s' s0 hs => ?_))
      have htok : s'.currentToken_ = s0.currentToken_ := hs.1
      simp only [htok]
      split_ifs
      · exact trivial
      · exact trackOut_ok _ hs
    · intro result p' p h
      obtain ⟨lx', lx, ty, v, rfl, rfl, hlex⟩ := trackState_mk h
      have hp : TrackState E L ⟨lx', ⟨ty, v⟩⟩ ⟨lx, ⟨ty, v⟩⟩ := ⟨rfl, hlex⟩
      rw [statementListLoop_mk, statementListLoop_mk]
      split_ifs
      · exact trackEat_bind hK (hK.2 _ _ _ hp) (fun q' q hq =>
          trackOut_bind hK (ihStatement q' q hq) (fun a r' r hr => ihLoop _ r' r hr))
      · exact trackOut_ok _ hp
    · intro p' p h
      obtain ⟨lx', lx, ty, v, rfl, rfl, hlex⟩ := trackState_mk h
      have hp : TrackState E L ⟨lx', ⟨ty, v⟩⟩ ⟨lx, ⟨ty, v⟩⟩ := ⟨rfl, hlex⟩
      rw [statement_mk, statement_mk]
      split_ifs
      · exact ihCompound _ _ hp
      · exact assignmentStatement_track hK n _ _ hp
      · exact trackOut_ok _ hp

theorem typeSpec_track
    {E : Parser → Prop} {L : Lexer → Lexer → Prop} (hK : Tracked E L) : FunTrack E L typeSpec := by
  intro p' p h
  obtain ⟨lx', lx, ty, v, rfl, rfl, hlex⟩ := trackState_mk h
  have hp : TrackState E L ⟨lx', ⟨ty, v⟩⟩ ⟨lx, ⟨ty, v⟩⟩ := ⟨rfl, hlex⟩
  have hk : ∀ q' q : Parser, TrackState E L q' q →
      TrackOut E L (Res.ok ((⟨q'.currentToken_⟩ : TypeNode), q'))
        (Res.ok ((⟨q.currentToken_⟩ : TypeNode), q)) := by
    intro q' q hq
    have htok : q'.currentToken_ = q.currentToken_ := hq.1
    rw [htok]
    exact trackOut_ok _ hq
  rw [typeSpec_mk, typeSpec_mk]
  split_ifs
  · exact trackEat_bind hK (hK.2 _ _ _ hp) hk
  · exact trackEat_bind hK (hK.2 _ _ _ hp) hk

theorem variableDeclarationLoop_track
    {E : Parser → Prop} {L : Lexer → Lexer → Prop} (hK : Tracked E L) 
    (fuel : Nat) : ∀ varNodes, FunTrack E L (variableDeclarationLoop fuel varNodes) := by
  induction fuel with
  | zero => intro varNodes p' p _; simp only [variableDeclarationLoop]; exact trivial
  | succ n ih =>
    intro varNodes p' p h
    obtain ⟨lx', lx, ty, v, rfl, rfl, hlex⟩ := trackState_mk h
    have hp : TrackState E L ⟨lx', ⟨ty, v⟩⟩ ⟨lx, ⟨ty, v⟩⟩ := ⟨rfl, hlex⟩
    rw [variableDeclarationLoop_mk, variableDeclarationLoop_mk]
    split_ifs
    · refine trackEat_bind hK (hK.2 _ _ _ hp) (fun q' q hq => ?_)
      have htok : q'.currentToken_ = q.currentToken_ := hq.1
      simp only [htok]
      exact trackEat_bind hK (hK.2 _ _ _ hq) (fun r' r hr => ih _ r' r hr)
    · exact trackOut_ok _ hp

theorem variableDeclaration_track
    {E : Parser → Prop} {L : Lexer → Lexer → Prop} (hK : Tracked E L) (fuel : Nat) :
    FunTrack E L (variableDeclaration fuel) := by
  intro p' p h
  obtain ⟨lx', lx, ty, v, rfl, rfl, hlex⟩ := trackState_mk h
  rw [variableDeclaration_mk, variableDeclaration_mk]
  exact trackEat_bind hK (hK.2 _ _ _ ⟨rfl, hlex⟩) (fun q' q hq =>
    trackOut_bind hK (variableDeclarationLoop_track hK fuel _ q' q hq) (fun a r' r hr =>
      trackEat_bind hK (hK.2 _ _ _ hr) (fun s' s0 hs =>
        trackOut_bind hK (typeSpec_track hK s' s0 hs) (fun t u' u hu => trackOut_ok _ hu))))

theorem declarationsVarLoop_track {E : Parser → Prop} {L : Lexer → Lexer → Prop} (hK : Tracked E L)
    (fuel : Nat) : ∀ decls, FunTrack E L (declarationsVarLoop fuel decls) := by
  induction fuel with
  | zero => intro decls p' p _; simp only [declarationsVarLoop]; exact trivial
  | succ n ih =>
    intro decls p' p h
    obtain ⟨lx', lx, ty, v, rfl, rfl, hlex⟩ := trackState_mk h
    have hp : TrackState E L ⟨lx', ⟨ty, v⟩⟩ ⟨lx, ⟨ty, v⟩⟩ := ⟨rfl, hlex⟩
    rw [declarationsVarLoop_mk, declarationsVarLoop_mk]
    split_ifs
    · exact trackOut_bind hK (variableDeclaration_track hK n _ _ hp) (fun a r' r hr =>
        trackEat_bind hK (hK.2 _ _ _ hr) (fun q' q hq => ih _ q' q hq))
    · exact trackOut_ok _ hp

/-- The declaration and block methods of the parser are followed. -/
theorem block_track {E : Parser → Prop} {L : Lexer → Lexer → Prop} (hK : Tracked E L) (fuel : Nat) :
    FunTrack E L (block fuel) ∧ FunTrack E L (declarations fuel) ∧
      (∀ decls, FunTrack E L (declarationsProcLoop fuel decls)) := by
  induction fuel with
  | zero =>
    refine ⟨?_, ?_, ?_⟩
    · intro p' p _; simp only [block]; exact trivial
    · intro p' p _; simp only [declarations]; exact trivial
    · intro decls p' p _; simp only [declarationsProcLoop]; exact trivial
  | succ n ih =>
    obtain ⟨ihBlock, ihDeclarations, ihProcLoop⟩ := ih
    refine ⟨?_, ?_, ?_⟩
    · intro p' p h
      obtain ⟨lx', lx, ty, v, rfl, rfl, hlex⟩ := trackState_mk h
      rw [block_mk, block_mk]
      exact trackOut_bind hK (ihDeclarations _ _ ⟨rfl, hlex⟩) (fun a r' r hr =>
        trackOut_bind hK ((statement_track hK n).1 r' r hr) (fun c s' s0 hs => trackOut_ok _ hs))
    · intro p' p h
      obtain ⟨lx', lx, ty, v, rfl, rfl, hlex⟩ := trackState_mk h
      have hp : TrackState E L ⟨lx', ⟨ty, v⟩⟩ ⟨lx, ⟨ty, v⟩⟩ := ⟨rfl, hlex⟩
      rw [declarations_mk, declarations_mk]
      refine trackOut_bind hK ?_ (fun a r' r hr => ihProcLoop a r' r hr)
      split_ifs
      · exact trackEat_bind hK (hK.2 _ _ _ hp) (fun q' q hq =>
          declarationsVarLoop_track hK n _ q' q hq)
      · exact trackOut_ok _ hp
    · intro decls p' p h
      obtain ⟨lx', lx, ty, v, rfl, rfl, hlex⟩ := trackState_mk h
      have hp : TrackState E L ⟨lx', ⟨ty, v⟩⟩ ⟨lx, ⟨ty, v⟩⟩ := ⟨rfl, hlex⟩
      rw [declarationsProcLoop_mk, declarationsProcLoop_mk]
      split_ifs
      · refine trackEat_bind hK (hK.2 _ _ _ hp) (fun q' q hq => ?_)
        have htok : q'.currentToken_ = q.currentToken_ := hq.1
        simp only [htok]
        exact trackEat_bind hK (hK.2 _ _ _ hq) (fun r' r hr =>
          trackEat_bind hK (hK.2 _ _ _ hr) (fun s' s0 hs =>
            trackOut_bind hK (ihBlock s' s0 hs) (fun b u' u hu =>
              trackEat_bind hK (hK.2 _ _ _ hu) (fun w' w hw => ihProcLoop _ w' w hw))))
      · exact trackOut_ok _ hp

/-! ## Induction along the loop of `getNextToken` -/

theorem skipCommentFrom_cases (r : List Char) :
    skipCommentFrom r = .ub ∨ ∃ r1, skipCommentFrom r = .ok (ptrOf r1) ∧ r1.length < r.length := by
  induction r with
  | nil => exact Or.inl rfl
  | cons c r ih =>
    by_cases hc : c = '\x7d'
    · right
      refine ⟨r, ?_, by simp⟩
      simp [skipCommentFrom, hc]
    · have h : skipCommentFrom (c :: r) = skipCommentFrom r := by simp [skipCommentFrom, hc]
      rw [h]
      rcases ih with hub | ⟨r1, h1, hlen⟩
      · exact Or.inl hub
      · exact Or.inr ⟨r1, h1, by simp only [List.length_cons]; omega⟩

/-- A property of a lexer and an outcome holds of every lexer and the outcome of
`getNextToken` on it, once it holds in each case of the loop: the null cursor, the
cursor of the empty text, a white-space character, a comment (closed or not), and a
character at which a token starts or the lexer fails. -/
theorem getNextToken_cases (P : Lexer → Res (Token × Lexer) → Prop)
    (hnull : ∀ kw, P ⟨none, kw⟩ (.ok (⟨.TYPE_EOF, ""⟩, ⟨none, kw⟩)))
    (hempty : ∀ kw, P ⟨some [], kw⟩ .ub)
    (hspace : ∀ c r kw, isspace c = true → P ⟨ptrOf r, kw⟩ (getNextToken ⟨ptrOf r, kw⟩) →
      P ⟨some (c :: r), kw⟩ (getNextToken ⟨ptrOf r, kw⟩))
    (hcomment : ∀ r r1 kw, skipCommentFrom r = .ok (ptrOf r1) →
      P ⟨ptrOf r1, kw⟩ (getNextToken ⟨ptrOf r1, kw⟩) →
      P ⟨some ('\x7b' :: r), kw⟩ (getNextToken ⟨ptrOf r1, kw⟩))
    (hopen : ∀ r kw, skipCommentFrom r = .ub → P ⟨some ('\x7b' :: r), kw⟩ .ub)
    (htoken : ∀ c r kw, isspace c = false → c ≠ '\x7b' →
      P ⟨some (c :: r), kw⟩ (tokenAt c r kw)) :
    ∀ lx, P lx (getNextToken lx) := by
  have key : ∀ n (s : List Char) kw, s.length ≤ n →
      P ⟨ptrOf s, kw⟩ (getNextToken ⟨ptrOf s, kw⟩) := by
    intro n
    induction n with
    | zero =>
      intro s kw hn
      cases s with
      | nil =>
        show P ⟨none, kw⟩ (getNextToken ⟨none, kw⟩)
        rw [getNextToken_null]; exact hnull kw
      | cons c r => simp at hn
    | succ k ih =>
      intro s kw hn
      cases s with
      | nil =>
        show P ⟨none, kw⟩ (getNextToken ⟨none, kw⟩)
        rw [getNextToken_null]; exact hnull kw
      | cons c r =>
        have hr : r.length ≤ k := by simp only [List.length_cons] at hn; omega
        rw [ptrOf_cons]
        by_cases hsp : isspace c = true
        · rw [getNextToken_space_one c r kw hsp]
          exact hspace c r kw hsp (ih r kw hr)
        · by_cases hc : c = '\x7b'
          · subst hc
            rw [getNextToken_comment]
            rcases skipCommentFrom_cases r with hub | ⟨r1, h1, hlen⟩
            · rw [hub]
              exact hopen r kw hub
            · rw [h1, ok_bind]
              exact hcomment r r1 kw h1 (ih r1 kw (by omega))
          · have hsp' : isspace c = false := by simpa using hsp
            rw [getNextToken_tokenAt c r kw hsp' hc]
            exact htoken c r kw hsp' hc
  intro lx
  obtain ⟨ptr, kw⟩ := lx
  cases ptr with
  | none => rw [getNextToken_null]; exact hnull kw
  | some s =>
    cases s with
    | nil => exact hempty kw
    | cons c r =>
      have h := key (r.length + 1) (c :: r) kw (by simp)
      rw [ptrOf_cons] at h
      exact h

/-! ## The lexer on a text and on the text with more characters after it -/

theorem scan_append (P : Char → Bool) (X : List Char) :
    ∀ l : List Char, l.dropWhile P ≠ [] →
      (l ++ X).dropWhile P = l.dropWhile P ++ X ∧ (l ++ X).takeWhile P = l.takeWhile P := by
  intro l
  induction l with
  | nil => intro h; exact absurd rfl h
  | cons c r ih =>
    intro h
    by_cases hc : P c = true
    · have hr : r.dropWhile P ≠ [] := by
        rw [List.dropWhile_cons, hc] at h
        exact h
      obtain ⟨h1, h2⟩ := ih hr
      constructor
      · rw [List.cons_append, List.dropWhile_cons, hc, List.dropWhile_cons, hc]
        exact h1
      · rw [List.cons_append, List.takeWhile_cons, hc, List.takeWhile_cons, hc]
        simp only [if_true]
        rw [h2]
    · constructor
      · rw [List.cons_append, List.dropWhile_cons, List.dropWhile_cons]
        simp [hc]
      · rw [List.cons_append, List.takeWhile_cons, List.takeWhile_cons]
        simp [hc]

theorem ptrOf_inj (a b : List Char) (h : ptrOf a = ptrOf b) : a = b := by
  cases a with
  | nil =>
    cases b with
    | nil => rfl
    | cons d b => cases h
  | cons c a =>
    cases b with
    | nil => cases h
    | cons d b => exact Option.some.inj h

theorem ptrOf_eq_some (s l : List Char) (h : ptrOf s = some l) : s = l ∧ l ≠ [] := by
  cases s with
  | nil => cases h
  | cons c r =>
    have e : c :: r = l := Option.some.inj h
    exact ⟨e, by rw [← e]; simp⟩

theorem skipCommentFrom_append (X : List Char) :
    ∀ r r1 : List Char, skipCommentFrom r = .ok (ptrOf r1) →
      skipCommentFrom (r ++ X) = .ok (ptrOf (r1 ++ X)) := by
  intro r
  induction r with
  | nil => intro r1 h; cases h
  | cons c r ih =>
    intro r1 h
    by_cases hc : c = '\x7d'
    · simp only [skipCommentFrom, hc, if_true, Res.ok.injEq] at h
      have e := ptrOf_inj _ _ h
      subst e
      simp [skipCommentFrom, hc]
    · simp only [skipCommentFrom, hc, if_false] at h
      simp only [List.cons_append, skipCommentFrom, hc, if_false]
      exact ih r1 h

theorem reservedKind_ne_end (w : String) (kind : TokenType) (h : reservedKind w = some kind) :
    kind ≠ .Dot ∧ kind ≠ .TYPE_EOF := by
  simp only [reservedKind] at h
  split_ifs at h <;> (cases h; exact ⟨by decide, by decide⟩)

/-- A token found in a table of interned identifiers is neither a dot nor the
end-of-input token. -/
theorem findKeyword_internedTable (ids : List String) (w : String) (t : Token)
    (h : findKeyword (internedTable ids) w = some t) :
    t.type_ ≠ .Dot ∧ t.type_ ≠ .TYPE_EOF := by
  have hinit := findKeyword_initial w
  rw [internedTable, findKeyword_append, findKeyword_interned] at h
  cases hk : findKeyword initialKeywords w with
  | some t0 =>
    rw [hk] at h hinit
    simp only [Option.some.injEq] at h
    subst h
    exact reservedKind_ne_end w _ hinit.symm
  | none =>
    rw [hk] at h
    simp only at h
    split_ifs at h
    cases h
    exact ⟨fun e => (by cases e), fun e => (by cases e)⟩

theorem punctuation_ne_eof (c : Char) (t : Token) (h : punctuation c = some t) :
    t.type_ ≠ .TYPE_EOF := by
  simp only [punctuation] at h
  split_ifs at h <;> (cases h; exact fun e => (by cases e))

theorem extended_mk (trailer : List Char) (htr : trailer ≠ []) (s : List Char)
    (ids : List String) :
    Extended trailer ⟨ptrOf (s ++ trailer), internedTable ids⟩ ⟨ptrOf s, internedTable ids⟩ :=
  ⟨s, ids, rfl, by rw [ptrOf_of_ne_nil _ (by simp [htr])]⟩

/-- A token scanned in a text is scanned in the same way when more characters follow
the text, unless the scan reached the end of the text; a token that reaches the end
of the text and is not one character of punctuation is not a dot. -/
theorem tokenAt_extended (trailer : List Char) (htr : trailer ≠ []) (c : Char)
    (r : List Char) (ids : List String) (t : Token) (l : Lexer)
    (h : tokenAt c r (internedTable ids) = .ok (t, l)) :
    t.type_ ≠ .TYPE_EOF ∧
      ((l.currentPtr_ = none ∧ t.type_ ≠ .Dot) ∨
        ∃ l', tokenAt c (r ++ trailer) (internedTable ids) = .ok (t, l') ∧
          Extended trailer l' l) := by
  by_cases hd : isdigit c = true
  · rw [tokenAt_digit c r _ hd, number_eq] at h
    rw [tokenAt_digit c (r ++ trailer) _ hd, number_eq]
    cases hD : (c :: r).dropWhile isdigit with
    | nil => rw [hD] at h; cases h
    | cons d rest1 =>
      have hne : (c :: r).dropWhile isdigit ≠ [] := by rw [hD]; simp
      obtain ⟨e1, e2⟩ := scan_append isdigit trailer (c :: r) hne
      rw [List.cons_append] at e1 e2
      rw [hD] at h e1
      rw [e1, e2]
      simp only [ptrOf_cons, List.cons_append] at h ⊢
      by_cases hdq : d = '.'
      · simp only [hdq, if_true, ok_bind] at h ⊢
        cases h
        refine ⟨fun e => (by cases e), ?_⟩
        cases hD2 : rest1.dropWhile isdigit with
        | nil => exact Or.inl ⟨rfl, fun e => (by cases e)⟩
        | cons d2 rest2 =>
          right
          have hne2 : rest1.dropWhile isdigit ≠ [] := by rw [hD2]; simp
          obtain ⟨f1, f2⟩ := scan_append isdigit trailer rest1 hne2
          rw [f1, f2, hD2]
          exact ⟨_, rfl, extended_mk trailer htr (d2 :: rest2) ids⟩
      · simp only [hdq, if_false, ok_bind] at h ⊢
        cases h
        refine ⟨fun e => (by cases e), Or.inr ⟨_, rfl, ?_⟩⟩
        exact extended_mk trailer htr (d :: rest1) ids
  · by_cases ha : isalpha c = true
    · rw [tokenAt_alpha c r _ ha, id_eq] at h
      rw [tokenAt_alpha c (r ++ trailer) _ ha, id_eq]
      cases hR : (c :: r).dropWhile isalnum with
      | nil =>
        rw [hR] at h
        cases hf : findKeyword (internedTable ids)
            ⟨("" : String).data ++ (c :: r).takeWhile isalnum⟩ with
        | some t0 =>
          rw [hf] at h
          cases h
          have ht := findKeyword_internedTable ids _ _ hf
          exact ⟨ht.2, Or.inl ⟨rfl, ht.1⟩⟩
        | none =>
          rw [hf] at h
          cases h
          exact ⟨fun e => (by cases e), Or.inl ⟨rfl, fun e => (by cases e)⟩⟩
      | cons d rest1 =>
        have hne : (c :: r).dropWhile isalnum ≠ [] := by rw [hR]; simp
        obtain ⟨e1, e2⟩ := scan_append isalnum trailer (c :: r) hne
        rw [List.cons_append] at e1 e2
        rw [e1, e2]
        rw [hR] at h ⊢
        cases hf : findKeyword (internedTable ids)
            ⟨("" : String).data ++ (c :: r).takeWhile isalnum⟩ with
        | some t0 =>
          rw [hf] at h
          cases h
          have ht := findKeyword_internedTable ids _ _ hf
          exact ⟨ht.2, Or.inr ⟨_, rfl, extended_mk trailer htr (d :: rest1) ids⟩⟩
        | none =>
          rw [hf] at h
          cases h
          refine ⟨fun e => (by cases e), Or.inr ⟨_, rfl, ?_⟩⟩
          have hk : internedTable ids ++
              [((⟨("" : String).data ++ (c :: r).takeWhile isalnum⟩ : String),
                (⟨.ID, ⟨("" : String).data ++ (c :: r).takeWhile isalnum⟩⟩ : Token))] =
              internedTable (ids ++ [⟨("" : String).data ++ (c :: r).takeWhile isalnum⟩]) := by
            simp [internedTable, internEntry]
          rw [hk]
          exact extended_mk trailer htr (d :: rest1) _
    · by_cases hc : c = ':'
      · subst hc
        rw [tokenAt_colon] at h
        rw [tokenAt_colon]
        cases r with
        | nil => cases h
        | cons d r2 =>
          simp only [List.cons_append] at h ⊢
          by_cases hdq : d = '='
          · simp only [hdq, if_true] at h ⊢
            cases h
            exact ⟨fun e => (by cases e), Or.inr ⟨_, rfl, extended_mk trailer htr r2 ids⟩⟩
          · simp only [hdq, if_false] at h ⊢
            cases h
            exact ⟨fun e => (by cases e),
              Or.inr ⟨_, rfl, extended_mk trailer htr (d :: r2) ids⟩⟩
      · have hd' : isdigit c = false := by simpa using hd
        have ha' : isalpha c = false := by simpa using ha
        rw [tokenAt_punctuation c r _ hd' ha' hc] at h
        rw [tokenAt_punctuation c (r ++ trailer) _ hd' ha' hc]
        cases hp : punctuation c with
        | none => rw [hp] at h; cases h
        | some t0 =>
          rw [hp] at h
          cases h
          exact ⟨punctuation_ne_eof c _ hp, Or.inr ⟨_, rfl, extended_mk trailer htr r ids⟩⟩

/-- The next token of a lexer and that of the lexer on the text extended by
`trailer`. When the first is the end-of-input token, the second lexer has skipped
what was left of the text and goes on with `trailer`. Otherwise either the token used
up the text, and then it is not a dot, or the second lexer returns the same token and
stands at the same place. -/
theorem getNextToken_extended (trailer : List Char) (htr : trailer ≠ []) (s : List Char)
    (ids : List String) (t : Token) (l : Lexer)
    (h : getNextToken ⟨ptrOf s, internedTable ids⟩ = .ok (t, l)) :
    (t.type_ = .TYPE_EOF ∧ l.currentPtr_ = none ∧
        getNextToken ⟨some (s ++ trailer), internedTable ids⟩ =
          getNextToken ⟨some trailer, internedTable ids⟩) ∨
      (t.type_ ≠ .TYPE_EOF ∧
        ((l.currentPtr_ = none ∧ t.type_ ≠ .Dot) ∨
          ∃ l', getNextToken ⟨some (s ++ trailer), internedTable ids⟩ = .ok (t, l') ∧
            Extended trailer l' l)) := by
  have key := getNextToken_cases
    (fun lx res => ∀ (s : List Char) (ids : List String) (t : Token) (l : Lexer),
      lx = ⟨ptrOf s, internedTable ids⟩ → res = .ok (t, l) →
      (t.type_ = .TYPE_EOF ∧ l.currentPtr_ = none ∧
          getNextToken ⟨some (s ++ trailer), internedTable ids⟩ =
            getNextToken ⟨some trailer, internedTable ids⟩) ∨
        (t.type_ ≠ .TYPE_EOF ∧
          ((l.currentPtr_ = none ∧ t.type_ ≠ .Dot) ∨
            ∃ l', getNextToken ⟨some (s ++ trailer), internedTable ids⟩ = .ok (t, l') ∧
              Extended trailer l' l)))
    ?_ ?_ ?_ ?_ ?_ ?_ ⟨ptrOf s, internedTable ids⟩
  · exact key s ids t l rfl h
  · intro kw s ids t l hlx hres
    simp only [Lexer.mk.injEq] at hlx
    cases s with
    | nil =>
      cases hres
      exact Or.inl ⟨rfl, rfl, rfl⟩
    | cons c r => cases hlx.1
  · intro kw s ids t l _ hres
    cases hres
  · intro c r kw hsp ih s ids t l hlx hres
    simp only [Lexer.mk.injEq] at hlx
    obtain ⟨hs, hkw⟩ := hlx
    have hs' := (ptrOf_eq_some s _ hs.symm).1
    subst hs' hkw
    have hp : getNextToken ⟨some (c :: r ++ trailer), internedTable ids⟩ =
        getNextToken ⟨some (r ++ trailer), internedTable ids⟩ := by
      rw [List.cons_append, getNextToken_space_one c _ _ hsp,
        ptrOf_of_ne_nil _ (by simp [htr])]
    rw [hp]
    exact ih r ids t l rfl hres
  · intro r r1 kw hskip ih s ids t l hlx hres
    simp only [Lexer.mk.injEq] at hlx
    obtain ⟨hs, hkw⟩ := hlx
    have hs' := (ptrOf_eq_some s _ hs.symm).1
    subst hs' hkw
    have hp : getNextToken ⟨some ('\x7b' :: r ++ trailer), internedTable ids⟩ =
        getNextToken ⟨some (r1 ++ trailer), internedTable ids⟩ := by
      rw [List.cons_append, getNextToken_comment, skipCommentFrom_append trailer r r1 hskip,
        ok_bind, ptrOf_of_ne_nil _ (by simp [htr])]
    rw [hp]
    exact ih r1 ids t l rfl hres
  · intro r kw _ s ids t l _ hres
    cases hres
  · intro c r kw hsp hc s ids t l hlx hres
    simp only [Lexer.mk.injEq] at hlx
    obtain ⟨hs, hkw⟩ := hlx
    have hs' := (ptrOf_eq_some s _ hs.symm).1
    subst hs' hkw
    right
    have hp : getNextToken ⟨some (c :: r ++ trailer), internedTable ids⟩ =
        tokenAt c (r ++ trailer) (internedTable ids) := by
      rw [List.cons_append, getNextToken_tokenAt c _ _ hsp hc]
    rw [hp]
    exact tokenAt_extended trailer htr c r ids t l hres

theorem extended_irrefl (trailer : List Char) (htr : trailer ≠ []) (lx : Lexer) :
    ¬ Extended trailer lx lx := by
  rintro ⟨s, ids, h1, h2⟩
  rw [h1] at h2
  simp only [Lexer.mk.injEq, and_true] at h2
  have h3 := (ptrOf_eq_some s _ h2).1
  exact htr (List.self_eq_append_right.mp h3)

/-- The parser on a text is followed by the parser on the text extended by `trailer`
until the first has used up its text with a token that is not a dot. -/
theorem tracked_extended (trailer : List Char) (htr : trailer ≠ []) :
    Tracked PastEnd (Extended trailer) := by
  refine ⟨extended_irrefl trailer htr, ?_⟩
  intro tktype p' p h
  obtain ⟨lx', lx, ty, v, rfl, rfl, hlex⟩ := trackState_mk h
  rw [eat_mk, eat_mk]
  by_cases hty : ty = tktype
  · rw [if_pos hty, if_pos hty, new_eq, new_eq]
    rcases hlex with hend | hext
    · obtain ⟨ptr, kw⟩ := lx
      have hnone : ptr = none := hend.1
      subst hnone
      rw [getNextToken_null, ok_bind]
      exact Or.inl ⟨rfl, fun e => (by cases e)⟩
    · obtain ⟨s, ids, rfl, rfl⟩ := hext
      cases hres : getNextToken ⟨ptrOf s, internedTable ids⟩ with
      | ok x =>
        obtain ⟨t, l⟩ := x
        rw [ok_bind]
        rcases getNextToken_extended trailer htr s ids t l hres with
          ⟨heof, hnone, _⟩ | ⟨_, ⟨hnone, hdot⟩ | ⟨l', hl', hext'⟩⟩
        · exact Or.inl ⟨hnone, fun e => (by rw [heof] at e; cases e)⟩
        · exact Or.inl ⟨hnone, hdot⟩
        · rw [hl', ok_bind]
          exact Or.inr ⟨_, rfl, rfl, Or.inr hext'⟩
      | throw e => trivial
      | ub => trivial
      | timeout => trivial
  · rw [if_neg hty, if_neg hty]
    trivial

theorem tokenAt_interned (c : Char) (r : List Char) (ids ids2 : List String) (t : Token)
    (l : Lexer) (h : tokenAt c r (internedTable ids) = .ok (t, l)) :
    ∃ l2, tokenAt c r (internedTable ids2) = .ok (t, l2) := by
  by_cases hd : isdigit c = true
  · rw [tokenAt_digit c r _ hd] at h ⊢
    obtain ⟨tp, htp, hq⟩ := bind_eq_ok _ _ _ h
    cases hq
    rw [htp, ok_bind]
    exact ⟨_, rfl⟩
  · by_cases ha : isalpha c = true
    · rw [tokenAt_alpha c r _ ha, id_eq] at h ⊢
      have hf := fun i => findKeyword_append initialKeywords (List.map internEntry i)
        ⟨("" : String).data ++ (c :: r).takeWhile isalnum⟩
      simp only [findKeyword_interned] at hf
      simp only [internedTable, hf] at h ⊢
      cases hk : findKeyword initialKeywords
          ⟨("" : String).data ++ (c :: r).takeWhile isalnum⟩ with
      | some t0 =>
        rw [hk] at h
        simp only [Res.ok.injEq, Prod.mk.injEq] at h
        rw [← h.1]
        exact ⟨_, rfl⟩
      | none =>
        rw [hk] at h
        simp only at h ⊢
        have ht : t = ⟨.ID, ⟨("" : String).data ++ (c :: r).takeWhile isalnum⟩⟩ := by
          split_ifs at h <;> (simp only [Res.ok.injEq, Prod.mk.injEq] at h; exact h.1.symm)
        rw [ht]
        split_ifs <;> exact ⟨_, rfl⟩
    · by_cases hc : c = ':'
      · subst hc
        rw [tokenAt_colon] at h ⊢
        cases r with
        | nil => cases h
        | cons d r2 =>
          by_cases hdq : d = '='
          · simp only [hdq, if_true] at h ⊢
            cases h
            exact ⟨_, rfl⟩
          · simp only [hdq, if_false] at h ⊢
            cases h
            exact ⟨_, rfl⟩
      · have hd' : isdigit c = false := by simpa using hd
        have ha' : isalpha c = false := by simpa using ha
        rw [tokenAt_punctuation c r _ hd' ha' hc] at h ⊢
        cases hp : punctuation c with
        | none => rw [hp] at h; cases h
        | some t0 =>
          rw [hp] at h
          cases h
          exact ⟨_, rfl⟩

/-- The token that `getNextToken` returns does not depend on the identifiers the
lexer has interned. -/
theorem getNextToken_interned (p : Ptr) (ids ids2 : List String) (t : Token) (l : Lexer)
    (h : getNextToken ⟨p, internedTable ids⟩ = .ok (t, l)) :
    ∃ l2, getNextToken ⟨p, internedTable ids2⟩ = .ok (t, l2) := by
  have key := getNextToken_cases
    (fun lx res => ∀ (p : Ptr) (ids : List String) (t : Token) (l : Lexer),
      lx = ⟨p, internedTable ids⟩ → res = .ok (t, l) →
      ∃ l2, getNextToken ⟨p, internedTable ids2⟩ = .ok (t, l2))
    ?_ ?_ ?_ ?_ ?_ ?_ ⟨p, internedTable ids⟩
  · exact key p ids t l rfl h
  · intro kw p ids t l hlx hres
    simp only [Lexer.mk.injEq] at hlx
    rw [← hlx.1]
    cases hres
    exact ⟨_, getNextToken_null _⟩
  · intro kw p ids t l _ hres
    cases hres
  · intro c r kw hsp ih p ids t l hlx hres
    simp only [Lexer.mk.injEq] at hlx
    rw [← hlx.1, getNextToken_space_one c r _ hsp]
    exact ih (ptrOf r) ids t l (by rw [hlx.2]) hres
  · intro r r1 kw hskip ih p ids t l hlx hres
    simp only [Lexer.mk.injEq] at hlx
    rw [← hlx.1, getNextToken_comment, hskip, ok_bind]
    exact ih (ptrOf r1) ids t l (by rw [hlx.2]) hres
  · intro r kw _ p ids t l _ hres
    cases hres
  · intro c r kw hsp hc p ids t l hlx hres
    simp only [Lexer.mk.injEq] at hlx
    rw [← hlx.1, getNextToken_tokenAt c r _ hsp hc]
    rw [hlx.2] at hres
    exact tokenAt_interned c r ids ids2 t l hres

theorem funTrack_apply {E : Parser → Prop} {L : Lexer → Lexer → Prop} {α : Type}
    {f : Parser → Res (α × Parser)} (hf : FunTrack E L f) {p' p q : Parser} {a : α}
    (hs : TrackState E L p' p) (h : f p = .ok (a, q)) :
    E q ∨ ∃ q', f p' = .ok (a, q') ∧ TrackState E L q' q := by
  have ht := hf p' p hs
  rw [h] at ht
  exact ht

theorem funTrack_escape {E : Parser → Prop} {L : Lexer → Lexer → Prop} (hK : Tracked E L)
    {α : Type} {f : Parser → Res (α × Parser)} (hf : FunTrack E L f) {p q : Parser} {a : α}
    (he : E p) (h : f p = .ok (a, q)) : E q := by
  rcases funTrack_apply hf (⟨rfl, Or.inl he⟩ : TrackState E L p p) h with hq | ⟨q', hq', hs⟩
  · exact hq
  · rw [h] at hq'
    have e : q' = q := (congrArg Prod.snd (Res.ok.inj hq')).symm
    rw [e] at hs
    exact trackState_escaped hK hs

theorem eat_apply {E : Parser → Prop} {L : Lexer → Lexer → Prop} (hK : Tracked E L)
    {tktype : TokenType} {p' p q : Parser} (hs : TrackState E L p' p)
    (h : eat tktype p = .ok q) :
    E q ∨ ∃ q', eat tktype p' = .ok q' ∧ TrackState E L q' q := by
  have ht := hK.2 tktype p' p hs
  rw [h] at ht
  exact ht

theorem eat_escape {E : Parser → Prop} {L : Lexer → Lexer → Prop} (hK : Tracked E L)
    {tktype : TokenType} {p q : Parser} (he : E p) (h : eat tktype p = .ok q) : E q := by
  rcases eat_apply hK (⟨rfl, Or.inl he⟩ : TrackState E L p p) h with hq | ⟨q', hq', hs⟩
  · exact hq
  · rw [h] at hq'
    have e : q' = q := (Res.ok.inj hq').symm
    rw [e] at hs
    exact trackState_escaped hK hs

/-- When `Parser::program` parses a program and the end of the input follows its
final dot, then from a state that follows on the text extended by `trailer` it parses
the same program, and its current token is then the first token of `trailer`. -/
theorem program_extended (trailer : List Char) (htr : trailer ≠ []) (fuel : Nat)
    (p0' p0 q : Parser) (node : Program) (t : Token) (lx : Lexer)
    (hs : TrackState PastEnd (Extended trailer) p0' p0)
    (hprog : program fuel p0 = .ok (node, q))
    (heof : q.currentToken_.type_ = .TYPE_EOF)
    (hfurther : getNextToken ⟨some trailer, internedTable []⟩ = .ok (t, lx)) :
    ∃ l2, program fuel p0' = .ok (node, ⟨l2, t⟩) := by
  have hK := tracked_extended trailer htr
  obtain ⟨lx0', lx0, ty0, v0, rfl, rfl, _⟩ := trackState_mk hs
  rw [program_mk] at hprog
  obtain ⟨p1, e1, h1⟩ := bind_eq_ok _ _ _ hprog
  obtain ⟨n, e2, h2⟩ := bind_eq_ok _ _ _ h1
  obtain ⟨p3, e3, h3⟩ := bind_eq_ok _ _ _ h2
  obtain ⟨b, e4, h4⟩ := bind_eq_ok _ _ _ h3
  obtain ⟨r, e5, h5⟩ := bind_eq_ok _ _ _ h4
  obtain ⟨varNode, p2⟩ := n
  obtain ⟨blk, p4⟩ := b
  simp only [Res.ok.injEq, Prod.mk.injEq] at h5
  obtain ⟨hnode, hr⟩ := h5
  subst hr
  have hdot := eat_eq_ok _ _ _ e5
  have n4 : ¬ PastEnd p4 := fun hd => hd.2 hdot.1
  have n3 : ¬ PastEnd p3 := fun hd => n4 (funTrack_escape hK (block_track hK fuel).1 hd e4)
  have n2 : ¬ PastEnd p2 := fun hd => n3 (eat_escape hK hd e3)
  have n1 : ¬ PastEnd p1 := fun hd => n2 (funTrack_escape hK (variable_track hK) hd e2)
  rcases eat_apply hK hs e1 with d1 | ⟨p1', e1', s1⟩
  · exact absurd d1 n1
  rcases funTrack_apply (variable_track hK) s1 e2 with d2 | ⟨p2', e2', s2⟩
  · exact absurd d2 n2
  rcases eat_apply hK s2 e3 with d3 | ⟨p3', e3', s3⟩
  · exact absurd d3 n3
  rcases funTrack_apply (block_track hK fuel).1 s3 e4 with d4 | ⟨p4', e4', s4⟩
  · exact absurd d4 n4
  obtain ⟨l4', l4, ty4, v4, rfl, rfl, hl4⟩ := trackState_mk s4
  rcases hl4 with d4 | ⟨s, ids, rfl, rfl⟩
  · exact absurd d4 n4
  have hty4 : ty4 = .Dot := hdot.1
  rcases getNextToken_extended trailer htr s ids _ _ hdot.2 with
    ⟨_, _, hnext⟩ | ⟨hne, _⟩
  · obtain ⟨l2, hl2⟩ := getNextToken_interned (some trailer) [] ids t lx hfurther
    refine ⟨l2, ?_⟩
    have e5' : eat .Dot ⟨⟨some (s ++ trailer), internedTable ids⟩, ⟨ty4, v4⟩⟩ =
        .ok ⟨l2, t⟩ := by
      rw [eat_mk, if_pos hty4, new_eq, hnext, hl2]
      rfl
    simp only [program_mk, e1', ok_bind, e2', e3', e4', e5', hnode]
  · exact absurd heof hne

/-- C17 (trailing content). For every text that parses as a program (so that only
white space and comments follow its final `.`) and every `trailer` in which the lexer
finds a token other than end-of-input, the text followed by `trailer` is rejected:
`Parser::parse` throws `SyntaxError`. -/
theorem trailing_content_rejected (text trailer : String) (fuel : Nat) (tree : Program) (t : Token)
    (lx : Lexer) (hvalid : parseText fuel text = .ok tree)
    (hfurther : getNextToken (Lexer.new trailer) = .ok (t, lx))
    (htoken : t.type_ ≠ .TYPE_EOF) :
    parseText fuel (text ++ trailer) = .throw SyntaxError := by
  have htr : trailer.data ≠ [] := by
    intro e
    rw [Lexer.new, e] at hfurther
    cases hfurther
  have hK := tracked_extended trailer.data htr
  rw [parseText_eq] at hvalid
  obtain ⟨p0, hnew, hrest⟩ := bind_eq_ok _ _ _ hvalid
  obtain ⟨r, hparse, hr⟩ := bind_eq_ok _ _ _ hrest
  obtain ⟨lx0, ty0, v0⟩ := p0
  rw [parse_mk] at hparse
  obtain ⟨pr, hprog, hif⟩ := bind_eq_ok _ _ _ hparse
  obtain ⟨node, q⟩ := pr
  have heof : q.currentToken_.type_ = .TYPE_EOF := by
    by_contra hne
    simp only [ne_eq, hne, not_false_eq_true, if_true] at hif
    cases hif
  simp only [ne_eq, heof, not_true_eq_false, if_false, Res.ok.injEq] at hif
  rw [new_eq] at hnew
  obtain ⟨tl, htl, hmk⟩ := bind_eq_ok _ _ _ hnew
  obtain ⟨t0, l0⟩ := tl
  simp only [Res.ok.injEq, Parser.mk.injEq] at hmk
  obtain ⟨hl0, ht0⟩ := hmk
  subst hl0 ht0
  have htext : text.data ≠ [] := by
    intro e
    rw [Lexer.new, e] at htl
    cases htl
  have hlexer : Lexer.new text = ⟨ptrOf text.data, internedTable []⟩ := by
    rw [ptrOf_of_ne_nil _ htext]
    rfl
  rw [hlexer] at htl
  have hfurther' : getNextToken ⟨some trailer.data, internedTable []⟩ = .ok (t, lx) := hfurther
  have hnew' : Lexer.new (text ++ trailer) =
      ⟨some (text.data ++ trailer.data), internedTable []⟩ := by
    rw [Lexer.new, String.data_append]
    rfl
  have hprog0 := hprog
  rw [program_mk] at hprog0
  obtain ⟨p1, e1, _⟩ := bind_eq_ok _ _ _ hprog0
  have hty0 : ty0 = .Program := (eat_eq_ok _ _ _ e1).1
  rcases getNextToken_extended trailer.data htr text.data [] _ _ htl with
    ⟨heof0, _, _⟩ | ⟨_, hend | ⟨l', hl', hext⟩⟩
  · rw [hty0] at heof0
    cases heof0
  · obtain ⟨l2, hl2⟩ := program_extended trailer.data htr fuel ⟨l0, ⟨ty0, v0⟩⟩
      ⟨l0, ⟨ty0, v0⟩⟩ q node t lx ⟨rfl, Or.inl ⟨hend.1, hend.2⟩⟩ hprog heof hfurther'
    rw [hprog] at hl2
    simp only [Res.ok.injEq, Prod.mk.injEq, true_and] at hl2
    rw [hl2] at heof
    exact absurd heof htoken
  · obtain ⟨l2, hl2⟩ := program_extended trailer.data htr fuel ⟨l', ⟨ty0, v0⟩⟩
      ⟨l0, ⟨ty0, v0⟩⟩ q node t lx ⟨rfl, Or.inr hext⟩ hprog heof hfurther'
    rw [parseText_eq, hnew', new_eq, hl', ok_bind]
    show (Parser.parse fuel ⟨l', ⟨ty0, v0⟩⟩ >>= fun r => Res.ok r.1) = _
    rw [parse_mk, hl2, ok_bind]
    simp [htoken]

/-- C17, at the program `PROGRAM p; BEGIN END.` followed by ` x`: the program alone
parses, the lexer finds the identifier `x` in the trailer, and the whole text is
rejected. -/
theorem trailing_content_rejected_witness :
    parseText 9 "PROGRAM p; BEGIN END." = .ok ⟨"p", .mk [] (.Compound [.NoOp])⟩ ∧
      getNextToken (Lexer.new " x") = .ok (⟨.ID, "x"⟩, ⟨none, internedTable ["x"]⟩) ∧
      parseText 9 ("PROGRAM p; BEGIN END." ++ " x") = .throw SyntaxError :=
  ⟨by rfl, by rfl,
    trailing_content_rejected "PROGRAM p; BEGIN END." " x" 9 ⟨"p", .mk [] (.Compound [.NoOp])⟩
      ⟨.ID, "x"⟩ ⟨none, internedTable ["x"]⟩ (by rfl) (by rfl) (by decide)⟩

/-! ## Assignment and the store -/

/-- C22 (assignment semantics and frame). For every store `S`, name `x` and
expression `e` that evaluates to `v` in `S`, evaluating the assignment of `e` to `x`
gives the store `S[x := v]`: `x` maps to `v`, whatever it mapped to in `S`, and every
other name has the value, or the absence of a value, that it had in `S`. -/
theorem assign_updates_only_target (S : GlobalScope) (x : Var) (op : Token) (e : Expr)
    (v : Int) (heval : Interpreter.visitExpr e S = .ok v) :
    ∃ S', Interpreter.visitStmt (.Assign x op e) S = .ok S' ∧
      S'.find x.value_ = some v ∧
      ∀ y, y ≠ x.value_ → S'.find y = S.find y := by
  refine ⟨S.assign x.value_ v, ?_, ?_, ?_⟩
  · simp only [Interpreter.visitStmt, heval, ok_bind, pure_eq_ok]
  · rw [globalScope_find_assign]
    simp
  · intro y hy
    rw [globalScope_find_assign]
    have h : ¬ x.value_ = y := fun e => hy e.symm
    simp [h]

/-- C22, at the store `[a := 1, x := 5]` and the assignment `x := a + 1`: the new
store is `[a := 1, x := 2]`. -/
theorem assign_updates_only_target_witness :
    ∃ S', Interpreter.visitStmt
        (.Assign ⟨⟨.ID, "x"⟩⟩ ⟨.Assign, ":="⟩
          (.BinOp (.Var ⟨⟨.ID, "a"⟩⟩) ⟨.PLUS, "+"⟩ (.Num ⟨.IntegerConst, "1"⟩)))
        [("a", 1), ("x", 5)] = .ok S' ∧
      S'.find (Var.value_ ⟨⟨.ID, "x"⟩⟩) = some 2 ∧
      ∀ y, y ≠ Var.value_ ⟨⟨.ID, "x"⟩⟩ → S'.find y = GlobalScope.find [("a", 1), ("x", 5)] y :=
  assign_updates_only_target [("a", 1), ("x", 5)] ⟨⟨.ID, "x"⟩⟩ ⟨.Assign, ":="⟩
    (.BinOp (.Var ⟨⟨.ID, "a"⟩⟩) ⟨.PLUS, "+"⟩ (.Num ⟨.IntegerConst, "1"⟩)) 2 (by rfl)

/-! ## The value of a literal -/

theorem stoiDigits_prefix (ds : List Char) (c : Char) (rest : List Char)
    (hc : isdigit c = false) :
    ∀ acc : Nat, (∀ d ∈ ds, isdigit d = true) →
      stoiDigits (ds ++ c :: rest) acc =
        ds.foldl (fun acc d => acc * 10 + (d.toNat - 48)) acc := by
  induction ds with
  | nil => intro acc _; simp [stoiDigits, hc]
  | cons d ds ih =>
    intro acc hds
    have hd : isdigit d = true := hds d (List.mem_cons_self _ _)
    simp only [List.cons_append, stoiDigits, hd, if_true, List.foldl_cons]
    exact ih _ (fun x hx => hds x (List.mem_cons_of_mem _ hx))

/-- The function `stoi` on an integer literal followed by a character that is not
a digit: the characters from there on are not read. -/
theorem stoi_literal_prefix (ds : List Char) (c : Char) (rest : List Char)
    (hds : IsIntLiteral ds) (hc : isdigit c = false)
    (hmax : (decimalValue ds : Int) ≤ INT_MAX) :
    stoi ⟨ds ++ c :: rest⟩ = .ok (decimalValue ds : Int) := by
  obtain ⟨hne, hall⟩ := hds
  cases ds with
  | nil => exact absurd rfl hne
  | cons d ds =>
    have hd : isdigit d = true := hall d (List.mem_cons_self _ _)
    have hsp : isspace d = false := isdigit_not_isspace d hd
    have hminus : d ≠ '-' := isdigit_ne d _ hd (by decide)
    have hplus : d ≠ '+' := isdigit_ne d _ hd (by decide)
    have hval : stoiDigits (d :: ds ++ c :: rest) 0 = decimalValue (d :: ds) :=
      stoiDigits_prefix _ c rest hc 0 hall
    have hmin : INT_MIN ≤ (decimalValue (d :: ds) : Int) := by
      have : (0 : Int) ≤ (decimalValue (d :: ds) : Int) := Int.ofNat_nonneg _
      have : INT_MIN ≤ 0 := by decide
      omega
    rw [List.cons_append] at hval ⊢
    generalize ds ++ c :: rest = tl at hval ⊢
    simp only [stoi, List.dropWhile, hsp, stoiSign, hminus, hplus, if_false,
      stoiValue, hd, if_true, hval, Bool.false_eq_true, hmin, hmax, and_self]

/-- C23, as stated, fails. The `Num` node of the real literal `3.14` evaluates to the
`int` 3, and the program `PROGRAM p; VAR y : REAL; BEGIN y := 3.14 END.` leaves
`y = 3` in the store. -/
theorem real_literal_not_its_value :
    Interpreter.visitExpr (.Num ⟨.RealConst, "3.14"⟩) [] = .ok 3 ∧
      parseText 9 "PROGRAM p; VAR y : REAL; BEGIN y := 3.14 END." =
        .ok ⟨"p", .mk [.VarDecl ⟨⟨.ID, "y"⟩⟩ ⟨⟨.Semi, ";"⟩⟩]
          (.Compound [.Assign ⟨⟨.ID, "y"⟩⟩ ⟨.Assign, ":="⟩ (.Num ⟨.RealConst, "3.14"⟩)])⟩ ∧
      interpret 9 "PROGRAM p; VAR y : REAL; BEGIN y := 3.14 END." = .ok [("y", 3)] :=
  ⟨by rfl, by rfl, by rfl⟩

/-- C23, amended. A `Num` node evaluates to the `int` that `std::stoi` reads from
the lexeme it carries: for an integer lexeme `ds` (a digit string, leading zeros
allowed, within `int`) that integer, and for a real lexeme, `ds` followed by a dot
and the fraction `fs`, the integer before the dot. -/
theorem num_evaluates_to_int (ty : TokenType) (ds fs : List Char) (g : GlobalScope)
    (hds : IsIntLiteral ds) (hmax : (decimalValue ds : Int) ≤ INT_MAX) :
    Interpreter.visitExpr (.Num ⟨ty, ⟨ds⟩⟩) g = .ok (decimalValue ds : Int) ∧
      Interpreter.visitExpr (.Num ⟨ty, ⟨ds ++ '.' :: fs⟩⟩) g = .ok (decimalValue ds : Int) := by
  constructor
  · simp only [Interpreter.visitExpr]
    exact stoi_literal ds hds hmax
  · simp only [Interpreter.visitExpr]
    exact stoi_literal_prefix ds '.' fs hds (by decide) hmax

/-- C23 amended, at the lexemes `007` and `007.50`: both evaluate to 7. -/
theorem num_evaluates_to_int_witness :
    Interpreter.visitExpr (.Num ⟨.IntegerConst, ⟨"007".data⟩⟩) [] =
        .ok (decimalValue "007".data : Int) ∧
      Interpreter.visitExpr (.Num ⟨.IntegerConst, ⟨"007".data ++ '.' :: "50".data⟩⟩) [] =
        .ok (decimalValue "007".data : Int) :=
  num_evaluates_to_int .IntegerConst "007".data "50".data [] (by decide) (by decide)

/-! ## The names in the store -/

mutual
theorem visitStmt_names : ∀ (s : Stmt) (g g' : GlobalScope),
    Interpreter.visitStmt s g = .ok g' →
    ∀ n, g'.find n ≠ none ↔ (g.find n ≠ none ∨ n ∈ s.targets)
  | .Compound children, g, g', h => by
    simp only [Interpreter.visitStmt] at h
    simpa [Stmt.targets] using visitStmts_names children g g' h
  | .Assign left _ right, g, g', h => by
    simp only [Interpreter.visitStmt] at h
    obtain ⟨v, _, hv⟩ := bind_eq_ok _ _ _ h
    cases hv
    intro n
    rw [globalScope_find_assign]
    by_cases hkey : left.value_ = n
    · simp [hkey, Stmt.targets]
    · have hkey' : ¬ n = left.value_ := fun e => hkey e.symm
      simp [hkey, hkey', Stmt.targets]
  | .NoOp, g, g', h => by
    simp only [Interpreter.visitStmt] at h
    cases h
    simp [Stmt.targets]
theorem visitStmts_names : ∀ (cs : List Stmt) (g g' : GlobalScope),
    Interpreter.visitStmts cs g = .ok g' →
    ∀ n, g'.find n ≠ none ↔ (g.find n ≠ none ∨ n ∈ stmtsTargets cs)
  | [], g, g', h => by
    simp only [Interpreter.visitStmts] at h
    cases h
    simp [stmtsTargets]
  | child :: rest, g, g', h => by
    simp only [Interpreter.visitStmts] at h
    obtain ⟨g1, h1, h2⟩ := bind_eq_ok _ _ _ h
    intro n
    rw [visitStmts_names rest g1 g' h2 n, visitStmt_names child g g1 h1 n]
    simp only [stmtsTargets, List.mem_append]
    tauto
end

/-- C26 (store population). After a successful run from the empty store, a name has
a value in the global store if and only if it is the target of an `Assign` in the
main compound statement of the program, nested compound statements included; so a
variable that is declared and never assigned has no entry. -/
theorem store_names_are_targets (prog : Program) (S : GlobalScope)
    (hrun : Interpreter.visitProgram prog [] = .ok S) (n : String) :
    S.find n ≠ none ↔ n ∈ prog.block_.compoundStatement_.targets := by
  rw [Interpreter.visitProgram, visitBlock_eq] at hrun
  rw [visitStmt_names _ [] S hrun n]
  simp [GlobalScope.find]

/-- C26, at the program `PROGRAM p; VAR x, y, z : INTEGER; BEGIN x := 1; BEGIN y := x
END END.`: the store holds `x` and `y`, and the name `z` has a value if and only if it
is an assignment target, which it is not. -/
theorem store_names_are_targets_witness :
    parseText 12 "PROGRAM p; VAR x, y, z : INTEGER; BEGIN x := 1; BEGIN y := x END END." =
        .ok nestedAssignTree ∧
      Interpreter.visitProgram nestedAssignTree [] = .ok [("x", 1), ("y", 1)] ∧
      (GlobalScope.find [("x", 1), ("y", 1)] "z" ≠ none ↔
        "z" ∈ nestedAssignTree.block_.compoundStatement_.targets) ∧
      "z" ∉ nestedAssignTree.block_.compoundStatement_.targets :=
  ⟨by rfl, by rfl, store_names_are_targets nestedAssignTree [("x", 1), ("y", 1)] (by rfl) "z",
    by decide⟩

/-! ## Programs whose names are all declared -/

/-- C30 (the semantic pass accepts every well-declared program). For every program
without procedure declarations in which every `Assign` target and every `Var` read in
an expression is declared in the VAR section, the semantic pass ends without an error,
with a table in which exactly the two builtin type names and the declared names are
registered; the pipeline then goes on to the evaluator. -/
theorem well_declared_accepted (prog : Program) (hflat : prog.hasNoProcedure = true)
    (hdeclared : ∀ n ∈ prog.usedNames, n ∈ prog.declaredNames) :
    ∃ t, semanticPass prog = .ok t ∧
      (∀ n, Registered t n ↔ (n = "INTEGER" ∨ n = "REAL" ∨ n ∈ prog.declaredNames)) ∧
      ∀ (fuel : Nat) (text : String), parseText fuel text = .ok prog →
        run fuel text = Interpreter.visitProgram prog [] := by
  obtain ⟨name, blk⟩ := prog
  obtain ⟨ds, comp⟩ := blk
  have hds : ds.all Decl.isVarDecl = true := hflat
  simp only [Program.usedNames, Program.declaredNames, Block.usedNames, Block.declaredNames,
    declsUsedNames_of_varDecls ds hds, List.nil_append] at hdeclared ⊢
  have key : ∃ t, (SymbolTableBuilder.visitDecls ds initBuiltins >>=
        SymbolTableBuilder.visitStmt comp) = .ok t ∧
      ∀ n, Registered t n ↔ (Registered initBuiltins n ∨ n ∈ declsDeclaredNames ds) := by
    rcases visitDecls_passSpec ds initBuiltins with ⟨t1, hr, hreg, _⟩ | ⟨m, hm, _, _⟩
    · rw [hr, ok_bind]
      rcases visitStmt_passSpec comp t1 with ⟨t2, hr2, hreg2, _⟩ | ⟨m, hm, hnot, _⟩
      · refine ⟨t2, hr2, fun n => ?_⟩
        rw [hreg2 n, hreg n]
        simp
      · exact absurd ((hreg m).2 (Or.inr (hdeclared m hm))) hnot
    · rw [declsUsedNames_of_varDecls ds hds] at hm
      simp at hm
  obtain ⟨t, hsem, hreg⟩ := key
  have hpass : semanticPass ⟨name, .mk ds comp⟩ = .ok t := by
    simpa [semanticPass, SymbolTableBuilder.visitProgram, SymbolTableBuilder.visitBlock]
      using hsem
  refine ⟨t, hpass, fun n => ?_, ?_⟩
  · rw [hreg n, registered_initBuiltins]
    tauto
  · intro fuel text hparse
    simp [run, hparse, hpass]

/-- C30, at the tree of `PROGRAM p; VAR x, y : INTEGER; BEGIN x := 2; y := x END.`. -/
theorem well_declared_accepted_witness :
    ∃ t, semanticPass assignThenReadTree = .ok t ∧
      (∀ n, Registered t n ↔
        (n = "INTEGER" ∨ n = "REAL" ∨ n ∈ assignThenReadTree.declaredNames)) ∧
      ∀ (fuel : Nat) (text : String), parseText fuel text = .ok assignThenReadTree →
        run fuel text = Interpreter.visitProgram assignThenReadTree [] :=
  well_declared_accepted assignThenReadTree (by rfl) (by decide)

/-! ## Interned identifiers -/

theorem internedTable_append (ids : List String) (w : String) :
    internedTable ids ++ [(w, (⟨.ID, w⟩ : Token))] = internedTable (ids ++ [w]) := by
  simp [internedTable, internEntry]

theorem findKeyword_internedTable_eq (ids : List String) (w : String) :
    findKeyword (internedTable ids) w =
      match findKeyword initialKeywords w with
      | some t => some t
      | none => if w ∈ ids then some ⟨.ID, w⟩ else none := by
  rw [internedTable, findKeyword_append, findKeyword_interned]

theorem tokenAt_interned_cursor (c : Char) (r : List Char) (ids : List String) (t : Token)
    (l : Lexer) (h : tokenAt c r (internedTable ids) = .ok (t, l)) :
    (∃ ids', l.RESERVED_KEYWORDS = internedTable ids') ∧
      ∀ ids2, ∃ ids2', tokenAt c r (internedTable ids2) =
        .ok (t, ⟨l.currentPtr_, internedTable ids2'⟩) := by
  by_cases hd : isdigit c = true
  · rw [tokenAt_digit c r _ hd] at h
    obtain ⟨tp, htp, hq⟩ := bind_eq_ok _ _ _ h
    cases hq
    refine ⟨⟨ids, rfl⟩, fun ids2 => ⟨ids2, ?_⟩⟩
    rw [tokenAt_digit c r _ hd, htp, ok_bind]
  · by_cases ha : isalpha c = true
    · rw [tokenAt_alpha c r _ ha, id_eq] at h
      simp only [findKeyword_internedTable_eq] at h
      have hgoal : ∀ ids2 : List String, tokenAt c r (internedTable ids2) =
          match (match findKeyword initialKeywords
              ⟨("" : String).data ++ (c :: r).takeWhile isalnum⟩ with
            | some t => some t
            | none => if (⟨("" : String).data ++ (c :: r).takeWhile isalnum⟩ : String) ∈ ids2
                then some ⟨.ID, ⟨("" : String).data ++ (c :: r).takeWhile isalnum⟩⟩
                else none) with
          | some t => .ok (t, ⟨ptrOf ((c :: r).dropWhile isalnum), internedTable ids2⟩)
          | none =>
            .ok (⟨.ID, ⟨("" : String).data ++ (c :: r).takeWhile isalnum⟩⟩,
              ⟨ptrOf ((c :: r).dropWhile isalnum),
                internedTable ids2 ++
                  [(⟨("" : String).data ++ (c :: r).takeWhile isalnum⟩,
                    ⟨.ID, ⟨("" : String).data ++ (c :: r).takeWhile isalnum⟩⟩)]⟩) := by
        intro ids2
        rw [tokenAt_alpha c r _ ha, id_eq]
        simp only [findKeyword_internedTable_eq]
      generalize (⟨("" : String).data ++ (c :: r).takeWhile isalnum⟩ : String) = w at h hgoal
      cases hk : findKeyword initialKeywords w with
      | some t0 =>
        rw [hk] at h
        simp only [Res.ok.injEq, Prod.mk.injEq] at h
        obtain ⟨ht, hl⟩ := h
        subst ht hl
        refine ⟨⟨ids, rfl⟩, fun ids2 => ⟨ids2, ?_⟩⟩
        rw [hgoal ids2, hk]
      | none =>
        rw [hk] at h
        simp only at h
        have key : t = ⟨.ID, w⟩ ∧ l.currentPtr_ = ptrOf ((c :: r).dropWhile isalnum) ∧
            ∃ ids', l.RESERVED_KEYWORDS = internedTable ids' := by
          split_ifs at h
          · simp only [Res.ok.injEq, Prod.mk.injEq] at h
            obtain ⟨ht, hl⟩ := h
            subst ht hl
            exact ⟨rfl, rfl, ids, rfl⟩
          · simp only [Res.ok.injEq, Prod.mk.injEq] at h
            obtain ⟨ht, hl⟩ := h
            subst ht hl
            exact ⟨rfl, rfl, ids ++ [w], internedTable_append ids w⟩
        obtain ⟨ht, hl, hids⟩ := key
        refine ⟨hids, fun ids2 => ?_⟩
        rw [hgoal ids2, hk, ht, hl]
        simp only
        split_ifs
        · exact ⟨ids2, rfl⟩
        · exact ⟨ids2 ++ [w], by rw [internedTable_append]⟩
    · by_cases hc : c = ':'
      · subst hc
        rw [tokenAt_colon] at h
        cases r with
        | nil => cases h
        | cons d r2 =>
          by_cases hdq : d = '='
          · simp only [hdq, if_true] at h
            cases h
            refine ⟨⟨ids, rfl⟩, fun ids2 => ⟨ids2, ?_⟩⟩
            rw [tokenAt_colon]
            simp [hdq]
          · simp only [hdq, if_false] at h
            cases h
            refine ⟨⟨ids, rfl⟩, fun ids2 => ⟨ids2, ?_⟩⟩
            rw [tokenAt_colon]
            simp [hdq]
      · have hd' : isdigit c = false := by simpa using hd
        have ha' : isalpha c = false := by simpa using ha
        rw [tokenAt_punctuation c r _ hd' ha' hc] at h
        cases hp : punctuation c with
        | none => rw [hp] at h; cases h
        | some t0 =>
          rw [hp] at h
          cases h
          refine ⟨⟨ids, rfl⟩, fun ids2 => ⟨ids2, ?_⟩⟩
          rw [tokenAt_punctuation c r _ hd' ha' hc, hp]

theorem getNextToken_interned_cursor (p : Ptr) (ids : List String) (t : Token) (l : Lexer)
    (h : getNextToken ⟨p, internedTable ids⟩ = .ok (t, l)) :
    (∃ ids', l.RESERVED_KEYWORDS = internedTable ids') ∧
      ∀ ids2, ∃ ids2', getNextToken ⟨p, internedTable ids2⟩ =
        .ok (t, ⟨l.currentPtr_, internedTable ids2'⟩) := by
  have key := getNextToken_cases
    (fun lx res => ∀ (p : Ptr) (ids : List String) (t : Token) (l : Lexer),
      lx = ⟨p, internedTable ids⟩ → res = .ok (t, l) →
      (∃ ids', l.RESERVED_KEYWORDS = internedTable ids') ∧
        ∀ ids2, ∃ ids2', getNextToken ⟨p, internedTable ids2⟩ =
          .ok (t, ⟨l.currentPtr_, internedTable ids2'⟩))
    ?_ ?_ ?_ ?_ ?_ ?_ ⟨p, internedTable ids⟩
  · exact key p ids t l rfl h
  · intro kw p ids t l hlx hres
    simp only [Lexer.mk.injEq] at hlx
    rw [← hlx.1]
    cases hres
    exact ⟨⟨ids, hlx.2⟩, fun ids2 => ⟨ids2, getNextToken_null _⟩⟩
  · intro kw p ids t l _ hres
    cases hres
  · intro c r kw hsp ih p ids t l hlx hres
    simp only [Lexer.mk.injEq] at hlx
    rw [← hlx.1]
    obtain ⟨h1, h2⟩ := ih (ptrOf r) ids t l (by rw [hlx.2]) hres
    refine ⟨h1, fun ids2 => ?_⟩
    rw [getNextToken_space_one c r _ hsp]
    exact h2 ids2
  · intro r r1 kw hskip ih p ids t l hlx hres
    simp only [Lexer.mk.injEq] at hlx
    rw [← hlx.1]
    obtain ⟨h1, h2⟩ := ih (ptrOf r1) ids t l (by rw [hlx.2]) hres
    refine ⟨h1, fun ids2 => ?_⟩
    rw [getNextToken_comment, hskip, ok_bind]
    exact h2 ids2
  · intro r kw _ p ids t l _ hres
    cases hres
  · intro c r kw hsp hc p ids t l hlx hres
    simp only [Lexer.mk.injEq] at hlx
    rw [← hlx.1]
    rw [hlx.2] at hres
    obtain ⟨h1, h2⟩ := tokenAt_interned_cursor c r ids t l hres
    refine ⟨h1, fun ids2 => ?_⟩
    rw [getNextToken_tokenAt c r _ hsp hc]
    exact h2 ids2

theorem findKeyword_initial_isSome (w : String) :
    (∃ t, findKeyword initialKeywords w = some t) ↔ w ∈ reservedWords := by
  rw [← reservedKind_isSome_iff, ← findKeyword_initial]
  cases findKeyword initialKeywords w <;> simp

/-- C29 (interning has no semantic effect). The keyword table of a lexer is the
table of the constructor followed by the entries of the identifiers `ids` met so far,
and it stays of this form after every token. In such a table each of the eight
reserved words maps to its token of the constructor and every other key `w` maps to
`Token(ID, w)`. The token that `getNextToken` returns, and the place where it leaves
the cursor, are the same whatever identifiers were interned before. -/
theorem interning_changes_no_token (p : Ptr) (ids : List String) (t : Token) (l : Lexer)
    (h : getNextToken ⟨p, internedTable ids⟩ = .ok (t, l)) :
    (∀ w ∈ reservedWords, ∃ t0, findKeyword initialKeywords w = some t0 ∧
        findKeyword (internedTable ids) w = some t0) ∧
      (∀ w t0, w ∉ reservedWords → findKeyword (internedTable ids) w = some t0 →
        t0 = ⟨.ID, w⟩) ∧
      (∃ ids', l.RESERVED_KEYWORDS = internedTable ids') ∧
      ∀ ids2, ∃ ids2', getNextToken ⟨p, internedTable ids2⟩ =
        .ok (t, ⟨l.currentPtr_, internedTable ids2'⟩) := by
  refine ⟨?_, ?_, getNextToken_interned_cursor p ids t l h⟩
  · intro w hw
    obtain ⟨t0, ht0⟩ := (findKeyword_initial_isSome w).2 hw
    exact ⟨t0, ht0, by rw [findKeyword_internedTable_eq, ht0]⟩
  · intro w t0 hw hf
    rw [findKeyword_internedTable_eq] at hf
    cases hk : findKeyword initialKeywords w with
    | some t1 => exact absurd ((findKeyword_initial_isSome w).1 ⟨t1, hk⟩) hw
    | none =>
      rw [hk] at hf
      simp only at hf
      split_ifs at hf
      exact (Option.some.inj hf).symm

/-- C29, at the text ` y := x` read by a lexer that has interned `x` and `BEGINNER`:
the lexer returns the identifier `y`, as does a lexer with any other identifiers
interned; a fresh lexer and one that has interned `y` return the same token. -/
theorem interning_changes_no_token_witness :
    ((∀ w ∈ reservedWords, ∃ t0, findKeyword initialKeywords w = some t0 ∧
        findKeyword (internedTable ["x", "BEGINNER"]) w = some t0) ∧
      (∀ w t0, w ∉ reservedWords →
        findKeyword (internedTable ["x", "BEGINNER"]) w = some t0 → t0 = ⟨.ID, w⟩) ∧
      (∃ ids', Lexer.RESERVED_KEYWORDS
        ⟨some " := x".data, internedTable ["x", "BEGINNER", "y"]⟩ = internedTable ids') ∧
      ∀ ids2, ∃ ids2', getNextToken ⟨some " y := x".data, internedTable ids2⟩ =
        .ok (⟨.ID, "y"⟩, ⟨some " := x".data, internedTable ids2'⟩)) ∧
      getNextToken ⟨some " y := x".data, internedTable []⟩ =
        .ok (⟨.ID, "y"⟩, ⟨some " := x".data, internedTable ["y"]⟩) ∧
      getNextToken ⟨some " y := x".data, internedTable ["y"]⟩ =
        .ok (⟨.ID, "y"⟩, ⟨some " := x".data, internedTable ["y"]⟩) :=
  ⟨interning_changes_no_token (some " y := x".data) ["x", "BEGINNER"] ⟨.ID, "y"⟩
      ⟨some " := x".data, internedTable ["x", "BEGINNER", "y"]⟩ (by rfl),
    by rfl, by rfl⟩

/-! ## The symbol of a declared variable -/

/-- C21 (declared symbols). After the semantic pass on the parsed program
`PROGRAM p; VAR x : INTEGER; BEGIN END.` the table maps `x` to a variable symbol whose
type is the null pointer, not the builtin type symbol `INTEGER`: the type node of the
declaration holds the token `;`, whose lookup finds nothing. On a tree whose type node
holds the keyword, `SymbolTableBuilder::visit(VarDecl&)` records the builtin type
symbol; a second declaration of `x` raises no error and replaces the symbol. -/
theorem declared_variable_has_null_type :
    (parseText 9 "PROGRAM p; VAR x : INTEGER; BEGIN END." >>= semanticPass) =
        .ok [("INTEGER", some (.BuiltinTypeSymbol "INTEGER")),
          ("REAL", some (.BuiltinTypeSymbol "REAL")), (";", none),
          ("x", some (.VarSymbol "x" none))] ∧
      semanticPass ⟨"p", .mk [.VarDecl ⟨⟨.ID, "x"⟩⟩ ⟨⟨.Integer, "INTEGER"⟩⟩]
          (.Compound [.NoOp])⟩ =
        .ok [("INTEGER", some (.BuiltinTypeSymbol "INTEGER")),
          ("REAL", some (.BuiltinTypeSymbol "REAL")),
          ("x", some (.VarSymbol "x" (some (.BuiltinTypeSymbol "INTEGER"))))] ∧
      semanticPass ⟨"p", .mk [.VarDecl ⟨⟨.ID, "x"⟩⟩ ⟨⟨.Integer, "INTEGER"⟩⟩,
          .VarDecl ⟨⟨.ID, "x"⟩⟩ ⟨⟨.Real, "REAL"⟩⟩] (.Compound [.NoOp])⟩ =
        .ok [("INTEGER", some (.BuiltinTypeSymbol "INTEGER")),
          ("REAL", some (.BuiltinTypeSymbol "REAL")),
          ("x", some (.VarSymbol "x" (some (.BuiltinTypeSymbol "REAL"))))] ∧
      (parseText 9 "PROGRAM p; VAR x : INTEGER; x : REAL; BEGIN END." >>= semanticPass) =
        .ok [("INTEGER", some (.BuiltinTypeSymbol "INTEGER")),
          ("REAL", some (.BuiltinTypeSymbol "REAL")), (";", none),
          ("x", some (.VarSymbol "x" none))] :=
  ⟨by rfl, by rfl, by rfl, by rfl⟩

/-! ## Products and quotients in a row -/

/-- The expression `a * b DIV c` of three integer literals is parsed with the product
as left operand of the quotient. -/
theorem expr_mul_div (a b c : List Char) (ha : IsIntLiteral a) (hb : IsIntLiteral b)
    (hc : IsIntLiteral c) (n : Nat) :
    (Parser.new ⟨some (' ' :: ((a ++ " * ".data ++ b ++ " DIV ".data ++ c) ++ " END.".data)),
        keywordsPX⟩ >>= expr (n + 5)) =
      .ok (.BinOp (.BinOp (.Num ⟨.IntegerConst, ⟨a⟩⟩) ⟨.MUL, "*"⟩
              (.Num ⟨.IntegerConst, ⟨b⟩⟩)) ⟨.IntegerDiv, "DIV"⟩ (.Num ⟨.IntegerConst, ⟨c⟩⟩),
          ⟨⟨some ['.'], keywordsPX⟩, ⟨.End, "End"⟩⟩) := by
  have e2 : " END.".data = [' ', 'E', 'N', 'D', '.'] := rfl
  have e3 : " * ".data = [' ', '*', ' '] := rfl
  have e4 : " DIV ".data = [' ', 'D', 'I', 'V', ' '] := rfl
  simp only [e2, e3, e4, List.cons_append, List.nil_append, List.append_assoc]
  simp (disch := first | decide | assumption) [getNextToken_space, getNextToken_tokenAt,
    tokenAt, _id, alnumsFrom, isalnum, isalpha, isdigit, findKeyword, initialKeywords,
    keywordsPX, push_eq, empty_data, new_eq, eat_mk, expr_mk, exprLoop_mk, term_mk,
    termLoop_mk, factor_mk, advance, ptrOf, getNextToken_space_literal, getNextToken_literal]

/-- The expression `a DIV b * c` of three integer literals is parsed with the quotient
as left operand of the product. -/
theorem expr_div_mul (a b c : List Char) (ha : IsIntLiteral a) (hb : IsIntLiteral b)
    (hc : IsIntLiteral c) (n : Nat) :
    (Parser.new ⟨some (' ' :: ((a ++ " DIV ".data ++ b ++ " * ".data ++ c) ++ " END.".data)),
        keywordsPX⟩ >>= expr (n + 5)) =
      .ok (.BinOp (.BinOp (.Num ⟨.IntegerConst, ⟨a⟩⟩) ⟨.IntegerDiv, "DIV"⟩
              (.Num ⟨.IntegerConst, ⟨b⟩⟩)) ⟨.MUL, "*"⟩ (.Num ⟨.IntegerConst, ⟨c⟩⟩),
          ⟨⟨some ['.'], keywordsPX⟩, ⟨.End, "End"⟩⟩) := by
  have e2 : " END.".data = [' ', 'E', 'N', 'D', '.'] := rfl
  have e3 : " * ".data = [' ', '*', ' '] := rfl
  have e4 : " DIV ".data = [' ', 'D', 'I', 'V', ' '] := rfl
  simp only [e2, e3, e4, List.cons_append, List.nil_append, List.append_assoc]
  simp (disch := first | decide | assumption) [getNextToken_space, getNextToken_tokenAt,
    tokenAt, _id, alnumsFrom, isalnum, isalpha, isdigit, findKeyword, initialKeywords,
    keywordsPX, push_eq, empty_data, new_eq, eat_mk, expr_mk, exprLoop_mk, term_mk,
    termLoop_mk, factor_mk, advance, ptrOf, getNextToken_space_literal, getNextToken_literal]

theorem tdiv_natCast (m n : Nat) : Int.tdiv (m : Int) (n : Int) = ((m / n : Nat) : Int) := rfl

theorem toInt_natCast (m : Nat) (h : (m : Int) ≤ INT_MAX) : toInt (m : Int) = .ok (m : Int) := by
  have h0 : (0 : Int) ≤ (m : Int) := Int.ofNat_nonneg _
  have hmin : INT_MIN ≤ 0 := by decide
  unfold toInt
  rw [if_pos]
  constructor <;> omega

theorem eval_mul_div (ea eb ec : Expr) (g : GlobalScope) (A B C : Nat)
    (hA : Interpreter.visitExpr ea g = .ok (A : Int))
    (hB : Interpreter.visitExpr eb g = .ok (B : Int))
    (hC : Interpreter.visitExpr ec g = .ok (C : Int)) (hC0 : C ≠ 0)
    (hmul : ((A * B : Nat) : Int) ≤ INT_MAX) :
    Interpreter.visitExpr (.BinOp (.BinOp ea ⟨.MUL, "*"⟩ eb) ⟨.IntegerDiv, "DIV"⟩ ec) g =
      .ok ((A * B / C : Nat) : Int) := by
  have hC0' : ¬ (C : Int) = 0 := by exact_mod_cast hC0
  have hle : ((A * B / C : Nat) : Int) ≤ INT_MAX := by
    have h2 : ((A * B / C : Nat) : Int) ≤ ((A * B : Nat) : Int) := by
      exact_mod_cast Nat.div_le_self (A * B) C
    exact le_trans h2 hmul
  simp only [Interpreter.visitExpr, hA, hB, hC, ok_bind, reduceCtorEq, if_false, if_true]
  rw [← Int.natCast_mul, toInt_natCast _ hmul, ok_bind, if_neg hC0', tdiv_natCast,
    toInt_natCast _ hle]

theorem eval_div_mul (ea eb ec : Expr) (g : GlobalScope) (A B C : Nat)
    (hA : Interpreter.visitExpr ea g = .ok (A : Int))
    (hB : Interpreter.visitExpr eb g = .ok (B : Int))
    (hC : Interpreter.visitExpr ec g = .ok (C : Int)) (hB0 : B ≠ 0)
    (hAmax : (A : Int) ≤ INT_MAX) (hmul : ((A / B * C : Nat) : Int) ≤ INT_MAX) :
    Interpreter.visitExpr (.BinOp (.BinOp ea ⟨.IntegerDiv, "DIV"⟩ eb) ⟨.MUL, "*"⟩ ec) g =
      .ok ((A / B * C : Nat) : Int) := by
  have hB0' : ¬ (B : Int) = 0 := by exact_mod_cast hB0
  have hle : ((A / B : Nat) : Int) ≤ INT_MAX := by
    have h2 : ((A / B : Nat) : Int) ≤ (A : Int) := by
      exact_mod_cast Nat.div_le_self A B
    exact le_trans h2 hAmax
  simp only [Interpreter.visitExpr, hA, hB, hC, ok_bind, reduceCtorEq, if_false, if_true]
  rw [if_neg hB0', tdiv_natCast, toInt_natCast _ hle, ok_bind, ← Int.natCast_mul,
    toInt_natCast _ hmul]

/-- C28 (left-associativity of the multiplicative operators). For all integer
literals `a`, `b`, `c` that fit in an `int`, with `b` and `c` not zero and the
products within `int`, the program with body `x := a * b DIV c` ends with `x` equal
to `(a * b) DIV c`, and the program with body `x := a DIV b * c` with `x` equal to
`(a DIV b) * c`: `Parser::term` folds to the left. -/
theorem multiplicative_left_assoc (a b c : List Char) (ha : IsIntLiteral a)
    (hb : IsIntLiteral b) (hc : IsIntLiteral c)
    (hamax : (decimalValue a : Int) ≤ INT_MAX) (hbmax : (decimalValue b : Int) ≤ INT_MAX)
    (hcmax : (decimalValue c : Int) ≤ INT_MAX)
    (hb0 : decimalValue b ≠ 0) (hc0 : decimalValue c ≠ 0)
    (hmul : ((decimalValue a * decimalValue b : Nat) : Int) ≤ INT_MAX)
    (hmul2 : ((decimalValue a / decimalValue b * decimalValue c : Nat) : Int) ≤ INT_MAX)
    (fuel : Nat) (hfuel : 9 ≤ fuel) :
    interpret fuel (assignX (a ++ " * ".data ++ b ++ " DIV ".data ++ c)) =
        .ok [("x", ((decimalValue a * decimalValue b / decimalValue c : Nat) : Int))] ∧
      interpret fuel (assignX (a ++ " DIV ".data ++ b ++ " * ".data ++ c)) =
        .ok [("x", ((decimalValue a / decimalValue b * decimalValue c : Nat) : Int))] := by
  obtain ⟨n, rfl⟩ : ∃ n, fuel = (n + 5) + 4 := ⟨fuel - 9, by omega⟩
  have hA : Interpreter.visitExpr (.Num ⟨.IntegerConst, ⟨a⟩⟩) [] = .ok (decimalValue a : Int) :=
    stoi_literal a ha hamax
  have hB : Interpreter.visitExpr (.Num ⟨.IntegerConst, ⟨b⟩⟩) [] = .ok (decimalValue b : Int) :=
    stoi_literal b hb hbmax
  have hC : Interpreter.visitExpr (.Num ⟨.IntegerConst, ⟨c⟩⟩) [] = .ok (decimalValue c : Int) :=
    stoi_literal c hc hcmax
  constructor
  · exact interpret_assignX _ _ _ _ _ (expr_mul_div a b c ha hb hc n)
      (eval_mul_div _ _ _ [] _ _ _ hA hB hC hc0 hmul)
  · exact interpret_assignX _ _ _ _ _ (expr_div_mul a b c ha hb hc n)
      (eval_div_mul _ _ _ [] _ _ _ hA hB hC hb0 hamax hmul2)

/-- C28, at the programs `x := 10 * 2 DIV 4` and `x := 10 DIV 2 * 4`: the stores map
`x` to 5 and to 20. -/
theorem multiplicative_left_assoc_witness :
    interpret 9 "PROGRAM p; VAR x : INTEGER; BEGIN x := 10 * 2 DIV 4 END." = .ok [("x", 5)] ∧
      interpret 9 "PROGRAM p; VAR x : INTEGER; BEGIN x := 10 DIV 2 * 4 END." =
        .ok [("x", 20)] :=
  multiplicative_left_assoc ['1', '0'] ['2'] ['4'] (by decide) (by decide) (by decide)
    (by decide) (by decide) (by decide) (by decide) (by decide) (by decide) (by decide) 9
    (by decide)

/-! ## Parentheses -/

theorem ptrOf_append_cons (a : List Char) (c : Char) (rest : List Char) :
    ptrOf (a ++ c :: rest) = some (a ++ c :: rest) :=
  ptrOf_of_ne_nil _ (by simp)

/-- The expression `(a + b) * c` of three integer literals is parsed with the sum as
left operand of the product, and with no node for the parentheses. -/
theorem expr_paren_add_mul (a b c : List Char) (ha : IsIntLiteral a) (hb : IsIntLiteral b)
    (hc : IsIntLiteral c) (n : Nat) :
    (Parser.new ⟨some (' ' :: (("(".data ++ a ++ " + ".data ++ b ++ ") * ".data ++ c) ++
        " END.".data)), keywordsPX⟩ >>= expr (n + 7)) =
      .ok (.BinOp (.BinOp (.Num ⟨.IntegerConst, ⟨a⟩⟩) ⟨.PLUS, "+"⟩
              (.Num ⟨.IntegerConst, ⟨b⟩⟩)) ⟨.MUL, "*"⟩ (.Num ⟨.IntegerConst, ⟨c⟩⟩),
          ⟨⟨some ['.'], keywordsPX⟩, ⟨.End, "End"⟩⟩) := by
  have e1 : "(".data = ['('] := rfl
  have e2 : " END.".data = [' ', 'E', 'N', 'D', '.'] := rfl
  have e3 : " + ".data = [' ', '+', ' '] := rfl
  have e4 : ") * ".data = [')', ' ', '*', ' '] := rfl
  simp only [e1, e2, e3, e4, List.cons_append, List.nil_append, List.append_assoc]
  simp (disch := first | decide | assumption) [getNextToken_space, getNextToken_tokenAt,
    tokenAt, _id, alnumsFrom, isalnum, isalpha, isdigit, findKeyword, initialKeywords,
    keywordsPX, push_eq, empty_data, new_eq, eat_mk, expr_mk, exprLoop_mk, term_mk,
    termLoop_mk, factor_mk, advance, ptrOf_cons, ptrOf_append_cons, getNextToken_space_literal,
    getNextToken_literal]

/-- C27 (parentheses). At a left parenthesis `Parser::factor` returns the tree that
`Parser::expr` returns for what follows, once the right parenthesis is eaten: the
parentheses add no node. For all integer literals `a`, `b`, `c` that fit in an `int`
with `(a + b) * c` within `int`, the program with body `x := (a + b) * c` ends with
`x` equal to `(a + b) * c`. -/
theorem parentheses_add_no_node (a b c : List Char) (ha : IsIntLiteral a)
    (hb : IsIntLiteral b) (hc : IsIntLiteral c)
    (hcmax : (decimalValue c : Int) ≤ INT_MAX)
    (hsum : ((decimalValue a + decimalValue b : Nat) : Int) ≤ INT_MAX)
    (hprod : (((decimalValue a + decimalValue b) * decimalValue c : Nat) : Int) ≤ INT_MAX)
    (fuel : Nat) (hfuel : 11 ≤ fuel) :
    (∀ (k : Nat) (lx : Lexer) (v : String),
        factor (k + 1) ⟨lx, ⟨.LParen, v⟩⟩ =
          eat .LParen ⟨lx, ⟨.LParen, v⟩⟩ >>= fun p => expr k p >>= fun r =>
            eat .RParen r.2 >>= fun q => Res.ok (r.1, q)) ∧
      interpret fuel (assignX ("(".data ++ a ++ " + ".data ++ b ++ ") * ".data ++ c)) =
        .ok [("x", (((decimalValue a + decimalValue b) * decimalValue c : Nat) : Int))] := by
  constructor
  · intro k lx v
    rw [factor_mk]
    simp
  · obtain ⟨n, rfl⟩ : ∃ n, fuel = (n + 7) + 4 := ⟨fuel - 11, by omega⟩
    have hamax : (decimalValue a : Int) ≤ INT_MAX := by
      have : ((decimalValue a + decimalValue b : Nat) : Int) =
          (decimalValue a : Int) + decimalValue b := by push_cast; rfl
      have hB0 : (0 : Int) ≤ decimalValue b := Int.ofNat_nonneg _
      omega
    have hbmax : (decimalValue b : Int) ≤ INT_MAX := by
      have : ((decimalValue a + decimalValue b : Nat) : Int) =
          (decimalValue a : Int) + decimalValue b := by push_cast; rfl
      have hA0 : (0 : Int) ≤ decimalValue a := Int.ofNat_nonneg _
      omega
    refine interpret_assignX _ _ _ _ _ (expr_paren_add_mul a b c ha hb hc n) ?_
    simp only [Interpreter.visitExpr, stoi_literal a ha hamax, stoi_literal b hb hbmax,
      stoi_literal c hc hcmax, ok_bind, reduceCtorEq, if_false, if_true]
    rw [← Int.natCast_add, toInt_natCast _ hsum, ok_bind, ← Int.natCast_mul,
      toInt_natCast _ hprod]

/-- C27, at the program `x := (2 + 3) * 4`: the store maps `x` to 20. -/
theorem parentheses_add_no_node_witness :
    interpret 11 "PROGRAM p; VAR x : INTEGER; BEGIN x := (2 + 3) * 4 END." = .ok [("x", 20)] :=
  (parentheses_add_no_node ['2'] ['3'] ['4'] (by decide) (by decide) (by decide) (by decide)
    (by decide) (by decide) 11 (by decide)).2

/-! ## Walking a program a second time -/

theorem mem_keys_iff (g : GlobalScope) (n : String) : n ∈ g.keys ↔ g.find n ≠ none := by
  induction g with
  | nil => simp [GlobalScope.keys, GlobalScope.find]
  | cons entry rest ih =>
    obtain ⟨k, v⟩ := entry
    simp only [GlobalScope.keys, List.map_cons, List.mem_cons, GlobalScope.find] at ih ⊢
    by_cases hk : k = n
    · simp [hk]
    · have hk' : ¬ n = k := fun e => hk e.symm
      simp [hk, hk', ih]

theorem keys_assign_of_mem (g : GlobalScope) (x : String) (v : Int) (h : x ∈ g.keys) :
    (g.assign x v).keys = g.keys := by
  induction g with
  | nil => simp [GlobalScope.keys] at h
  | cons entry rest ih =>
    obtain ⟨k, w⟩ := entry
    by_cases hk : k = x
    · simp [GlobalScope.assign, GlobalScope.keys, hk]
    · have hx : x ∈ GlobalScope.keys rest := by
        simp only [GlobalScope.keys, List.map_cons, List.mem_cons] at h
        rcases h with h | h
        · exact absurd h.symm hk
        · exact h
      have := ih hx
      simp only [GlobalScope.keys] at this
      simp [GlobalScope.assign, GlobalScope.keys, hk, this]

theorem keys_assign_of_not_mem (g : GlobalScope) (x : String) (v : Int) (h : x ∉ g.keys) :
    (g.assign x v).keys = g.keys ++ [x] := by
  induction g with
  | nil => simp [GlobalScope.assign, GlobalScope.keys]
  | cons entry rest ih =>
    obtain ⟨k, w⟩ := entry
    simp only [GlobalScope.keys, List.map_cons, List.mem_cons, not_or] at h
    have hk : ¬ k = x := fun e => h.1 e.symm
    have := ih h.2
    simp only [GlobalScope.keys] at this
    simp [GlobalScope.assign, GlobalScope.keys, hk, this]

theorem keys_assign_nodup (g : GlobalScope) (x : String) (v : Int) (h : g.keys.Nodup) :
    (g.assign x v).keys.Nodup := by
  by_cases hx : x ∈ g.keys
  · rw [keys_assign_of_mem g x v hx]
    exact h
  · rw [keys_assign_of_not_mem g x v hx]
    exact List.Nodup.append h (List.nodup_singleton x) (by simpa using hx)

/-- Two stores with the same names in the same order, each once, and the same value
for every name, are equal. -/
theorem store_eq_of_find (a : GlobalScope) :
    ∀ b : GlobalScope, a.keys = b.keys → a.keys.Nodup → (∀ n, a.find n = b.find n) →
      a = b := by
  induction a with
  | nil =>
    intro b hk _ _
    cases b with
    | nil => rfl
    | cons e r => simp [GlobalScope.keys] at hk
  | cons entry rest ih =>
    intro b hk hnd hf
    obtain ⟨k, v⟩ := entry
    cases b with
    | nil => simp [GlobalScope.keys] at hk
    | cons e r =>
      obtain ⟨k', v'⟩ := e
      simp only [GlobalScope.keys, List.map_cons, List.cons.injEq] at hk
      obtain ⟨hkk, hrest⟩ := hk
      subst hkk
      have hv : v = v' := by
        have := hf k
        simpa [GlobalScope.find] using this
      subst hv
      simp only [GlobalScope.keys, List.map_cons, List.nodup_cons] at hnd
      have hrest' : GlobalScope.keys rest = GlobalScope.keys r := hrest
      have htail : rest = r := by
        refine ih r hrest' hnd.2 (fun n => ?_)
        by_cases hn : k = n
        · subst hn
          have h1 : GlobalScope.find rest k = none := by
            by_contra hne
            exact hnd.1 ((mem_keys_iff rest k).2 hne)
          have h2 : GlobalScope.find r k = none := by
            by_contra hne
            have := (mem_keys_iff r k).2 hne
            rw [← hrest'] at this
            exact hnd.1 this
          rw [h1, h2]
        · have := hf n
          simpa [GlobalScope.find, hn] using this
      rw [htail]

/-- An expression that has a value in a store has the same value in every store that
holds all the values of the first. -/
theorem visitExpr_extends (g h : GlobalScope) (hext : StoreExtends g h) :
    ∀ (e : Expr) (v : Int), Interpreter.visitExpr e g = .ok v →
      Interpreter.visitExpr e h = .ok v := by
  intro e
  induction e with
  | BinOp left op right ihl ihr =>
    intro v hv
    simp only [Interpreter.visitExpr] at hv ⊢
    split_ifs at hv ⊢
    all_goals first
      | cases hv
      | (obtain ⟨a, ha, h1⟩ := bind_eq_ok _ _ _ hv
         obtain ⟨b, hb, h2⟩ := bind_eq_ok _ _ _ h1
         rw [ihl a ha, ok_bind, ihr b hb, ok_bind]
         exact h2)
  | UnaryOp op e ih =>
    intro v hv
    simp only [Interpreter.visitExpr] at hv ⊢
    split_ifs at hv ⊢
    · exact ih v hv
    · obtain ⟨a, ha, h1⟩ := bind_eq_ok _ _ _ hv
      rw [ih a ha, ok_bind]
      exact h1
  | Num token =>
    intro v hv
    simpa [Interpreter.visitExpr] using hv
  | Var var =>
    intro v hv
    simp only [Interpreter.visitExpr] at hv ⊢
    cases hf : g.find var.value_ with
    | none => rw [hf] at hv; cases hv
    | some w =>
      rw [hf] at hv
      rw [hext _ _ hf]
      exact hv

theorem storeExtends_assign (g h : GlobalScope) (x : String) (v : Int)
    (hext : StoreExtends g h) : StoreExtends (g.assign x v) (h.assign x v) := by
  intro n w hn
  rw [globalScope_find_assign] at hn ⊢
  by_cases hx : x = n
  · simpa [hx] using hn
  · simp only [hx, if_false] at hn ⊢
    exact hext n w hn

mutual
theorem visitStmt_nodup : ∀ (s : Stmt) (g g' : GlobalScope),
    Interpreter.visitStmt s g = .ok g' → g.keys.Nodup → g'.keys.Nodup
  | .Compound children, g, g', h, hnd => by
    simp only [Interpreter.visitStmt] at h
    exact visitStmts_nodup children g g' h hnd
  | .Assign left _ right, g, g', h, hnd => by
    simp only [Interpreter.visitStmt] at h
    obtain ⟨v, _, hv⟩ := bind_eq_ok _ _ _ h
    cases hv
    exact keys_assign_nodup g _ v hnd
  | .NoOp, g, g', h, hnd => by
    simp only [Interpreter.visitStmt] at h
    cases h
    exact hnd
theorem visitStmts_nodup : ∀ (cs : List Stmt) (g g' : GlobalScope),
    Interpreter.visitStmts cs g = .ok g' → g.keys.Nodup → g'.keys.Nodup
  | [], g, g', h, hnd => by
    simp only [Interpreter.visitStmts] at h
    cases h
    exact hnd
  | child :: rest, g, g', h, hnd => by
    simp only [Interpreter.visitStmts] at h
    obtain ⟨g1, h1, h2⟩ := bind_eq_ok _ _ _ h
    exact visitStmts_nodup rest g1 g' h2 (visitStmt_nodup child g g1 h1 hnd)
end

mutual
/-- A statement that runs from the store `g` runs in the same way from a store `h`
that holds the values of `g` and already has an entry for every name that the run
from `g` ends with: the names of `h` and their order do not change. -/
theorem visitStmt_rerun : ∀ (s : Stmt) (g g' h : GlobalScope),
    Interpreter.visitStmt s g = .ok g' → StoreExtends g h →
    (∀ n, g'.find n ≠ none → h.find n ≠ none) →
    ∃ h', Interpreter.visitStmt s h = .ok h' ∧ StoreExtends g' h' ∧ h'.keys = h.keys
  | .Compound children, g, g', h, hrun, hext, hnames => by
    simp only [Interpreter.visitStmt] at hrun ⊢
    exact visitStmts_rerun children g g' h hrun hext hnames
  | .Assign left _ right, g, g', h, hrun, hext, hnames => by
    simp only [Interpreter.visitStmt] at hrun ⊢
    obtain ⟨v, hv, hg⟩ := bind_eq_ok _ _ _ hrun
    cases hg
    rw [visitExpr_extends g h hext right v hv, ok_bind]
    refine ⟨_, rfl, storeExtends_assign g h _ v hext, ?_⟩
    refine keys_assign_of_mem h _ v ((mem_keys_iff h _).2 (hnames _ ?_))
    rw [globalScope_find_assign]
    simp
  | .NoOp, g, g', h, hrun, hext, _ => by
    simp only [Interpreter.visitStmt] at hrun ⊢
    cases hrun
    exact ⟨h, rfl, hext, rfl⟩
theorem visitStmts_rerun : ∀ (cs : List Stmt) (g g' h : GlobalScope),
    Interpreter.visitStmts cs g = .ok g' → StoreExtends g h →
    (∀ n, g'.find n ≠ none → h.find n ≠ none) →
    ∃ h', Interpreter.visitStmts cs h = .ok h' ∧ StoreExtends g' h' ∧ h'.keys = h.keys
  | [], g, g', h, hrun, hext, _ => by
    simp only [Interpreter.visitStmts] at hrun ⊢
    cases hrun
    exact ⟨h, rfl, hext, rfl⟩
  | child :: rest, g, g', h, hrun, hext, hnames => by
    simp only [Interpreter.visitStmts] at hrun ⊢
    obtain ⟨g1, h1, h2⟩ := bind_eq_ok _ _ _ hrun
    have hgrow : ∀ n, g1.find n ≠ none → g'.find n ≠ none := fun n hn =>
      (visitStmts_names rest g1 g' h2 n).2 (Or.inl hn)
    obtain ⟨k1, hk1, hext1, hkeys1⟩ :=
      visitStmt_rerun child g g1 h h1 hext (fun n hn => hnames n (hgrow n hn))
    have hnames1 : ∀ n, g'.find n ≠ none → k1.find n ≠ none := by
      intro n hn
      rw [← mem_keys_iff, hkeys1, mem_keys_iff]
      exact hnames n hn
    obtain ⟨k2, hk2, hext2, hkeys2⟩ := visitStmts_rerun rest g1 g' k1 h2 hext1 hnames1
    rw [hk1, ok_bind]
    exact ⟨k2, hk2, hext2, hkeys2.trans hkeys1⟩
end

/-- C24 (repeated runs). For every program whose evaluation from the empty store
succeeds with the final store `S`, walking the same tree again from the store `S`
succeeds and ends with a store equal to `S`. -/
theorem rerun_gives_same_store (prog : Program) (S : GlobalScope)
    (hrun : Interpreter.visitProgram prog [] = .ok S) :
    Interpreter.visitProgram prog S = .ok S := by
  rw [Interpreter.visitProgram, visitBlock_eq] at hrun ⊢
  have hnd : S.keys.Nodup :=
    visitStmt_nodup _ [] S hrun (by simp [GlobalScope.keys])
  obtain ⟨S', hS', hext, hkeys⟩ := visitStmt_rerun _ [] S S hrun
    (fun n v hn => by simp [GlobalScope.find] at hn) (fun n hn => hn)
  rw [hS']
  have heq : S = S' := by
    refine store_eq_of_find S S' hkeys.symm hnd (fun n => ?_)
    cases hf : S.find n with
    | some v => exact (hext n v hf).symm
    | none =>
      have h1 : n ∉ S'.keys := by
        rw [hkeys, mem_keys_iff]
        simpa using hf
      rw [mem_keys_iff, ne_eq, not_not] at h1
      exact h1.symm
  rw [← heq]

/-- C24, at the program `PROGRAM p; VAR x, y : INTEGER; BEGIN x := 2; y := x END.`:
the first walk ends with `[x := 2, y := 2]`, and so does a second walk from there. -/
theorem rerun_gives_same_store_witness :
    Interpreter.visitProgram assignThenReadTree [] = .ok [("x", 2), ("y", 2)] ∧
      Interpreter.visitProgram assignThenReadTree [("x", 2), ("y", 2)] =
        .ok [("x", 2), ("y", 2)] :=
  ⟨by rfl, rerun_gives_same_store assignThenReadTree [("x", 2), ("y", 2)] (by rfl)⟩

/-! ## The lexer on a text and on the text with white space and more after it -/

theorem scan_append_all (P : Char → Bool) (c0 : Char) (r0 : List Char) (hc0 : P c0 = false) :
    ∀ l : List Char, l.dropWhile P = [] →
      (l ++ c0 :: r0).dropWhile P = c0 :: r0 ∧
        (l ++ c0 :: r0).takeWhile P = l.takeWhile P := by
  intro l
  induction l with
  | nil => intro _; simp [List.dropWhile, List.takeWhile, hc0]
  | cons c r ih =>
    intro h
    by_cases hc : P c = true
    · have hr : r.dropWhile P = [] := by simpa [List.dropWhile, hc] using h
      obtain ⟨e1, e2⟩ := ih hr
      rw [List.cons_append]
      simp only [List.dropWhile, List.takeWhile, hc]
      exact ⟨e1, congrArg (List.cons c) e2⟩
    · simp [List.dropWhile, hc] at h

theorem isspace_not_isdigit (c : Char) (h : isspace c = true) : isdigit c = false := by
  cases hd : isdigit c with
  | false => rfl
  | true => rw [isdigit_not_isspace c hd] at h; cases h

theorem isspace_not_isalnum (c : Char) (h : isspace c = true) : isalnum c = false := by
  have hd := isspace_not_isdigit c h
  cases ha : isalpha c with
  | false => simp [isalnum, ha, hd]
  | true => rw [isalpha_not_isspace c ha] at h; cases h

/-- A token scanned in a text is scanned in the same way when a white-space character
and more characters follow the text. -/
theorem tokenAt_spaced (c0 : Char) (r0 : List Char) (hsp : isspace c0 = true) (c : Char)
    (r : List Char) (ids : List String) (t : Token) (l : Lexer)
    (h : tokenAt c r (internedTable ids) = .ok (t, l)) :
    t.type_ ≠ .TYPE_EOF ∧
      ∃ l', tokenAt c (r ++ c0 :: r0) (internedTable ids) = .ok (t, l') ∧
        Extended (c0 :: r0) l' l := by
  have htr : c0 :: r0 ≠ [] := by simp
  have hdig := isspace_not_isdigit c0 hsp
  have haln := isspace_not_isalnum c0 hsp
  by_cases hd : isdigit c = true
  · rw [tokenAt_digit c r _ hd, number_eq] at h
    rw [tokenAt_digit c (r ++ c0 :: r0) _ hd, number_eq]
    cases hD : (c :: r).dropWhile isdigit with
    | nil => rw [hD] at h; cases h
    | cons d rest1 =>
      have hne : (c :: r).dropWhile isdigit ≠ [] := by rw [hD]; simp
      obtain ⟨e1, e2⟩ := scan_append isdigit (c0 :: r0) (c :: r) hne
      rw [List.cons_append] at e1 e2
      rw [hD] at h e1
      rw [e1, e2]
      simp only [ptrOf_cons, List.cons_append] at h ⊢
      by_cases hdq : d = '.'
      · simp only [hdq, if_true, ok_bind] at h ⊢
        cases h
        refine ⟨fun e => (by cases e), ?_⟩
        cases hD2 : rest1.dropWhile isdigit with
        | nil =>
          obtain ⟨f1, f2⟩ := scan_append_all isdigit c0 r0 hdig rest1 hD2
          rw [f1, f2]
          exact ⟨_, rfl, extended_mk (c0 :: r0) htr [] ids⟩
        | cons d2 rest2 =>
          have hne2 : rest1.dropWhile isdigit ≠ [] := by rw [hD2]; simp
          obtain ⟨f1, f2⟩ := scan_append isdigit (c0 :: r0) rest1 hne2
          rw [f1, f2, hD2]
          exact ⟨_, rfl, extended_mk (c0 :: r0) htr (d2 :: rest2) ids⟩
      · simp only [hdq, if_false, ok_bind] at h ⊢
        cases h
        refine ⟨fun e => (by cases e), ⟨_, rfl, ?_⟩⟩
        exact extended_mk (c0 :: r0) htr (d :: rest1) ids
  · by_cases ha : isalpha c = true
    · rw [tokenAt_alpha c r _ ha, id_eq] at h
      rw [tokenAt_alpha c (r ++ c0 :: r0) _ ha, id_eq]
      have hk : internedTable ids ++
          [((⟨("" : String).data ++ (c :: r).takeWhile isalnum⟩ : String),
            (⟨.ID, ⟨("" : String).data ++ (c :: r).takeWhile isalnum⟩⟩ : Token))] =
          internedTable (ids ++ [⟨("" : String).data ++ (c :: r).takeWhile isalnum⟩]) := by
        simp [internedTable, internEntry]
      have hscan : ∃ s, (c :: r).dropWhile isalnum = s ∧
          (c :: (r ++ c0 :: r0)).dropWhile isalnum = s ++ c0 :: r0 ∧
          (c :: (r ++ c0 :: r0)).takeWhile isalnum = (c :: r).takeWhile isalnum := by
        cases hR : (c :: r).dropWhile isalnum with
        | nil =>
          obtain ⟨e1, e2⟩ := scan_append_all isalnum c0 r0 haln (c :: r) hR
          rw [List.cons_append] at e1 e2
          exact ⟨[], rfl, by rw [e1]; rfl, e2⟩
        | cons d rest1 =>
          have hne : (c :: r).dropWhile isalnum ≠ [] := by rw [hR]; simp
          obtain ⟨e1, e2⟩ := scan_append isalnum (c0 :: r0) (c :: r) hne
          rw [List.cons_append] at e1 e2
          exact ⟨d :: rest1, rfl, by rw [e1, hR], e2⟩
      obtain ⟨s, hs1, hs2, hs3⟩ := hscan
      rw [hs2, hs3]
      rw [hs1] at h
      cases hf : findKeyword (internedTable ids)
          ⟨("" : String).data ++ (c :: r).takeWhile isalnum⟩ with
      | some t0 =>
        rw [hf] at h
        cases h
        have ht := findKeyword_internedTable ids _ _ hf
        exact ⟨ht.2, ⟨_, rfl, extended_mk (c0 :: r0) htr s ids⟩⟩
      | none =>
        rw [hf] at h
        cases h
        refine ⟨fun e => (by cases e), ⟨_, rfl, ?_⟩⟩
        rw [hk]
        exact extended_mk (c0 :: r0) htr s _
    · by_cases hc : c = ':'
      · subst hc
        rw [tokenAt_colon] at h
        rw [tokenAt_colon]
        cases r with
        | nil => cases h
        | cons d r2 =>
          simp only [List.cons_append] at h ⊢
          by_cases hdq : d = '='
          · simp only [hdq, if_true] at h ⊢
            cases h
            exact ⟨fun e => (by cases e), ⟨_, rfl, extended_mk (c0 :: r0) htr r2 ids⟩⟩
          · simp only [hdq, if_false] at h ⊢
            cases h
            exact ⟨fun e => (by cases e),
              ⟨_, rfl, extended_mk (c0 :: r0) htr (d :: r2) ids⟩⟩
      · have hd' : isdigit c = false := by simpa using hd
        have ha' : isalpha c = false := by simpa using ha
        rw [tokenAt_punctuation c r _ hd' ha' hc] at h
        rw [tokenAt_punctuation c (r ++ c0 :: r0) _ hd' ha' hc]
        cases hp : punctuation c with
        | none => rw [hp] at h; cases h
        | some t0 =>
          rw [hp] at h
          cases h
          exact ⟨punctuation_ne_eof c _ hp, ⟨_, rfl, extended_mk (c0 :: r0) htr r ids⟩⟩

/-- The next token of a lexer and that of the lexer on the text extended by a
white-space character and more. When the first is the end-of-input token, the second
lexer has skipped what was left of the text and goes on with what follows. Otherwise
the second lexer returns the same token and stands at the same place. -/
theorem getNextToken_spaced (c0 : Char) (r0 : List Char) (hsp0 : isspace c0 = true)
    (s : List Char) (ids : List String) (t : Token) (l : Lexer)
    (h : getNextToken ⟨ptrOf s, internedTable ids⟩ = .ok (t, l)) :
    (t = ⟨.TYPE_EOF, ""⟩ ∧ l = ⟨none, internedTable ids⟩ ∧
        getNextToken ⟨some (s ++ c0 :: r0), internedTable ids⟩ =
          getNextToken ⟨some (c0 :: r0), internedTable ids⟩) ∨
      (t.type_ ≠ .TYPE_EOF ∧
        ∃ l', getNextToken ⟨some (s ++ c0 :: r0), internedTable ids⟩ = .ok (t, l') ∧
          Extended (c0 :: r0) l' l) := by
  have htr : c0 :: r0 ≠ [] := by simp
  have key := getNextToken_cases
    (fun lx res => ∀ (s : List Char) (ids : List String) (t : Token) (l : Lexer),
      lx = ⟨ptrOf s, internedTable ids⟩ → res = .ok (t, l) →
      (t = ⟨.TYPE_EOF, ""⟩ ∧ l = ⟨none, internedTable ids⟩ ∧
          getNextToken ⟨some (s ++ c0 :: r0), internedTable ids⟩ =
            getNextToken ⟨some (c0 :: r0), internedTable ids⟩) ∨
        (t.type_ ≠ .TYPE_EOF ∧
          ∃ l', getNextToken ⟨some (s ++ c0 :: r0), internedTable ids⟩ = .ok (t, l') ∧
            Extended (c0 :: r0) l' l))
    ?_ ?_ ?_ ?_ ?_ ?_ ⟨ptrOf s, internedTable ids⟩
  · exact key s ids t l rfl h
  · intro kw s ids t l hlx hres
    simp only [Lexer.mk.injEq] at hlx
    cases s with
    | nil =>
      cases hres
      rw [hlx.2]
      exact Or.inl ⟨rfl, rfl, rfl⟩
    | cons c r => cases hlx.1
  · intro kw s ids t l _ hres
    cases hres
  · intro c r kw hsp ih s ids t l hlx hres
    simp only [Lexer.mk.injEq] at hlx
    obtain ⟨hs, hkw⟩ := hlx
    have hs' := (ptrOf_eq_some s _ hs.symm).1
    subst hs' hkw
    have hp : getNextToken ⟨some (c :: r ++ c0 :: r0), internedTable ids⟩ =
        getNextToken ⟨some (r ++ c0 :: r0), internedTable ids⟩ := by
      rw [List.cons_append, getNextToken_space_one c _ _ hsp,
        ptrOf_of_ne_nil _ (by simp)]
    rw [hp]
    exact ih r ids t l rfl hres
  · intro r r1 kw hskip ih s ids t l hlx hres
    simp only [Lexer.mk.injEq] at hlx
    obtain ⟨hs, hkw⟩ := hlx
    have hs' := (ptrOf_eq_some s _ hs.symm).1
    subst hs' hkw
    have hp : getNextToken ⟨some ('\x7b' :: r ++ c0 :: r0), internedTable ids⟩ =
        getNextToken ⟨some (r1 ++ c0 :: r0), internedTable ids⟩ := by
      rw [List.cons_append, getNextToken_comment,
        skipCommentFrom_append (c0 :: r0) r r1 hskip, ok_bind, ptrOf_of_ne_nil _ (by simp)]
    rw [hp]
    exact ih r1 ids t l rfl hres
  · intro r kw _ s ids t l _ hres
    cases hres
  · intro c r kw hsp hc s ids t l hlx hres
    simp only [Lexer.mk.injEq] at hlx
    obtain ⟨hs, hkw⟩ := hlx
    have hs' := (ptrOf_eq_some s _ hs.symm).1
    subst hs' hkw
    right
    have hp : getNextToken ⟨some (c :: r ++ c0 :: r0), internedTable ids⟩ =
        tokenAt c (r ++ c0 :: r0) (internedTable ids) := by
      rw [List.cons_append, getNextToken_tokenAt c _ _ hsp hc]
    rw [hp]
    exact tokenAt_spaced c0 r0 hsp0 c r ids t l hres

/-- The parser on a text is followed by the parser on the text extended by a
white-space character and more, until the first has met the end of its text. -/
theorem tracked_spaced (c0 : Char) (r0 : List Char) (hsp0 : isspace c0 = true) :
    Tracked Finished (Extended (c0 :: r0)) := by
  refine ⟨extended_irrefl (c0 :: r0) (by simp), ?_⟩
  intro tktype p' p h
  obtain ⟨lx', lx, ty, v, rfl, rfl, hlex⟩ := trackState_mk h
  rw [eat_mk, eat_mk]
  by_cases hty : ty = tktype
  · rw [if_pos hty, if_pos hty, new_eq, new_eq]
    rcases hlex with hend | hext
    · obtain ⟨ptr, kw⟩ := lx
      have hnone : ptr = none := hend.1
      subst hnone
      rw [getNextToken_null, ok_bind]
      exact Or.inl ⟨rfl, rfl⟩
    · obtain ⟨s, ids, rfl, rfl⟩ := hext
      cases hres : getNextToken ⟨ptrOf s, internedTable ids⟩ with
      | ok x =>
        obtain ⟨t, l⟩ := x
        rw [ok_bind]
        rcases getNextToken_spaced c0 r0 hsp0 s ids t l hres with
          ⟨heof, hnone, _⟩ | ⟨_, l', hl', hext'⟩
        · subst heof hnone
          exact Or.inl ⟨rfl, rfl⟩
        · rw [hl', ok_bind]
          exact Or.inr ⟨_, rfl, rfl, Or.inr hext'⟩
      | throw e => trivial
      | ub => trivial
      | timeout => trivial
  · rw [if_neg hty, if_neg hty]
    trivial

/-! ## The lexer at one place with two tables of interned identifiers -/

theorem tokenAt_failure (c : Char) (r : List Char) (kw kw2 : List (String × Token))
    (h : ∀ x, tokenAt c r kw ≠ .ok x) : tokenAt c r kw2 = tokenAt c r kw := by
  by_cases hd : isdigit c = true
  · rw [tokenAt_digit c r _ hd] at h ⊢
    rw [tokenAt_digit c r _ hd]
    cases hn : number (some (c :: r)) with
    | ok tp => rw [hn] at h; exact absurd rfl (h _)
    | throw e => rfl
    | ub => rfl
    | timeout => rfl
  · by_cases ha : isalpha c = true
    · rw [tokenAt_alpha c r kw ha, id_eq] at h
      cases hf : findKeyword kw ⟨("" : String).data ++ (c :: r).takeWhile isalnum⟩ with
      | some t0 => rw [hf] at h; exact absurd rfl (h _)
      | none => rw [hf] at h; exact absurd rfl (h _)
    · by_cases hc : c = ':'
      · subst hc
        rw [tokenAt_colon] at h ⊢
        rw [tokenAt_colon]
        cases r with
        | nil => rfl
        | cons d r2 =>
          by_cases hdq : d = '='
          · simp only [hdq, if_true] at h
            exact absurd rfl (h _)
          · simp only [hdq, if_false] at h
            exact absurd rfl (h _)
      · have hd' : isdigit c = false := by simpa using hd
        have ha' : isalpha c = false := by simpa using ha
        rw [tokenAt_punctuation c r _ hd' ha' hc, tokenAt_punctuation c r _ hd' ha' hc]
        rw [tokenAt_punctuation c r _ hd' ha' hc] at h
        cases hp : punctuation c with
        | none => rfl
        | some t0 => rw [hp] at h; exact absurd rfl (h _)

/-- A failure of `getNextToken` does not depend on the keyword table. -/
theorem getNextToken_failure (p : Ptr) (kw kw2 : List (String × Token))
    (h : ∀ x, getNextToken ⟨p, kw⟩ ≠ .ok x) :
    getNextToken ⟨p, kw2⟩ = getNextToken ⟨p, kw⟩ := by
  have key := getNextToken_cases
    (fun lx res => ∀ kw2, (∀ x, res ≠ .ok x) →
      getNextToken ⟨lx.currentPtr_, kw2⟩ = res)
    ?_ ?_ ?_ ?_ ?_ ?_ ⟨p, kw⟩
  · exact key kw2 h
  · intro kw kw2 hno
    exact absurd rfl (hno _)
  · intro kw kw2 _
    rfl
  · intro c r kw hsp ih kw2 hno
    show getNextToken ⟨some (c :: r), kw2⟩ = _
    rw [getNextToken_space_one c r _ hsp]
    exact ih kw2 hno
  · intro r r1 kw hskip ih kw2 hno
    show getNextToken ⟨some ('\x7b' :: r), kw2⟩ = _
    rw [getNextToken_comment, hskip, ok_bind]
    exact ih kw2 hno
  · intro r kw hskip kw2 _
    show getNextToken ⟨some ('\x7b' :: r), kw2⟩ = _
    rw [getNextToken_comment, hskip]
    rfl
  · intro c r kw hsp hc kw2 hno
    show getNextToken ⟨some (c :: r), kw2⟩ = _
    rw [getNextToken_tokenAt c r _ hsp hc]
    exact tokenAt_failure c r kw kw2 hno

/-- The lexer returns the same token, or fails in the same way, whatever identifiers
were interned before, and leaves the cursor at the same place. -/
theorem keptByLexer_sameCursor : KeptByLexer SameCursor := by
  intro lx' lx h
  obtain ⟨p', kw'⟩ := lx'
  obtain ⟨p, kw⟩ := lx
  obtain ⟨hp, ⟨ids', h'⟩, ⟨ids, h0⟩⟩ := h
  simp only at hp h' h0
  subst hp h' h0
  cases hres : getNextToken ⟨p', internedTable ids⟩ with
  | ok x =>
    obtain ⟨t, l⟩ := x
    obtain ⟨⟨ids1, hl⟩, h2⟩ := getNextToken_interned_cursor p' ids t l hres
    obtain ⟨ids2, e⟩ := h2 ids'
    rw [e]
    exact ⟨rfl, rfl, ⟨ids2, rfl⟩, ⟨ids1, hl⟩⟩
  | throw e =>
    rw [getNextToken_failure p' (internedTable ids) (internedTable ids')
      (by rw [hres]; intro x hx; cases hx), hres]
    rfl
  | ub =>
    rw [getNextToken_failure p' (internedTable ids) (internedTable ids')
      (by rw [hres]; intro x hx; cases hx), hres]
    trivial
  | timeout =>
    rw [getNextToken_failure p' (internedTable ids) (internedTable ids')
      (by rw [hres]; intro x hx; cases hx), hres]
    trivial

/-! ## The declarations of a program, and the text that follows them -/

theorem program_eq_declarations (fuel : Nat) (p : Parser) :
    program (fuel + 1) p =
      programDeclarations fuel p >>= fun r =>
        compoundStatement fuel r.2 >>= fun c =>
          eat .Dot c.2 >>= fun q => Res.ok (⟨r.1.1, .mk r.1.2 c.1⟩, q) := by
  obtain ⟨lx, ty, v⟩ := p
  rw [program_mk]
  unfold programDeclarations
  cases h1 : eat .Program ⟨lx, ⟨ty, v⟩⟩ with
  | ok p1 =>
    simp only [ok_bind]
    cases h2 : variable_ p1 with
    | ok n =>
      simp only [ok_bind]
      cases h3 : eat .Semi n.2 with
      | ok q =>
        simp only [ok_bind]
        obtain ⟨lx2, ty2, v2⟩ := q
        rw [block_mk]
        cases h4 : declarations fuel ⟨lx2, ⟨ty2, v2⟩⟩ with
        | ok d =>
          simp only [ok_bind]
          cases h5 : compoundStatement fuel d.2 with
          | ok c => rfl
          | throw e => rfl
          | ub => rfl
          | timeout => rfl
        | throw e => rfl
        | ub => rfl
        | timeout => rfl
      | throw e => rfl
      | ub => rfl
      | timeout => rfl
    | throw e => rfl
    | ub => rfl
    | timeout => rfl
  | throw e => rfl
  | ub => rfl
  | timeout => rfl

/-- The parser on a text, split at the main compound statement. -/
theorem parseText_eq_declarations (fuel : Nat) (text : String) :
    parseText (fuel + 1) text =
      ((Parser.new (Lexer.new text) >>= programDeclarations fuel) >>= fun r =>
        compoundStatement fuel r.2 >>= fun c =>
          eat .Dot c.2 >>= fun q =>
            if q.currentToken_.type_ = .TYPE_EOF then
              Res.ok (⟨r.1.1, .mk r.1.2 c.1⟩ : Program)
            else .throw SyntaxError) := by
  rw [parseText_eq]
  cases h0 : Parser.new (Lexer.new text) with
  | ok p =>
    simp only [ok_bind]
    obtain ⟨lx, ty, v⟩ := p
    rw [parse_mk, program_eq_declarations]
    cases h1 : programDeclarations fuel ⟨lx, ⟨ty, v⟩⟩ with
    | ok r =>
      simp only [ok_bind]
      cases h2 : compoundStatement fuel r.2 with
      | ok c =>
        simp only [ok_bind]
        cases h3 : eat .Dot c.2 with
        | ok q =>
          simp only [ok_bind]
          by_cases hq : q.currentToken_.type_ = .TYPE_EOF
          · simp only [hq, ne_eq, not_true_eq_false, if_false, if_true, ok_bind]
          · simp only [hq, ne_eq, not_false_eq_true, if_false, if_true]
            rfl
        | throw e => rfl
        | ub => rfl
        | timeout => rfl
      | throw e => rfl
      | ub => rfl
      | timeout => rfl
    | throw e => rfl
    | ub => rfl
    | timeout => rfl
  | throw e => rfl
  | ub => rfl
  | timeout => rfl

theorem funTrack_follows {trailer : List Char} {α : Type} {f : Parser → Res (α × Parser)}
    (hf : FunTrack Finished (Extended trailer) f) {p' p q : Parser} {a : α}
    (hR : FollowsIn trailer p' p) (h : f p = .ok (a, q))
    (hq : q.currentToken_.type_ ≠ .TYPE_EOF) :
    ∃ q', f p' = .ok (a, q') ∧ FollowsIn trailer q' q := by
  rcases funTrack_apply hf (⟨hR.1, Or.inr hR.2.1⟩ : TrackState _ _ p' p) h with
    hfin | ⟨q', hq', hs⟩
  · exact absurd hfin.2 hq
  · rcases hs.2 with hfin | hext
    · exact absurd hfin.2 hq
    · exact ⟨q', hq', hs.1, hext, hq⟩

/-- One `eat` on the text and on the extended text: the second state follows, or the
first has met the end of the text and the second stands at the first token of what
follows. -/
theorem eat_crossing (c0 : Char) (r0 : List Char) (hsp0 : isspace c0 = true) (tokM : Token)
    (lxM : Lexer) (hM : getNextToken ⟨some (c0 :: r0), internedTable []⟩ = .ok (tokM, lxM))
    (tktype : TokenType) (p' p q : Parser) (hR : FollowsIn (c0 :: r0) p' p)
    (h : eat tktype p = .ok q) :
    ∃ q', eat tktype p' = .ok q' ∧ Crossing (c0 :: r0) tokM lxM.currentPtr_ q' q := by
  obtain ⟨lx', ty', v'⟩ := p'
  obtain ⟨lx, ty, v⟩ := p
  obtain ⟨htok, hext, _⟩ := hR
  simp only [Token.mk.injEq] at htok
  obtain ⟨hty, hv⟩ := htok
  subst hty hv
  obtain ⟨s, ids, hlx, hlx'⟩ := hext
  simp only at hlx hlx'
  subst hlx hlx'
  rw [eat_mk] at h ⊢
  by_cases hty : ty' = tktype
  · rw [if_pos hty, new_eq] at h ⊢
    obtain ⟨x, hres, hq⟩ := bind_eq_ok _ _ _ h
    obtain ⟨t, l⟩ := x
    cases hq
    rcases getNextToken_spaced c0 r0 hsp0 s ids t l hres with
      ⟨ht, hl, hprim⟩ | ⟨hne, l', hl', hext'⟩
    · subst ht hl
      obtain ⟨_, h2⟩ := getNextToken_interned_cursor _ [] tokM lxM hM
      obtain ⟨ids2, e⟩ := h2 ids
      rw [hprim, e, ok_bind]
      exact ⟨_, rfl, Or.inr ⟨⟨rfl, rfl⟩, rfl, rfl, ids2, rfl⟩⟩
    · rw [hl', ok_bind]
      exact ⟨_, rfl, Or.inl ⟨rfl, hext', hne⟩⟩
  · rw [if_neg hty] at h
    cases h

theorem finished_not_eaten {tktype : TokenType} {p q : Parser} (hfin : Finished p)
    (h : eat tktype p = .ok q) (hne : tktype ≠ .TYPE_EOF) : False := by
  have e := (eat_eq_ok _ _ _ h).1
  rw [hfin.2] at e
  exact hne e.symm

/-- The loop over the variable declarations on the text and on the extended text. -/
theorem declarationsVarLoop_crossing (c0 : Char) (r0 : List Char) (hsp0 : isspace c0 = true)
    (v : String) (lxM : Lexer)
    (hM : getNextToken ⟨some (c0 :: r0), internedTable []⟩ = .ok (⟨.Begin, v⟩, lxM))
    (fuel : Nat) : ∀ (decls : List Decl) (p' p : Parser) (a : List Decl) (q : Parser),
      Crossing (c0 :: r0) ⟨.Begin, v⟩ lxM.currentPtr_ p' p →
      declarationsVarLoop fuel decls p = .ok (a, q) →
      ∃ q', declarationsVarLoop fuel decls p' = .ok (a, q') ∧
        Crossing (c0 :: r0) ⟨.Begin, v⟩ lxM.currentPtr_ q' q := by
  have hK := tracked_spaced c0 r0 hsp0
  induction fuel with
  | zero =>
    intro decls p' p a q _ h
    simp only [declarationsVarLoop] at h
    cases h
  | succ n ih =>
    intro decls p' p a q hc h
    obtain ⟨lx', ty', v'⟩ := p'
    obtain ⟨lx, ty, v0⟩ := p
    rw [declarationsVarLoop_mk] at h ⊢
    rcases hc with hR | ⟨hfin, hst⟩
    · have htok : (⟨ty', v'⟩ : Token) = ⟨ty, v0⟩ := hR.1
      simp only [Token.mk.injEq] at htok
      obtain ⟨hty, hv⟩ := htok
      subst hty hv
      by_cases hid : ty' = .ID
      · rw [if_pos hid] at h ⊢
        obtain ⟨r, hr, h2⟩ := bind_eq_ok _ _ _ h
        obtain ⟨p2, hp2, h3⟩ := bind_eq_ok _ _ _ h2
        obtain ⟨r1, q1⟩ := r
        have hsemi : q1.currentToken_.type_ = .Semi := (eat_eq_ok _ _ _ hp2).1
        obtain ⟨q1', hq1', hR1⟩ := funTrack_follows (variableDeclaration_track hK n) hR hr
          (by rw [hsemi]; exact fun e => (by cases e))
        obtain ⟨p2', hp2', hc2⟩ := eat_crossing c0 r0 hsp0 _ lxM hM _ q1' q1 p2 hR1 hp2
        rw [hq1', ok_bind]
        simp only
        rw [hp2', ok_bind]
        exact ih _ p2' p2 a q hc2 h3
      · rw [if_neg hid] at h ⊢
        cases h
        exact ⟨_, rfl, Or.inl hR⟩
    · have hty : ty = .TYPE_EOF := hfin.2
      have htok : (⟨ty', v'⟩ : Token) = ⟨.Begin, v⟩ := hst.1
      simp only [Token.mk.injEq] at htok
      obtain ⟨hty', hv'⟩ := htok
      subst hty hty' hv'
      rw [if_neg (by decide)] at h ⊢
      cases h
      exact ⟨_, rfl, Or.inr ⟨hfin, hst⟩⟩

/-- The loop over the procedure declarations on the text and on the extended text. -/
theorem declarationsProcLoop_crossing (c0 : Char) (r0 : List Char) (hsp0 : isspace c0 = true)
    (v : String) (lxM : Lexer)
    (hM : getNextToken ⟨some (c0 :: r0), internedTable []⟩ = .ok (⟨.Begin, v⟩, lxM))
    (fuel : Nat) : ∀ (decls : List Decl) (p' p : Parser) (a : List Decl) (q : Parser),
      Crossing (c0 :: r0) ⟨.Begin, v⟩ lxM.currentPtr_ p' p →
      declarationsProcLoop fuel decls p = .ok (a, q) →
      ∃ q', declarationsProcLoop fuel decls p' = .ok (a, q') ∧
        Crossing (c0 :: r0) ⟨.Begin, v⟩ lxM.currentPtr_ q' q := by
  have hK := tracked_spaced c0 r0 hsp0
  induction fuel with
  | zero =>
    intro decls p' p a q _ h
    simp only [declarationsProcLoop] at h
    cases h
  | succ n ih =>
    intro decls p' p a q hc h
    obtain ⟨lx', ty', v'⟩ := p'
    obtain ⟨lx, ty, v0⟩ := p
    rw [declarationsProcLoop_mk] at h ⊢
    rcases hc with hR | ⟨hfin, hst⟩
    · have htok : (⟨ty', v'⟩ : Token) = ⟨ty, v0⟩ := hR.1
      simp only [Token.mk.injEq] at htok
      obtain ⟨hty, hv⟩ := htok
      subst hty hv
      by_cases hid : ty' = .Procedure
      · rw [if_pos hid] at h ⊢
        obtain ⟨p1, hp1, h2⟩ := bind_eq_ok _ _ _ h
        obtain ⟨p2, hp2, h3⟩ := bind_eq_ok _ _ _ h2
        obtain ⟨p3, hp3, h4⟩ := bind_eq_ok _ _ _ h3
        obtain ⟨b, hb, h5⟩ := bind_eq_ok _ _ _ h4
        obtain ⟨p5, hp5, h6⟩ := bind_eq_ok _ _ _ h5
        obtain ⟨blk, p4⟩ := b
        have hsemi : p4.currentToken_.type_ = .Semi := (eat_eq_ok _ _ _ hp5).1
        obtain ⟨p1', hp1', hc1⟩ := eat_crossing c0 r0 hsp0 _ lxM hM _ _ _ p1 hR hp1
        have hR1 : FollowsIn (c0 :: r0) p1' p1 :=
          hc1.elim id (fun hf => (finished_not_eaten hf.1 hp2 (by decide)).elim)
        obtain ⟨p2', hp2', hc2⟩ := eat_crossing c0 r0 hsp0 _ lxM hM _ _ _ p2 hR1 hp2
        have hR2 : FollowsIn (c0 :: r0) p2' p2 :=
          hc2.elim id (fun hf => (finished_not_eaten hf.1 hp3 (by decide)).elim)
        obtain ⟨p3', hp3', hc3⟩ := eat_crossing c0 r0 hsp0 _ lxM hM _ _ _ p3 hR2 hp3
        have hR3 : FollowsIn (c0 :: r0) p3' p3 := by
          rcases hc3 with hf | hf
          · exact hf
          · have hf4 := funTrack_escape hK (block_track hK n).1 hf.1 hb
            exact (finished_not_eaten hf4 hp5 (by decide)).elim
        obtain ⟨p4', hp4', hR4⟩ := funTrack_follows (block_track hK n).1 hR3 hb
          (by rw [hsemi]; exact fun e => (by cases e))
        obtain ⟨p5', hp5', hc5⟩ := eat_crossing c0 r0 hsp0 _ lxM hM _ _ _ p5 hR4 hp5
        rw [hp1', ok_bind, hp2', ok_bind, hp3', ok_bind, hp4', ok_bind]
        simp only
        rw [hp5', ok_bind, hR1.1]
        exact ih _ p5' p5 a q hc5 h6
      · rw [if_neg hid] at h ⊢
        cases h
        exact ⟨_, rfl, Or.inl hR⟩
    · have hty : ty = .TYPE_EOF := hfin.2
      have htok : (⟨ty', v'⟩ : Token) = ⟨.Begin, v⟩ := hst.1
      simp only [Token.mk.injEq] at htok
      obtain ⟨hty', hv'⟩ := htok
      subst hty hty' hv'
      rw [if_neg (by decide)] at h ⊢
      cases h
      exact ⟨_, rfl, Or.inr ⟨hfin, hst⟩⟩

/-- The method `Parser::declarations` on the text and on the extended text. -/
theorem declarations_crossing (c0 : Char) (r0 : List Char) (hsp0 : isspace c0 = true)
    (v : String) (lxM : Lexer)
    (hM : getNextToken ⟨some (c0 :: r0), internedTable []⟩ = .ok (⟨.Begin, v⟩, lxM))
    (fuel : Nat) (p' p : Parser) (a : List Decl) (q : Parser)
    (hc : Crossing (c0 :: r0) ⟨.Begin, v⟩ lxM.currentPtr_ p' p)
    (h : declarations fuel p = .ok (a, q)) :
    ∃ q', declarations fuel p' = .ok (a, q') ∧
      Crossing (c0 :: r0) ⟨.Begin, v⟩ lxM.currentPtr_ q' q := by
  cases fuel with
  | zero =>
    simp only [declarations] at h
    cases h
  | succ n =>
    obtain ⟨lx', ty', v'⟩ := p'
    obtain ⟨lx, ty, v0⟩ := p
    rw [declarations_mk] at h ⊢
    rcases hc with hR | ⟨hfin, hst⟩
    · have htok : (⟨ty', v'⟩ : Token) = ⟨ty, v0⟩ := hR.1
      simp only [Token.mk.injEq] at htok
      obtain ⟨hty, hv⟩ := htok
      subst hty hv
      by_cases hvar : ty' = .Var
      · rw [if_pos hvar] at h ⊢
        obtain ⟨r, hr, h2⟩ := bind_eq_ok _ _ _ h
        obtain ⟨p1, hp1, hv1⟩ := bind_eq_ok _ _ _ hr
        obtain ⟨ds, q1⟩ := r
        obtain ⟨p1', hp1', hc1⟩ := eat_crossing c0 r0 hsp0 _ lxM hM _ _ _ p1 hR hp1
        obtain ⟨q1', hq1', hc2⟩ :=
          declarationsVarLoop_crossing c0 r0 hsp0 v lxM hM n [] p1' p1 ds q1 hc1 hv1
        rw [hp1', ok_bind, hq1', ok_bind]
        exact declarationsProcLoop_crossing c0 r0 hsp0 v lxM hM n ds q1' q1 a q hc2 h2
      · rw [if_neg hvar, ok_bind] at h ⊢
        exact declarationsProcLoop_crossing c0 r0 hsp0 v lxM hM n [] _ _ a q (Or.inl hR) h
    · have hty : ty = .TYPE_EOF := hfin.2
      have htok : (⟨ty', v'⟩ : Token) = ⟨.Begin, v⟩ := hst.1
      simp only [Token.mk.injEq] at htok
      obtain ⟨hty', hv'⟩ := htok
      subst hty hty' hv'
      rw [if_neg (by decide), ok_bind] at h ⊢
      exact declarationsProcLoop_crossing c0 r0 hsp0 _ lxM hM n [] _ _ a q
        (Or.inr ⟨hfin, hst⟩) h

/-- The header and the declarations of a program on the text and on the extended
text. -/
theorem programDeclarations_crossing (c0 : Char) (r0 : List Char) (hsp0 : isspace c0 = true)
    (v : String) (lxM : Lexer)
    (hM : getNextToken ⟨some (c0 :: r0), internedTable []⟩ = .ok (⟨.Begin, v⟩, lxM))
    (fuel : Nat) (p' p : Parser) (a : String × List Decl) (q : Parser)
    (hR : FollowsIn (c0 :: r0) p' p)
    (h : programDeclarations fuel p = .ok (a, q)) :
    ∃ q', programDeclarations fuel p' = .ok (a, q') ∧
      Crossing (c0 :: r0) ⟨.Begin, v⟩ lxM.currentPtr_ q' q := by
  have hK := tracked_spaced c0 r0 hsp0
  unfold programDeclarations at h ⊢
  obtain ⟨p1, hp1, h2⟩ := bind_eq_ok _ _ _ h
  obtain ⟨n, hn, h3⟩ := bind_eq_ok _ _ _ h2
  obtain ⟨p3, hp3, h4⟩ := bind_eq_ok _ _ _ h3
  obtain ⟨d, hd, h5⟩ := bind_eq_ok _ _ _ h4
  obtain ⟨node, p2⟩ := n
  obtain ⟨ds, p4⟩ := d
  cases h5
  have hsemi : p2.currentToken_.type_ = .Semi := (eat_eq_ok _ _ _ hp3).1
  obtain ⟨p1', hp1', hc1⟩ := eat_crossing c0 r0 hsp0 _ lxM hM _ _ _ p1 hR hp1
  have hR1 : FollowsIn (c0 :: r0) p1' p1 := by
    rcases hc1 with hf | hf
    · exact hf
    · have hf2 := funTrack_escape hK (variable_track hK) hf.1 hn
      exact (finished_not_eaten hf2 hp3 (by decide)).elim
  obtain ⟨p2', hp2', hR2⟩ := funTrack_follows (variable_track hK) hR1 hn
    (by rw [hsemi]; exact fun e => (by cases e))
  obtain ⟨p3', hp3', hc3⟩ := eat_crossing c0 r0 hsp0 _ lxM hM _ _ _ p3 hR2 hp3
  obtain ⟨p4', hp4', hc4⟩ := declarations_crossing c0 r0 hsp0 v lxM hM fuel p3' p3 ds p4 hc3 hd
  rw [hp1', ok_bind, hp2', ok_bind]
  simp only
  rw [hp3', ok_bind, hp4', ok_bind]
  exact ⟨_, rfl, hc4⟩

/-- When a text holds the header and the declarations of a program and nothing else,
the parser on that text followed by white space and a main compound statement reads
the same header and declarations, and then stands at the `BEGIN`. -/
theorem programDeclarations_extended (fuel : Nat) (X main : List Char) (v : String)
    (lxM : Lexer) (a : String × List Decl) (q : Parser)
    (hsp : ∃ c r, main = c :: r ∧ isspace c = true)
    (hbegin : getNextToken (Lexer.new ⟨main⟩) = .ok (⟨.Begin, v⟩, lxM))
    (hX : (Parser.new (Lexer.new ⟨X⟩) >>= programDeclarations fuel) = .ok (a, q))
    (hfin : Finished q) :
    ∃ q', (Parser.new (Lexer.new ⟨X ++ main⟩) >>= programDeclarations fuel) = .ok (a, q') ∧
      StandsAt ⟨.Begin, v⟩ lxM.currentPtr_ q' := by
  obtain ⟨c0, r0, rfl, hsp0⟩ := hsp
  have hM : getNextToken ⟨some (c0 :: r0), internedTable []⟩ = .ok (⟨.Begin, v⟩, lxM) := hbegin
  obtain ⟨p0, hp0, h1⟩ := bind_eq_ok _ _ _ hX
  rw [new_eq] at hp0
  obtain ⟨x, hx, hq0⟩ := bind_eq_ok _ _ _ hp0
  obtain ⟨t, l⟩ := x
  cases hq0
  cases X with
  | nil => cases hx
  | cons c r =>
    have hx' : getNextToken ⟨ptrOf (c :: r), internedTable []⟩ = .ok (t, l) := hx
    rcases getNextToken_spaced c0 r0 hsp0 (c :: r) [] t l hx' with
      ⟨ht, hl, _⟩ | ⟨hne, l', hl', hext⟩
    · subst ht hl
      unfold programDeclarations at h1
      obtain ⟨p1, hp1, _⟩ := bind_eq_ok _ _ _ h1
      exact (finished_not_eaten ⟨rfl, rfl⟩ hp1 (by decide)).elim
    · obtain ⟨q', hq', hc⟩ := programDeclarations_crossing c0 r0 hsp0 v lxM hM fuel
        ⟨l', t⟩ ⟨l, t⟩ a q ⟨rfl, hext, hne⟩ h1
      refine ⟨q', ?_, ?_⟩
      · rw [new_eq]
        have e : getNextToken (Lexer.new ⟨c :: r ++ c0 :: r0⟩) = .ok (t, l') := hl'
        rw [e, ok_bind, ok_bind]
        exact hq'
      · rcases hc with hf | ⟨_, hst⟩
        · exact absurd hfin.2 hf.2.2
        · exact hst

/-- The parser reads a procedure declaration added at the end of the declarations
of a program. `pre` is the text of the header and of the declarations of a program
`P`, `main` the rest of the text of `P`, white space and the main compound
statement, and `pre ++ d` is the text of the header and of declarations. Then the
program of the text `pre ++ d ++ main` is `P` with the declarations of `pre ++ d`. -/
theorem declarations_text_extended (fuel : Nat) (pre d main : List Char)
    (name nameB : String) (declsA declsB : List Decl) (comp : Stmt) (v : String)
    (lxM : Lexer) (qA qB : Parser)
    (hsp : ∃ c r, main = c :: r ∧ isspace c = true)
    (hbegin : getNextToken (Lexer.new ⟨main⟩) = .ok (⟨.Begin, v⟩, lxM))
    (hA : (Parser.new (Lexer.new ⟨pre⟩) >>= programDeclarations fuel) =
      .ok ((name, declsA), qA))
    (hfinA : Finished qA)
    (hB : (Parser.new (Lexer.new ⟨pre ++ d⟩) >>= programDeclarations fuel) =
      .ok ((nameB, declsB), qB))
    (hfinB : Finished qB)
    (hP : parseText (fuel + 1) ⟨pre ++ main⟩ = .ok ⟨name, .mk declsA comp⟩) :
    parseText (fuel + 1) ⟨pre ++ d ++ main⟩ = .ok ⟨nameB, .mk declsB comp⟩ := by
  obtain ⟨qA', hA', hstA⟩ :=
    programDeclarations_extended fuel pre main v lxM _ qA hsp hbegin hA hfinA
  obtain ⟨qB', hB', hstB⟩ :=
    programDeclarations_extended fuel (pre ++ d) main v lxM _ qB hsp hbegin hB hfinB
  rw [parseText_eq_declarations] at hP ⊢
  rw [hA', ok_bind] at hP
  rw [hB', ok_bind]
  simp only at hP ⊢
  obtain ⟨c, hc, h2⟩ := bind_eq_ok _ _ _ hP
  obtain ⟨q2, hq2, h3⟩ := bind_eq_ok _ _ _ h2
  obtain ⟨c1, q1⟩ := c
  simp only at hq2 h3
  have hsim : ParserSim SameCursor qB' qA' :=
    ⟨hstB.1.trans hstA.1.symm, hstB.2.1.trans hstA.2.1.symm, hstB.2.2, hstA.2.2⟩
  have ho := (statement_sim keptByLexer_sameCursor fuel).1 qB' qA' hsim
  rw [hc] at ho
  by_cases heof : q2.currentToken_.type_ = .TYPE_EOF
  · rw [if_pos heof] at h3
    have hcomp : c1 = comp := by
      have e := Res.ok.inj h3
      simp only [Program.mk.injEq, Block.mk.injEq, true_and] at e
      exact e
    cases hcB : compoundStatement fuel qB' with
    | ok x =>
      obtain ⟨c1', q1'⟩ := x
      rw [hcB] at ho
      obtain ⟨e1, hs1⟩ := ho
      have he := eat_sim keptByLexer_sameCursor .Dot hs1
      rw [hq2] at he
      cases heB : eat .Dot q1' with
      | ok q2' =>
        rw [heB] at he
        have htok : q2'.currentToken_ = q2.currentToken_ := he.1
        rw [ok_bind]
        simp only
        rw [heB, ok_bind, htok, if_pos heof, e1, hcomp]
      | throw e => rw [heB] at he; exact he.elim
      | ub => rw [heB] at he; exact he.elim
      | timeout => rw [heB] at he; exact he.elim
    | throw e => rw [hcB] at ho; exact ho.elim
    | ub => rw [hcB] at ho; exact ho.elim
    | timeout => rw [hcB] at ho; exact ho.elim
  · rw [if_neg heof] at h3
    cases h3

/-! ## A procedure declaration whose names are declared -/

theorem passSpec_ok {used declared : List String} {t t' : SymbolTable}
    (h : PassSpec used declared t (.ok t')) :
    (∀ n, Registered t' n ↔ (Registered t n ∨ n ∈ declared)) ∧
      ∀ n ∈ used, Registered t n ∨ n ∈ declared := by
  rcases h with ⟨t1, hr, hreg, hused⟩ | ⟨m, _, _, hr⟩
  · cases hr
    exact ⟨hreg, hused⟩
  · cases hr

/-- A statement whose names are all registered is accepted, and the names
registered stay registered. -/
theorem visitStmt_registered (s : Stmt) (t : SymbolTable)
    (h : ∀ n ∈ s.usedNames, Registered t n) :
    ∃ t', SymbolTableBuilder.visitStmt s t = .ok t' ∧ ∀ n, Registered t' n ↔ Registered t n := by
  rcases visitStmt_passSpec s t with ⟨t', hr, hreg, _⟩ | ⟨m, hm, hnot, _⟩
  · exact ⟨t', hr, fun n => by rw [hreg n]; simp⟩
  · exact absurd (h m hm) hnot

mutual
theorem visitDecl_scopeAfter : ∀ (d : Decl) (known k : List String) (t : SymbolTable),
    d.scopeAfter known = some k → (∀ n ∈ known, Registered t n) →
    ∃ t', SymbolTableBuilder.visitDecl d t = .ok t' ∧ (∀ n ∈ k, Registered t' n) ∧
      ∀ n, Registered t n → Registered t' n
  | .VarDecl varNode typeNode, known, k, t => by
    intro hs hk
    simp only [Decl.scopeAfter, Option.some.injEq] at hs
    subst hs
    have hreg := (passSpec_ok (visitVarDecl_passSpec varNode typeNode t)).1
    refine ⟨_, rfl, fun n hn => ?_, fun n hn => (hreg n).2 (Or.inl hn)⟩
    rw [hreg n]
    rcases List.mem_cons.1 hn with e | hmem
    · exact Or.inr (by simp [e])
    · exact Or.inl (hk n hmem)
  | .ProcedureDecl _ blk, known, k, t => by
    intro hs hk
    simp only [Decl.scopeAfter] at hs
    simpa [SymbolTableBuilder.visitDecl] using visitBlock_scopeAfter blk known k t hs hk
theorem visitBlock_scopeAfter : ∀ (blk : Block) (known k : List String) (t : SymbolTable),
    blk.scopeAfter known = some k → (∀ n ∈ known, Registered t n) →
    ∃ t', SymbolTableBuilder.visitBlock blk t = .ok t' ∧ (∀ n ∈ k, Registered t' n) ∧
      ∀ n, Registered t n → Registered t' n
  | .mk declarations compoundStatement, known, k, t => by
    intro hs hk
    simp only [Block.scopeAfter] at hs
    cases hd : declsScopeAfter declarations known with
    | none => rw [hd] at hs; cases hs
    | some k1 =>
      rw [hd] at hs
      simp only at hs
      split_ifs at hs with hall
      have e : k1 = k := Option.some.inj hs
      subst e
      obtain ⟨t1, ht1, hk1, hmono1⟩ := visitDecls_scopeAfter declarations known k1 t hd hk
      have hused : ∀ n ∈ compoundStatement.usedNames, Registered t1 n := by
        intro n hn
        have := List.all_eq_true.1 hall n hn
        exact hk1 n (by simpa using this)
      obtain ⟨t2, ht2, hreg2⟩ := visitStmt_registered compoundStatement t1 hused
      refine ⟨t2, ?_, fun n hn => (hreg2 n).2 (hk1 n hn), fun n hn => (hreg2 n).2 (hmono1 n hn)⟩
      simp only [SymbolTableBuilder.visitBlock]
      show (SymbolTableBuilder.visitDecls declarations t >>= fun t =>
        SymbolTableBuilder.visitStmt compoundStatement t) = _
      rw [ht1, ok_bind, ht2]
theorem visitDecls_scopeAfter : ∀ (ds : List Decl) (known k : List String) (t : SymbolTable),
    declsScopeAfter ds known = some k → (∀ n ∈ known, Registered t n) →
    ∃ t', SymbolTableBuilder.visitDecls ds t = .ok t' ∧ (∀ n ∈ k, Registered t' n) ∧
      ∀ n, Registered t n → Registered t' n
  | [], known, k, t => by
    intro hs hk
    simp only [declsScopeAfter, Option.some.injEq] at hs
    subst hs
    exact ⟨t, rfl, hk, fun n hn => hn⟩
  | d :: rest, known, k, t => by
    intro hs hk
    simp only [declsScopeAfter] at hs
    cases hd : d.scopeAfter known with
    | none => rw [hd] at hs; cases hs
    | some k1 =>
      rw [hd] at hs
      simp only at hs
      obtain ⟨t1, ht1, hk1, hmono1⟩ := visitDecl_scopeAfter d known k1 t hd hk
      obtain ⟨t2, ht2, hk2, hmono2⟩ := visitDecls_scopeAfter rest k1 k t1 hs hk1
      refine ⟨t2, ?_, hk2, fun n hn => hmono2 n (hmono1 n hn)⟩
      simp only [SymbolTableBuilder.visitDecls]
      show (SymbolTableBuilder.visitDecl d t >>= fun t =>
        SymbolTableBuilder.visitDecls rest t) = _
      rw [ht1, ok_bind, ht2]
end

theorem visitDecls_append (ds1 ds2 : List Decl) (t : SymbolTable) :
    SymbolTableBuilder.visitDecls (ds1 ++ ds2) t =
      SymbolTableBuilder.visitDecls ds1 t >>= fun t1 =>
        SymbolTableBuilder.visitDecls ds2 t1 := by
  induction ds1 generalizing t with
  | nil => rfl
  | cons d rest ih =>
    show (SymbolTableBuilder.visitDecl d t >>= fun t1 =>
        SymbolTableBuilder.visitDecls (rest ++ ds2) t1) =
      ((SymbolTableBuilder.visitDecl d t >>= fun t1 =>
        SymbolTableBuilder.visitDecls rest t1) >>= fun t1 =>
          SymbolTableBuilder.visitDecls ds2 t1)
    cases SymbolTableBuilder.visitDecl d t with
    | ok t1 => exact ih t1
    | throw e => rfl
    | ub => rfl
    | timeout => rfl

/-- The semantic pass accepts a program to whose declarations a procedure is added
whose names are declared where the walk meets them. -/
theorem semanticPass_with_procedure (name : String) (declsA : List Decl) (procName : String)
    (blk : Block) (comp : Stmt) (tA : SymbolTable)
    (hsem : semanticPass ⟨name, .mk declsA comp⟩ = .ok tA)
    (hscope : blk.scopeAfter (declsDeclaredNames declsA) ≠ none) :
    ∃ t, semanticPass ⟨name, .mk (declsA ++ [.ProcedureDecl procName blk]) comp⟩ = .ok t := by
  have hsem' : (SymbolTableBuilder.visitDecls declsA initBuiltins >>= fun t =>
      SymbolTableBuilder.visitStmt comp t) = .ok tA := hsem
  obtain ⟨t1, ht1, hcomp⟩ := bind_eq_ok _ _ _ hsem'
  have hspec := visitDecls_passSpec declsA initBuiltins
  rw [ht1] at hspec
  have hreg1 := (passSpec_ok hspec).1
  cases hk : blk.scopeAfter (declsDeclaredNames declsA) with
  | none => exact absurd hk hscope
  | some k =>
    obtain ⟨t2, ht2, _, hmono⟩ := visitBlock_scopeAfter blk _ k t1 hk
      (fun n hn => (hreg1 n).2 (Or.inr hn))
    have hspecC := visitStmt_passSpec comp t1
    rw [hcomp] at hspecC
    have husedC := (passSpec_ok hspecC).2
    obtain ⟨t3, ht3, _⟩ := visitStmt_registered comp t2 (fun n hn => by
      rcases husedC n hn with h | h
      · exact hmono n h
      · simp at h)
    refine ⟨t3, ?_⟩
    show (SymbolTableBuilder.visitDecls (declsA ++ [.ProcedureDecl procName blk]) initBuiltins
      >>= fun t => SymbolTableBuilder.visitStmt comp t) = _
    rw [visitDecls_append, ht1, ok_bind]
    show ((SymbolTableBuilder.visitBlock blk t1 >>= fun t =>
      SymbolTableBuilder.visitDecls [] t) >>= fun t =>
        SymbolTableBuilder.visitStmt comp t) = _
    rw [ht2, ok_bind]
    exact ht3

/-- C25 (inert procedures). `pre` is the text of the header and of the declarations
of a program `P`, and `main` is the rest of its text: white space and the main
compound statement; `P` is accepted by the parser and by the semantic pass. `d` is the
text of a procedure declaration: the declarations of the text `pre ++ d` are those of
`P` followed by a `ProcedureDecl`, in which every name is declared where the walk of
the semantic pass meets it (the pass has one flat table). Then the text with the
procedure, `pre ++ d ++ main`, is accepted by the parser, which builds the tree of
`P` with the `ProcedureDecl` added to its declarations; the semantic pass accepts
this tree; the evaluator gives the same outcome on it as on `P` from every global
store; and the whole pipeline gives the same outcome on the two texts. -/
theorem unused_procedure_is_inert (fuel : Nat) (pre d main : List Char) (name : String)
    (declsA : List Decl) (procName : String) (blk : Block) (comp : Stmt) (v : String)
    (lxM : Lexer) (qA qB : Parser) (tA : SymbolTable)
    (hsp : ∃ c r, main = c :: r ∧ isspace c = true)
    (hbegin : getNextToken (Lexer.new ⟨main⟩) = .ok (⟨.Begin, v⟩, lxM))
    (hA : (Parser.new (Lexer.new ⟨pre⟩) >>= programDeclarations fuel) =
      .ok ((name, declsA), qA))
    (hfinA : Finished qA)
    (hB : (Parser.new (Lexer.new ⟨pre ++ d⟩) >>= programDeclarations fuel) =
      .ok ((name, declsA ++ [.ProcedureDecl procName blk]), qB))
    (hfinB : Finished qB)
    (hP : parseText (fuel + 1) ⟨pre ++ main⟩ = .ok ⟨name, .mk declsA comp⟩)
    (hsem : semanticPass ⟨name, .mk declsA comp⟩ = .ok tA)
    (hscope : blk.scopeAfter (declsDeclaredNames declsA) ≠ none) :
    parseText (fuel + 1) ⟨pre ++ d ++ main⟩ =
        .ok ⟨name, .mk (declsA ++ [.ProcedureDecl procName blk]) comp⟩ ∧
      (∃ t, semanticPass ⟨name, .mk (declsA ++ [.ProcedureDecl procName blk]) comp⟩ =
        .ok t) ∧
      (∀ g, Interpreter.visitProgram
          ⟨name, .mk (declsA ++ [.ProcedureDecl procName blk]) comp⟩ g =
        Interpreter.visitProgram ⟨name, .mk declsA comp⟩ g) ∧
      run (fuel + 1) ⟨pre ++ d ++ main⟩ = run (fuel + 1) ⟨pre ++ main⟩ := by
  have hparse := declarations_text_extended fuel pre d main name name declsA
    (declsA ++ [.ProcedureDecl procName blk]) comp v lxM qA qB hsp hbegin hA hfinA hB hfinB hP
  obtain ⟨t, ht⟩ := semanticPass_with_procedure name declsA procName blk comp tA hsem hscope
  have heval : ∀ g, Interpreter.visitProgram
      ⟨name, .mk (declsA ++ [.ProcedureDecl procName blk]) comp⟩ g =
      Interpreter.visitProgram ⟨name, .mk declsA comp⟩ g := by
    intro g
    simp only [Interpreter.visitProgram, visitBlock_eq, Block.compoundStatement_]
  refine ⟨hparse, ⟨t, ht⟩, heval, ?_⟩
  show (parseText (fuel + 1) ⟨pre ++ d ++ main⟩ >>= fun tree =>
      semanticPass tree >>= fun _ => Interpreter.visitProgram tree []) =
    (parseText (fuel + 1) ⟨pre ++ main⟩ >>= fun tree =>
      semanticPass tree >>= fun _ => Interpreter.visitProgram tree [])
  rw [hparse, hP, ok_bind, ok_bind, ht, hsem, ok_bind, ok_bind]
  exact heval []

/-- C25, at `PROGRAM p; VAR x : INTEGER; BEGIN x := 1 END.` and the procedure
`PROCEDURE q; VAR y : INTEGER; BEGIN y := x END;`: the program with the procedure
runs to the store in which `x` is 1 and `y` has no entry. -/
theorem unused_procedure_is_inert_witness :
    parseText 10 ⟨"PROGRAM p; VAR x : INTEGER;".data ++
          " PROCEDURE q; VAR y : INTEGER; BEGIN y := x END;".data ++
          " BEGIN x := 1 END.".data⟩ =
        .ok ⟨"p", .mk ([.VarDecl ⟨⟨.ID, "x"⟩⟩ ⟨⟨.Semi, ";"⟩⟩] ++
          [.ProcedureDecl "q" (.mk [.VarDecl ⟨⟨.ID, "y"⟩⟩ ⟨⟨.Semi, ";"⟩⟩]
            (.Compound [.Assign ⟨⟨.ID, "y"⟩⟩ ⟨.Assign, ":="⟩ (.Var ⟨⟨.ID, "x"⟩⟩)]))])
          (.Compound [.Assign ⟨⟨.ID, "x"⟩⟩ ⟨.Assign, ":="⟩ (.Num ⟨.IntegerConst, "1"⟩)])⟩ ∧
      run 10 ⟨"PROGRAM p; VAR x : INTEGER;".data ++
          " PROCEDURE q; VAR y : INTEGER; BEGIN y := x END;".data ++
          " BEGIN x := 1 END.".data⟩ = .ok [("x", 1)] ∧
      run 10 ⟨"PROGRAM p; VAR x : INTEGER;".data ++ " BEGIN x := 1 END.".data⟩ =
        .ok [("x", 1)] :=
  have h := unused_procedure_is_inert 9 "PROGRAM p; VAR x : INTEGER;".data
    " PROCEDURE q; VAR y : INTEGER; BEGIN y := x END;".data " BEGIN x := 1 END.".data "p"
    [.VarDecl ⟨⟨.ID, "x"⟩⟩ ⟨⟨.Semi, ";"⟩⟩] "q"
    (.mk [.VarDecl ⟨⟨.ID, "y"⟩⟩ ⟨⟨.Semi, ";"⟩⟩]
      (.Compound [.Assign ⟨⟨.ID, "y"⟩⟩ ⟨.Assign, ":="⟩ (.Var ⟨⟨.ID, "x"⟩⟩)]))
    (.Compound [.Assign ⟨⟨.ID, "x"⟩⟩ ⟨.Assign, ":="⟩ (.Num ⟨.IntegerConst, "1"⟩)])
    "BEGIN" ⟨some " x := 1 END.".data, initialKeywords⟩
    ⟨⟨none, internedTable ["p", "x"]⟩, ⟨.TYPE_EOF, ""⟩⟩
    ⟨⟨none, internedTable ["p", "x", "q", "y"]⟩, ⟨.TYPE_EOF, ""⟩⟩
    [("INTEGER", some (.BuiltinTypeSymbol "INTEGER")), ("REAL", some (.BuiltinTypeSymbol "REAL")),
      (";", none), ("x", some (.VarSymbol "x" none))]
    ⟨' ', "BEGIN x := 1 END.".data, by rfl, by decide⟩ (by rfl) (by rfl) ⟨rfl, rfl⟩ (by rfl)
    ⟨rfl, rfl⟩ (by rfl) (by rfl) (by decide)
  ⟨h.1, h.2.2.2.trans (by rfl), by rfl⟩

/-! ## After the end of the input -/

/-- The end-of-input token is returned only with the cursor at null, and the
keyword table is then the one the call started with. -/
theorem getNextToken_eof (p : Ptr) (ids : List String) (t : Token) (l : Lexer)
    (h : getNextToken ⟨p, internedTable ids⟩ = .ok (t, l)) (heof : t.type_ = .TYPE_EOF) :
    t = ⟨.TYPE_EOF, ""⟩ ∧ l = ⟨none, internedTable ids⟩ := by
  have hs : ∃ s, p = ptrOf s := by
    cases p with
    | none => exact ⟨[], rfl⟩
    | some cs =>
      cases cs with
      | nil => cases h
      | cons c r => exact ⟨c :: r, rfl⟩
  obtain ⟨s, rfl⟩ := hs
  rcases getNextToken_spaced ' ' [] (by decide) s ids t l h with ⟨ht, hl, _⟩ | ⟨hne, _⟩
  · exact ⟨ht, hl⟩
  · exact absurd heof hne

/-- C40 (the end of the input is absorbing). A lexer started by the constructor has
a keyword table of interned identifiers. Once `getNextToken` has returned the
end-of-input token, the cursor is null, and every later call returns the end-of-input
token again and leaves the lexer, cursor and keyword table, as it is. -/
theorem eof_is_absorbing (p : Ptr) (ids : List String) (t : Token) (l : Lexer)
    (h : getNextToken ⟨p, internedTable ids⟩ = .ok (t, l)) (heof : t.type_ = .TYPE_EOF) :
    l.currentPtr_ = none ∧ l.RESERVED_KEYWORDS = internedTable ids ∧
      ∀ n, getNextTokenTimes n l = .ok (t, l) := by
  obtain ⟨ht, hl⟩ := getNextToken_eof p ids t l h heof
  subst ht hl
  refine ⟨rfl, rfl, fun n => ?_⟩
  induction n with
  | zero => exact getNextToken_null _
  | succ k ih =>
    show (getNextToken ⟨none, internedTable ids⟩ >>= fun r => getNextTokenTimes k r.2) = _
    rw [getNextToken_null, ok_bind]
    exact ih

/-- C40, at the text `x `: the second token is the end-of-input token, and so is the
token of each of the next three calls, the lexer staying as it is. -/
theorem eof_is_absorbing_witness :
    getNextTokenTimes 1 (Lexer.new "x ") =
        .ok (⟨.TYPE_EOF, ""⟩, ⟨none, internedTable ["x"]⟩) ∧
      ∀ n, getNextTokenTimes n ⟨none, internedTable ["x"]⟩ =
        .ok (⟨.TYPE_EOF, ""⟩, ⟨none, internedTable ["x"]⟩) :=
  ⟨by rfl, (eof_is_absorbing (some [' ']) ["x"] ⟨.TYPE_EOF, ""⟩ ⟨none, internedTable ["x"]⟩
    (by rfl) rfl).2.2⟩

/-! ## Statements in source order -/

theorem visitStmts_append (cs1 cs2 : List Stmt) (S : GlobalScope) :
    Interpreter.visitStmts (cs1 ++ cs2) S =
      Interpreter.visitStmts cs1 S >>= fun S1 => Interpreter.visitStmts cs2 S1 := by
  induction cs1 generalizing S with
  | nil => rfl
  | cons s rest ih =>
    show (Interpreter.visitStmts (s :: (rest ++ cs2)) S) = _
    simp only [Interpreter.visitStmts]
    show (Interpreter.visitStmt s S >>= fun g => Interpreter.visitStmts (rest ++ cs2) g) =
      ((Interpreter.visitStmt s S >>= fun g => Interpreter.visitStmts rest g) >>= fun S1 =>
        Interpreter.visitStmts cs2 S1)
    cases Interpreter.visitStmt s S with
    | ok g => exact ih g
    | throw e => rfl
    | ub => rfl
    | timeout => rfl

/-- C31 (statements run in source order). Evaluating `Compound [s1, ..., sn]` is
evaluating `s1` and then the rest from the store that `s1` leaves; so the statements
before any place of the list run first, those after it from the store the first
leave, and when the statements `cs1` leave the store `S1` and the next statement
fails from `S1`, the compound statement fails in the same way, whatever follows. For
`x := e1; x := e2` the final value of `x` is the value of `e2` in the store left by
the first assignment. -/
theorem statements_run_in_order (cs1 cs2 : List Stmt) (s : Stmt) (S S1 : GlobalScope)
    (hfirst : Interpreter.visitStmt (.Compound cs1) S = .ok S1)
    (hfail : ∀ S2, Interpreter.visitStmt s S1 ≠ .ok S2) :
    Interpreter.visitStmt (.Compound (cs1 ++ s :: cs2)) S = Interpreter.visitStmt s S1 ∧
      (∀ (c : Stmt) (rest : List Stmt) (g : GlobalScope),
        Interpreter.visitStmt (.Compound (c :: rest)) g =
          Interpreter.visitStmt c g >>= fun g1 => Interpreter.visitStmt (.Compound rest) g1) ∧
      (∀ g, Interpreter.visitStmt (.Compound []) g = .ok g) ∧
      (∀ (cs cs' : List Stmt) (g : GlobalScope),
        Interpreter.visitStmt (.Compound (cs ++ cs')) g =
          Interpreter.visitStmt (.Compound cs) g >>= fun g1 =>
            Interpreter.visitStmt (.Compound cs') g1) ∧
      ∀ (x : Var) (op1 op2 : Token) (e1 e2 : Expr) (g : GlobalScope) (v1 v2 : Int),
        Interpreter.visitExpr e1 g = .ok v1 →
        Interpreter.visitExpr e2 (g.assign x.value_ v1) = .ok v2 →
        ∃ g2, Interpreter.visitStmt (.Compound [.Assign x op1 e1, .Assign x op2 e2]) g =
            .ok g2 ∧ g2.find x.value_ = some v2 := by
  have happ : ∀ (cs cs' : List Stmt) (g : GlobalScope),
      Interpreter.visitStmt (.Compound (cs ++ cs')) g =
        Interpreter.visitStmt (.Compound cs) g >>= fun g1 =>
          Interpreter.visitStmt (.Compound cs') g1 := by
    intro cs cs' g
    simp only [Interpreter.visitStmt]
    exact visitStmts_append cs cs' g
  have hcons : ∀ (c : Stmt) (rest : List Stmt) (g : GlobalScope),
      Interpreter.visitStmt (.Compound (c :: rest)) g =
        Interpreter.visitStmt c g >>= fun g1 => Interpreter.visitStmt (.Compound rest) g1 := by
    intro c rest g
    simp only [Interpreter.visitStmt, Interpreter.visitStmts]
  refine ⟨?_, hcons, fun g => by simp only [Interpreter.visitStmt, Interpreter.visitStmts]; rfl,
    happ, ?_⟩
  · rw [happ, hfirst, ok_bind, hcons]
    cases hs : Interpreter.visitStmt s S1 with
    | ok S2 => exact absurd hs (hfail S2)
    | throw e => rfl
    | ub => rfl
    | timeout => rfl
  · intro x op1 op2 e1 e2 g v1 v2 h1 h2
    refine ⟨(g.assign x.value_ v1).assign x.value_ v2, ?_, ?_⟩
    · simp only [Interpreter.visitStmt, Interpreter.visitStmts]
      show ((Interpreter.visitExpr e1 g >>= fun v => Res.ok (g.assign x.value_ v)) >>= fun g1 =>
        ((Interpreter.visitExpr e2 g1 >>= fun v => Res.ok (g1.assign x.value_ v)) >>= fun g2 =>
          Res.ok g2)) = _
      rw [h1, ok_bind, ok_bind, h2, ok_bind, ok_bind]
    · rw [globalScope_find_assign]
      simp

/-- C31, at `x := 1; y := z; x := 2` from the empty store: the second statement reads
`z`, which has no value, and the compound statement fails there; and the program
`PROGRAM p; VAR x : INTEGER; BEGIN x := 1; x := x + 1 END.` ends with `x = 2`. -/
theorem statements_run_in_order_witness :
    Interpreter.visitStmt (.Compound ([.Assign ⟨⟨.ID, "x"⟩⟩ ⟨.Assign, ":="⟩
          (.Num ⟨.IntegerConst, "1"⟩)] ++
        .Assign ⟨⟨.ID, "y"⟩⟩ ⟨.Assign, ":="⟩ (.Var ⟨⟨.ID, "z"⟩⟩) ::
          [.Assign ⟨⟨.ID, "x"⟩⟩ ⟨.Assign, ":="⟩ (.Num ⟨.IntegerConst, "2"⟩)])) [] =
        .throw RuntimeError ∧
      interpret 9 "PROGRAM p; VAR x : INTEGER; BEGIN x := 1; x := x + 1 END." =
        .ok [("x", 2)] :=
  ⟨(statements_run_in_order
      [.Assign ⟨⟨.ID, "x"⟩⟩ ⟨.Assign, ":="⟩ (.Num ⟨.IntegerConst, "1"⟩)]
      [.Assign ⟨⟨.ID, "x"⟩⟩ ⟨.Assign, ":="⟩ (.Num ⟨.IntegerConst, "2"⟩)]
      (.Assign ⟨⟨.ID, "y"⟩⟩ ⟨.Assign, ":="⟩ (.Var ⟨⟨.ID, "z"⟩⟩)) [] [("x", 1)] (by rfl)
      (fun S2 h => by cases h)).1.trans (by rfl), by rfl⟩

/-! ## An assignment whose right-hand side fails -/

mutual
theorem storeAfterStmt_ok : ∀ (s : Stmt) (g g' : GlobalScope),
    Interpreter.visitStmt s g = .ok g' → storeAfterStmt s g = g'
  | .Compound children, g, g' => by
    intro h
    simp only [Interpreter.visitStmt] at h
    simp only [storeAfterStmt]
    exact storeAfterStmts_ok children g g' h
  | .Assign left _ right, g, g' => by
    intro h
    have h' : (Interpreter.visitExpr right g >>= fun v => Res.ok (g.assign left.value_ v)) =
        .ok g' := h
    obtain ⟨v, hv, hg⟩ := bind_eq_ok _ _ _ h'
    simp only [storeAfterStmt, hv]
    exact Res.ok.inj hg
  | .NoOp, g, g' => by
    intro h
    exact Res.ok.inj h
theorem storeAfterStmts_ok : ∀ (cs : List Stmt) (g g' : GlobalScope),
    Interpreter.visitStmts cs g = .ok g' → storeAfterStmts cs g = g'
  | [], g, g' => by
    intro h
    exact Res.ok.inj h
  | child :: rest, g, g' => by
    intro h
    have h' : (Interpreter.visitStmt child g >>= fun g1 => Interpreter.visitStmts rest g1) =
        .ok g' := h
    obtain ⟨g1, hg1, hrest⟩ := bind_eq_ok _ _ _ h'
    simp only [storeAfterStmts, hg1]
    exact storeAfterStmts_ok rest g1 g' hrest
end

/-- C38, as stated, fails. In the table that holds the two builtin type symbols,
`lookup("x")` returns the null pointer and leaves a table with a third entry, `x`
with a null pointer; `lookup("REAL")` returns the symbol and leaves the table as it
is. After the semantic pass on `PROGRAM p; VAR x : INTEGER; BEGIN END.` the table has
the entry `;` with a null pointer. -/
theorem lookup_adds_null_entry :
    initBuiltins.lookup "x" =
        (none, [("INTEGER", some (.BuiltinTypeSymbol "INTEGER")),
          ("REAL", some (.BuiltinTypeSymbol "REAL")), ("x", none)]) ∧
      (initBuiltins.lookup "x").2.length = initBuiltins.length + 1 ∧
      (initBuiltins.lookup "x").2.find "x" = some none ∧
      initBuiltins.find "x" = none ∧
      initBuiltins.lookup "REAL" = (some (.BuiltinTypeSymbol "REAL"), initBuiltins) ∧
      (parseText 9 "PROGRAM p; VAR x : INTEGER; BEGIN END." >>= semanticPass >>= fun t =>
        Res.ok (t.find ";")) = .ok (some none) :=
  ⟨by rfl, by rfl, by rfl, by rfl, by rfl, by rfl⟩

/-! ## The check at the end of the statement list -/

theorem compoundStatementNoCheck_mk (fuel : Nat) (lx : Lexer) (ty : TokenType) (v : String) :
    compoundStatementNoCheck (fuel + 1) ⟨lx, ⟨ty, v⟩⟩ =
      eat .Begin ⟨lx, ⟨ty, v⟩⟩ >>= fun p =>
        statementListNoCheck fuel p >>= fun r =>
          eat .End r.2 >>= fun p => Res.ok (.Compound r.1, p) := by
  simp only [compoundStatementNoCheck]; rfl

theorem statementListNoCheck_mk (fuel : Nat) (lx : Lexer) (ty : TokenType) (v : String) :
    statementListNoCheck (fuel + 1) ⟨lx, ⟨ty, v⟩⟩ =
      statementNoCheck fuel ⟨lx, ⟨ty, v⟩⟩ >>= fun s =>
        statementListLoopNoCheck fuel [s.1] s.2 := by
  simp only [statementListNoCheck]

theorem statementListLoopNoCheck_mk (fuel : Nat) (result : List Stmt) (lx : Lexer)
    (ty : TokenType) (v : String) :
    statementListLoopNoCheck (fuel + 1) result ⟨lx, ⟨ty, v⟩⟩ =
      if ty = .Semi then
        eat .Semi ⟨lx, ⟨ty, v⟩⟩ >>= fun p =>
          statementNoCheck fuel p >>= fun s =>
            statementListLoopNoCheck fuel (result ++ [s.1]) s.2
      else Res.ok (result, ⟨lx, ⟨ty, v⟩⟩) := by
  simp only [statementListLoopNoCheck]; rfl

theorem statementNoCheck_mk (fuel : Nat) (lx : Lexer) (ty : TokenType) (v : String) :
    statementNoCheck (fuel + 1) ⟨lx, ⟨ty, v⟩⟩ =
      if ty = .Begin then compoundStatementNoCheck fuel ⟨lx, ⟨ty, v⟩⟩
      else if ty = .ID then assignmentStatement fuel ⟨lx, ⟨ty, v⟩⟩
      else Res.ok (Stmt.NoOp, ⟨lx, ⟨ty, v⟩⟩) := by
  simp only [statementNoCheck]; rfl

/-- An identifier at the end of the statement list: the check throws, and so does
the `eat(End)` that follows when there is no check. -/
theorem check_then_eat_end (r : List Stmt × Parser) :
    ((if r.2.currentToken_.type_ = .ID then (.throw SyntaxError : Res (List Stmt × Parser))
        else Res.ok (r.1, r.2)) >>= fun r =>
      eat .End r.2 >>= fun p => Res.ok (Stmt.Compound r.1, p)) =
      (eat .End r.2 >>= fun p => Res.ok (Stmt.Compound r.1, p)) := by
  obtain ⟨nodes, lx, ty, v⟩ := r
  by_cases hid : ty = .ID
  · subst hid
    simp only [if_true, eat_mk]
    rw [if_neg (by decide)]
    rfl
  · simp only [hid, if_false, ok_bind]

/-- The statement methods of the parser without the check agree with those of the
parser, the statement list once the `END` is eaten. -/
theorem noCheck_eq (fuel : Nat) :
    (∀ p, compoundStatementNoCheck fuel p = compoundStatement fuel p) ∧
      (∀ result p, statementListLoopNoCheck fuel result p = statementListLoop fuel result p) ∧
      (∀ p, statementNoCheck fuel p = statement fuel p) ∧
      ∀ p, (statementListNoCheck fuel p >>= fun r =>
          eat .End r.2 >>= fun p => Res.ok (Stmt.Compound r.1, p)) =
        (statementList fuel p >>= fun r =>
          eat .End r.2 >>= fun p => Res.ok (Stmt.Compound r.1, p)) := by
  induction fuel with
  | zero =>
    refine ⟨fun p => ?_, fun result p => ?_, fun p => ?_, fun p => ?_⟩
    · simp only [compoundStatementNoCheck, compoundStatement]
    · simp only [statementListLoopNoCheck, statementListLoop]
    · simp only [statementNoCheck, statement]
    · simp only [statementListNoCheck, statementList]
  | succ n ih =>
    obtain ⟨ihC, ihL, ihS, ihSL⟩ := ih
    refine ⟨fun p => ?_, fun result p => ?_, fun p => ?_, fun p => ?_⟩
    · obtain ⟨lx, ty, v⟩ := p
      rw [compoundStatementNoCheck_mk, compoundStatement_mk]
      cases eat .Begin ⟨lx, ⟨ty, v⟩⟩ with
      | ok p1 => exact ihSL p1
      | throw e => rfl
      | ub => rfl
      | timeout => rfl
    · obtain ⟨lx, ty, v⟩ := p
      rw [statementListLoopNoCheck_mk, statementListLoop_mk]
      split_ifs
      · cases eat .Semi ⟨lx, ⟨ty, v⟩⟩ with
        | ok p1 =>
          simp only [ok_bind]
          rw [ihS p1]
          cases statement n p1 with
          | ok s => exact ihL _ _
          | throw e => rfl
          | ub => rfl
          | timeout => rfl
        | throw e => rfl
        | ub => rfl
        | timeout => rfl
      · rfl
    · obtain ⟨lx, ty, v⟩ := p
      rw [statementNoCheck_mk, statement_mk, ihC]
    · obtain ⟨lx, ty, v⟩ := p
      rw [statementListNoCheck_mk, statementList_mk, ihS]
      cases statement n ⟨lx, ⟨ty, v⟩⟩ with
      | ok s =>
        simp only [ok_bind]
        rw [ihL]
        cases statementListLoop n [s.1] s.2 with
        | ok r =>
          simp only [ok_bind]
          exact (check_then_eat_end r).symm
        | throw e => rfl
        | ub => rfl
        | timeout => rfl
      | throw e => rfl
      | ub => rfl
      | timeout => rfl

/-- C34 (the check after the statement list is redundant). `Parser::compoundStatement`
gives the same outcome, the same `Compound` node and parser state or the same
failure, in every parser state, whether `Parser::statementList` makes its final
check `current token is ID` or not: with an identifier as current token the
`eat(End)` that follows throws the same `SyntaxError`. The same holds for
`Parser::statement`. The statement list alone is a different matter: in the state
with current token `x` after the text `x := 1 y`, the list without the check is
returned and the check throws. -/
theorem trailing_identifier_check_redundant :
    (∀ fuel p, compoundStatementNoCheck fuel p = compoundStatement fuel p) ∧
      (∀ fuel p, statementNoCheck fuel p = statement fuel p) ∧
      (Parser.new (Lexer.new "x := 1 y") >>= statementList 6) = .throw SyntaxError ∧
      (Parser.new (Lexer.new "x := 1 y") >>= fun p =>
        statementListNoCheck 6 p >>= fun r => Res.ok (r.1, r.2.currentToken_)) =
        .ok ([.Assign ⟨⟨.ID, "x"⟩⟩ ⟨.Assign, ":="⟩ (.Num ⟨.IntegerConst, "1"⟩)],
          ⟨.ID, "y"⟩) :=
  ⟨fun fuel p => (noCheck_eq fuel).1 p, fun fuel p => (noCheck_eq fuel).2.2.1 p, by rfl, by rfl⟩

/-! ## The order of the declarations -/

theorem declarationsVarLoop_acc (fuel : Nat) : ∀ (acc : List Decl) (p : Parser),
    declarationsVarLoop fuel acc p =
      declarationsVarLoop fuel [] p >>= fun r => Res.ok (acc ++ r.1, r.2) := by
  induction fuel with
  | zero => intro acc p; simp only [declarationsVarLoop]; rfl
  | succ n ih =>
    intro acc p
    obtain ⟨lx, ty, v⟩ := p
    rw [declarationsVarLoop_mk, declarationsVarLoop_mk]
    split_ifs
    · cases variableDeclaration n ⟨lx, ⟨ty, v⟩⟩ with
      | ok r =>
        simp only [ok_bind]
        cases eat .Semi r.2 with
        | ok p1 =>
          simp only [ok_bind, List.nil_append]
          rw [ih (acc ++ r.1) p1, ih r.1 p1]
          cases declarationsVarLoop n [] p1 with
          | ok r2 => simp only [ok_bind, List.append_assoc]
          | throw e => rfl
          | ub => rfl
          | timeout => rfl
        | throw e => rfl
        | ub => rfl
        | timeout => rfl
      | throw e => rfl
      | ub => rfl
      | timeout => rfl
    · simp only [ok_bind, List.append_nil]

theorem declarationsProcLoop_acc (fuel : Nat) : ∀ (acc : List Decl) (p : Parser),
    declarationsProcLoop fuel acc p =
      declarationsProcLoop fuel [] p >>= fun r => Res.ok (acc ++ r.1, r.2) := by
  induction fuel with
  | zero => intro acc p; simp only [declarationsProcLoop]; rfl
  | succ n ih =>
    intro acc p
    obtain ⟨lx, ty, v⟩ := p
    rw [declarationsProcLoop_mk, declarationsProcLoop_mk]
    split_ifs
    · cases eat .Procedure ⟨lx, ⟨ty, v⟩⟩ with
      | ok p1 =>
        simp only [ok_bind]
        cases eat .ID p1 with
        | ok p2 =>
          simp only [ok_bind]
          cases eat .Semi p2 with
          | ok p3 =>
            simp only [ok_bind]
            cases block n p3 with
            | ok b =>
              simp only [ok_bind]
              cases eat .Semi b.2 with
              | ok p5 =>
                simp only [ok_bind, List.nil_append]
                rw [ih (acc ++ [_]) p5, ih [_] p5]
                cases declarationsProcLoop n [] p5 with
                | ok r2 => simp only [ok_bind, List.append_assoc]
                | throw e => rfl
                | ub => rfl
                | timeout => rfl
              | throw e => rfl
              | ub => rfl
              | timeout => rfl
            | throw e => rfl
            | ub => rfl
            | timeout => rfl
          | throw e => rfl
          | ub => rfl
          | timeout => rfl
        | throw e => rfl
        | ub => rfl
        | timeout => rfl
      | throw e => rfl
      | ub => rfl
      | timeout => rfl
    · simp only [ok_bind, List.append_nil]

theorem variableDeclaration_isVarDecl (fuel : Nat) (p q : Parser) (ds : List Decl)
    (h : variableDeclaration fuel p = .ok (ds, q)) : ds.all Decl.isVarDecl = true := by
  obtain ⟨lx, ty, v⟩ := p
  rw [variableDeclaration_mk] at h
  obtain ⟨p1, _, h2⟩ := bind_eq_ok _ _ _ h
  obtain ⟨r, _, h3⟩ := bind_eq_ok _ _ _ h2
  obtain ⟨p3, _, h4⟩ := bind_eq_ok _ _ _ h3
  obtain ⟨t, _, h5⟩ := bind_eq_ok _ _ _ h4
  cases h5
  simp [List.all_map, Decl.isVarDecl, Function.comp_def]

theorem declarationsVarLoop_shape (fuel : Nat) : ∀ (acc : List Decl) (p q : Parser)
    (ds : List Decl), declarationsVarLoop fuel acc p = .ok (ds, q) →
    ∃ more, ds = acc ++ more ∧ more.all Decl.isVarDecl = true := by
  induction fuel with
  | zero => intro acc p q ds h; simp only [declarationsVarLoop] at h; cases h
  | succ n ih =>
    intro acc p q ds h
    obtain ⟨lx, ty, v⟩ := p
    rw [declarationsVarLoop_mk] at h
    split_ifs at h
    · obtain ⟨r, hr, h2⟩ := bind_eq_ok _ _ _ h
      obtain ⟨p1, _, h3⟩ := bind_eq_ok _ _ _ h2
      obtain ⟨tmp, q1⟩ := r
      obtain ⟨more, hds, hall⟩ := ih _ _ _ _ h3
      refine ⟨tmp ++ more, by rw [hds, List.append_assoc], ?_⟩
      rw [List.all_append, variableDeclaration_isVarDecl n _ _ _ hr, hall]
      rfl
    · cases h
      exact ⟨[], by simp, rfl⟩

theorem declarationsProcLoop_shape (fuel : Nat) : ∀ (acc : List Decl) (p q : Parser)
    (ds : List Decl), declarationsProcLoop fuel acc p = .ok (ds, q) →
    ∃ more, ds = acc ++ more ∧ more.all Decl.isProcedureDecl = true ∧
      q.currentToken_.type_ ≠ .Procedure := by
  induction fuel with
  | zero => intro acc p q ds h; simp only [declarationsProcLoop] at h; cases h
  | succ n ih =>
    intro acc p q ds h
    obtain ⟨lx, ty, v⟩ := p
    rw [declarationsProcLoop_mk] at h
    split_ifs at h with hty
    · obtain ⟨p1, _, h2⟩ := bind_eq_ok _ _ _ h
      obtain ⟨p2, _, h3⟩ := bind_eq_ok _ _ _ h2
      obtain ⟨p3, _, h4⟩ := bind_eq_ok _ _ _ h3
      obtain ⟨b, _, h5⟩ := bind_eq_ok _ _ _ h4
      obtain ⟨p5, _, h6⟩ := bind_eq_ok _ _ _ h5
      obtain ⟨more, hds, hall, hq⟩ := ih _ _ _ _ h6
      refine ⟨Decl.ProcedureDecl p1.currentToken_.value_ b.1 :: more,
        by rw [hds, List.append_assoc]; rfl, ?_, hq⟩
      simp only [List.all_cons, Decl.isProcedureDecl, hall, Bool.and_self]
    · cases h
      exact ⟨[], by simp, rfl, hty⟩

/-- C33 (declaration order and nesting). What `Parser::declarations` returns is a
list of `VarDecl` nodes followed by a list of `ProcedureDecl` nodes, and it returns
with a current token that is not `PROCEDURE`; when that token is `VAR`, a VAR section
after the declarations, `Parser::block` throws `SyntaxError`. The nodes are in source
order: at an identifier the loop of the VAR section gives the nodes of the first
`variable_declaration` and then those of the rest of the section, and at `PROCEDURE`
the loop of the procedures gives first the `ProcedureDecl` of this declaration, with
the name that follows `PROCEDURE` and the block that `Parser::block` parses after the
semicolon, and then those of the declarations that follow. -/
theorem declarations_in_source_order (fuel : Nat) (p q : Parser) (ds : List Decl)
    (hdecl : declarations fuel p = .ok (ds, q)) :
    (∃ vars procs, ds = vars ++ procs ∧ vars.all Decl.isVarDecl = true ∧
        procs.all Decl.isProcedureDecl = true) ∧
      q.currentToken_.type_ ≠ .Procedure ∧
      (q.currentToken_.type_ = .Var → block (fuel + 1) p = .throw SyntaxError) ∧
      (∀ (f : Nat) (acc : List Decl) (lx : Lexer) (v : String),
        declarationsVarLoop (f + 1) acc ⟨lx, ⟨.ID, v⟩⟩ =
          variableDeclaration f ⟨lx, ⟨.ID, v⟩⟩ >>= fun r =>
            eat .Semi r.2 >>= fun p1 =>
              declarationsVarLoop f [] p1 >>= fun r2 => Res.ok (acc ++ (r.1 ++ r2.1), r2.2)) ∧
      ∀ (f : Nat) (acc : List Decl) (lx : Lexer) (v : String),
        declarationsProcLoop (f + 1) acc ⟨lx, ⟨.Procedure, v⟩⟩ =
          eat .Procedure ⟨lx, ⟨.Procedure, v⟩⟩ >>= fun p1 =>
            eat .ID p1 >>= fun p2 =>
              eat .Semi p2 >>= fun p3 =>
                block f p3 >>= fun b =>
                  eat .Semi b.2 >>= fun p5 =>
                    declarationsProcLoop f [] p5 >>= fun r =>
                      Res.ok (acc ++ Decl.ProcedureDecl p1.currentToken_.value_ b.1 :: r.1,
                        r.2) := by
  have hshape : (∃ vars procs, ds = vars ++ procs ∧ vars.all Decl.isVarDecl = true ∧
      procs.all Decl.isProcedureDecl = true) ∧ q.currentToken_.type_ ≠ .Procedure := by
    cases fuel with
    | zero => simp only [declarations] at hdecl; cases hdecl
    | succ n =>
      obtain ⟨lx, ty, v⟩ := p
      rw [declarations_mk] at hdecl
      obtain ⟨r, hr, h2⟩ := bind_eq_ok _ _ _ hdecl
      obtain ⟨vars, q1⟩ := r
      obtain ⟨procs, hds, hall, hq⟩ := declarationsProcLoop_shape n _ _ _ _ h2
      refine ⟨⟨vars, procs, hds, ?_, hall⟩, hq⟩
      split_ifs at hr
      · obtain ⟨p1, _, h3⟩ := bind_eq_ok _ _ _ hr
        obtain ⟨more, hm, hmall⟩ := declarationsVarLoop_shape n _ _ _ _ h3
        rw [hm]
        exact hmall
      · cases hr
        rfl
  refine ⟨hshape.1, hshape.2, ?_, ?_, ?_⟩
  · intro hvar
    cases fuel with
    | zero => simp only [declarations] at hdecl; cases hdecl
    | succ n =>
      obtain ⟨lx, ty, v⟩ := p
      rw [block_mk, hdecl, ok_bind]
      obtain ⟨lxq, tyq, vq⟩ := q
      have hq : tyq = .Var := hvar
      subst hq
      show compoundStatement (n + 1) ⟨lxq, ⟨.Var, vq⟩⟩ >>= _ = _
      rw [compoundStatement_mk, eat_mk, if_neg (by decide)]
      rfl
  · intro f acc lx v
    rw [declarationsVarLoop_mk, if_pos rfl]
    cases variableDeclaration f ⟨lx, ⟨.ID, v⟩⟩ with
    | ok r =>
      simp only [ok_bind]
      cases eat .Semi r.2 with
      | ok p1 =>
        simp only [ok_bind]
        rw [declarationsVarLoop_acc f (acc ++ r.1) p1]
        cases declarationsVarLoop f [] p1 with
        | ok r2 => simp only [ok_bind, List.append_assoc]
        | throw e => rfl
        | ub => rfl
        | timeout => rfl
      | throw e => rfl
      | ub => rfl
      | timeout => rfl
    | throw e => rfl
    | ub => rfl
    | timeout => rfl
  · intro f acc lx v
    rw [declarationsProcLoop_mk, if_pos rfl]
    cases eat .Procedure ⟨lx, ⟨.Procedure, v⟩⟩ with
    | ok p1 =>
      simp only [ok_bind]
      cases eat .ID p1 with
      | ok p2 =>
        simp only [ok_bind]
        cases eat .Semi p2 with
        | ok p3 =>
          simp only [ok_bind]
          cases block f p3 with
          | ok b =>
            simp only [ok_bind]
            cases eat .Semi b.2 with
            | ok p5 =>
              simp only [ok_bind]
              rw [declarationsProcLoop_acc f (acc ++ [_]) p5]
              cases declarationsProcLoop f [] p5 with
              | ok r2 => simp only [ok_bind, List.append_assoc, List.singleton_append]
              | throw e => rfl
              | ub => rfl
              | timeout => rfl
            | throw e => rfl
            | ub => rfl
            | timeout => rfl
          | throw e => rfl
          | ub => rfl
          | timeout => rfl
        | throw e => rfl
        | ub => rfl
        | timeout => rfl
      | throw e => rfl
      | ub => rfl
      | timeout => rfl
    | throw e => rfl
    | ub => rfl
    | timeout => rfl

set_option maxRecDepth 10000

/-- C33, at the declarations `VAR a : INTEGER; PROCEDURE q; BEGIN END;` followed by a
second VAR section, where the block throws; and at a program with a procedure nested
in a procedure. -/
theorem declarations_in_source_order_witness :
    block 9 ⟨⟨some " a : INTEGER; PROCEDURE q; BEGIN END; VAR x : INTEGER; BEGIN END.".data,
        initialKeywords⟩, ⟨.Var, "VAR"⟩⟩ = .throw SyntaxError ∧
      parseText 12
          "PROGRAM p; VAR a : INTEGER; PROCEDURE q; BEGIN END; VAR x : INTEGER; BEGIN END." =
        .throw SyntaxError ∧
      parseText 12 ("PROGRAM p; VAR a, b : INTEGER; c : REAL; " ++
          "PROCEDURE q; VAR d : INTEGER; PROCEDURE r; BEGIN END; BEGIN END; " ++
          "PROCEDURE s; BEGIN END; BEGIN END.") =
        .ok ⟨"p", .mk [.VarDecl ⟨⟨.ID, "a"⟩⟩ ⟨⟨.Semi, ";"⟩⟩,
            .VarDecl ⟨⟨.ID, "b"⟩⟩ ⟨⟨.Semi, ";"⟩⟩, .VarDecl ⟨⟨.ID, "c"⟩⟩ ⟨⟨.Semi, ";"⟩⟩,
            .ProcedureDecl "q" (.mk [.VarDecl ⟨⟨.ID, "d"⟩⟩ ⟨⟨.Semi, ";"⟩⟩,
              .ProcedureDecl "r" (.mk [] (.Compound [.NoOp]))] (.Compound [.NoOp])),
            .ProcedureDecl "s" (.mk [] (.Compound [.NoOp]))] (.Compound [.NoOp])⟩ :=
  ⟨(declarations_in_source_order 8
      ⟨⟨some " a : INTEGER; PROCEDURE q; BEGIN END; VAR x : INTEGER; BEGIN END.".data,
        initialKeywords⟩, ⟨.Var, "VAR"⟩⟩
      ⟨⟨some " x : INTEGER; BEGIN END.".data, internedTable ["a", "q"]⟩, ⟨.Var, "VAR"⟩⟩
      [.VarDecl ⟨⟨.ID, "a"⟩⟩ ⟨⟨.Semi, ";"⟩⟩, .ProcedureDecl "q" (.mk [] (.Compound [.NoOp]))]
      (by rfl)).2.2.1 rfl, by rfl, by rfl⟩

/-! ## Evaluation of an expression under its preconditions -/

theorem toInt_ok (z : Int) (h : InInt z) : toInt z = .ok z := by
  unfold toInt
  exact if_pos h

theorem floatDiv_eq (a b : Int) :
    floatDiv a b = if b = 0 then .ub else toInt (floatQuotient a b) := rfl

theorem punctuation_not_literal (c : Char) (t : Token) (h : punctuation c = some t) :
    t.type_ ≠ .IntegerConst ∧ t.type_ ≠ .RealConst := by
  simp only [punctuation] at h
  split_ifs at h <;> (cases h; exact ⟨by decide, by decide⟩)

theorem reservedKind_not_literal (w : String) (kind : TokenType)
    (h : reservedKind w = some kind) : kind ≠ .IntegerConst ∧ kind ≠ .RealConst := by
  simp only [reservedKind] at h
  split_ifs at h <;> (cases h; exact ⟨by decide, by decide⟩)

theorem findKeyword_not_literal (ids : List String) (w : String) (t : Token)
    (h : findKeyword (internedTable ids) w = some t) :
    t.type_ ≠ .IntegerConst ∧ t.type_ ≠ .RealConst := by
  have hinit := findKeyword_initial w
  rw [findKeyword_internedTable_eq] at h
  cases hk : findKeyword initialKeywords w with
  | some t0 =>
    rw [hk] at h hinit
    simp only [Option.some.injEq] at h
    subst h
    exact reservedKind_not_literal w _ hinit.symm
  | none =>
    rw [hk] at h
    simp only at h
    split_ifs at h
    cases h
    exact ⟨fun e => (by cases e), fun e => (by cases e)⟩

theorem takeWhile_isIntLiteral (c : Char) (r : List Char) (hd : isdigit c = true) :
    IsIntLiteral ((c :: r).takeWhile isdigit) := by
  constructor
  · simp [List.takeWhile, hd]
  · intro d hmem
    exact (List.mem_takeWhile_imp hmem)

theorem tokenAt_literal (c : Char) (r : List Char) (ids : List String) (t : Token) (l : Lexer)
    (h : tokenAt c r (internedTable ids) = .ok (t, l))
    (hty : t.type_ = .IntegerConst ∨ t.type_ = .RealConst) : IsLiteralToken t := by
  by_cases hd : isdigit c = true
  · rw [tokenAt_digit c r _ hd, number_eq] at h
    have hlit := takeWhile_isIntLiteral c r hd
    cases hD : (c :: r).dropWhile isdigit with
    | nil => rw [hD] at h; cases h
    | cons d rest1 =>
      rw [hD] at h
      simp only [ptrOf_cons] at h
      by_cases hdq : d = '.'
      · simp only [hdq, if_true, ok_bind] at h
        cases h
        refine ⟨_, hlit, Or.inr ⟨rest1.takeWhile isdigit, ?_⟩⟩
        simp [String.push]
      · simp only [hdq, if_false, ok_bind] at h
        cases h
        exact ⟨_, hlit, Or.inl (by simp)⟩
  · by_cases ha : isalpha c = true
    · rw [tokenAt_alpha c r _ ha, id_eq] at h
      cases hf : findKeyword (internedTable ids)
          ⟨("" : String).data ++ (c :: r).takeWhile isalnum⟩ with
      | some t0 =>
        rw [hf] at h
        cases h
        have := findKeyword_not_literal ids _ _ hf
        rcases hty with e | e
        · exact absurd e this.1
        · exact absurd e this.2
      | none =>
        rw [hf] at h
        cases h
        rcases hty with e | e <;> cases e
    · by_cases hc : c = ':'
      · subst hc
        rw [tokenAt_colon] at h
        cases r with
        | nil => cases h
        | cons d r2 =>
          by_cases hdq : d = '='
          · simp only [hdq, if_true] at h
            cases h
            rcases hty with e | e <;> cases e
          · simp only [hdq, if_false] at h
            cases h
            rcases hty with e | e <;> cases e
      · have hd' : isdigit c = false := by simpa using hd
        have ha' : isalpha c = false := by simpa using ha
        rw [tokenAt_punctuation c r _ hd' ha' hc] at h
        cases hp : punctuation c with
        | none => rw [hp] at h; cases h
        | some t0 =>
          rw [hp] at h
          cases h
          have := punctuation_not_literal c _ hp
          rcases hty with e | e
          · exact absurd e this.1
          · exact absurd e this.2

/-- A literal token of the lexer is a run of digits, followed in a real literal by a
dot and more characters. -/
theorem getNextToken_literal_token (p : Ptr) (ids : List String) (t : Token) (l : Lexer)
    (h : getNextToken ⟨p, internedTable ids⟩ = .ok (t, l))
    (hty : t.type_ = .IntegerConst ∨ t.type_ = .RealConst) : IsLiteralToken t := by
  have key := getNextToken_cases
    (fun lx res => ∀ (ids : List String) (t : Token) (l : Lexer),
      lx.RESERVED_KEYWORDS = internedTable ids → res = .ok (t, l) →
      (t.type_ = .IntegerConst ∨ t.type_ = .RealConst) → IsLiteralToken t)
    ?_ ?_ ?_ ?_ ?_ ?_ ⟨p, internedTable ids⟩
  · exact key ids t l rfl h hty
  · intro kw ids t l _ hres hty
    cases hres
    rcases hty with e | e <;> cases e
  · intro kw ids t l _ hres
    cases hres
  · intro c r kw _ ih ids t l hkw hres hty
    exact ih ids t l hkw hres hty
  · intro r r1 kw _ ih ids t l hkw hres hty
    exact ih ids t l hkw hres hty
  · intro r kw _ ids t l _ hres
    cases hres
  · intro c r kw _ _ ids t l hkw hres hty
    simp only at hkw
    subst hkw
    exact tokenAt_literal c r ids t l hres hty

theorem fromLexer_eat {tktype : TokenType} {p q : Parser} (hp : FromLexer p)
    (h : eat tktype p = .ok q) : FromLexer q := by
  obtain ⟨ptr, ids, hlex⟩ := hp
  obtain ⟨⟨ids', hkw⟩, _⟩ := getNextToken_interned_cursor ptr ids _ _ hlex
  have hq := (eat_eq_ok _ _ _ h).2
  refine ⟨p.lexer_.currentPtr_, ids', ?_⟩
  rw [← hkw]
  exact hq

theorem fromLexer_literal {p : Parser} (hp : FromLexer p)
    (hty : p.currentToken_.type_ = .IntegerConst ∨ p.currentToken_.type_ = .RealConst) :
    IsLiteralToken p.currentToken_ := by
  obtain ⟨ptr, ids, hlex⟩ := hp
  exact getNextToken_literal_token ptr ids _ _ hlex hty

/-- The expression methods of the parser, from a state the parser meets, return
trees whose operators and literals are those of the grammar. -/
theorem expr_parserMade (fuel : Nat) :
    (∀ p e q, FromLexer p → factor fuel p = .ok (e, q) → e.ParserMade ∧ FromLexer q) ∧
      (∀ p e q, FromLexer p → term fuel p = .ok (e, q) → e.ParserMade ∧ FromLexer q) ∧
      (∀ result p e q, result.ParserMade → FromLexer p →
        termLoop fuel result p = .ok (e, q) → e.ParserMade ∧ FromLexer q) ∧
      (∀ p e q, FromLexer p → expr fuel p = .ok (e, q) → e.ParserMade ∧ FromLexer q) ∧
      (∀ result p e q, result.ParserMade → FromLexer p →
        exprLoop fuel result p = .ok (e, q) → e.ParserMade ∧ FromLexer q) := by
  induction fuel with
  | zero =>
    refine ⟨?_, ?_, ?_, ?_, ?_⟩
    · intro p e q _ h; simp only [factor] at h; cases h
    · intro p e q _ h; simp only [term] at h; cases h
    · intro result p e q _ _ h; simp only [termLoop] at h; cases h
    · intro p e q _ h; simp only [expr] at h; cases h
    · intro result p e q _ _ h; simp only [exprLoop] at h; cases h
  | succ n ih =>
    obtain ⟨ihF, ihT, ihTL, ihE, ihEL⟩ := ih
    refine ⟨?_, ?_, ?_, ?_, ?_⟩
    · intro p e q hp h
      obtain ⟨lx, ty, v⟩ := p
      rw [factor_mk] at h
      split_ifs at h with h1 h2 h3 h4 h5 h6
      · obtain ⟨p1, hp1, h2'⟩ := bind_eq_ok _ _ _ h
        cases h2'
        exact ⟨fromLexer_literal hp (Or.inl h1), fromLexer_eat hp hp1⟩
      · obtain ⟨p1, hp1, h2'⟩ := bind_eq_ok _ _ _ h
        cases h2'
        exact ⟨fromLexer_literal hp (Or.inr h2), fromLexer_eat hp hp1⟩
      · obtain ⟨p1, hp1, h2'⟩ := bind_eq_ok _ _ _ h
        obtain ⟨r, hr, h3'⟩ := bind_eq_ok _ _ _ h2'
        obtain ⟨p3, hp3, h4'⟩ := bind_eq_ok _ _ _ h3'
        cases h4'
        obtain ⟨e1, q1⟩ := r
        obtain ⟨hpm, hq1⟩ := ihE p1 e1 q1 (fromLexer_eat hp hp1) hr
        exact ⟨hpm, fromLexer_eat hq1 hp3⟩
      · obtain ⟨p1, hp1, h2'⟩ := bind_eq_ok _ _ _ h
        obtain ⟨r, hr, h3'⟩ := bind_eq_ok _ _ _ h2'
        cases h3'
        obtain ⟨e1, q1⟩ := r
        obtain ⟨hpm, hq1⟩ := ihF p1 e1 q1 (fromLexer_eat hp hp1) hr
        exact ⟨⟨Or.inl h4, hpm⟩, hq1⟩
      · obtain ⟨p1, hp1, h2'⟩ := bind_eq_ok _ _ _ h
        obtain ⟨r, hr, h3'⟩ := bind_eq_ok _ _ _ h2'
        cases h3'
        obtain ⟨e1, q1⟩ := r
        obtain ⟨hpm, hq1⟩ := ihF p1 e1 q1 (fromLexer_eat hp hp1) hr
        exact ⟨⟨Or.inr h5, hpm⟩, hq1⟩
      · rw [variable_mk] at h
        obtain ⟨r, hr, h3'⟩ := bind_eq_ok _ _ _ h
        obtain ⟨p1, hp1, h2'⟩ := bind_eq_ok _ _ _ hr
        cases h2'
        cases h3'
        exact ⟨trivial, fromLexer_eat hp hp1⟩
    · intro p e q hp h
      obtain ⟨lx, ty, v⟩ := p
      rw [term_mk] at h
      obtain ⟨r, hr, h2⟩ := bind_eq_ok _ _ _ h
      obtain ⟨e1, q1⟩ := r
      obtain ⟨hpm, hq1⟩ := ihF _ e1 q1 hp hr
      exact ihTL e1 q1 e q hpm hq1 h2
    · intro result p e q hres hp h
      obtain ⟨lx, ty, v⟩ := p
      rw [termLoop_mk] at h
      by_cases hop : ty = .MUL ∨ ty = .FloatDiv ∨ ty = .IntegerDiv
      · rw [if_pos hop] at h
        obtain ⟨p1, hp1, h2⟩ := bind_eq_ok _ _ _ h
        obtain ⟨r, hr, h3⟩ := bind_eq_ok _ _ _ h2
        obtain ⟨e1, q1⟩ := r
        have hp1' : FromLexer p1 := by
          split_ifs at hp1
          · exact fromLexer_eat hp hp1
          · exact fromLexer_eat hp hp1
          · exact fromLexer_eat hp hp1
          · cases hp1; exact hp
        obtain ⟨hpm, hq1⟩ := ihF p1 e1 q1 hp1' hr
        have hbin : (Expr.BinOp result ⟨ty, v⟩ e1).ParserMade := by
          refine ⟨?_, hres, hpm⟩
          rcases hop with e | e | e
          · exact Or.inr (Or.inr (Or.inl e))
          · exact Or.inr (Or.inr (Or.inr (Or.inr e)))
          · exact Or.inr (Or.inr (Or.inr (Or.inl e)))
        exact ihTL _ q1 e q hbin hq1 h3
      · rw [if_neg hop] at h
        cases h
        exact ⟨hres, hp⟩
    · intro p e q hp h
      obtain ⟨lx, ty, v⟩ := p
      rw [expr_mk] at h
      obtain ⟨r, hr, h2⟩ := bind_eq_ok _ _ _ h
      obtain ⟨e1, q1⟩ := r
      obtain ⟨hpm, hq1⟩ := ihT _ e1 q1 hp hr
      exact ihEL e1 q1 e q hpm hq1 h2
    · intro result p e q hres hp h
      obtain ⟨lx, ty, v⟩ := p
      rw [exprLoop_mk] at h
      by_cases hop : ty = .PLUS ∨ ty = .MINUS
      · rw [if_pos hop] at h
        obtain ⟨p1, hp1, h2⟩ := bind_eq_ok _ _ _ h
        obtain ⟨r, hr, h3⟩ := bind_eq_ok _ _ _ h2
        obtain ⟨e1, q1⟩ := r
        have hp1' : FromLexer p1 := by
          split_ifs at hp1
          · exact fromLexer_eat hp hp1
          · exact fromLexer_eat hp hp1
          · cases hp1; exact hp
        obtain ⟨hpm, hq1⟩ := ihT p1 e1 q1 hp1' hr
        have hbin : (Expr.BinOp result ⟨ty, v⟩ e1).ParserMade := by
          refine ⟨?_, hres, hpm⟩
          rcases hop with e | e
          · exact Or.inl e
          · exact Or.inr (Or.inl e)
        exact ihEL _ q1 e q hbin hq1 h3
      · rw [if_neg hop] at h
        cases h
        exact ⟨hres, hp⟩

theorem literal_value (S : GlobalScope) (t : Token) (hlit : IsLiteralToken t)
    (hsafe : InInt ((Expr.Num t).value S)) :
    Interpreter.visitExpr (.Num t) S = .ok ((Expr.Num t).value S) := by
  obtain ⟨ty, val⟩ := t
  obtain ⟨ds, hds, hval⟩ := hlit
  have hv : (Expr.Num ⟨ty, val⟩).value S = (stoiDigits val.data 0 : Int) := rfl
  rw [hv] at hsafe ⊢
  show stoi val = _
  rcases hval with e | ⟨fs, e⟩
  · have e' : val = ⟨ds⟩ := by
      cases val; simp only at e; rw [e]
    subst e'
    have hd : stoiDigits ds 0 = decimalValue ds := stoiDigits_eq ds 0 hds.2
    simp only at hsafe ⊢
    rw [hd] at hsafe ⊢
    exact stoi_literal ds hds hsafe.2
  · have e' : val = ⟨ds ++ '.' :: fs⟩ := by
      cases val; simp only at e; rw [e]
    subst e'
    have hd : stoiDigits (ds ++ '.' :: fs) 0 = decimalValue ds :=
      stoiDigits_prefix ds '.' fs (by decide) 0 hds.2
    simp only at hsafe ⊢
    rw [hd] at hsafe ⊢
    exact stoi_literal_prefix ds '.' fs hds (by decide) hsafe.2

/-- The evaluator on a tree of the parser whose preconditions hold returns the value
of the tree. -/
theorem visitExpr_of_safe (S : GlobalScope) (e : Expr) (hpm : e.ParserMade)
    (hsafe : e.Safe S) : Interpreter.visitExpr e S = .ok (e.value S) := by
  induction e with
  | BinOp left op right ihl ihr =>
    obtain ⟨hop, hl, hr⟩ := hpm
    obtain ⟨sl, sr, hdiv, hin⟩ := hsafe
    have el := ihl hl sl
    have er := ihr hr sr
    obtain ⟨ty, v⟩ := op
    simp only at hop hdiv
    rcases hop with h | h | h | h | h
    · subst h
      have hv : (Expr.BinOp left ⟨.PLUS, v⟩ right).value S = left.value S + right.value S := rfl
      rw [hv] at hin ⊢
      show (Interpreter.visitExpr left S >>= fun a =>
        Interpreter.visitExpr right S >>= fun b => toInt (a + b)) = _
      rw [el, ok_bind, er, ok_bind]
      exact toInt_ok _ hin
    · subst h
      have hv : (Expr.BinOp left ⟨.MINUS, v⟩ right).value S = left.value S - right.value S := rfl
      rw [hv] at hin ⊢
      show (Interpreter.visitExpr left S >>= fun a =>
        Interpreter.visitExpr right S >>= fun b => toInt (a - b)) = _
      rw [el, ok_bind, er, ok_bind]
      exact toInt_ok _ hin
    · subst h
      have hv : (Expr.BinOp left ⟨.MUL, v⟩ right).value S = left.value S * right.value S := rfl
      rw [hv] at hin ⊢
      show (Interpreter.visitExpr left S >>= fun a =>
        Interpreter.visitExpr right S >>= fun b => toInt (a * b)) = _
      rw [el, ok_bind, er, ok_bind]
      exact toInt_ok _ hin
    · subst h
      have hv : (Expr.BinOp left ⟨.IntegerDiv, v⟩ right).value S =
          Int.tdiv (left.value S) (right.value S) := rfl
      rw [hv] at hin ⊢
      show (Interpreter.visitExpr left S >>= fun a =>
        Interpreter.visitExpr right S >>= fun b =>
          if b = 0 then .ub else toInt (Int.tdiv a b)) = _
      rw [el, ok_bind, er, ok_bind, if_neg (hdiv (Or.inl rfl))]
      exact toInt_ok _ hin
    · subst h
      have hv : (Expr.BinOp left ⟨.FloatDiv, v⟩ right).value S =
          floatQuotient (left.value S) (right.value S) := rfl
      rw [hv] at hin ⊢
      show (Interpreter.visitExpr left S >>= fun a =>
        Interpreter.visitExpr right S >>= fun b => floatDiv a b) = _
      rw [el, ok_bind, er, ok_bind, floatDiv_eq, if_neg (hdiv (Or.inr rfl))]
      exact toInt_ok _ hin
  | UnaryOp op e ih =>
    obtain ⟨hop, he⟩ := hpm
    obtain ⟨se, hin⟩ := hsafe
    have ee := ih he se
    obtain ⟨ty, v⟩ := op
    simp only at hop
    rcases hop with h | h
    · subst h
      exact ee
    · subst h
      have hv : (Expr.UnaryOp ⟨.MINUS, v⟩ e).value S = -(e.value S) := rfl
      rw [hv] at hin ⊢
      show (Interpreter.visitExpr e S >>= fun a => toInt (-a)) = _
      rw [ee, ok_bind]
      exact toInt_ok _ hin
  | Num token => exact literal_value S token hpm hsafe
  | Var var =>
    have hs : S.find var.value_ ≠ none := hsafe
    cases hf : S.find var.value_ with
    | none => exact absurd hf hs
    | some v =>
      simp only [Interpreter.visitExpr, Expr.value, hf, Option.getD_some]

/-- C36, as stated, fails. In `x := 2147483647 + 1` every integer literal fits in an
`int` and nothing is divided, and the sum overflows: the behaviour is undefined. In
`x := 99999999999.5` there is no integer literal, and `std::stoi` throws
`std::out_of_range` on the real literal. -/
theorem evaluation_not_total_on_overflow :
    interpret 9 "PROGRAM p; VAR x : INTEGER; BEGIN x := 2147483647 + 1 END." = .ub ∧
      interpret 9 "PROGRAM p; VAR x : REAL; BEGIN x := 99999999999.5 END." =
        .throw .out_of_range ∧
      (Parser.new (Lexer.new "2147483647 + 1 ") >>= fun p => expr 5 p >>= fun r =>
        Res.ok r.1) =
        .ok (.BinOp (.Num ⟨.IntegerConst, "2147483647"⟩) ⟨.PLUS, "+"⟩
          (.Num ⟨.IntegerConst, "1"⟩)) ∧
      Interpreter.visitExpr (.BinOp (.Num ⟨.IntegerConst, "2147483647"⟩) ⟨.PLUS, "+"⟩
        (.Num ⟨.IntegerConst, "1"⟩)) [] = .ub :=
  ⟨by rfl, by rfl, by rfl, by rfl⟩

/-- C36, amended. For every expression tree that `Parser::expr` returns from a state
the parser meets, and every store such that every variable of the tree has a value in
the store, the digits in front of every literal (the whole of an integer literal, the
integer part of a real literal) denote a number within `int`, no right operand of
`DIV` or `/` has the value zero and no operation has a value outside `int`, the
evaluator returns a value, the value of the tree in the integers, and raises no
error. -/
theorem expression_evaluation_total (fuel : Nat) (p q : Parser) (e : Expr) (S : GlobalScope)
    (hp : FromLexer p) (hparse : expr fuel p = .ok (e, q)) (hsafe : e.Safe S) :
    Interpreter.visitExpr e S = .ok (e.value S) :=
  visitExpr_of_safe S e ((expr_parserMade fuel).2.2.2.1 p e q hp hparse).1 hsafe

/-- C36, at the text `(a + 7) DIV 2` and the store in which `a` is 5: the value
is 6. -/
theorem expression_evaluation_total_witness :
    Interpreter.visitExpr (.BinOp (.BinOp (.Var ⟨⟨.ID, "a"⟩⟩) ⟨.PLUS, "+"⟩
        (.Num ⟨.IntegerConst, "7"⟩)) ⟨.IntegerDiv, "DIV"⟩ (.Num ⟨.IntegerConst, "2"⟩))
        [("a", 5)] = .ok 6 :=
  expression_evaluation_total 9
    ⟨⟨some "a + 7) DIV 2 ".data, initialKeywords⟩, ⟨.LParen, "("⟩⟩
    ⟨⟨none, internedTable ["a"]⟩, ⟨.TYPE_EOF, ""⟩⟩
    (.BinOp (.BinOp (.Var ⟨⟨.ID, "a"⟩⟩) ⟨.PLUS, "+"⟩
        (.Num ⟨.IntegerConst, "7"⟩)) ⟨.IntegerDiv, "DIV"⟩ (.Num ⟨.IntegerConst, "2"⟩))
    [("a", 5)] ⟨some "(a + 7) DIV 2 ".data, [], by rfl⟩ (by rfl)
    (by
      refine ⟨⟨?_, ?_, ?_, ?_⟩, ?_, ?_, ?_⟩
      · show GlobalScope.find [("a", 5)] "a" ≠ none
        decide
      · show INT_MIN ≤ _ ∧ _ ≤ INT_MAX
        decide
      · intro _
        decide
      · show INT_MIN ≤ _ ∧ _ ≤ INT_MAX
        decide
      · show INT_MIN ≤ _ ∧ _ ≤ INT_MAX
        decide
      · intro _
        decide
      · show INT_MIN ≤ _ ∧ _ ≤ INT_MAX
        decide)

/-! ## The number of statements of a compound statement -/

theorem scan_refl (d : Nat) (p : Parser) : Scan d d p p 0 :=
  fun n _ _ h => ⟨n, h⟩

theorem scan_trans {d d' d'' : Nat} {p q r : Parser} {j j' : Nat} (h1 : Scan d d' p q j)
    (h2 : Scan d' d'' q r j') : Scan d d'' p r (j + j') := by
  intro n k x hx
  obtain ⟨m, hm⟩ := h2 n k x hx
  obtain ⟨m', hm'⟩ := h1 m _ x hm
  refine ⟨m', ?_⟩
  rw [hm']
  congr 2
  omega

theorem scan_zero {d : Nat} {p q r : Parser} {j : Nat} (h1 : Scan d d p q 0)
    (h2 : Scan d d q r j) : Scan d d p r j := by
  have h := scan_trans h1 h2
  rw [Nat.zero_add] at h
  exact h

theorem separators_mk (fuel depth : Nat) (lx : Lexer) (ty : TokenType) (v : String) :
    separators (fuel + 1) depth ⟨lx, ⟨ty, v⟩⟩ =
      if ty = .End then
        if depth = 0 then .ok (0, ⟨lx, ⟨ty, v⟩⟩)
        else Parser.new lx >>= fun p1 => separators fuel (depth - 1) p1
      else if ty = .Begin then
        Parser.new lx >>= fun p1 => separators fuel (depth + 1) p1
      else if ty = .Semi then
        Parser.new lx >>= fun p1 => separators fuel depth p1 >>= fun r =>
          .ok (if depth = 0 then r.1 + 1 else r.1, r.2)
      else if ty = .TYPE_EOF then .throw SyntaxError
      else Parser.new lx >>= fun p1 => separators fuel depth p1 := rfl

theorem scan_eat_plain (tktype : TokenType) (d : Nat) (p q : Parser)
    (h : eat tktype p = .ok q) (h1 : tktype ≠ .End) (h2 : tktype ≠ .Begin)
    (h3 : tktype ≠ .Semi) (h4 : tktype ≠ .TYPE_EOF) : Scan d d p q 0 := by
  obtain ⟨lx, ty, v⟩ := p
  rw [eat_mk] at h
  by_cases hty : ty = tktype
  · rw [if_pos hty] at h
    subst hty
    intro n k r hr
    refine ⟨n + 1, ?_⟩
    rw [separators_mk, if_neg h1, if_neg h2, if_neg h3, if_neg h4, h, ok_bind]
    exact hr
  · rw [if_neg hty] at h
    cases h

theorem scan_eat_semi (d : Nat) (p q : Parser) (h : eat .Semi p = .ok q) :
    Scan d d p q (if d = 0 then 1 else 0) := by
  obtain ⟨lx, ty, v⟩ := p
  rw [eat_mk] at h
  by_cases hty : ty = .Semi
  · rw [if_pos hty] at h
    subst hty
    intro n k r hr
    refine ⟨n + 1, ?_⟩
    rw [separators_mk, if_neg (by decide), if_neg (by decide), if_pos rfl, h, ok_bind, hr,
      ok_bind]
    split_ifs <;> rfl
  · rw [if_neg hty] at h
    cases h

theorem scan_eat_begin (d : Nat) (p q : Parser) (h : eat .Begin p = .ok q) :
    Scan d (d + 1) p q 0 := by
  obtain ⟨lx, ty, v⟩ := p
  rw [eat_mk] at h
  by_cases hty : ty = .Begin
  · rw [if_pos hty] at h
    subst hty
    intro n k r hr
    refine ⟨n + 1, ?_⟩
    rw [separators_mk, if_neg (by decide), if_pos rfl, h, ok_bind]
    exact hr
  · rw [if_neg hty] at h
    cases h

theorem scan_eat_end (d : Nat) (p q : Parser) (h : eat .End p = .ok q) :
    Scan (d + 1) d p q 0 := by
  obtain ⟨lx, ty, v⟩ := p
  rw [eat_mk] at h
  by_cases hty : ty = .End
  · rw [if_pos hty] at h
    subst hty
    intro n k r hr
    refine ⟨n + 1, ?_⟩
    rw [separators_mk, if_pos rfl, if_neg (Nat.succ_ne_zero d), h, ok_bind]
    exact hr
  · rw [if_neg hty] at h
    cases h

theorem scan_variable (d : Nat) (p q : Parser) (x : Var) (h : variable_ p = .ok (x, q)) :
    Scan d d p q 0 := by
  obtain ⟨lx, ty, v⟩ := p
  rw [variable_mk] at h
  obtain ⟨p1, hp1, h2⟩ := bind_eq_ok _ _ _ h
  cases h2
  exact scan_eat_plain .ID d _ _ hp1 (by decide) (by decide) (by decide) (by decide)

/-- The tokens of an expression hold no separator, no `BEGIN` and no `END`. -/
theorem expr_scan (fuel : Nat) :
    (∀ p e q, factor fuel p = .ok (e, q) → ∀ d, Scan d d p q 0) ∧
      (∀ p e q, term fuel p = .ok (e, q) → ∀ d, Scan d d p q 0) ∧
      (∀ result p e q, termLoop fuel result p = .ok (e, q) → ∀ d, Scan d d p q 0) ∧
      (∀ p e q, expr fuel p = .ok (e, q) → ∀ d, Scan d d p q 0) ∧
      (∀ result p e q, exprLoop fuel result p = .ok (e, q) → ∀ d, Scan d d p q 0) := by
  induction fuel with
  | zero =>
    refine ⟨?_, ?_, ?_, ?_, ?_⟩
    · intro p e q h; simp only [factor] at h; cases h
    · intro p e q h; simp only [term] at h; cases h
    · intro result p e q h; simp only [termLoop] at h; cases h
    · intro p e q h; simp only [expr] at h; cases h
    · intro result p e q h; simp only [exprLoop] at h; cases h
  | succ n ih =>
    obtain ⟨ihF, ihT, ihTL, ihE, ihEL⟩ := ih
    refine ⟨?_, ?_, ?_, ?_, ?_⟩
    · intro p e q h d
      obtain ⟨lx, ty, v⟩ := p
      rw [factor_mk] at h
      split_ifs at h with h1 h2 h3 h4 h5 h6
      · obtain ⟨p1, hp1, h2'⟩ := bind_eq_ok _ _ _ h
        cases h2'
        exact scan_eat_plain _ d _ _ hp1 (by decide) (by decide) (by decide) (by decide)
      · obtain ⟨p1, hp1, h2'⟩ := bind_eq_ok _ _ _ h
        cases h2'
        exact scan_eat_plain _ d _ _ hp1 (by decide) (by decide) (by decide) (by decide)
      · obtain ⟨p1, hp1, h2'⟩ := bind_eq_ok _ _ _ h
        obtain ⟨r, hr, h3'⟩ := bind_eq_ok _ _ _ h2'
        obtain ⟨p3, hp3, h4'⟩ := bind_eq_ok _ _ _ h3'
        cases h4'
        obtain ⟨e1, q1⟩ := r
        exact scan_zero
          (scan_eat_plain _ d _ _ hp1 (by decide) (by decide) (by decide) (by decide))
          (scan_zero (ihE p1 e1 q1 hr d)
            (scan_eat_plain _ d _ _ hp3 (by decide) (by decide) (by decide) (by decide)))
      · obtain ⟨p1, hp1, h2'⟩ := bind_eq_ok _ _ _ h
        obtain ⟨r, hr, h3'⟩ := bind_eq_ok _ _ _ h2'
        cases h3'
        obtain ⟨e1, q1⟩ := r
        exact scan_zero
          (scan_eat_plain _ d _ _ hp1 (by decide) (by decide) (by decide) (by decide))
          (ihF p1 e1 q1 hr d)
      · obtain ⟨p1, hp1, h2'⟩ := bind_eq_ok _ _ _ h
        obtain ⟨r, hr, h3'⟩ := bind_eq_ok _ _ _ h2'
        cases h3'
        obtain ⟨e1, q1⟩ := r
        exact scan_zero
          (scan_eat_plain _ d _ _ hp1 (by decide) (by decide) (by decide) (by decide))
          (ihF p1 e1 q1 hr d)
      · obtain ⟨r, hr, h3'⟩ := bind_eq_ok _ _ _ h
        cases h3'
        obtain ⟨x, q1⟩ := r
        exact scan_variable d _ _ x hr
    · intro p e q h d
      obtain ⟨lx, ty, v⟩ := p
      rw [term_mk] at h
      obtain ⟨r, hr, h2⟩ := bind_eq_ok _ _ _ h
      obtain ⟨e1, q1⟩ := r
      exact scan_zero (ihF _ e1 q1 hr d) (ihTL e1 q1 e q h2 d)
    · intro result p e q h d
      obtain ⟨lx, ty, v⟩ := p
      rw [termLoop_mk] at h
      by_cases hop : ty = .MUL ∨ ty = .FloatDiv ∨ ty = .IntegerDiv
      · rw [if_pos hop] at h
        obtain ⟨p1, hp1, h2⟩ := bind_eq_ok _ _ _ h
        obtain ⟨r, hr, h3⟩ := bind_eq_ok _ _ _ h2
        obtain ⟨e1, q1⟩ := r
        have hs1 : Scan d d ⟨lx, ⟨ty, v⟩⟩ p1 0 := by
          split_ifs at hp1
          · exact scan_eat_plain _ d _ _ hp1 (by decide) (by decide) (by decide) (by decide)
          · exact scan_eat_plain _ d _ _ hp1 (by decide) (by decide) (by decide) (by decide)
          · exact scan_eat_plain _ d _ _ hp1 (by decide) (by decide) (by decide) (by decide)
          · cases hp1; exact scan_refl d _
        exact scan_zero hs1 (scan_zero (ihF p1 e1 q1 hr d) (ihTL _ q1 e q h3 d))
      · rw [if_neg hop] at h
        cases h
        exact scan_refl d _
    · intro p e q h d
      obtain ⟨lx, ty, v⟩ := p
      rw [expr_mk] at h
      obtain ⟨r, hr, h2⟩ := bind_eq_ok _ _ _ h
      obtain ⟨e1, q1⟩ := r
      exact scan_zero (ihT _ e1 q1 hr d) (ihEL e1 q1 e q h2 d)
    · intro result p e q h d
      obtain ⟨lx, ty, v⟩ := p
      rw [exprLoop_mk] at h
      by_cases hop : ty = .PLUS ∨ ty = .MINUS
      · rw [if_pos hop] at h
        obtain ⟨p1, hp1, h2⟩ := bind_eq_ok _ _ _ h
        obtain ⟨r, hr, h3⟩ := bind_eq_ok _ _ _ h2
        obtain ⟨e1, q1⟩ := r
        have hs1 : Scan d d ⟨lx, ⟨ty, v⟩⟩ p1 0 := by
          split_ifs at hp1
          · exact scan_eat_plain _ d _ _ hp1 (by decide) (by decide) (by decide) (by decide)
          · exact scan_eat_plain _ d _ _ hp1 (by decide) (by decide) (by decide) (by decide)
          · cases hp1; exact scan_refl d _
        exact scan_zero hs1 (scan_zero (ihT p1 e1 q1 hr d) (ihEL _ q1 e q h3 d))
      · rw [if_neg hop] at h
        cases h
        exact scan_refl d _

theorem assignmentStatement_scan (fuel : Nat) (p q : Parser) (s : Stmt)
    (h : assignmentStatement fuel p = .ok (s, q)) (d : Nat) : Scan d d p q 0 := by
  obtain ⟨lx, ty, v⟩ := p
  rw [assignmentStatement_mk] at h
  obtain ⟨l, hl, h2⟩ := bind_eq_ok _ _ _ h
  obtain ⟨p2, hp2, h3⟩ := bind_eq_ok _ _ _ h2
  obtain ⟨r, hr, h4⟩ := bind_eq_ok _ _ _ h3
  cases h4
  obtain ⟨x, q1⟩ := l
  obtain ⟨e, q2⟩ := r
  exact scan_zero (scan_variable d _ _ x hl)
    (scan_zero (scan_eat_plain _ d _ _ hp2 (by decide) (by decide) (by decide) (by decide))
      ((expr_scan fuel).2.2.2.1 p2 e q2 hr d))

/-- The statement methods of the parser against the scan: a statement holds no
separator of the compound statement around it, and the statement list has one
statement more than separators of its own level. -/
theorem statement_scan (fuel : Nat) :
    (∀ p s q, compoundStatement fuel p = .ok (s, q) → ∀ d, Scan d d p q 0) ∧
      (∀ p cs q, statementList fuel p = .ok (cs, q) →
        ∃ j, cs.length = 1 + j ∧ Scan 0 0 p q j ∧ ∀ d, Scan (d + 1) (d + 1) p q 0) ∧
      (∀ result p cs q, statementListLoop fuel result p = .ok (cs, q) →
        ∃ j, cs.length = result.length + j ∧ Scan 0 0 p q j ∧
          ∀ d, Scan (d + 1) (d + 1) p q 0) ∧
      (∀ p s q, statement fuel p = .ok (s, q) → ∀ d, Scan d d p q 0) := by
  induction fuel with
  | zero =>
    refine ⟨?_, ?_, ?_, ?_⟩
    · intro p s q h; simp only [compoundStatement] at h; cases h
    · intro p cs q h; simp only [statementList] at h; cases h
    · intro result p cs q h; simp only [statementListLoop] at h; cases h
    · intro p s q h; simp only [statement] at h; cases h
  | succ n ih =>
    obtain ⟨ihC, ihSL, ihL, ihS⟩ := ih
    refine ⟨?_, ?_, ?_, ?_⟩
    · intro p s q h d
      obtain ⟨lx, ty, v⟩ := p
      rw [compoundStatement_mk] at h
      obtain ⟨p1, hp1, h2⟩ := bind_eq_ok _ _ _ h
      obtain ⟨r, hr, h3⟩ := bind_eq_ok _ _ _ h2
      obtain ⟨p3, hp3, h4⟩ := bind_eq_ok _ _ _ h3
      cases h4
      obtain ⟨cs, q1⟩ := r
      obtain ⟨j, _, _, hdeep⟩ := ihSL p1 cs q1 hr
      have hA := scan_eat_begin d _ _ hp1
      have hB := hdeep d
      have hC := scan_eat_end d _ _ hp3
      have h12 := scan_trans hA hB
      have h123 := scan_trans h12 hC
      exact h123
    · intro p cs q h
      obtain ⟨lx, ty, v⟩ := p
      rw [statementList_mk] at h
      obtain ⟨s, hs, h2⟩ := bind_eq_ok _ _ _ h
      obtain ⟨r, hr, h3⟩ := bind_eq_ok _ _ _ h2
      obtain ⟨s1, q1⟩ := s
      obtain ⟨cs2, q2⟩ := r
      split_ifs at h3
      cases h3
      obtain ⟨j, hlen, h0, hdeep⟩ := ihL [s1] q1 cs2 q2 hr
      refine ⟨j, by rw [hlen]; rfl, scan_zero (ihS _ s1 q1 hs 0) h0, fun d => ?_⟩
      exact scan_zero (ihS _ s1 q1 hs (d + 1)) (hdeep d)
    · intro result p cs q h
      obtain ⟨lx, ty, v⟩ := p
      rw [statementListLoop_mk] at h
      by_cases hty : ty = .Semi
      · rw [if_pos hty] at h
        obtain ⟨p1, hp1, h2⟩ := bind_eq_ok _ _ _ h
        obtain ⟨s, hs, h3⟩ := bind_eq_ok _ _ _ h2
        obtain ⟨s1, q1⟩ := s
        obtain ⟨j, hlen, h0, hdeep⟩ := ihL _ q1 cs q h3
        refine ⟨1 + j, ?_, ?_, fun d => ?_⟩
        · rw [hlen]
          simp only [List.length_append, List.length_singleton]
          omega
        · have hA := scan_eat_semi 0 _ _ hp1
          rw [if_pos rfl] at hA
          exact scan_trans hA (scan_zero (ihS p1 s1 q1 hs 0) h0)
        · have hA := scan_eat_semi (d + 1) _ _ hp1
          rw [if_neg (Nat.succ_ne_zero d)] at hA
          exact scan_zero hA (scan_zero (ihS p1 s1 q1 hs (d + 1)) (hdeep d))
      · rw [if_neg hty] at h
        cases h
        exact ⟨0, rfl, scan_refl 0 _, fun d => scan_refl (d + 1) _⟩
    · intro p s q h d
      obtain ⟨lx, ty, v⟩ := p
      rw [statement_mk] at h
      split_ifs at h
      · exact ihC _ s q h d
      · exact assignmentStatement_scan n _ q s h d
      · cases h
        exact scan_refl d _

/-- C32 (the sample program of Part10). The lexer and the parser of Part10 accept
the program of the comment at the head of Part10.h, and the interpreter runs it
without an error: the global store then holds `number = 2`, `a = 2`, `b = 25`,
`c = 27` and `x = 11`, and `y = 5`, the `int` of `20 / 7 + 3.14`. The same holds
with a line end after the last line. -/
theorem part10_sample_program_runs :
    (Parser.new (Part10.newLexer Part10.sampleProgram) >>= fun p =>
        Part10.parse 14 p >>= fun r =>
          Res.ok (r.1.name_, r.1.block_.declaredNames, r.2.currentToken_)) =
        .ok ("Part10", ["number", "a", "b", "c", "x", "y"], ⟨.TYPE_EOF, ""⟩) ∧
      Part10.interpret 14 Part10.sampleProgram =
        .ok [("number", 2), ("a", 2), ("b", 25), ("c", 27), ("x", 11), ("y", 5)] ∧
      Part10.interpret 14 (Part10.sampleProgram ++ "\n") =
        .ok [("number", 2), ("a", 2), ("b", 25), ("c", 27), ("x", 11), ("y", 5)] :=
  ⟨by rfl, by rfl, by rfl⟩

/-! ## Part6 and Part7: evaluation while parsing, and evaluation of the tree -/

theorem p6_factor_zero (s : Part6.Interpreter) : Part6.factor 0 s = .timeout := by
  rw [Part6.factor]

theorem p6_factor_succ (fuel : Nat) (s : Part6.Interpreter) :
    Part6.factor (fuel + 1) s =
      if s.currentToken_.type_ = .INTEGER then
        Part6.eat .INTEGER s >>= fun s1 =>
          stoi s.currentToken_.value_ >>= fun v => .ok (v, s1)
      else if s.currentToken_.type_ = .LParen then
        Part6.eat .LParen s >>= fun s1 =>
          Part6.expr fuel s1 >>= fun r =>
            Part6.eat .RParen r.2 >>= fun s2 => .ok (r.1, s2)
      else .ub := by
  rw [Part6.factor]

theorem p6_term_zero (s : Part6.Interpreter) : Part6.term 0 s = .timeout := by
  rw [Part6.term]

theorem p6_term_succ (fuel : Nat) (s : Part6.Interpreter) :
    Part6.term (fuel + 1) s =
      Part6.factor fuel s >>= fun r => Part6.termLoop fuel r.1 r.2 := by
  rw [Part6.term]

theorem p6_termLoop_zero (result : Int) (s : Part6.Interpreter) :
    Part6.termLoop 0 result s = .timeout := by
  rw [Part6.termLoop]

theorem p6_termLoop_succ (fuel : Nat) (result : Int) (s : Part6.Interpreter) :
    Part6.termLoop (fuel + 1) result s =
      if s.currentToken_.type_ = .MUL then
        Part6.eat .MUL s >>= fun s1 =>
          Part6.factor fuel s1 >>= fun r =>
            toInt (result * r.1) >>= fun v => Part6.termLoop fuel v r.2
      else if s.currentToken_.type_ = .DIV then
        Part6.eat .DIV s >>= fun s1 =>
          Part6.factor fuel s1 >>= fun r =>
            (if r.1 = 0 then .ub else toInt (Int.tdiv result r.1)) >>= fun v =>
              Part6.termLoop fuel v r.2
      else .ok (result, s) := by
  rw [Part6.termLoop]
  by_cases h1 : s.currentToken_.type_ = .MUL
  · rw [if_pos (Or.inl h1), if_pos h1, if_pos h1]
  · by_cases h2 : s.currentToken_.type_ = .DIV
    · rw [if_pos (Or.inr h2), if_neg h1, if_pos h2, if_neg h1, if_pos h2]
    · rw [if_neg (by rintro (h | h); exact h1 h; exact h2 h), if_neg h1, if_neg h2]

theorem p6_expr_zero (s : Part6.Interpreter) : Part6.expr 0 s = .timeout := by
  rw [Part6.expr]

theorem p6_expr_succ (fuel : Nat) (s : Part6.Interpreter) :
    Part6.expr (fuel + 1) s =
      Part6.term fuel s >>= fun r => Part6.exprLoop fuel r.1 r.2 := by
  rw [Part6.expr]

theorem p6_exprLoop_zero (result : Int) (s : Part6.Interpreter) :
    Part6.exprLoop 0 result s = .timeout := by
  rw [Part6.exprLoop]

theorem p6_exprLoop_succ (fuel : Nat) (result : Int) (s : Part6.Interpreter) :
    Part6.exprLoop (fuel + 1) result s =
      if s.currentToken_.type_ = .PLUS then
        Part6.eat .PLUS s >>= fun s1 =>
          Part6.term fuel s1 >>= fun r =>
            toInt (result + r.1) >>= fun v => Part6.exprLoop fuel v r.2
      else if s.currentToken_.type_ = .MINUS then
        Part6.eat .MINUS s >>= fun s1 =>
          Part6.term fuel s1 >>= fun r =>
            toInt (result - r.1) >>= fun v => Part6.exprLoop fuel v r.2
      else .ok (result, s) := by
  rw [Part6.exprLoop]
  by_cases h1 : s.currentToken_.type_ = .PLUS
  · rw [if_pos (Or.inl h1), if_pos h1, if_pos h1]
  · by_cases h2 : s.currentToken_.type_ = .MINUS
    · rw [if_pos (Or.inr h2), if_neg h1, if_pos h2, if_neg h1, if_pos h2]
    · rw [if_neg (by rintro (h | h); exact h1 h; exact h2 h), if_neg h1, if_neg h2]

theorem p7_factor_zero (s : Part6.Interpreter) : Part7.factor 0 s = .timeout := by
  rw [Part7.factor]

theorem p7_factor_succ (fuel : Nat) (s : Part6.Interpreter) :
    Part7.factor (fuel + 1) s =
      if s.currentToken_.type_ = .INTEGER then
        Part6.eat .INTEGER s >>= fun s1 => .ok (.Num s.currentToken_, s1)
      else if s.currentToken_.type_ = .LParen then
        Part6.eat .LParen s >>= fun s1 =>
          Part7.expr fuel s1 >>= fun r =>
            Part6.eat .RParen r.2 >>= fun s2 => .ok (r.1, s2)
      else .ub := by
  rw [Part7.factor]

theorem p7_term_zero (s : Part6.Interpreter) : Part7.term 0 s = .timeout := by
  rw [Part7.term]

theorem p7_term_succ (fuel : Nat) (s : Part6.Interpreter) :
    Part7.term (fuel + 1) s =
      Part7.factor fuel s >>= fun r => Part7.termLoop fuel r.1 r.2 := by
  rw [Part7.term]

theorem p7_termLoop_zero (result : Part7.AST) (s : Part6.Interpreter) :
    Part7.termLoop 0 result s = .timeout := by
  rw [Part7.termLoop]

theorem p7_termLoop_succ (fuel : Nat) (result : Part7.AST) (s : Part6.Interpreter) :
    Part7.termLoop (fuel + 1) result s =
      if s.currentToken_.type_ = .MUL ∨ s.currentToken_.type_ = .DIV then
        (if s.currentToken_.type_ = .MUL then Part6.eat .MUL s
         else if s.currentToken_.type_ = .DIV then Part6.eat .DIV s
         else .ok s) >>= fun s1 =>
          Part7.factor fuel s1 >>= fun r =>
            Part7.termLoop fuel (.BinOp result s.currentToken_ r.1) r.2
      else .ok (result, s) := by
  rw [Part7.termLoop]

theorem p7_expr_zero (s : Part6.Interpreter) : Part7.expr 0 s = .timeout := by
  rw [Part7.expr]

theorem p7_expr_succ (fuel : Nat) (s : Part6.Interpreter) :
    Part7.expr (fuel + 1) s =
      Part7.term fuel s >>= fun r => Part7.exprLoop fuel r.1 r.2 := by
  rw [Part7.expr]

theorem p7_exprLoop_zero (result : Part7.AST) (s : Part6.Interpreter) :
    Part7.exprLoop 0 result s = .timeout := by
  rw [Part7.exprLoop]

theorem p7_exprLoop_succ (fuel : Nat) (result : Part7.AST) (s : Part6.Interpreter) :
    Part7.exprLoop (fuel + 1) result s =
      if s.currentToken_.type_ = .PLUS ∨ s.currentToken_.type_ = .MINUS then
        (if s.currentToken_.type_ = .PLUS then Part6.eat .PLUS s
         else if s.currentToken_.type_ = .MINUS then Part6.eat .MINUS s
         else .ok s) >>= fun s1 =>
          Part7.term fuel s1 >>= fun r =>
            Part7.exprLoop fuel (.BinOp result s.currentToken_ r.1) r.2
      else .ok (result, s) := by
  rw [Part7.exprLoop]

theorem p7_visit_num (token : Part6.Token) :
    Part7.visit (.Num token) = stoi token.value_ := by
  rw [Part7.visit]

theorem p7_visit_binop (left right : Part7.AST) (op : Part6.Token) :
    Part7.visit (.BinOp left op right) =
      if op.type_ = .PLUS then
        Part7.visit left >>= fun a => Part7.visit right >>= fun b => toInt (a + b)
      else if op.type_ = .MINUS then
        Part7.visit left >>= fun a => Part7.visit right >>= fun b => toInt (a - b)
      else if op.type_ = .MUL then
        Part7.visit left >>= fun a => Part7.visit right >>= fun b => toInt (a * b)
      else if op.type_ = .DIV then
        Part7.visit left >>= fun a => Part7.visit right >>= fun b =>
          if b = 0 then .ub else toInt (Int.tdiv a b)
      else .ub := by
  rw [Part7.visit]

/-- Forward simulation: whenever a method of Part6 returns a value, the method of
Part7 with the same name returns, in the same state, a tree that evaluates to that
value. -/
theorem p67_forward (f : Nat) :
    (∀ s v s', Part6.factor f s = .ok (v, s') →
      ∃ n, Part7.factor f s = .ok (n, s') ∧ Part7.visit n = .ok v) ∧
    (∀ s v s', Part6.term f s = .ok (v, s') →
      ∃ n, Part7.term f s = .ok (n, s') ∧ Part7.visit n = .ok v) ∧
    (∀ s a acc v s', Part7.visit a = .ok acc → Part6.termLoop f acc s = .ok (v, s') →
      ∃ n, Part7.termLoop f a s = .ok (n, s') ∧ Part7.visit n = .ok v) ∧
    (∀ s v s', Part6.expr f s = .ok (v, s') →
      ∃ n, Part7.expr f s = .ok (n, s') ∧ Part7.visit n = .ok v) ∧
    (∀ s a acc v s', Part7.visit a = .ok acc → Part6.exprLoop f acc s = .ok (v, s') →
      ∃ n, Part7.exprLoop f a s = .ok (n, s') ∧ Part7.visit n = .ok v) := by
  induction f with
  | zero =>
    refine ⟨?_, ?_, ?_, ?_, ?_⟩
    · intro s v s' h; rw [p6_factor_zero] at h; cases h
    · intro s v s' h; rw [p6_term_zero] at h; cases h
    · intro s a acc v s' _ h; rw [p6_termLoop_zero] at h; cases h
    · intro s v s' h; rw [p6_expr_zero] at h; cases h
    · intro s a acc v s' _ h; rw [p6_exprLoop_zero] at h; cases h
  | succ f ih =>
    obtain ⟨ihF, ihT, ihTL, ihE, ihEL⟩ := ih
    refine ⟨?_, ?_, ?_, ?_, ?_⟩
    · intro s v s' h
      rw [p6_factor_succ] at h
      rw [p7_factor_succ]
      by_cases h1 : s.currentToken_.type_ = .INTEGER
      · rw [if_pos h1] at h ⊢
        obtain ⟨s1, he, h2⟩ := bind_eq_ok _ _ _ h
        obtain ⟨x, hx, h3⟩ := bind_eq_ok _ _ _ h2
        cases h3
        rw [he]
        exact ⟨_, rfl, by rw [p7_visit_num]; exact hx⟩
      · rw [if_neg h1] at h ⊢
        by_cases h2 : s.currentToken_.type_ = .LParen
        · rw [if_pos h2] at h ⊢
          obtain ⟨s1, he, h3⟩ := bind_eq_ok _ _ _ h
          obtain ⟨r, hr, h4⟩ := bind_eq_ok _ _ _ h3
          obtain ⟨s2, he2, h5⟩ := bind_eq_ok _ _ _ h4
          cases h5
          obtain ⟨n, hn, hv⟩ := ihE s1 r.1 r.2 hr
          rw [he, ok_bind, hn, ok_bind]
          refine ⟨n, ?_, hv⟩
          show (Part6.eat .RParen r.2 >>= fun s2 => Res.ok (n, s2)) = _
          rw [he2]; rfl
        · rw [if_neg h2] at h; cases h
    · intro s v s' h
      rw [p6_term_succ] at h
      rw [p7_term_succ]
      obtain ⟨r, hr, h2⟩ := bind_eq_ok _ _ _ h
      obtain ⟨n, hn, hv⟩ := ihF s r.1 r.2 hr
      rw [hn, ok_bind]
      exact ihTL r.2 n r.1 v s' hv h2
    · intro s a acc v s' ha h
      rw [p6_termLoop_succ] at h
      rw [p7_termLoop_succ]
      by_cases h1 : s.currentToken_.type_ = .MUL
      · rw [if_pos h1] at h
        rw [if_pos (Or.inl h1), if_pos h1]
        obtain ⟨s1, he, h2⟩ := bind_eq_ok _ _ _ h
        obtain ⟨r, hr, h3⟩ := bind_eq_ok _ _ _ h2
        obtain ⟨x, hx, h4⟩ := bind_eq_ok _ _ _ h3
        obtain ⟨n, hn, hv⟩ := ihF s1 r.1 r.2 hr
        rw [he, ok_bind, hn, ok_bind]
        refine ihTL r.2 _ x v s' ?_ h4
        rw [p7_visit_binop, if_neg (by rw [h1]; decide), if_neg (by rw [h1]; decide),
          if_pos h1, ha, ok_bind, hv, ok_bind]
        exact hx
      · rw [if_neg h1] at h
        by_cases h2 : s.currentToken_.type_ = .DIV
        · rw [if_pos h2] at h
          rw [if_pos (Or.inr h2), if_neg h1, if_pos h2]
          obtain ⟨s1, he, h3⟩ := bind_eq_ok _ _ _ h
          obtain ⟨r, hr, h4⟩ := bind_eq_ok _ _ _ h3
          obtain ⟨x, hx, h5⟩ := bind_eq_ok _ _ _ h4
          obtain ⟨n, hn, hv⟩ := ihF s1 r.1 r.2 hr
          rw [he, ok_bind, hn, ok_bind]
          refine ihTL r.2 _ x v s' ?_ h5
          rw [p7_visit_binop, if_neg (by rw [h2]; decide), if_neg (by rw [h2]; decide),
            if_neg h1, if_pos h2, ha, ok_bind, hv, ok_bind]
          exact hx
        · rw [if_neg h2] at h
          cases h
          rw [if_neg (by rintro (h | h); exact h1 h; exact h2 h)]
          exact ⟨a, rfl, ha⟩
    · intro s v s' h
      rw [p6_expr_succ] at h
      rw [p7_expr_succ]
      obtain ⟨r, hr, h2⟩ := bind_eq_ok _ _ _ h
      obtain ⟨n, hn, hv⟩ := ihT s r.1 r.2 hr
      rw [hn, ok_bind]
      exact ihEL r.2 n r.1 v s' hv h2
    · intro s a acc v s' ha h
      rw [p6_exprLoop_succ] at h
      rw [p7_exprLoop_succ]
      by_cases h1 : s.currentToken_.type_ = .PLUS
      · rw [if_pos h1] at h
        rw [if_pos (Or.inl h1), if_pos h1]
        obtain ⟨s1, he, h2⟩ := bind_eq_ok _ _ _ h
        obtain ⟨r, hr, h3⟩ := bind_eq_ok _ _ _ h2
        obtain ⟨x, hx, h4⟩ := bind_eq_ok _ _ _ h3
        obtain ⟨n, hn, hv⟩ := ihT s1 r.1 r.2 hr
        rw [he, ok_bind, hn, ok_bind]
        refine ihEL r.2 _ x v s' ?_ h4
        rw [p7_visit_binop, if_pos h1, ha, ok_bind, hv, ok_bind]
        exact hx
      · rw [if_neg h1] at h
        by_cases h2 : s.currentToken_.type_ = .MINUS
        · rw [if_pos h2] at h
          rw [if_pos (Or.inr h2), if_neg h1, if_pos h2]
          obtain ⟨s1, he, h3⟩ := bind_eq_ok _ _ _ h
          obtain ⟨r, hr, h4⟩ := bind_eq_ok _ _ _ h3
          obtain ⟨x, hx, h5⟩ := bind_eq_ok _ _ _ h4
          obtain ⟨n, hn, hv⟩ := ihT s1 r.1 r.2 hr
          rw [he, ok_bind, hn, ok_bind]
          refine ihEL r.2 _ x v s' ?_ h5
          rw [p7_visit_binop, if_neg h1, if_pos h2, ha, ok_bind, hv, ok_bind]
          exact hx
        · rw [if_neg h2] at h
          cases h
          rw [if_neg (by rintro (h | h); exact h1 h; exact h2 h)]
          exact ⟨a, rfl, ha⟩

theorem p7_visit_binop_ok (left right : Part7.AST) (op : Part6.Token) (v : Int)
    (h : Part7.visit (.BinOp left op right) = .ok v) :
    ∃ a b, Part7.visit left = .ok a ∧ Part7.visit right = .ok b ∧
      ((op.type_ = .PLUS ∧ toInt (a + b) = .ok v) ∨
       (op.type_ = .MINUS ∧ toInt (a - b) = .ok v) ∨
       (op.type_ = .MUL ∧ toInt (a * b) = .ok v) ∨
       (op.type_ = .DIV ∧ (if b = 0 then Res.ub else toInt (Int.tdiv a b)) = .ok v)) := by
  rw [p7_visit_binop] at h
  by_cases h1 : op.type_ = .PLUS
  · rw [if_pos h1] at h
    obtain ⟨a, ha, h2⟩ := bind_eq_ok _ _ _ h
    obtain ⟨b, hb, h3⟩ := bind_eq_ok _ _ _ h2
    exact ⟨a, b, ha, hb, Or.inl ⟨h1, h3⟩⟩
  · rw [if_neg h1] at h
    by_cases h2 : op.type_ = .MINUS
    · rw [if_pos h2] at h
      obtain ⟨a, ha, h3⟩ := bind_eq_ok _ _ _ h
      obtain ⟨b, hb, h4⟩ := bind_eq_ok _ _ _ h3
      exact ⟨a, b, ha, hb, Or.inr (Or.inl ⟨h2, h4⟩)⟩
    · rw [if_neg h2] at h
      by_cases h3 : op.type_ = .MUL
      · rw [if_pos h3] at h
        obtain ⟨a, ha, h4⟩ := bind_eq_ok _ _ _ h
        obtain ⟨b, hb, h5⟩ := bind_eq_ok _ _ _ h4
        exact ⟨a, b, ha, hb, Or.inr (Or.inr (Or.inl ⟨h3, h5⟩))⟩
      · rw [if_neg h3] at h
        by_cases h4 : op.type_ = .DIV
        · rw [if_pos h4] at h
          obtain ⟨a, ha, h5⟩ := bind_eq_ok _ _ _ h
          obtain ⟨b, hb, h6⟩ := bind_eq_ok _ _ _ h5
          exact ⟨a, b, ha, hb, Or.inr (Or.inr (Or.inr ⟨h4, h6⟩))⟩
        · rw [if_neg h4] at h
          cases h

/-- Backward simulation: whenever a method of Part7 returns a tree and the tree
evaluates to a value, the method of Part6 with the same name returns that value in
the same state. -/
theorem p67_backward (f : Nat) :
    (∀ s n v s', Part7.factor f s = .ok (n, s') → Part7.visit n = .ok v →
      Part6.factor f s = .ok (v, s')) ∧
    (∀ s n v s', Part7.term f s = .ok (n, s') → Part7.visit n = .ok v →
      Part6.term f s = .ok (v, s')) ∧
    (∀ s a n v s', Part7.termLoop f a s = .ok (n, s') → Part7.visit n = .ok v →
      ∃ acc, Part7.visit a = .ok acc ∧ Part6.termLoop f acc s = .ok (v, s')) ∧
    (∀ s n v s', Part7.expr f s = .ok (n, s') → Part7.visit n = .ok v →
      Part6.expr f s = .ok (v, s')) ∧
    (∀ s a n v s', Part7.exprLoop f a s = .ok (n, s') → Part7.visit n = .ok v →
      ∃ acc, Part7.visit a = .ok acc ∧ Part6.exprLoop f acc s = .ok (v, s')) := by
  induction f with
  | zero =>
    refine ⟨?_, ?_, ?_, ?_, ?_⟩
    · intro s n v s' h; rw [p7_factor_zero] at h; cases h
    · intro s n v s' h; rw [p7_term_zero] at h; cases h
    · intro s a n v s' h; rw [p7_termLoop_zero] at h; cases h
    · intro s n v s' h; rw [p7_expr_zero] at h; cases h
    · intro s a n v s' h; rw [p7_exprLoop_zero] at h; cases h
  | succ f ih =>
    obtain ⟨ihF, ihT, ihTL, ihE, ihEL⟩ := ih
    refine ⟨?_, ?_, ?_, ?_, ?_⟩
    · intro s n v s' h hv
      rw [p7_factor_succ] at h
      rw [p6_factor_succ]
      by_cases h1 : s.currentToken_.type_ = .INTEGER
      · rw [if_pos h1] at h ⊢
        obtain ⟨s1, he, h2⟩ := bind_eq_ok _ _ _ h
        cases h2
        rw [p7_visit_num] at hv
        rw [he, ok_bind, hv]; rfl
      · rw [if_neg h1] at h ⊢
        by_cases h2 : s.currentToken_.type_ = .LParen
        · rw [if_pos h2] at h ⊢
          obtain ⟨s1, he, h3⟩ := bind_eq_ok _ _ _ h
          obtain ⟨r, hr, h4⟩ := bind_eq_ok _ _ _ h3
          obtain ⟨s2, he2, h5⟩ := bind_eq_ok _ _ _ h4
          cases h5
          rw [he, ok_bind, ihE s1 r.1 v r.2 hr hv, ok_bind]
          show (Part6.eat .RParen r.2 >>= fun s2 => Res.ok (v, s2)) = _
          rw [he2]; rfl
        · rw [if_neg h2] at h; cases h
    · intro s n v s' h hv
      rw [p7_term_succ] at h
      rw [p6_term_succ]
      obtain ⟨r, hr, h2⟩ := bind_eq_ok _ _ _ h
      obtain ⟨acc, hacc, h3⟩ := ihTL r.2 r.1 n v s' h2 hv
      rw [ihF s r.1 acc r.2 hr hacc, ok_bind]
      exact h3
    · intro s a n v s' h hv
      rw [p7_termLoop_succ] at h
      by_cases h1 : s.currentToken_.type_ = .MUL
      · rw [if_pos (Or.inl h1), if_pos h1] at h
        obtain ⟨s1, he, h2⟩ := bind_eq_ok _ _ _ h
        obtain ⟨r, hr, h3⟩ := bind_eq_ok _ _ _ h2
        obtain ⟨x, hx, h4⟩ := ihTL r.2 _ n v s' h3 hv
        obtain ⟨y, b, hy, hb, hop⟩ := p7_visit_binop_ok _ _ _ _ hx
        rcases hop with ⟨e, _⟩ | ⟨e, _⟩ | ⟨_, hop⟩ | ⟨e, _⟩
        · rw [h1] at e; cases e
        · rw [h1] at e; cases e
        · refine ⟨y, hy, ?_⟩
          rw [p6_termLoop_succ, if_pos h1, he, ok_bind, ihF s1 r.1 b r.2 hr hb, ok_bind]
          show (toInt (y * b) >>= fun v => Part6.termLoop f v r.2) = _
          rw [hop, ok_bind]
          exact h4
        · rw [h1] at e; cases e
      · by_cases h2 : s.currentToken_.type_ = .DIV
        · rw [if_pos (Or.inr h2), if_neg h1, if_pos h2] at h
          obtain ⟨s1, he, h3⟩ := bind_eq_ok _ _ _ h
          obtain ⟨r, hr, h4⟩ := bind_eq_ok _ _ _ h3
          obtain ⟨x, hx, h5⟩ := ihTL r.2 _ n v s' h4 hv
          obtain ⟨y, b, hy, hb, hop⟩ := p7_visit_binop_ok _ _ _ _ hx
          rcases hop with ⟨e, _⟩ | ⟨e, _⟩ | ⟨e, _⟩ | ⟨_, hop⟩
          · rw [h2] at e; cases e
          · rw [h2] at e; cases e
          · rw [h2] at e; cases e
          · refine ⟨y, hy, ?_⟩
            rw [p6_termLoop_succ, if_neg h1, if_pos h2, he, ok_bind,
              ihF s1 r.1 b r.2 hr hb, ok_bind]
            show ((if b = 0 then Res.ub else toInt (Int.tdiv y b)) >>=
              fun v => Part6.termLoop f v r.2) = _
            rw [hop, ok_bind]
            exact h5
        · rw [if_neg (by rintro (h | h); exact h1 h; exact h2 h)] at h
          cases h
          exact ⟨v, hv, by rw [p6_termLoop_succ, if_neg h1, if_neg h2]⟩
    · intro s n v s' h hv
      rw [p7_expr_succ] at h
      rw [p6_expr_succ]
      obtain ⟨r, hr, h2⟩ := bind_eq_ok _ _ _ h
      obtain ⟨acc, hacc, h3⟩ := ihEL r.2 r.1 n v s' h2 hv
      rw [ihT s r.1 acc r.2 hr hacc, ok_bind]
      exact h3
    · intro s a n v s' h hv
      rw [p7_exprLoop_succ] at h
      by_cases h1 : s.currentToken_.type_ = .PLUS
      · rw [if_pos (Or.inl h1), if_pos h1] at h
        obtain ⟨s1, he, h2⟩ := bind_eq_ok _ _ _ h
        obtain ⟨r, hr, h3⟩ := bind_eq_ok _ _ _ h2
        obtain ⟨x, hx, h4⟩ := ihEL r.2 _ n v s' h3 hv
        obtain ⟨y, b, hy, hb, hop⟩ := p7_visit_binop_ok _ _ _ _ hx
        rcases hop with ⟨_, hop⟩ | ⟨e, _⟩ | ⟨e, _⟩ | ⟨e, _⟩
        · refine ⟨y, hy, ?_⟩
          rw [p6_exprLoop_succ, if_pos h1, he, ok_bind, ihT s1 r.1 b r.2 hr hb, ok_bind]
          show (toInt (y + b) >>= fun v => Part6.exprLoop f v r.2) = _
          rw [hop, ok_bind]
          exact h4
        · rw [h1] at e; cases e
        · rw [h1] at e; cases e
        · rw [h1] at e; cases e
      · by_cases h2 : s.currentToken_.type_ = .MINUS
        · rw [if_pos (Or.inr h2), if_neg h1, if_pos h2] at h
          obtain ⟨s1, he, h3⟩ := bind_eq_ok _ _ _ h
          obtain ⟨r, hr, h4⟩ := bind_eq_ok _ _ _ h3
          obtain ⟨x, hx, h5⟩ := ihEL r.2 _ n v s' h4 hv
          obtain ⟨y, b, hy, hb, hop⟩ := p7_visit_binop_ok _ _ _ _ hx
          rcases hop with ⟨e, _⟩ | ⟨_, hop⟩ | ⟨e, _⟩ | ⟨e, _⟩
          · rw [h2] at e; cases e
          · refine ⟨y, hy, ?_⟩
            rw [p6_exprLoop_succ, if_neg h1, if_pos h2, he, ok_bind,
              ihT s1 r.1 b r.2 hr hb, ok_bind]
            show (toInt (y - b) >>= fun v => Part6.exprLoop f v r.2) = _
            rw [hop, ok_bind]
            exact h5
          · rw [h2] at e; cases e
          · rw [h2] at e; cases e
        · rw [if_neg (by rintro (h | h); exact h1 h; exact h2 h)] at h
          cases h
          exact ⟨v, hv, by rw [p6_exprLoop_succ, if_neg h1, if_neg h2]⟩

/-- The two programs return the same integers: on every line of input, Part6 prints
a value exactly when Part7 prints that value. -/
theorem p67_interpret_iff (fuel : Nat) (text : String) (v : Int) :
    Part6.interpret fuel text = .ok v ↔ Part7.interpret fuel text = .ok v := by
  unfold Part6.interpret Part7.interpret
  constructor
  · intro h
    obtain ⟨s, hs, h2⟩ := bind_eq_ok _ _ _ h
    obtain ⟨r, hr, h3⟩ := bind_eq_ok _ _ _ h2
    cases h3
    obtain ⟨n, hn, hv⟩ := (p67_forward fuel).2.2.2.1 s r.1 r.2 hr
    rw [hs, ok_bind, hn, ok_bind]
    exact hv
  · intro h
    obtain ⟨s, hs, h2⟩ := bind_eq_ok _ _ _ h
    obtain ⟨r, hr, hv⟩ := bind_eq_ok _ _ _ h2
    rw [hs, ok_bind, (p67_backward fuel).2.2.2.1 s r.1 v r.2 hr hv, ok_bind]

/-! ## Part6 on the text of a derivation of its grammar -/

theorem p6_isspace_ne_nul (c : Char) (h : isspace c = true) : c ≠ '\x00' := by
  intro e
  rw [e] at h
  exact absurd h (by decide)

theorem p6_isdigit_ne_nul (c : Char) (h : isdigit c = true) : c ≠ '\x00' := by
  intro e
  rw [e] at h
  exact absurd h (by decide)

theorem p6_skip_spaces (ws k : List Char) (h : ws.all isspace = true) :
    Part6.skipWhiteSpace (ws ++ k) = Part6.skipWhiteSpace k := by
  induction ws with
  | nil => rfl
  | cons c ws ih =>
    rw [List.all_cons, Bool.and_eq_true] at h
    rw [List.cons_append, Part6.skipWhiteSpace, if_pos ⟨p6_isspace_ne_nul c h.1, h.1⟩]
    exact ih h.2

theorem p6_skip_other (c : Char) (k : List Char) (h : isspace c = false) :
    Part6.skipWhiteSpace (c :: k) = c :: k := by
  rw [Part6.skipWhiteSpace, if_neg]
  rintro ⟨_, h2⟩
  rw [h] at h2
  cases h2

theorem p6_skip_all (ws : List Char) (h : ws.all isspace = true) :
    Part6.skipWhiteSpace ws = [] := by
  have := p6_skip_spaces ws [] h
  rw [List.append_nil] at this
  rw [this]
  rfl

theorem p6_integerFrom_append (ds k : List Char) (acc : String)
    (h : ∀ d ∈ ds, isdigit d = true) (hk : ∀ c rest, k = c :: rest → isdigit c = false) :
    Part6.integerFrom (ds ++ k) acc = (⟨acc.data ++ ds⟩, k) := by
  induction ds generalizing acc with
  | nil =>
    cases k with
    | nil => simp [Part6.integerFrom]
    | cons c rest =>
      have hc := hk c rest rfl
      simp [Part6.integerFrom, hc]
  | cons d ds ih =>
    have hd := h d (List.mem_cons_self _ _)
    rw [List.cons_append, Part6.integerFrom, if_pos ⟨p6_isdigit_ne_nul d hd, hd⟩,
      ih _ (fun x hx => h x (List.mem_cons_of_mem _ hx))]
    simp [String.push]

theorem p6_new_num (ws ds k : List Char) (hws : ws.all isspace = true)
    (hds : IsIntLiteral ds) (hk : ∀ c rest, k = c :: rest → isdigit c = false) :
    Part6.Interpreter.new (ws ++ (ds ++ k)) = .ok ⟨k, ⟨.INTEGER, ⟨ds⟩⟩⟩ := by
  obtain ⟨hne, hall⟩ := hds
  cases ds with
  | nil => exact absurd rfl hne
  | cons d ds =>
    have hd : isdigit d = true := hall d (List.mem_cons_self _ _)
    have h := p6_integerFrom_append (d :: ds) k "" hall hk
    rw [List.cons_append] at h
    simp only [Part6.Interpreter.new, Part6.getNextToken, p6_skip_spaces ws _ hws,
      List.cons_append, p6_skip_other d _ (isdigit_not_isspace d hd),
      if_neg (p6_isdigit_ne_nul d hd), Part6.tokenAt, hd, if_true, Part6.integer, h]
    rfl

theorem p6_new_eof (ws : List Char) (hws : ws.all isspace = true) :
    Part6.Interpreter.new ws = .ok ⟨[], ⟨.TYPE_EOF, ""⟩⟩ := by
  simp only [Part6.Interpreter.new, Part6.getNextToken, p6_skip_all ws hws]
  rfl

theorem p6_new_plus (ws k : List Char) (hws : ws.all isspace = true) :
    Part6.Interpreter.new (ws ++ '+' :: k) = .ok ⟨k, ⟨.PLUS, "+"⟩⟩ := by
  simp only [Part6.Interpreter.new, Part6.getNextToken, p6_skip_spaces ws _ hws,
    p6_skip_other '+' k (by decide)]
  rfl

theorem p6_new_minus (ws k : List Char) (hws : ws.all isspace = true) :
    Part6.Interpreter.new (ws ++ '-' :: k) = .ok ⟨k, ⟨.MINUS, "-"⟩⟩ := by
  simp only [Part6.Interpreter.new, Part6.getNextToken, p6_skip_spaces ws _ hws,
    p6_skip_other '-' k (by decide)]
  rfl

theorem p6_new_mul (ws k : List Char) (hws : ws.all isspace = true) :
    Part6.Interpreter.new (ws ++ '*' :: k) = .ok ⟨k, ⟨.MUL, "*"⟩⟩ := by
  simp only [Part6.Interpreter.new, Part6.getNextToken, p6_skip_spaces ws _ hws,
    p6_skip_other '*' k (by decide)]
  rfl

theorem p6_new_div (ws k : List Char) (hws : ws.all isspace = true) :
    Part6.Interpreter.new (ws ++ '/' :: k) = .ok ⟨k, ⟨.DIV, "/"⟩⟩ := by
  simp only [Part6.Interpreter.new, Part6.getNextToken, p6_skip_spaces ws _ hws,
    p6_skip_other '/' k (by decide)]
  rfl

theorem p6_new_lparen (ws k : List Char) (hws : ws.all isspace = true) :
    Part6.Interpreter.new (ws ++ '(' :: k) = .ok ⟨k, ⟨.LParen, "("⟩⟩ := by
  simp only [Part6.Interpreter.new, Part6.getNextToken, p6_skip_spaces ws _ hws,
    p6_skip_other '(' k (by decide)]
  rfl

theorem p6_new_rparen (ws k : List Char) (hws : ws.all isspace = true) :
    Part6.Interpreter.new (ws ++ ')' :: k) = .ok ⟨k, ⟨.RParen, ")"⟩⟩ := by
  simp only [Part6.Interpreter.new, Part6.getNextToken, p6_skip_spaces ws _ hws,
    p6_skip_other ')' k (by decide)]
  rfl

theorem p6_eat_mk (ty : Part6.TokenType) (lx : Part6.Lexer) (v : String) :
    Part6.eat ty ⟨lx, ⟨ty, v⟩⟩ = Part6.Interpreter.new lx := by
  simp [Part6.eat]

/-- What follows white space and an operator character does not start with a digit
of the integer in front of it. -/
theorem p6_boundary_op (ws : List Char) (op : Char) (k : List Char)
    (hws : ws.all isspace = true) (hop : isdigit op = false) :
    ∀ c rest, ws ++ op :: k = c :: rest → isdigit c = false := by
  intro c rest h
  cases ws with
  | nil =>
    rw [List.nil_append] at h
    cases h
    exact hop
  | cons w ws =>
    rw [List.cons_append] at h
    cases h
    rw [List.all_cons, Bool.and_eq_true] at hws
    exact isspace_not_isdigit _ hws.1

theorem p6_boundary_spaces (ws : List Char) (hws : ws.all isspace = true) :
    ∀ c rest, ws = c :: rest → isdigit c = false := by
  intro c rest h
  subst h
  rw [List.all_cons, Bool.and_eq_true] at hws
  exact isspace_not_isdigit _ hws.1

/-- The loop of `term` stops at a token that is neither `*` nor `/`. -/
theorem p6_termLoop_end (k : List Char) (F : Nat) (v : Int) (hF : 1 ≤ F)
    (hk : ∀ s, Part6.Interpreter.new k = .ok s →
      s.currentToken_.type_ ≠ .MUL ∧ s.currentToken_.type_ ≠ .DIV) :
    (Part6.Interpreter.new k >>= Part6.termLoop F v) =
      (Part6.Interpreter.new k >>= fun s => .ok (v, s)) := by
  obtain ⟨F, rfl⟩ : ∃ G, F = G + 1 := ⟨F - 1, by omega⟩
  cases hn : Part6.Interpreter.new k with
  | ok s =>
    obtain ⟨h1, h2⟩ := hk s hn
    rw [ok_bind, ok_bind, p6_termLoop_succ, if_neg h1, if_neg h2]
  | throw x => rfl
  | ub => rfl
  | timeout => rfl

theorem p6_fuel_pos (e : Part6.Form) : 1 ≤ e.fuel.1 ∧ 2 ≤ e.fuel.2 := by
  induction e with
  | num ws ds => exact ⟨Nat.le_refl 1, Nat.le_refl 2⟩
  | paren ws e ws2 ih =>
    simp only [Part6.Form.fuel]
    omega
  | bin l ws op r ihl ihr =>
    simp only [Part6.Form.fuel]
    split_ifs
    · simp only
      omega
    · simp only
      omega

/-- A derivation read as a factor gives a term with no operator. -/
theorem p6_term_of_factor (txt : List Char) (val : Int) (c : Nat)
    (hF : ∀ k F, (∀ d rest, k = d :: rest → isdigit d = false) → c ≤ F →
      (Part6.Interpreter.new (txt ++ k) >>= Part6.factor F) =
        (Part6.Interpreter.new k >>= fun s => .ok (val, s))) :
    ∀ k F, (∀ d rest, k = d :: rest → isdigit d = false) → c ≤ F →
      (Part6.Interpreter.new (txt ++ k) >>= Part6.term (F + 0 + 1)) =
        (Part6.Interpreter.new k >>= Part6.termLoop F val) := by
  intro k F hk hc
  have h1 : (Part6.Interpreter.new (txt ++ k) >>= Part6.term (F + 0 + 1)) =
      ((Part6.Interpreter.new (txt ++ k) >>= Part6.factor F) >>=
        fun r => Part6.termLoop F r.1 r.2) := by
    rw [bind_assoc_res]
    congr 1
  rw [h1, hF k F hk hc, bind_assoc_res]
  rfl

/-- A derivation read as a term gives an expression with no operator. -/
theorem p6_expr_of_term (txt : List Char) (val : Int) (c n : Nat) (hc1 : 1 ≤ c)
    (hT : ∀ k F, (∀ d rest, k = d :: rest → isdigit d = false) → c ≤ F →
      (Part6.Interpreter.new (txt ++ k) >>= Part6.term (F + n + 1)) =
        (Part6.Interpreter.new k >>= Part6.termLoop F val)) :
    ∀ k F, (∀ d rest, k = d :: rest → isdigit d = false) →
      (∀ s, Part6.Interpreter.new k = .ok s →
        s.currentToken_.type_ ≠ .MUL ∧ s.currentToken_.type_ ≠ .DIV) →
      c + n + 1 ≤ F →
      (Part6.Interpreter.new (txt ++ k) >>= Part6.expr (F + 0 + 1)) =
        (Part6.Interpreter.new k >>= Part6.exprLoop F val) := by
  intro k F hk hend hc
  obtain ⟨G, rfl, hG⟩ : ∃ G, F = G + n + 1 ∧ c ≤ G := ⟨F - n - 1, by omega, by omega⟩
  have h1 : (Part6.Interpreter.new (txt ++ k) >>= Part6.expr (G + n + 1 + 0 + 1)) =
      ((Part6.Interpreter.new (txt ++ k) >>= Part6.term (G + n + 1)) >>=
        fun r => Part6.exprLoop (G + n + 1) r.1 r.2) := by
    rw [bind_assoc_res]
    congr 1
  rw [h1, hT k G hk hG, p6_termLoop_end k G val (by omega) hend, bind_assoc_res]
  rfl

theorem p6_term_step_mul (txtl txtr ws : List Char) (vl vr v : Int) (cl cr nl : Nat)
    (hws : ws.all isspace = true)
    (hl : ∀ k F, (∀ d rest, k = d :: rest → isdigit d = false) → cl ≤ F →
      (Part6.Interpreter.new (txtl ++ k) >>= Part6.term (F + nl + 1)) =
        (Part6.Interpreter.new k >>= Part6.termLoop F vl))
    (hr : ∀ k F, (∀ d rest, k = d :: rest → isdigit d = false) → cr ≤ F →
      (Part6.Interpreter.new (txtr ++ k) >>= Part6.factor F) =
        (Part6.Interpreter.new k >>= fun s => .ok (vr, s)))
    (hv : toInt (vl * vr) = .ok v) :
    ∀ k F, (∀ d rest, k = d :: rest → isdigit d = false) → max cl cr ≤ F →
      (Part6.Interpreter.new ((txtl ++ (ws ++ '*' :: txtr)) ++ k) >>=
          Part6.term (F + (nl + 1) + 1)) =
        (Part6.Interpreter.new k >>= Part6.termLoop F v) := by
  intro k F hk hF
  have e1 : (txtl ++ (ws ++ '*' :: txtr)) ++ k = txtl ++ (ws ++ '*' :: (txtr ++ k)) := by
    simp
  have e2 : F + (nl + 1) + 1 = F + 1 + nl + 1 := by omega
  rw [e1, e2, hl _ (F + 1) (p6_boundary_op ws '*' _ hws (by decide)) (by omega),
    p6_new_mul ws _ hws, ok_bind, p6_termLoop_succ, if_pos rfl, p6_eat_mk]
  have hb := bind_assoc_res (Part6.Interpreter.new (txtr ++ k)) (Part6.factor F)
    (fun r => toInt (vl * r.1) >>= fun v => Part6.termLoop F v r.2)
  rw [← hb, hr k F hk (by omega), bind_assoc_res]
  congr 1
  funext s
  show (toInt (vl * vr) >>= fun v => Part6.termLoop F v s) = _
  rw [hv]
  rfl

theorem p6_term_step_div (txtl txtr ws : List Char) (vl vr v : Int) (cl cr nl : Nat)
    (hws : ws.all isspace = true)
    (hl : ∀ k F, (∀ d rest, k = d :: rest → isdigit d = false) → cl ≤ F →
      (Part6.Interpreter.new (txtl ++ k) >>= Part6.term (F + nl + 1)) =
        (Part6.Interpreter.new k >>= Part6.termLoop F vl))
    (hr : ∀ k F, (∀ d rest, k = d :: rest → isdigit d = false) → cr ≤ F →
      (Part6.Interpreter.new (txtr ++ k) >>= Part6.factor F) =
        (Part6.Interpreter.new k >>= fun s => .ok (vr, s)))
    (hz : vr ≠ 0) (hv : toInt (Int.tdiv vl vr) = .ok v) :
    ∀ k F, (∀ d rest, k = d :: rest → isdigit d = false) → max cl cr ≤ F →
      (Part6.Interpreter.new ((txtl ++ (ws ++ '/' :: txtr)) ++ k) >>=
          Part6.term (F + (nl + 1) + 1)) =
        (Part6.Interpreter.new k >>= Part6.termLoop F v) := by
  intro k F hk hF
  have e1 : (txtl ++ (ws ++ '/' :: txtr)) ++ k = txtl ++ (ws ++ '/' :: (txtr ++ k)) := by
    simp
  have e2 : F + (nl + 1) + 1 = F + 1 + nl + 1 := by omega
  rw [e1, e2, hl _ (F + 1) (p6_boundary_op ws '/' _ hws (by decide)) (by omega),
    p6_new_div ws _ hws, ok_bind, p6_termLoop_succ, if_neg (by intro h; cases h), if_pos rfl,
    p6_eat_mk]
  have hb := bind_assoc_res (Part6.Interpreter.new (txtr ++ k)) (Part6.factor F)
    (fun r => (if r.1 = 0 then Res.ub else toInt (Int.tdiv vl r.1)) >>=
      fun v => Part6.termLoop F v r.2)
  rw [← hb, hr k F hk (by omega), bind_assoc_res]
  congr 1
  funext s
  show ((if vr = 0 then Res.ub else toInt (Int.tdiv vl vr)) >>=
    fun v => Part6.termLoop F v s) = _
  rw [if_neg hz, hv]
  rfl

theorem p6_expr_step_plus (txtl txtr ws : List Char) (vl vr v : Int) (cl cr nl nr : Nat)
    (hws : ws.all isspace = true) (hcr : 1 ≤ cr)
    (hl : ∀ k F, (∀ d rest, k = d :: rest → isdigit d = false) →
      (∀ s, Part6.Interpreter.new k = .ok s →
        s.currentToken_.type_ ≠ .MUL ∧ s.currentToken_.type_ ≠ .DIV) → cl ≤ F →
      (Part6.Interpreter.new (txtl ++ k) >>= Part6.expr (F + nl + 1)) =
        (Part6.Interpreter.new k >>= Part6.exprLoop F vl))
    (hr : ∀ k F, (∀ d rest, k = d :: rest → isdigit d = false) → cr ≤ F →
      (Part6.Interpreter.new (txtr ++ k) >>= Part6.term (F + nr + 1)) =
        (Part6.Interpreter.new k >>= Part6.termLoop F vr))
    (hv : toInt (vl + vr) = .ok v) :
    ∀ k F, (∀ d rest, k = d :: rest → isdigit d = false) →
      (∀ s, Part6.Interpreter.new k = .ok s →
        s.currentToken_.type_ ≠ .MUL ∧ s.currentToken_.type_ ≠ .DIV) →
      max cl (cr + nr + 1) ≤ F →
      (Part6.Interpreter.new ((txtl ++ (ws ++ '+' :: txtr)) ++ k) >>=
          Part6.expr (F + (nl + 1) + 1)) =
        (Part6.Interpreter.new k >>= Part6.exprLoop F v) := by
  intro k F hk hend hF
  have e1 : (txtl ++ (ws ++ '+' :: txtr)) ++ k = txtl ++ (ws ++ '+' :: (txtr ++ k)) := by
    simp
  have e2 : F + (nl + 1) + 1 = F + 1 + nl + 1 := by omega
  have hend1 : ∀ s, Part6.Interpreter.new (ws ++ '+' :: (txtr ++ k)) = .ok s →
      s.currentToken_.type_ ≠ .MUL ∧ s.currentToken_.type_ ≠ .DIV := by
    intro s hs
    rw [p6_new_plus ws _ hws] at hs
    cases hs
    exact ⟨(by intro h; cases h), (by intro h; cases h)⟩
  rw [e1, e2, hl _ (F + 1) (p6_boundary_op ws '+' _ hws (by decide)) hend1 (by omega),
    p6_new_plus ws _ hws, ok_bind, p6_exprLoop_succ, if_pos rfl, p6_eat_mk]
  obtain ⟨G, rfl, hG⟩ : ∃ G, F = G + nr + 1 ∧ cr ≤ G := ⟨F - nr - 1, by omega, by omega⟩
  have hb := bind_assoc_res (Part6.Interpreter.new (txtr ++ k)) (Part6.term (G + nr + 1))
    (fun r => toInt (vl + r.1) >>= fun v => Part6.exprLoop (G + nr + 1) v r.2)
  rw [← hb, hr k G hk hG, p6_termLoop_end k G vr (by omega) hend, bind_assoc_res]
  congr 1
  funext s
  show (toInt (vl + vr) >>= fun v => Part6.exprLoop (G + nr + 1) v s) = _
  rw [hv]
  rfl

theorem p6_expr_step_minus (txtl txtr ws : List Char) (vl vr v : Int) (cl cr nl nr : Nat)
    (hws : ws.all isspace = true) (hcr : 1 ≤ cr)
    (hl : ∀ k F, (∀ d rest, k = d :: rest → isdigit d = false) →
      (∀ s, Part6.Interpreter.new k = .ok s →
        s.currentToken_.type_ ≠ .MUL ∧ s.currentToken_.type_ ≠ .DIV) → cl ≤ F →
      (Part6.Interpreter.new (txtl ++ k) >>= Part6.expr (F + nl + 1)) =
        (Part6.Interpreter.new k >>= Part6.exprLoop F vl))
    (hr : ∀ k F, (∀ d rest, k = d :: rest → isdigit d = false) → cr ≤ F →
      (Part6.Interpreter.new (txtr ++ k) >>= Part6.term (F + nr + 1)) =
        (Part6.Interpreter.new k >>= Part6.termLoop F vr))
    (hv : toInt (vl - vr) = .ok v) :
    ∀ k F, (∀ d rest, k = d :: rest → isdigit d = false) →
      (∀ s, Part6.Interpreter.new k = .ok s →
        s.currentToken_.type_ ≠ .MUL ∧ s.currentToken_.type_ ≠ .DIV) →
      max cl (cr + nr + 1) ≤ F →
      (Part6.Interpreter.new ((txtl ++ (ws ++ '-' :: txtr)) ++ k) >>=
          Part6.expr (F + (nl + 1) + 1)) =
        (Part6.Interpreter.new k >>= Part6.exprLoop F v) := by
  intro k F hk hend hF
  have e1 : (txtl ++ (ws ++ '-' :: txtr)) ++ k = txtl ++ (ws ++ '-' :: (txtr ++ k)) := by
    simp
  have e2 : F + (nl + 1) + 1 = F + 1 + nl + 1 := by omega
  have hend1 : ∀ s, Part6.Interpreter.new (ws ++ '-' :: (txtr ++ k)) = .ok s →
      s.currentToken_.type_ ≠ .MUL ∧ s.currentToken_.type_ ≠ .DIV := by
    intro s hs
    rw [p6_new_minus ws _ hws] at hs
    cases hs
    exact ⟨(by intro h; cases h), (by intro h; cases h)⟩
  rw [e1, e2, hl _ (F + 1) (p6_boundary_op ws '-' _ hws (by decide)) hend1 (by omega),
    p6_new_minus ws _ hws, ok_bind, p6_exprLoop_succ, if_neg (by intro h; cases h), if_pos rfl,
    p6_eat_mk]
  obtain ⟨G, rfl, hG⟩ : ∃ G, F = G + nr + 1 ∧ cr ≤ G := ⟨F - nr - 1, by omega, by omega⟩
  have hb := bind_assoc_res (Part6.Interpreter.new (txtr ++ k)) (Part6.term (G + nr + 1))
    (fun r => toInt (vl - r.1) >>= fun v => Part6.exprLoop (G + nr + 1) v r.2)
  rw [← hb, hr k G hk hG, p6_termLoop_end k G vr (by omega) hend, bind_assoc_res]
  congr 1
  funext s
  show (toInt (vl - vr) >>= fun v => Part6.exprLoop (G + nr + 1) v s) = _
  rw [hv]
  rfl

/-- An expression in parentheses is read as a factor. -/
theorem p6_factor_paren (txt ws ws2 : List Char) (val : Int) (c n : Nat) (hc : 1 ≤ c)
    (hws : ws.all isspace = true) (hws2 : ws2.all isspace = true)
    (he : ∀ k F, (∀ d rest, k = d :: rest → isdigit d = false) →
      (∀ s, Part6.Interpreter.new k = .ok s →
        s.currentToken_.type_ ≠ .MUL ∧ s.currentToken_.type_ ≠ .DIV) → c ≤ F →
      (Part6.Interpreter.new (txt ++ k) >>= Part6.expr (F + n + 1)) =
        (Part6.Interpreter.new k >>= Part6.exprLoop F val)) :
    ∀ k F, (∀ d rest, k = d :: rest → isdigit d = false) → c + n + 2 ≤ F →
      (Part6.Interpreter.new ((ws ++ '(' :: (txt ++ (ws2 ++ [')']))) ++ k) >>=
          Part6.factor F) =
        (Part6.Interpreter.new k >>= fun s => .ok (val, s)) := by
  intro k F hk hF
  obtain ⟨G, rfl, hG⟩ : ∃ G, F = G + 1 + n + 1 + 1 ∧ c ≤ G + 1 :=
    ⟨F - n - 3, by omega, by omega⟩
  have e1 : (ws ++ '(' :: (txt ++ (ws2 ++ [')']))) ++ k =
      ws ++ '(' :: (txt ++ (ws2 ++ ')' :: k)) := by
    simp
  have hend1 : ∀ s, Part6.Interpreter.new (ws2 ++ ')' :: k) = .ok s →
      s.currentToken_.type_ ≠ .MUL ∧ s.currentToken_.type_ ≠ .DIV := by
    intro s hs
    rw [p6_new_rparen ws2 _ hws2] at hs
    cases hs
    exact ⟨(by intro h; cases h), (by intro h; cases h)⟩
  rw [e1, p6_new_lparen ws _ hws, ok_bind, p6_factor_succ, if_neg (by intro h; cases h), if_pos rfl,
    p6_eat_mk]
  have hb := bind_assoc_res (Part6.Interpreter.new (txt ++ (ws2 ++ ')' :: k)))
    (Part6.expr (G + 1 + n + 1))
    (fun r => Part6.eat .RParen r.2 >>= fun s2 => Res.ok (r.1, s2))
  rw [← hb, he _ (G + 1) (p6_boundary_op ws2 ')' _ hws2 (by decide)) hend1 hG,
    p6_new_rparen ws2 _ hws2, ok_bind, p6_exprLoop_succ, if_neg (by intro h; cases h),
    if_neg (by intro h; cases h), ok_bind]
  show (Part6.eat .RParen ⟨k, ⟨.RParen, ")"⟩⟩ >>= fun s2 => Res.ok (val, s2)) = _
  rw [p6_eat_mk]

/-- Part6 on the text of a derivation, read as a factor, as a term and as an
expression: with enough fuel the methods consume exactly the text of the derivation
and return its value. -/
theorem p6_form_runs (e : Part6.Form) (hwf : e.wellFormed = true) (hsafe : e.safe = true) :
    (e.isFactor = true →
      ∀ k F, (∀ d rest, k = d :: rest → isdigit d = false) → e.fuel.1 ≤ F →
        (Part6.Interpreter.new (e.text ++ k) >>= Part6.factor F) =
          (Part6.Interpreter.new k >>= fun s => .ok (e.value, s))) ∧
    (e.isTerm = true →
      ∀ k F, (∀ d rest, k = d :: rest → isdigit d = false) → e.fuel.1 ≤ F →
        (Part6.Interpreter.new (e.text ++ k) >>= Part6.term (F + e.opsT + 1)) =
          (Part6.Interpreter.new k >>= Part6.termLoop F e.value)) ∧
    (e.isExpr = true →
      ∀ k F, (∀ d rest, k = d :: rest → isdigit d = false) →
        (∀ s, Part6.Interpreter.new k = .ok s →
          s.currentToken_.type_ ≠ .MUL ∧ s.currentToken_.type_ ≠ .DIV) →
        e.fuel.2 ≤ F →
        (Part6.Interpreter.new (e.text ++ k) >>= Part6.expr (F + e.opsE + 1)) =
          (Part6.Interpreter.new k >>= Part6.exprLoop F e.value)) := by
  induction e with
  | num ws ds =>
    simp only [Part6.Form.wellFormed, Bool.and_eq_true, decide_eq_true_eq] at hwf
    simp only [Part6.Form.safe, decide_eq_true_eq] at hsafe
    obtain ⟨hws, hds⟩ := hwf
    have hF : ∀ k F, (∀ d rest, k = d :: rest → isdigit d = false) → 1 ≤ F →
        (Part6.Interpreter.new ((ws ++ ds) ++ k) >>= Part6.factor F) =
          (Part6.Interpreter.new k >>= fun s => .ok ((decimalValue ds : Int), s)) := by
      intro k F hk h1
      obtain ⟨F, rfl⟩ : ∃ G, F = G + 1 := ⟨F - 1, by omega⟩
      rw [List.append_assoc, p6_new_num ws ds k hws hds hk, ok_bind, p6_factor_succ,
        if_pos rfl, p6_eat_mk]
      show (Part6.Interpreter.new k >>= fun s1 => stoi ⟨ds⟩ >>= fun v => Res.ok (v, s1)) = _
      rw [stoi_literal ds hds hsafe]
      rfl
    have hT := p6_term_of_factor _ _ 1 hF
    exact ⟨fun _ => hF, fun _ => hT, fun _ => p6_expr_of_term _ _ 1 0 (Nat.le_refl 1) hT⟩
  | paren ws e1 ws2 ih =>
    simp only [Part6.Form.wellFormed, Bool.and_eq_true] at hwf
    simp only [Part6.Form.safe] at hsafe
    obtain ⟨⟨⟨hws, hws2⟩, hwf1⟩, hex1⟩ := hwf
    obtain ⟨-, -, ihE⟩ := ih hwf1 hsafe
    have hc := (p6_fuel_pos e1).2
    have hF := p6_factor_paren e1.text ws ws2 e1.value e1.fuel.2 e1.opsE (by omega) hws hws2
      (ihE hex1)
    have hT := p6_term_of_factor _ _ _ hF
    exact ⟨fun _ => hF, fun _ => hT,
      fun _ => p6_expr_of_term _ _ (e1.fuel.2 + e1.opsE + 2) 0 (by omega) hT⟩
  | bin l ws op r ihl ihr =>
    simp only [Part6.Form.wellFormed, Bool.and_eq_true] at hwf
    simp only [Part6.Form.safe, Bool.and_eq_true, Bool.or_eq_true, decide_eq_true_eq,
      bne_iff_ne, ne_eq] at hsafe
    obtain ⟨⟨hwl, hws⟩, hwr⟩ := hwf
    obtain ⟨⟨⟨hsl, hsr⟩, hdiv⟩, hrange⟩ := hsafe
    obtain ⟨-, ihlT, ihlE⟩ := ihl hwl hsl
    obtain ⟨ihrF, ihrT, -⟩ := ihr hwr hsr
    have hposl := p6_fuel_pos l
    have hposr := p6_fuel_pos r
    have hterm : (Part6.Form.bin l ws op r).isTerm = true →
        ∀ k F, (∀ d rest, k = d :: rest → isdigit d = false) →
          (Part6.Form.bin l ws op r).fuel.1 ≤ F →
          (Part6.Interpreter.new ((Part6.Form.bin l ws op r).text ++ k) >>=
              Part6.term (F + (Part6.Form.bin l ws op r).opsT + 1)) =
            (Part6.Interpreter.new k >>=
              Part6.termLoop F (Part6.Form.bin l ws op r).value) := by
      intro hT
      simp only [Part6.Form.isTerm, Bool.and_eq_true, Bool.or_eq_true,
        decide_eq_true_eq] at hT
      obtain ⟨⟨hop, hlT⟩, hrF⟩ := hT
      rcases hop with rfl | rfl
      · exact p6_term_step_mul l.text r.text ws l.value r.value _ l.fuel.1 r.fuel.1 l.opsT
          hws (ihlT hlT) (ihrF hrF) (toInt_ok _ hrange)
      · have hz : r.value ≠ 0 := by
          rcases hdiv with h | h
          · exact absurd rfl h
          · exact h
        exact p6_term_step_div l.text r.text ws l.value r.value _ l.fuel.1 r.fuel.1 l.opsT
          hws (ihlT hlT) (ihrF hrF) hz (toInt_ok _ hrange)
    refine ⟨fun h => (by cases h), hterm, ?_⟩
    intro hE
    simp only [Part6.Form.isExpr, Bool.and_eq_true, Bool.or_eq_true,
      decide_eq_true_eq] at hE
    rcases hE with ⟨⟨hop, hlE⟩, hrT⟩ | ⟨⟨hop, hlT⟩, hrF⟩
    · rcases hop with rfl | rfl
      · exact p6_expr_step_plus l.text r.text ws l.value r.value _ l.fuel.2 r.fuel.1
          l.opsE r.opsT hws hposr.1 (ihlE hlE) (ihrT hrT) (toInt_ok _ hrange)
      · exact p6_expr_step_minus l.text r.text ws l.value r.value _ l.fuel.2 r.fuel.1
          l.opsE r.opsT hws hposr.1 (ihlE hlE) (ihrT hrT) (toInt_ok _ hrange)
    · have hT : (Part6.Form.bin l ws op r).isTerm = true := by
        simp only [Part6.Form.isTerm, Bool.and_eq_true, Bool.or_eq_true, decide_eq_true_eq]
        exact ⟨⟨hop, hlT⟩, hrF⟩
      have h := p6_expr_of_term _ _ (Part6.Form.bin l ws op r).fuel.1
        (Part6.Form.bin l ws op r).opsT (p6_fuel_pos _).1 (hterm hT)
      have hops : (Part6.Form.bin l ws op r).opsE = 0 := by
        rcases hop with rfl | rfl <;> rfl
      have hfuel : (Part6.Form.bin l ws op r).fuel.2 =
          (Part6.Form.bin l ws op r).fuel.1 + (Part6.Form.bin l ws op r).opsT + 1 := by
        rcases hop with rfl | rfl <;> rfl
      intro k F hk hend hF
      rw [hops]
      exact h k F hk hend (by omega)

/-- C35: direct evaluation and evaluation of the tree agree. For every derivation `e`
of the grammar of Part6 (integers, the operators `+ - * /`, parentheses, white space
in front of the tokens and after the expression) that is a well-formed expression
with no division by zero and no overflow, `Interpreter::expr` of Part6, which
computes while it parses, and `Interpreter::interpret` of Part7, which builds a tree
with `Parser::expr` and then walks it, both return the value of `e` on the text of
`e`, with any fuel that is at least `e.enough`. And on every text whatsoever, Part6
returns an integer exactly when Part7 returns that integer. -/
theorem direct_and_ast_evaluation_agree (e : Part6.Form) (tail : List Char) (fuel : Nat)
    (hwf : e.wellFormed = true) (hexpr : e.isExpr = true) (hsafe : e.safe = true)
    (htail : tail.all isspace = true) (hfuel : e.enough ≤ fuel) :
    Part6.interpret fuel ⟨e.text ++ tail⟩ = .ok e.value ∧
      Part7.interpret fuel ⟨e.text ++ tail⟩ = .ok e.value ∧
      (∀ (text : String) (v : Int) (f : Nat),
        Part6.interpret f text = .ok v ↔ Part7.interpret f text = .ok v) := by
  have hpos := (p6_fuel_pos e).2
  obtain ⟨G, rfl, hG⟩ : ∃ G, fuel = G + 1 + e.opsE + 1 ∧ e.fuel.2 ≤ G + 1 := by
    unfold Part6.Form.enough at hfuel
    exact ⟨fuel - e.opsE - 2, by omega, by omega⟩
  have hend : ∀ s, Part6.Interpreter.new tail = .ok s →
      s.currentToken_.type_ ≠ .MUL ∧ s.currentToken_.type_ ≠ .DIV := by
    intro s hs
    rw [p6_new_eof tail htail] at hs
    cases hs
    exact ⟨(by intro h; cases h), (by intro h; cases h)⟩
  have h6 : Part6.interpret (G + 1 + e.opsE + 1) ⟨e.text ++ tail⟩ = .ok e.value := by
    show (Part6.Interpreter.new (e.text ++ tail) >>= fun s =>
      Part6.expr (G + 1 + e.opsE + 1) s >>= fun r => Res.ok r.1) = _
    have hb := bind_assoc_res (Part6.Interpreter.new (e.text ++ tail))
      (Part6.expr (G + 1 + e.opsE + 1)) (fun r => Res.ok r.1)
    rw [← hb, (p6_form_runs e hwf hsafe).2.2 hexpr tail (G + 1)
      (p6_boundary_spaces tail htail) hend hG, p6_new_eof tail htail, ok_bind,
      p6_exprLoop_succ, if_neg (by intro h; cases h), if_neg (by intro h; cases h)]
    rfl
  exact ⟨h6, (p67_interpret_iff _ _ _).1 h6, fun text v f => p67_interpret_iff f text v⟩

/-- C35 at the text `7 + 3* (10/2 )-4 `, whose value is 18; at the text `8 / (2 - 5)`,
where the division truncates towards zero; and at the text `1 + 2 3`, which is not an
expression of the grammar, where both programs stop at the second integer. -/
theorem direct_and_ast_evaluation_agree_witness :
    Part6.interpret 10 "7 + 3* (10/2 )-4 " = .ok 18 ∧
      Part7.interpret 10 "7 + 3* (10/2 )-4 " = .ok 18 ∧
      Part6.interpret 10 "8 / (2 - 5)" = .ok (-2) ∧
      Part7.interpret 10 "8 / (2 - 5)" = .ok (-2) ∧
      (Part6.interpret 10 "1 + 2 3" = .ok 3 ↔ Part7.interpret 10 "1 + 2 3" = .ok 3) ∧
      Part6.interpret 10 "1 + 2 3" = .ok 3 :=
  ⟨(direct_and_ast_evaluation_agree
      (.bin (.bin (.num [] ['7']) [' '] '+'
          (.bin (.num [' '] ['3']) [] '*'
            (.paren [' '] (.bin (.num [] ['1', '0']) [] '/' (.num [] ['2'])) [' '])))
        [] '-' (.num [] ['4']))
      [' '] 10 (by decide) (by decide) (by decide) (by decide) (by decide)).1,
   (direct_and_ast_evaluation_agree
      (.bin (.bin (.num [] ['7']) [' '] '+'
          (.bin (.num [' '] ['3']) [] '*'
            (.paren [' '] (.bin (.num [] ['1', '0']) [] '/' (.num [] ['2'])) [' '])))
        [] '-' (.num [] ['4']))
      [' '] 10 (by decide) (by decide) (by decide) (by decide) (by decide)).2.1,
   (direct_and_ast_evaluation_agree
      (.bin (.num [] ['8']) [' '] '/'
        (.paren [' '] (.bin (.num [] ['2']) [' '] '-' (.num [' '] ['5'])) []))
      [] 10 (by decide) (by decide) (by decide) (by decide) (by decide)).1,
   (direct_and_ast_evaluation_agree
      (.bin (.num [] ['8']) [' '] '/'
        (.paren [' '] (.bin (.num [] ['2']) [' '] '-' (.num [' '] ['5'])) []))
      [] 10 (by decide) (by decide) (by decide) (by decide) (by decide)).2.1,
   (direct_and_ast_evaluation_agree (.num [] ['1']) [] 3
      (by decide) (by decide) (by decide) (by decide) (by decide)).2.2 "1 + 2 3" 3 10,
   by rfl⟩

end Part12
